import Mathlib

/-!
Verification of the CPU-scheduling simulator in `src/app/utils/scheduler.ts`
(and its log-free twin `src/unnamed/part_001`).

Modelling conventions:
* JavaScript numbers holding simulated times, bursts and priorities are
  integers throughout the source, so they are embedded as `ℤ`.
* The two average fields are genuine divisions in the source
  (`totalTAT / results.length || 0`); they are embedded as `ℚ`, where Lean's
  `x / 0 = 0` matches the JS `NaN → 0` coercion of `|| 0`.
* Each `while` loop becomes a fuelled loop (`loopRun`): `none` means the fuel
  ran out before the loop finished.  Termination theorems exhibit a concrete
  fuel bound.
* Mutable arrays (`remainingTime`, `results`, `isCompleted`, `visited`) become
  `List`s updated with `List.set`; queues of indices become `List ℕ`.
* `decisionLog` is a pure narration side channel appended by
  `src/app/utils/scheduler.ts` and absent from `src/unnamed/part_001`; the
  claims compare the two modules ignoring it, so outputs are embedded without
  the log field.
-/

namespace Scheduler

/-- `Process` (scheduler.ts lines 1-6). -/
structure Process where
  id : String
  arrivalTime : ℤ
  burstTime : ℤ
  priority : ℤ
deriving DecidableEq

/-- `ProcessResult` (scheduler.ts lines 8-13): a process plus its outcome. -/
structure ProcessResult where
  id : String
  arrivalTime : ℤ
  burstTime : ℤ
  priority : ℤ
  startTime : ℤ
  endTime : ℤ
  turnaroundTime : ℤ
  waitingTime : ℤ
deriving DecidableEq

/-- `GanttBlock` (scheduler.ts lines 15-19). -/
structure GanttBlock where
  processId : String
  startTime : ℤ
  endTime : ℤ
deriving DecidableEq

/-- `SchedulerOutput` (scheduler.ts lines 21-27) without the `decisionLog`
narration side channel (see the module docstring). -/
structure SchedulerOutput where
  results : List ProcessResult
  ganttChart : List GanttBlock
  averageTurnaroundTime : ℚ
  averageWaitingTime : ℚ
deriving DecidableEq

/-- The 11 policy identifiers (scheduler.ts lines 29-41). -/
def ALGORITHMS : List String :=
  ["FCFS",
   "SJF (Non-Preemptive)",
   "SRTF (Preemptive)",
   "Priority (Non-Preemptive)",
   "Priority (Preemptive)",
   "Round Robin",
   "LJF (Non-Preemptive)",
   "LRTF (Preemptive)",
   "HRRN",
   "Multilevel Queue",
   "Multilevel Feedback Queue (MLFQ)"]

/-! ### JavaScript's stable sort

`Array.prototype.sort` with a numeric comparator is a stable ascending sort.
`insertBy lt x l` inserts `x` after every element `y` with `lt y x` (strictly
smaller key), i.e. before the first element that is not strictly smaller, so
`sortBy` is the stable ascending sort by the strict comparator `lt`. -/

def insertBy {α : Type} (lt : α → α → Bool) (x : α) : List α → List α
  | [] => [x]
  | y :: ys => if lt y x then y :: insertBy lt x ys else x :: y :: ys

def sortBy {α : Type} (lt : α → α → Bool) : List α → List α
  | [] => []
  | x :: xs => insertBy lt x (sortBy lt xs)

/-! ### Numeric-aware id comparison

`results.sort((a, b) => a.id.localeCompare(b.id, undefined, { numeric: true }))`
(scheduler.ts line 49) orders ids with digit runs compared as numbers, so that
"P2" precedes "P10".  Digit runs become numeric tokens, all other characters
literal tokens, and token lists are compared lexicographically. -/

inductive IdTok : Type
  | num : ℕ → IdTok
  | ch : Char → IdTok
deriving DecidableEq

/-- Tokenising fold state: tokens so far (reversed) and the pending digit run. -/
def idTokStep (acc : List IdTok × Option ℕ) (c : Char) : List IdTok × Option ℕ :=
  if c.isDigit then
    match acc.2 with
    | some m => (acc.1, some (10 * m + (c.toNat - 48)))
    | none => (acc.1, some (c.toNat - 48))
  else
    match acc.2 with
    | some m => (IdTok.ch c :: IdTok.num m :: acc.1, none)
    | none => (IdTok.ch c :: acc.1, none)

def idTokens (s : String) : List IdTok :=
  let acc := s.data.foldl idTokStep ([], none)
  (match acc.2 with
   | some m => IdTok.num m :: acc.1
   | none => acc.1).reverse

def idTokLt : IdTok → IdTok → Bool
  | IdTok.num m, IdTok.num n => m < n
  | IdTok.num _, IdTok.ch _ => true
  | IdTok.ch _, IdTok.num _ => false
  | IdTok.ch a, IdTok.ch b => a < b

def idTokListLt : List IdTok → List IdTok → Bool
  | [], [] => false
  | [], _ :: _ => true
  | _ :: _, [] => false
  | a :: as, b :: bs =>
    if idTokLt a b then true else if idTokLt b a then false else idTokListLt as bs

/-- `a.id` strictly precedes `b.id` in the numeric-aware order. -/
def idLt (a b : String) : Bool := idTokListLt (idTokens a) (idTokens b)

/-! ### The aggregator -/

/-- `calculateAverages` (scheduler.ts lines 45-55): sort the results by id
(numeric-aware), averages are plain divisions with the JS `|| 0` giving 0 on an
empty result list — matched here by rational division by zero being 0. -/
def calculateAverages (results : List ProcessResult) (ganttChart : List GanttBlock) :
    SchedulerOutput :=
  let totalTAT : ℤ := results.foldl (fun acc curr => acc + curr.turnaroundTime) 0
  let totalWT : ℤ := results.foldl (fun acc curr => acc + curr.waitingTime) 0
  { results := sortBy (fun a b => idLt a.id b.id) results
    ganttChart := ganttChart
    averageTurnaroundTime := (totalTAT : ℚ) / (results.length : ℚ)
    averageWaitingTime := (totalWT : ℚ) / (results.length : ℚ) }

/-! ### FCFS (scheduler.ts lines 57-86)

The `forEach` over the arrival-sorted copy, accumulating results and Gantt
blocks (both kept reversed and re-reversed at the end). -/

def fcfsGo : List Process → ℤ → List ProcessResult → List GanttBlock →
    List ProcessResult × List GanttBlock
  | [], _, results, chart => (results.reverse, chart.reverse)
  | p :: rest, currentTime, results, chart =>
    let t := if currentTime < p.arrivalTime then p.arrivalTime else currentTime
    let startTime := t
    let endTime := startTime + p.burstTime
    fcfsGo rest endTime
      ({ id := p.id, arrivalTime := p.arrivalTime, burstTime := p.burstTime,
         priority := p.priority, startTime := startTime, endTime := endTime,
         turnaroundTime := endTime - p.arrivalTime,
         waitingTime := startTime - p.arrivalTime } :: results)
      ({ processId := p.id, startTime := startTime, endTime := endTime } :: chart)

def solveFCFS (processes : List Process) : SchedulerOutput :=
  let sorted := sortBy (fun a b => a.arrivalTime < b.arrivalTime) processes
  let rc := fcfsGo sorted 0 [] []
  calculateAverages rc.1 rc.2

/-! ### Fuelled while-loops -/

/-- A `while` loop with fuel: `exit` is the negation of the loop guard (plus
any `break` condition), `step` the loop body, `finish` the code after the
loop.  `none` means the fuel ran out first. -/
def loopRun {σ ω : Type} (exit : σ → Bool) (step : σ → σ) (finish : σ → ω) :
    ℕ → σ → Option ω
  | 0, _ => none
  | fuel + 1, s =>
    if exit s then some (finish s) else loopRun exit step finish fuel (step s)

theorem loopRun_succ {σ ω : Type} (exit : σ → Bool) (step : σ → σ) (finish : σ → ω)
    (fuel : ℕ) (s : σ) :
    loopRun exit step finish (fuel + 1) s =
      if exit s then some (finish s) else loopRun exit step finish fuel (step s) := rfl

/-- Anything the loop returns is `finish` of an exit state reached from `s`
through invariant-preserving steps. -/
theorem loopRun_some_inv {σ ω : Type} {exit : σ → Bool} {step : σ → σ}
    {finish : σ → ω} (Inv : σ → Prop)
    (pres : ∀ s, Inv s → exit s = false → Inv (step s)) :
    ∀ (fuel : ℕ) (s : σ) (o : ω), Inv s →
      loopRun exit step finish fuel s = some o →
      ∃ s', Inv s' ∧ exit s' = true ∧ o = finish s' := by
  intro fuel
  induction fuel with
  | zero => intro s o _ h; simp [loopRun] at h
  | succ n ih =>
    intro s o hs h
    rw [loopRun_succ] at h
    by_cases he : exit s = true
    · refine ⟨s, hs, he, ?_⟩
      simp [he] at h
      exact h.symm
    · simp only [Bool.not_eq_true] at he
      simp [he] at h
      exact ih (step s) o (pres s hs he) h

/-- Fuel exceeding a strictly decreasing measure makes the loop finish. -/
theorem loopRun_isSome {σ ω : Type} {exit : σ → Bool} {step : σ → σ}
    {finish : σ → ω} (Inv : σ → Prop) (M : σ → ℕ)
    (pres : ∀ s, Inv s → exit s = false → Inv (step s) ∧ M (step s) < M s) :
    ∀ (fuel : ℕ) (s : σ), Inv s → M s < fuel →
      (loopRun exit step finish fuel s).isSome := by
  intro fuel
  induction fuel with
  | zero => intro s _ h; omega
  | succ n ih =>
    intro s hs hm
    rw [loopRun_succ]
    by_cases he : exit s = true
    · simp [he]
    · simp only [Bool.not_eq_true] at he
      simp only [he, Bool.false_eq_true, if_false]
      have h2 := pres s hs he
      exact ih (step s) h2.1 (by omega)

/-- A loop whose guard never becomes false runs out of any amount of fuel. -/
theorem loopRun_none {σ ω : Type} {exit : σ → Bool} {step : σ → σ}
    {finish : σ → ω} (Inv : σ → Prop)
    (pres : ∀ s, Inv s → exit s = false ∧ Inv (step s)) :
    ∀ (fuel : ℕ) (s : σ), Inv s → loopRun exit step finish fuel s = none := by
  intro fuel
  induction fuel with
  | zero => intro s _; rfl
  | succ n ih =>
    intro s hs
    rw [loopRun_succ]
    have h := pres s hs
    simp only [h.1, Bool.false_eq_true, if_false]
    exact ih (step s) h.2

/-- Two loops run in lockstep along a relation that matches exits, steps and
finishes. -/
theorem loopRun_rel {σ₁ σ₂ ω : Type} {exit₁ : σ₁ → Bool} {step₁ : σ₁ → σ₁}
    {finish₁ : σ₁ → ω} {exit₂ : σ₂ → Bool} {step₂ : σ₂ → σ₂} {finish₂ : σ₂ → ω}
    (R : σ₁ → σ₂ → Prop)
    (hexit : ∀ s₁ s₂, R s₁ s₂ → exit₁ s₁ = exit₂ s₂)
    (hfin : ∀ s₁ s₂, R s₁ s₂ → exit₁ s₁ = true → finish₁ s₁ = finish₂ s₂)
    (hstep : ∀ s₁ s₂, R s₁ s₂ → exit₁ s₁ = false → R (step₁ s₁) (step₂ s₂)) :
    ∀ (fuel : ℕ) (s₁ : σ₁) (s₂ : σ₂), R s₁ s₂ →
      loopRun exit₁ step₁ finish₁ fuel s₁ = loopRun exit₂ step₂ finish₂ fuel s₂ := by
  intro fuel
  induction fuel with
  | zero => intro s₁ s₂ _; rfl
  | succ n ih =>
    intro s₁ s₂ hr
    rw [loopRun_succ, loopRun_succ, ← hexit s₁ s₂ hr]
    by_cases he : exit₁ s₁ = true
    · simp [he, hfin s₁ s₂ hr he]
    · simp only [Bool.not_eq_true] at he
      simp only [he, Bool.false_eq_true, if_false]
      exact ih (step₁ s₁) (step₂ s₂) (hstep s₁ s₂ hr he)

/-! ### The shared selection scan

Every non-FCFS solver scans the whole process array with a candidate filter
and replaces the best-so-far when the scanned entry wins (§4.1).  `selUpd` is
one step of that scan; `replace` folds in both the strictly-better branch
(including the `Infinity` / `-1` sentinel of the source's initial best) and
the arrival-time tie-break branch. -/

def selUpd (cand : ℕ → Process → Bool)
    (replace : ℕ × Process → Option (ℕ × Process) → Bool)
    (acc : Option (ℕ × Process)) (ip : ℕ × Process) : Option (ℕ × Process) :=
  if cand ip.1 ip.2 then (if replace ip acc then some ip else acc) else acc

def selectIdx (cand : ℕ → Process → Bool)
    (replace : ℕ × Process → Option (ℕ × Process) → Bool)
    (ps : List Process) : Option (ℕ × Process) :=
  ps.enum.foldl (selUpd cand replace) none

theorem foldl_selUpd_cases (cand : ℕ → Process → Bool)
    (replace : ℕ × Process → Option (ℕ × Process) → Bool) :
    ∀ (l : List (ℕ × Process)) (acc : Option (ℕ × Process)),
      l.foldl (selUpd cand replace) acc = acc ∨
      ∃ ip ∈ l, l.foldl (selUpd cand replace) acc = some ip ∧ cand ip.1 ip.2 = true := by
  intro l
  induction l with
  | nil => intro acc; exact Or.inl rfl
  | cons x xs ih =>
    intro acc
    simp only [List.foldl_cons]
    by_cases hc : cand x.1 x.2 = true
    · by_cases hr : replace x acc = true
      · have hsel : selUpd cand replace acc x = some x := by
          simp [selUpd, hc, hr]
        rw [hsel]
        rcases ih (some x) with h | ⟨ip, hm, he, hcand⟩
        · exact Or.inr ⟨x, List.mem_cons_self x xs, h, hc⟩
        · exact Or.inr ⟨ip, List.mem_cons_of_mem x hm, he, hcand⟩
      · have hsel : selUpd cand replace acc x = acc := by
          simp only [Bool.not_eq_true] at hr
          simp [selUpd, hc, hr]
        rw [hsel]
        rcases ih acc with h | ⟨ip, hm, he, hcand⟩
        · exact Or.inl h
        · exact Or.inr ⟨ip, List.mem_cons_of_mem x hm, he, hcand⟩
    · have hsel : selUpd cand replace acc x = acc := by
        simp only [Bool.not_eq_true] at hc
        simp [selUpd, hc]
      rw [hsel]
      rcases ih acc with h | ⟨ip, hm, he, hcand⟩
      · exact Or.inl h
      · exact Or.inr ⟨ip, List.mem_cons_of_mem x hm, he, hcand⟩

/-- A selected entry is a real, in-range candidate. -/
theorem selectIdx_some {cand : ℕ → Process → Bool}
    {replace : ℕ × Process → Option (ℕ × Process) → Bool}
    {ps : List Process} {ip : ℕ × Process}
    (h : selectIdx cand replace ps = some ip) :
    ps[ip.1]? = some ip.2 ∧ cand ip.1 ip.2 = true := by
  rcases foldl_selUpd_cases cand replace ps.enum none with h0 | ⟨jq, hm, he, hcand⟩
  · rw [selectIdx] at h; rw [h0] at h; exact absurd h (by simp)
  · rw [selectIdx] at h
    rw [he] at h
    obtain rfl : jq = ip := by injection h
    exact ⟨List.mem_enum_iff_getElem?.mp hm, hcand⟩

theorem foldl_selUpd_isSome (cand : ℕ → Process → Bool)
    (replace : ℕ × Process → Option (ℕ × Process) → Bool) :
    ∀ (l : List (ℕ × Process)) (acc : Option (ℕ × Process)), acc.isSome →
      (l.foldl (selUpd cand replace) acc).isSome := by
  intro l
  induction l with
  | nil => intro acc h; exact h
  | cons x xs ih =>
    intro acc h
    simp only [List.foldl_cons]
    apply ih
    simp only [selUpd]
    by_cases hc : cand x.1 x.2 = true
    · by_cases hr : replace x acc = true
      · simp [hc, hr]
      · simp only [Bool.not_eq_true] at hr; simp [hc, hr, h]
    · simp only [Bool.not_eq_true] at hc; simp [hc, h]

/-- If every candidate would replace the empty best, an empty selection means
there was no candidate at all. -/
theorem selectIdx_none {cand : ℕ → Process → Bool}
    {replace : ℕ × Process → Option (ℕ × Process) → Bool} {ps : List Process}
    (hrep : ∀ i p, ps[i]? = some p → cand i p = true → replace (i, p) none = true)
    (h : selectIdx cand replace ps = none) :
    ∀ i p, ps[i]? = some p → cand i p = false := by
  have main : ∀ (l : List (ℕ × Process)),
      (∀ ip ∈ l, ps[ip.1]? = some ip.2) →
      l.foldl (selUpd cand replace) none = none →
      ∀ ip ∈ l, cand ip.1 ip.2 = false := by
    intro l
    induction l with
    | nil => intro _ _ ip hm; exact absurd hm (List.not_mem_nil ip)
    | cons x xs ih =>
      intro hsub hfold ip hm
      simp only [List.foldl_cons] at hfold
      by_cases hc : cand x.1 x.2 = true
      · exfalso
        have hx : ps[x.1]? = some x.2 := hsub x (List.mem_cons_self x xs)
        have hr : replace (x.1, x.2) none = true := hrep x.1 x.2 hx hc
        have : selUpd cand replace none x = some x := by
          simp [selUpd, hc]
          exact hr
        rw [this] at hfold
        have := foldl_selUpd_isSome cand replace xs (some x) (by simp)
        rw [hfold] at this
        simp at this
      · rcases List.mem_cons.mp hm with rfl | hm'
        · simpa using hc
        · have : selUpd cand replace none x = none := by
            simp only [Bool.not_eq_true] at hc
            simp [selUpd, hc]
          rw [this] at hfold
          exact ih (fun jq hj => hsub jq (List.mem_cons_of_mem x hj)) hfold ip hm'
  intro i p hip
  have hmem : (i, p) ∈ ps.enum := List.mem_enum_iff_getElem?.mpr hip
  exact main ps.enum (fun jq hj => List.mem_enum_iff_getElem?.mp hj) h (i, p) hmem

/-! ### The non-preemptive loop (SJF, Priority-NP, LJF, HRRN)

scheduler.ts lines 88-136 (SJF), 202-249 (Priority-NP), 372-418 (LJF) and
471-517 (HRRN) share one `while (completed < n)` skeleton: select a candidate
by a policy key over the arrival-sorted copy, run it to completion, otherwise
advance the idle clock one unit.  The result and Gantt lists are kept
most-recent-first and reversed when the loop finishes. -/

structure NPState where
  currentTime : ℤ
  completed : ℕ
  isCompleted : List Bool
  resultsRev : List ProcessResult
  ganttRev : List GanttBlock
deriving DecidableEq

def npCand (t : ℤ) (done : List Bool) (i : ℕ) (p : Process) : Bool :=
  decide (p.arrivalTime ≤ t) && ! done.getD i false

def npStep (pick : ℤ → List Bool → Option (ℕ × Process)) (s : NPState) : NPState :=
  match pick s.currentTime s.isCompleted with
  | some ip =>
    let p := ip.2
    let startTime := s.currentTime
    let endTime := startTime + p.burstTime
    { currentTime := endTime
      completed := s.completed + 1
      isCompleted := s.isCompleted.set ip.1 true
      resultsRev :=
        { id := p.id, arrivalTime := p.arrivalTime, burstTime := p.burstTime,
          priority := p.priority, startTime := startTime, endTime := endTime,
          turnaroundTime := endTime - p.arrivalTime,
          waitingTime := startTime - p.arrivalTime } :: s.resultsRev
      ganttRev :=
        { processId := p.id, startTime := startTime, endTime := endTime } :: s.ganttRev }
  | none => { s with currentTime := s.currentTime + 1 }

def npInit (n : ℕ) : NPState :=
  { currentTime := 0, completed := 0, isCompleted := List.replicate n false,
    resultsRev := [], ganttRev := [] }

def npRun (pick : ℤ → List Bool → Option (ℕ × Process)) (n : ℕ) (fuel : ℕ) :
    Option SchedulerOutput :=
  loopRun (fun s => decide (n ≤ s.completed)) (npStep pick)
    (fun s => calculateAverages s.resultsRev.reverse s.ganttRev.reverse)
    fuel (npInit n)

/-- SJF selection (scheduler.ts lines 99-113): minimal burst, ties by earlier
arrival; the `minBurst = Infinity` sentinel always loses to a first candidate. -/
def sjfPick (sorted : List Process) (t : ℤ) (done : List Bool) :
    Option (ℕ × Process) :=
  selectIdx (npCand t done)
    (fun ip acc =>
      match acc with
      | none => true
      | some jq =>
        decide (ip.2.burstTime < jq.2.burstTime) ||
          (decide (ip.2.burstTime = jq.2.burstTime) &&
            decide (ip.2.arrivalTime < jq.2.arrivalTime)))
    sorted

def solveSJF (processes : List Process) (fuel : ℕ) : Option SchedulerOutput :=
  let sorted := sortBy (fun a b => a.arrivalTime < b.arrivalTime) processes
  npRun (sjfPick sorted) sorted.length fuel

/-- Priority (Non-Preemptive) selection (scheduler.ts lines 213-227): minimal
priority value, ties by earlier arrival. -/
def priorityNPPick (sorted : List Process) (t : ℤ) (done : List Bool) :
    Option (ℕ × Process) :=
  selectIdx (npCand t done)
    (fun ip acc =>
      match acc with
      | none => true
      | some jq =>
        decide (ip.2.priority < jq.2.priority) ||
          (decide (ip.2.priority = jq.2.priority) &&
            decide (ip.2.arrivalTime < jq.2.arrivalTime)))
    sorted

def solvePriorityNP (processes : List Process) (fuel : ℕ) : Option SchedulerOutput :=
  let sorted := sortBy (fun a b => a.arrivalTime < b.arrivalTime) processes
  npRun (priorityNPPick sorted) sorted.length fuel

/-- LJF selection (scheduler.ts lines 383-397): maximal burst against the
`maxBurst = -1` sentinel, ties by earlier arrival (the tie branch against the
sentinel compares against `sorted[-1]`, which is never taken — modelled by the
`none` case winning only through `burstTime > -1`). -/
def ljfPick (sorted : List Process) (t : ℤ) (done : List Bool) :
    Option (ℕ × Process) :=
  selectIdx (npCand t done)
    (fun ip acc =>
      match acc with
      | none => decide ((-1 : ℤ) < ip.2.burstTime)
      | some jq =>
        decide (jq.2.burstTime < ip.2.burstTime) ||
          (decide (ip.2.burstTime = jq.2.burstTime) &&
            decide (ip.2.arrivalTime < jq.2.arrivalTime)))
    sorted

def solveLJF (processes : List Process) (fuel : ℕ) : Option SchedulerOutput :=
  let sorted := sortBy (fun a b => a.arrivalTime < b.arrivalTime) processes
  npRun (ljfPick sorted) sorted.length fuel

/-- HRRN's response ratio `(wait + burst) / burst` (scheduler.ts lines 488-489)
recomputed from the current clock, as an exact rational. -/
def responseRatio (t : ℤ) (p : Process) : ℚ :=
  ((t - p.arrivalTime + p.burstTime : ℤ) : ℚ) / ((p.burstTime : ℤ) : ℚ)

/-- HRRN selection (scheduler.ts lines 482-496): maximal response ratio
against the `maxRatio = -1` sentinel; no explicit tie-break (the first-scanned
candidate keeps the best slot on a ratio tie). -/
def hrrnPick (sorted : List Process) (t : ℤ) (done : List Bool) :
    Option (ℕ × Process) :=
  selectIdx (npCand t done)
    (fun ip acc =>
      match acc with
      | none => decide ((-1 : ℚ) < responseRatio t ip.2)
      | some jq => decide (responseRatio t jq.2 < responseRatio t ip.2))
    sorted

def solveHRRN (processes : List Process) (fuel : ℕ) : Option SchedulerOutput :=
  let sorted := sortBy (fun a b => a.arrivalTime < b.arrivalTime) processes
  npRun (hrrnPick sorted) sorted.length fuel

/-! ### The preemptive unit-step loop (SRTF, Priority-P, LRTF)

scheduler.ts lines 138-200 (SRTF), 251-303 (Priority-P) and 420-469 (LRTF)
share one skeleton: every unit of time re-select the best arrived unfinished
process, run it one unit, extend the current Gantt block when the same process
keeps the CPU, finalize on remaining time zero.  SRTF and Priority-P clear
`lastProcessId` on completion, LRTF does not; the log-free module
`src/unnamed/part_001` clears it in neither — hence the `resetLast` flag. -/

/-- `l[i] := f l[i]` — in-range index update of a JS array. -/
def modIdx {α : Type} (l : List α) (i : ℕ) (f : α → α) : List α :=
  match l[i]? with
  | some a => l.set i (f a)
  | none => l

/-- `ganttChart[ganttChart.length - 1].endTime++` on the reversed chart (the
source never reaches this with an empty chart). -/
def bumpHead : List GanttBlock → List GanttBlock
  | [] => []
  | b :: rest => { b with endTime := b.endTime + 1 } :: rest

/-- The `{...p, startTime: -1, endTime: 0, turnaroundTime: 0, waitingTime: 0}`
initial result entry used by every array-based solver. -/
def initResult (p : Process) : ProcessResult :=
  { id := p.id, arrivalTime := p.arrivalTime, burstTime := p.burstTime,
    priority := p.priority, startTime := -1, endTime := 0,
    turnaroundTime := 0, waitingTime := 0 }

structure PState where
  currentTime : ℤ
  completed : ℕ
  remainingTime : List ℤ
  results : List ProcessResult
  ganttRev : List GanttBlock
  lastProcessId : String
deriving DecidableEq

def pCand (t : ℤ) (rem : List ℤ) (i : ℕ) (p : Process) : Bool :=
  decide (p.arrivalTime ≤ t) && decide (0 < rem.getD i 0)

def pStep (pick : ℤ → List ℤ → Option (ℕ × Process)) (resetLast : Bool)
    (s : PState) : PState :=
  match pick s.currentTime s.remainingTime with
  | some ip =>
    let p := ip.2
    let chart' :=
      if s.lastProcessId = p.id then bumpHead s.ganttRev
      else { processId := p.id, startTime := s.currentTime,
             endTime := s.currentTime + 1 } :: s.ganttRev
    let results₁ := modIdx s.results ip.1
      (fun r => if r.startTime = -1 then { r with startTime := s.currentTime } else r)
    let rem' := modIdx s.remainingTime ip.1 (fun r => r - 1)
    let t' := s.currentTime + 1
    if rem'.getD ip.1 0 = 0 then
      { currentTime := t'
        completed := s.completed + 1
        remainingTime := rem'
        results := modIdx results₁ ip.1 (fun r =>
          let tat := t' - r.arrivalTime
          { r with endTime := t', turnaroundTime := tat,
                   waitingTime := tat - r.burstTime })
        ganttRev := chart'
        lastProcessId := if resetLast then "" else p.id }
    else
      { currentTime := t', completed := s.completed, remainingTime := rem',
        results := results₁, ganttRev := chart', lastProcessId := p.id }
  | none => { s with currentTime := s.currentTime + 1 }

def pInit (processes : List Process) : PState :=
  { currentTime := 0, completed := 0,
    remainingTime := processes.map (fun p => p.burstTime),
    results := processes.map initResult,
    ganttRev := [], lastProcessId := "" }

def pRun (pick : ℤ → List ℤ → Option (ℕ × Process)) (resetLast : Bool)
    (processes : List Process) (fuel : ℕ) : Option SchedulerOutput :=
  loopRun (fun s => decide (processes.length ≤ s.completed))
    (pStep pick resetLast)
    (fun s => calculateAverages s.results s.ganttRev.reverse)
    fuel (pInit processes)

/-- SRTF selection (scheduler.ts lines 151-165): minimal remaining time, ties
by earlier arrival. -/
def srtfPick (processes : List Process) (t : ℤ) (rem : List ℤ) :
    Option (ℕ × Process) :=
  selectIdx (pCand t rem)
    (fun ip acc =>
      match acc with
      | none => true
      | some jq =>
        decide (rem.getD ip.1 0 < rem.getD jq.1 0) ||
          (decide (rem.getD ip.1 0 = rem.getD jq.1 0) &&
            decide (ip.2.arrivalTime < jq.2.arrivalTime)))
    processes

def solveSRTF (processes : List Process) (fuel : ℕ) : Option SchedulerOutput :=
  pRun (srtfPick processes) true processes fuel

/-- Priority (Preemptive) selection (scheduler.ts lines 264-276): minimal
priority value, ties by earlier arrival. -/
def priorityPPick (processes : List Process) (t : ℤ) (rem : List ℤ) :
    Option (ℕ × Process) :=
  selectIdx (pCand t rem)
    (fun ip acc =>
      match acc with
      | none => true
      | some jq =>
        decide (ip.2.priority < jq.2.priority) ||
          (decide (ip.2.priority = jq.2.priority) &&
            decide (ip.2.arrivalTime < jq.2.arrivalTime)))
    processes

def solvePriorityP (processes : List Process) (fuel : ℕ) : Option SchedulerOutput :=
  pRun (priorityPPick processes) true processes fuel

/-- LRTF selection (scheduler.ts lines 433-445): maximal remaining time
against the `maxTime = -1` sentinel, ties by earlier arrival. -/
def lrtfPick (processes : List Process) (t : ℤ) (rem : List ℤ) :
    Option (ℕ × Process) :=
  selectIdx (pCand t rem)
    (fun ip acc =>
      match acc with
      | none => decide ((-1 : ℤ) < rem.getD ip.1 0)
      | some jq =>
        decide (rem.getD jq.1 0 < rem.getD ip.1 0) ||
          (decide (rem.getD ip.1 0 = rem.getD jq.1 0) &&
            decide (ip.2.arrivalTime < jq.2.arrivalTime)))
    processes

def solveLRTF (processes : List Process) (fuel : ℕ) : Option SchedulerOutput :=
  pRun (lrtfPick processes) false processes fuel

/-! ### Round Robin (scheduler.ts lines 305-370) -/

structure RRState where
  currentTime : ℤ
  completed : ℕ
  remainingTime : List ℤ
  results : List ProcessResult
  ganttRev : List GanttBlock
  queue : List ℕ
  visited : List Bool
deriving DecidableEq

/-- The fast-forward scan (scheduler.ts lines 324-331): the unvisited process
with the strictly smallest arrival (first one wins ties). -/
def rrFindNext (processes : List Process) (visited : List Bool) :
    Option (ℕ × Process) :=
  selectIdx (fun i _ => ! visited.getD i false)
    (fun ip acc =>
      match acc with
      | none => true
      | some jq => decide (ip.2.arrivalTime < jq.2.arrivalTime))
    processes

/-- Initial seeding (scheduler.ts lines 318-320): every process with arrival 0
is enqueued in list order and marked visited. -/
def rrInit (processes : List Process) : RRState :=
  { currentTime := 0, completed := 0,
    remainingTime := processes.map (fun p => p.burstTime),
    results := processes.map initResult,
    ganttRev := []
    queue := (processes.enum.filter (fun ip => decide (ip.2.arrivalTime = 0))).map Prod.fst
    visited := processes.map (fun p => decide (p.arrivalTime = 0)) }

/-- The loop exits when all processes completed, or when the queue is empty
with nothing left to fast-forward to (the `break` at line 337). -/
def rrExit (processes : List Process) (s : RRState) : Bool :=
  decide (processes.length ≤ s.completed) ||
    (s.queue.isEmpty && (rrFindNext processes s.visited).isNone)

/-- The newcomer scan after a slice (scheduler.ts lines 350-356): every index
still unvisited whose process has arrived by the post-slice clock and has
remaining work, in the order the processes appear in the input list. -/
def rrNewcomers (processes : List Process) (visited : List Bool) (t : ℤ)
    (rem : List ℤ) : List ℕ :=
  (processes.enum.filter (fun jq =>
      ! visited.getD jq.1 false && decide (jq.2.arrivalTime ≤ t) &&
        decide (0 < rem.getD jq.1 0))).map Prod.fst

def rrStep (processes : List Process) (timeQuantum : ℤ) (s : RRState) : RRState :=
  let s₁ :=
    if s.queue.isEmpty then
      match rrFindNext processes s.visited with
      | some ip =>
        { s with currentTime := ip.2.arrivalTime, queue := [ip.1],
                 visited := s.visited.set ip.1 true }
      | none => s
    else s
  match s₁.queue with
  | [] => s₁
  | idx :: rest =>
    match processes[idx]? with
    | none => { s₁ with queue := rest }
    | some p =>
      let results₁ := modIdx s₁.results idx
        (fun r => if r.startTime = -1 then { r with startTime := s₁.currentTime } else r)
      let execTime := min timeQuantum (s₁.remainingTime.getD idx 0)
      let chart' := { processId := p.id, startTime := s₁.currentTime,
                      endTime := s₁.currentTime + execTime } :: s₁.ganttRev
      let rem' := modIdx s₁.remainingTime idx (fun r => r - execTime)
      let t' := s₁.currentTime + execTime
      let newcomers := rrNewcomers processes s₁.visited t' rem'
      let visited' := newcomers.foldl (fun v j => v.set j true) s₁.visited
      let queue₁ := rest ++ newcomers
      if 0 < rem'.getD idx 0 then
        { currentTime := t', completed := s₁.completed, remainingTime := rem',
          results := results₁, ganttRev := chart',
          queue := queue₁ ++ [idx], visited := visited' }
      else
        { currentTime := t', completed := s₁.completed + 1, remainingTime := rem',
          results := modIdx results₁ idx (fun r =>
            let tat := t' - p.arrivalTime
            { r with endTime := t', turnaroundTime := tat,
                     waitingTime := tat - p.burstTime }),
          ganttRev := chart', queue := queue₁, visited := visited' }

def solveRR (processes : List Process) (timeQuantum : ℤ) (fuel : ℕ) :
    Option SchedulerOutput :=
  loopRun (rrExit processes) (rrStep processes timeQuantum)
    (fun s => calculateAverages s.results s.ganttRev.reverse)
    fuel (rrInit processes)

/-! ### Multilevel Queue (scheduler.ts lines 519-595) -/

structure MLQState where
  currentTime : ℤ
  completed : ℕ
  remainingTime : List ℤ
  results : List ProcessResult
  ganttRev : List GanttBlock
  q1 : List ℕ
  q2 : List ℕ
  visited : List Bool
deriving DecidableEq

/-- The classification scan (scheduler.ts lines 534-546 and 558-564): every
unvisited arrived process joins Queue 1 (`priority ≤ 2`) or Queue 2, in list
order. -/
def mlqClassify (processes : List Process) (t : ℤ)
    (q1 q2 : List ℕ) (visited : List Bool) : List ℕ × List ℕ × List Bool :=
  processes.enum.foldl (fun acc ip =>
    if ! acc.2.2.getD ip.1 false && decide (ip.2.arrivalTime ≤ t) then
      if decide (ip.2.priority ≤ 2) then
        (acc.1 ++ [ip.1], acc.2.1, acc.2.2.set ip.1 true)
      else
        (acc.1, acc.2.1 ++ [ip.1], acc.2.2.set ip.1 true)
    else acc) (q1, q2, visited)

def mlqStep (processes : List Process) (timeQuantum : ℤ) (s : MLQState) : MLQState :=
  let c := mlqClassify processes s.currentTime s.q1 s.q2 s.visited
  match c.1 with
  | idx :: rest =>
    match processes[idx]? with
    | none =>
      { s with q1 := rest, q2 := c.2.1, visited := c.2.2 }
    | some p =>
      let results₁ := modIdx s.results idx
        (fun r => if r.startTime = -1 then { r with startTime := s.currentTime } else r)
      let exec := min timeQuantum (s.remainingTime.getD idx 0)
      let chart' := { processId := p.id, startTime := s.currentTime,
                      endTime := s.currentTime + exec } :: s.ganttRev
      let rem' := modIdx s.remainingTime idx (fun r => r - exec)
      let t' := s.currentTime + exec
      let c₂ := mlqClassify processes t' rest c.2.1 c.2.2
      if 0 < rem'.getD idx 0 then
        { currentTime := t', completed := s.completed, remainingTime := rem',
          results := results₁, ganttRev := chart',
          q1 := c₂.1 ++ [idx], q2 := c₂.2.1, visited := c₂.2.2 }
      else
        { currentTime := t', completed := s.completed + 1, remainingTime := rem',
          results := modIdx results₁ idx (fun r =>
            let tat := t' - p.arrivalTime
            { r with endTime := t', turnaroundTime := tat,
                     waitingTime := tat - p.burstTime }),
          ganttRev := chart', q1 := c₂.1, q2 := c₂.2.1, visited := c₂.2.2 }
  | [] =>
    match c.2.1 with
    | idx :: rest =>
      match processes[idx]? with
      | none => { s with q1 := c.1, q2 := rest, visited := c.2.2 }
      | some p =>
        let results₁ := modIdx s.results idx
          (fun r => if r.startTime = -1 then { r with startTime := s.currentTime } else r)
        let chart' := { processId := p.id, startTime := s.currentTime,
                        endTime := s.currentTime + 1 } :: s.ganttRev
        let rem' := modIdx s.remainingTime idx (fun r => r - 1)
        let t' := s.currentTime + 1
        if rem'.getD idx 0 = 0 then
          { currentTime := t', completed := s.completed + 1, remainingTime := rem',
            results := modIdx results₁ idx (fun r =>
              let tat := t' - p.arrivalTime
              { r with endTime := t', turnaroundTime := tat,
                       waitingTime := tat - p.burstTime }),
            ganttRev := chart', q1 := c.1, q2 := rest, visited := c.2.2 }
        else
          { currentTime := t', completed := s.completed, remainingTime := rem',
            results := results₁, ganttRev := chart',
            q1 := c.1, q2 := idx :: rest, visited := c.2.2 }
    | [] =>
      { s with currentTime := s.currentTime + 1, q1 := c.1, q2 := c.2.1,
               visited := c.2.2 }

def mlqInit (processes : List Process) : MLQState :=
  { currentTime := 0, completed := 0,
    remainingTime := processes.map (fun p => p.burstTime),
    results := processes.map initResult,
    ganttRev := [], q1 := [], q2 := [],
    visited := List.replicate processes.length false }

def solveMLQ (processes : List Process) (timeQuantum : ℤ) (fuel : ℕ) :
    Option SchedulerOutput :=
  loopRun (fun s => decide (processes.length ≤ s.completed))
    (mlqStep processes timeQuantum)
    (fun s => calculateAverages s.results s.ganttRev.reverse)
    fuel (mlqInit processes)

/-! ### Multilevel Feedback Queue (scheduler.ts lines 597-667) -/

structure MLFQState where
  currentTime : ℤ
  completed : ℕ
  remainingTime : List ℤ
  results : List ProcessResult
  ganttRev : List GanttBlock
  q0 : List ℕ
  q1 : List ℕ
  q2 : List ℕ
  visited : List Bool
deriving DecidableEq

/-- MLFQ arrival scan (scheduler.ts lines 613-619 and 637-643): every
unvisited arrived process joins Q0, in list order. -/
def mlfqClassify (processes : List Process) (t : ℤ)
    (q0 : List ℕ) (visited : List Bool) : List ℕ × List Bool :=
  processes.enum.foldl (fun acc ip =>
    if ! acc.2.getD ip.1 false && decide (ip.2.arrivalTime ≤ t) then
      (acc.1 ++ [ip.1], acc.2.set ip.1 true)
    else acc) (q0, visited)

/-- One MLFQ dispatch (the shared tail of the three queue branches,
scheduler.ts lines 628-661): `queueLevel` 0 and 1 consume a quantum slice
(`timeQuantum`, `timeQuantum * 2`), level 2 runs a single unit. -/
def mlfqDispatch (processes : List Process) (timeQuantum : ℤ) (s : MLFQState)
    (idx : ℕ) (queueLevel : ℕ) (q0 : List ℕ) (visited : List Bool) : MLFQState :=
  match processes[idx]? with
  | none => { s with q0 := q0, visited := visited }
  | some p =>
    let quantum := if queueLevel = 0 then timeQuantum else timeQuantum * 2
    let results₁ := modIdx s.results idx
      (fun r => if r.startTime = -1 then { r with startTime := s.currentTime } else r)
    let runTime :=
      if queueLevel = 2 then 1 else min (s.remainingTime.getD idx 0) quantum
    let chart' := { processId := p.id, startTime := s.currentTime,
                    endTime := s.currentTime + runTime } :: s.ganttRev
    let rem' := modIdx s.remainingTime idx (fun r => r - runTime)
    let t' := s.currentTime + runTime
    let c₂ := mlfqClassify processes t' q0 visited
    if rem'.getD idx 0 = 0 then
      { currentTime := t', completed := s.completed + 1, remainingTime := rem',
        results := modIdx results₁ idx (fun r =>
          let tat := t' - p.arrivalTime
          { r with endTime := t', turnaroundTime := tat,
                   waitingTime := tat - p.burstTime }),
        ganttRev := chart', q0 := c₂.1,
        q1 := if queueLevel = 1 then s.q1.tail else s.q1,
        q2 := if queueLevel = 2 then s.q2.tail else s.q2,
        visited := c₂.2 }
    else
      { currentTime := t', completed := s.completed, remainingTime := rem',
        results := results₁, ganttRev := chart', q0 := c₂.1,
        q1 := (if queueLevel = 1 then s.q1.tail else s.q1) ++
                (if queueLevel = 0 then [idx] else []),
        q2 := s.q2 ++ (if queueLevel = 1 then [idx] else []),
        visited := c₂.2 }

def mlfqStep (processes : List Process) (timeQuantum : ℤ) (s : MLFQState) :
    MLFQState :=
  let c := mlfqClassify processes s.currentTime s.q0 s.visited
  match c.1 with
  | idx :: rest =>
    mlfqDispatch processes timeQuantum { s with q0 := rest } idx 0 rest c.2
  | [] =>
    match s.q1 with
    | idx :: _ =>
      mlfqDispatch processes timeQuantum { s with q0 := [] } idx 1 [] c.2
    | [] =>
      match s.q2 with
      | idx :: _ =>
        mlfqDispatch processes timeQuantum { s with q0 := [] } idx 2 [] c.2
      | [] =>
        { s with currentTime := s.currentTime + 1, q0 := c.1, visited := c.2 }

def mlfqInit (processes : List Process) : MLFQState :=
  { currentTime := 0, completed := 0,
    remainingTime := processes.map (fun p => p.burstTime),
    results := processes.map initResult,
    ganttRev := [], q0 := [], q1 := [], q2 := [],
    visited := List.replicate processes.length false }

def solveMLFQ (processes : List Process) (timeQuantum : ℤ) (fuel : ℕ) :
    Option SchedulerOutput :=
  loopRun (fun s => decide (processes.length ≤ s.completed))
    (mlfqStep processes timeQuantum)
    (fun s => calculateAverages s.results s.ganttRev.reverse)
    fuel (mlfqInit processes)

/-! ### Dispatch (scheduler.ts lines 669-684)

The `switch` has an explicit `default: return solveFCFS(processes)` branch:
an unrecognized identifier silently falls back to FCFS.  `solveFCFS` ignores
the fuel (its loop is a structurally terminating `forEach`). -/

def solve (algorithm : String) (processes : List Process) (timeQuantum : ℤ)
    (fuel : ℕ) : Option SchedulerOutput :=
  if algorithm = "FCFS" then some (solveFCFS processes)
  else if algorithm = "SJF (Non-Preemptive)" then solveSJF processes fuel
  else if algorithm = "SRTF (Preemptive)" then solveSRTF processes fuel
  else if algorithm = "Priority (Non-Preemptive)" then solvePriorityNP processes fuel
  else if algorithm = "Priority (Preemptive)" then solvePriorityP processes fuel
  else if algorithm = "Round Robin" then solveRR processes timeQuantum fuel
  else if algorithm = "LJF (Non-Preemptive)" then solveLJF processes fuel
  else if algorithm = "LRTF (Preemptive)" then solveLRTF processes fuel
  else if algorithm = "HRRN" then solveHRRN processes fuel
  else if algorithm = "Multilevel Queue" then solveMLQ processes timeQuantum fuel
  else if algorithm = "Multilevel Feedback Queue (MLFQ)" then
    solveMLFQ processes timeQuantum fuel
  else some (solveFCFS processes)

/-! ### The log-free module `src/unnamed/part_001`

Token for token it is `src/app/utils/scheduler.ts` with every `logs` /
`decisionLog` statement removed, except inside `solveSRTF` and
`solvePriorityP`: there the line `lastProcessId = ""` executed on completion
is also absent.  All other solvers are the same functions, so the log-free
module shares their embeddings; its SRTF and Priority-P run the shared
preemptive skeleton with `resetLast := false`. -/

namespace NoLog

def solveSRTF (processes : List Process) (fuel : ℕ) : Option SchedulerOutput :=
  pRun (srtfPick processes) false processes fuel

def solvePriorityP (processes : List Process) (fuel : ℕ) : Option SchedulerOutput :=
  pRun (priorityPPick processes) false processes fuel

/-- `solve` of `src/unnamed/part_001` (lines 562-577). -/
def solve (algorithm : String) (processes : List Process) (timeQuantum : ℤ)
    (fuel : ℕ) : Option SchedulerOutput :=
  if algorithm = "FCFS" then some (solveFCFS processes)
  else if algorithm = "SJF (Non-Preemptive)" then solveSJF processes fuel
  else if algorithm = "SRTF (Preemptive)" then NoLog.solveSRTF processes fuel
  else if algorithm = "Priority (Non-Preemptive)" then solvePriorityNP processes fuel
  else if algorithm = "Priority (Preemptive)" then NoLog.solvePriorityP processes fuel
  else if algorithm = "Round Robin" then solveRR processes timeQuantum fuel
  else if algorithm = "LJF (Non-Preemptive)" then solveLJF processes fuel
  else if algorithm = "LRTF (Preemptive)" then solveLRTF processes fuel
  else if algorithm = "HRRN" then solveHRRN processes fuel
  else if algorithm = "Multilevel Queue" then solveMLQ processes timeQuantum fuel
  else if algorithm = "Multilevel Feedback Queue (MLFQ)" then
    solveMLFQ processes timeQuantum fuel
  else some (solveFCFS processes)

end NoLog

/-! ## Basic facts about the embedding's list helpers -/

theorem insertBy_perm {α : Type} (lt : α → α → Bool) (x : α) :
    ∀ (l : List α), (insertBy lt x l).Perm (x :: l) := by
  intro l
  induction l with
  | nil => simp [insertBy]
  | cons y ys ih =>
    by_cases h : lt y x = true
    · simp only [insertBy, h, if_true]
      exact ((ih.cons y).trans (List.Perm.swap x y ys))
    · simp only [Bool.not_eq_true] at h
      simp [insertBy, h]

theorem sortBy_perm {α : Type} (lt : α → α → Bool) :
    ∀ (l : List α), (sortBy lt l).Perm l := by
  intro l
  induction l with
  | nil => simp [sortBy]
  | cons x xs ih =>
    exact (insertBy_perm lt x (sortBy lt xs)).trans (ih.cons x)

theorem mem_sortBy {α : Type} {lt : α → α → Bool} {l : List α} {a : α} :
    a ∈ sortBy lt l ↔ a ∈ l := (sortBy_perm lt l).mem_iff

theorem length_sortBy {α : Type} (lt : α → α → Bool) (l : List α) :
    (sortBy lt l).length = l.length := (sortBy_perm lt l).length_eq

/-- The results of `calculateAverages` are a permutation of the raw results. -/
theorem calculateAverages_results_perm (results : List ProcessResult)
    (chart : List GanttBlock) :
    (calculateAverages results chart).results.Perm results :=
  sortBy_perm _ results

theorem calculateAverages_ganttChart (results : List ProcessResult)
    (chart : List GanttBlock) :
    (calculateAverages results chart).ganttChart = chart := rfl

theorem length_modIdx {α : Type} (l : List α) (i : ℕ) (f : α → α) :
    (modIdx l i f).length = l.length := by
  unfold modIdx
  cases h : l[i]? with
  | none => rfl
  | some a => simp

theorem getElem?_modIdx_self {α : Type} {l : List α} {i : ℕ} {a : α}
    (h : l[i]? = some a) (f : α → α) : (modIdx l i f)[i]? = some (f a) := by
  unfold modIdx
  rw [h]
  have hi : i < l.length := by
    by_contra hge
    rw [List.getElem?_eq_none (by omega)] at h
    exact absurd h (by simp)
  rw [List.getElem?_set_self (by simpa using hi)]

theorem getElem?_modIdx_ne {α : Type} (l : List α) (i : ℕ) (f : α → α)
    {j : ℕ} (h : i ≠ j) : (modIdx l i f)[j]? = l[j]? := by
  unfold modIdx
  cases hl : l[i]? with
  | none => rfl
  | some a => exact List.getElem?_set_ne h

theorem getD_modIdx_ne {α : Type} (l : List α) (i : ℕ) (f : α → α)
    {j : ℕ} (h : i ≠ j) (d : α) : (modIdx l i f).getD j d = l.getD j d := by
  simp [List.getD_eq_getElem?_getD, getElem?_modIdx_ne l i f h]

theorem getD_modIdx_self {α : Type} {l : List α} {i : ℕ} {a : α}
    (h : l[i]? = some a) (f : α → α) (d : α) : (modIdx l i f).getD i d = f a := by
  simp [List.getD_eq_getElem?_getD, getElem?_modIdx_self h f]

/-! ## C9: the spec's FCFS regression example -/

/-- The four processes `P1(0,5) P2(2,3) P3(4,1) P4(6,4)` of spec §8. -/
def fcfsExampleInput : List Process :=
  [{ id := "P1", arrivalTime := 0, burstTime := 5, priority := 0 },
   { id := "P2", arrivalTime := 2, burstTime := 3, priority := 0 },
   { id := "P3", arrivalTime := 4, burstTime := 1, priority := 0 },
   { id := "P4", arrivalTime := 6, burstTime := 4, priority := 0 }]

/-- C9: on `P1(0,5) P2(2,3) P3(4,1) P4(6,4)` the FCFS solver yields completion
times `P1=5, P2=8, P3=9, P4=13`, turnaround times `[5,6,5,7]`, waiting times
`[0,3,4,3]`, average turnaround `5.75` and average waiting `2.5`. -/
theorem c9_fcfs_example :
    (solveFCFS fcfsExampleInput).results.map
        (fun r => (r.id, r.endTime, r.turnaroundTime, r.waitingTime)) =
      [("P1", 5, 5, 0), ("P2", 8, 6, 3), ("P3", 9, 5, 4), ("P4", 13, 7, 3)] ∧
    (solveFCFS fcfsExampleInput).averageTurnaroundTime = 5.75 ∧
    (solveFCFS fcfsExampleInput).averageWaitingTime = 2.5 := by
  refine ⟨by decide, ?_, ?_⟩
  · have h : (solveFCFS fcfsExampleInput).averageTurnaroundTime =
        ((23 : ℤ) : ℚ) / ((4 : ℕ) : ℚ) := rfl
    rw [h]; norm_num
  · have h : (solveFCFS fcfsExampleInput).averageWaitingTime =
        ((10 : ℤ) : ℚ) / ((4 : ℕ) : ℚ) := rfl
    rw [h]; norm_num

/-! ## C7: every solver returns the degenerate output on an empty list -/

/-- The degenerate output: no results, no chart, both averages 0. -/
def emptyOutput : SchedulerOutput :=
  { results := [], ganttChart := [], averageTurnaroundTime := 0,
    averageWaitingTime := 0 }

theorem calculateAverages_nil : calculateAverages [] [] = emptyOutput := by
  simp [calculateAverages, sortBy, emptyOutput]

/-- C7: for every one of the 11 algorithms, `solve` on the empty process list
does not run out of fuel (one loop-guard check suffices) and returns the
degenerate output: empty results, empty chart, both averages 0. -/
theorem c7_empty_input (name : String) (hname : name ∈ ALGORITHMS)
    (q : ℤ) (fuel : ℕ) (hfuel : 1 ≤ fuel) :
    solve name [] q fuel = some emptyOutput := by
  obtain ⟨k, rfl⟩ : ∃ k, fuel = k + 1 := ⟨fuel - 1, by omega⟩
  fin_cases hname
  · show some (solveFCFS []) = _
    rw [solveFCFS]
    show some (calculateAverages (fcfsGo [] 0 [] []).1 (fcfsGo [] 0 [] []).2) = _
    rw [show fcfsGo [] 0 [] [] = ([], []) from rfl, calculateAverages_nil]
  · show solveSJF [] (k + 1) = _
    rw [solveSJF]
    show loopRun _ _ _ (k + 1) _ = _
    rw [loopRun_succ]
    norm_num [npInit, sortBy, calculateAverages_nil]
  · show solveSRTF [] (k + 1) = _
    rw [solveSRTF, pRun, loopRun_succ]
    norm_num [pInit, calculateAverages_nil]
  · show solvePriorityNP [] (k + 1) = _
    rw [solvePriorityNP]
    show loopRun _ _ _ (k + 1) _ = _
    rw [loopRun_succ]
    norm_num [npInit, sortBy, calculateAverages_nil]
  · show solvePriorityP [] (k + 1) = _
    rw [solvePriorityP, pRun, loopRun_succ]
    norm_num [pInit, calculateAverages_nil]
  · show solveRR [] q (k + 1) = _
    rw [solveRR, loopRun_succ]
    rw [show rrExit [] (rrInit []) = true from by decide]
    simp [rrInit, calculateAverages_nil]
  · show solveLJF [] (k + 1) = _
    rw [solveLJF]
    show loopRun _ _ _ (k + 1) _ = _
    rw [loopRun_succ]
    norm_num [npInit, sortBy, calculateAverages_nil]
  · show solveLRTF [] (k + 1) = _
    rw [solveLRTF, pRun, loopRun_succ]
    norm_num [pInit, calculateAverages_nil]
  · show solveHRRN [] (k + 1) = _
    rw [solveHRRN]
    show loopRun _ _ _ (k + 1) _ = _
    rw [loopRun_succ]
    norm_num [npInit, sortBy, calculateAverages_nil]
  · show solveMLQ [] q (k + 1) = _
    rw [solveMLQ, loopRun_succ]
    norm_num [mlqInit, calculateAverages_nil]
  · show solveMLFQ [] q (k + 1) = _
    rw [solveMLFQ, loopRun_succ]
    norm_num [mlfqInit, calculateAverages_nil]

/-- C7 witness at a concrete algorithm, quantum and fuel. -/
theorem c7_empty_input_witness :
    solve "Multilevel Queue" [] 3 7 = some emptyOutput :=
  c7_empty_input "Multilevel Queue" (by decide) 3 7 (by omega)

/-! ## C4: an unrecognized policy identifier silently falls back to FCFS

The claim says an unrecognized identifier must surface an explicit
unsupported-algorithm failure; the `switch` in scheduler.ts lines 669-684
instead has `default: return solveFCFS(processes)`. -/

/-- C4 counterexample: an identifier that is not one of the 11 policies
produces exactly the FCFS output — no error is surfaced. -/
theorem c4_silent_default_cex :
    solve "Shortest Seek First" fcfsExampleInput 2 1 =
        some (solveFCFS fcfsExampleInput) ∧
      "Shortest Seek First" ∉ ALGORITHMS :=
  ⟨rfl, by decide⟩

/-- C4 amended: `solve` on any identifier outside the 11 recognized names
silently returns the FCFS result (the `default` branch), for every process
list, quantum and fuel. -/
theorem c4_default_fcfs (name : String) (hname : name ∉ ALGORITHMS)
    (ps : List Process) (q : ℤ) (fuel : ℕ) :
    solve name ps q fuel = some (solveFCFS ps) := by
  simp only [ALGORITHMS, List.mem_cons, List.not_mem_nil, or_false, not_or] at hname
  obtain ⟨h1, h2, h3, h4, h5, h6, h7, h8, h9, h10, h11⟩ := hname
  simp [solve, h1, h2, h3, h4, h5, h6, h7, h8, h9, h10, h11]

/-- C4 witness at a concrete unrecognized identifier. -/
theorem c4_default_fcfs_witness :
    solve "SSTF" [{ id := "A", arrivalTime := 0, burstTime := 2, priority := 1 }] 3 5 =
      some (solveFCFS [{ id := "A", arrivalTime := 0, burstTime := 2, priority := 1 }]) :=
  c4_default_fcfs "SSTF" (by decide)
    [{ id := "A", arrivalTime := 0, burstTime := 2, priority := 1 }] 3 5

/-! ## C10: the two solver modules agree ignoring the decision log

Stripped of logging, `src/unnamed/part_001` is token-identical to
`src/app/utils/scheduler.ts` except that `solveSRTF` and `solvePriorityP` no
longer reset `lastProcessId` to `""` on completion (the reset lives on the
same lines as log statements).  With pairwise-distinct non-empty ids the
reset is unobservable: a finished process is never selected again, so the
stale `lastProcessId` never matches a later winner.  With a duplicated or
empty id it is observable — see the counterexample. -/

theorem mem_of_getElem?_proc {ps : List Process} {i : ℕ} {p : Process}
    (h : ps[i]? = some p) : p ∈ ps := by
  rcases List.getElem?_eq_some.mp h with ⟨hi, rfl⟩
  exact List.getElem_mem hi

theorem idx_eq_of_id_eq {ps : List Process}
    (hids : (ps.map Process.id).Nodup) {i j : ℕ} {p pj : Process}
    (hi : ps[i]? = some p) (hj : ps[j]? = some pj) (h : p.id = pj.id) : i = j := by
  have hi' : (ps.map Process.id)[i]? = some p.id := by
    rw [List.getElem?_map, hi]; rfl
  have hj' : (ps.map Process.id)[j]? = some pj.id := by
    rw [List.getElem?_map, hj]; rfl
  have hlen : i < (ps.map Process.id).length := by
    by_contra hge
    rw [List.getElem?_eq_none (by omega)] at hi'
    exact absurd hi' (by simp)
  exact List.getElem?_inj hlen hids (by rw [hi', hj', h])

/-- Lockstep relation between a resetting preemptive run and a non-resetting
one: all observable state equal, and the `lastProcessId`s either equal or the
reset one empty while the other holds the id of a finished process. -/
def PRel (ps : List Process) (s₁ s₂ : PState) : Prop :=
  s₁.currentTime = s₂.currentTime ∧ s₁.completed = s₂.completed ∧
  s₁.remainingTime = s₂.remainingTime ∧ s₁.results = s₂.results ∧
  s₁.ganttRev = s₂.ganttRev ∧
  (s₁.lastProcessId = s₂.lastProcessId ∨
    (s₁.lastProcessId = "" ∧
      ∃ j pj, ps[j]? = some pj ∧ pj.id = s₂.lastProcessId ∧
        s₂.remainingTime.getD j 0 = 0))

theorem pStep_rel {ps : List Process}
    {pick : ℤ → List ℤ → Option (ℕ × Process)}
    (hpick : ∀ t rem ip, pick t rem = some ip →
      ps[ip.1]? = some ip.2 ∧ 0 < rem.getD ip.1 0)
    (hids : (ps.map Process.id).Nodup) (hne : ∀ p ∈ ps, p.id ≠ "")
    (s₁ s₂ : PState) (hr : PRel ps s₁ s₂) :
    PRel ps (pStep pick true s₁) (pStep pick false s₂) := by
  obtain ⟨ht, hc, hrem, hres, hch, hlast⟩ := hr
  cases hp : pick s₁.currentTime s₁.remainingTime with
  | none =>
    have hp₂ : pick s₂.currentTime s₂.remainingTime = none := by
      rw [← ht, ← hrem]; exact hp
    unfold pStep
    rw [hp, hp₂]
    refine ⟨by simp [ht], by simp [hc], by simp [hrem], by simp [hres],
      by simp [hch], ?_⟩
    simpa using hlast
  | some ip =>
    have hp₂ : pick s₂.currentTime s₂.remainingTime = some ip := by
      rw [← ht, ← hrem]; exact hp
    obtain ⟨hpp, hprem⟩ := hpick _ _ _ hp
    have hpid : ip.2.id ≠ "" := hne ip.2 (mem_of_getElem?_proc hpp)
    have hbranch : (s₁.lastProcessId = ip.2.id) = (s₂.lastProcessId = ip.2.id) := by
      rcases hlast with heq | ⟨h1, j, pj, hj, hjid, hjrem⟩
      · rw [heq]
      · have h1' : ¬ (s₁.lastProcessId = ip.2.id) := by
          rw [h1]; exact fun h => hpid h.symm
        have h2' : ¬ (s₂.lastProcessId = ip.2.id) := by
          intro h
          have hij : ip.1 = j := idx_eq_of_id_eq hids hpp hj (by rw [hjid, h])
          rw [hrem, hij] at hprem
          omega
        simp [h1', h2']
    unfold pStep
    rw [hp, hp₂]
    simp only [← ht, ← hrem, ← hres, ← hch, hbranch]
    by_cases hfin :
        (modIdx s₁.remainingTime ip.1 (fun r => r - 1)).getD ip.1 0 = 0
    · simp only [hfin, if_true]
      refine ⟨rfl, by simp [hc], rfl, rfl, rfl, Or.inr ⟨rfl, ip.1, ip.2, hpp, rfl, ?_⟩⟩
      exact hfin
    · simp only [hfin, if_false]
      exact ⟨rfl, by simp [hc], rfl, rfl, rfl, Or.inl rfl⟩

/-- The preemptive skeleton gives the same output with and without the
completion-time `lastProcessId` reset, for any selection rule that only picks
unfinished in-range processes, provided ids are pairwise distinct and
non-empty. -/
theorem pRun_resetLast_irrelevant {ps : List Process}
    {pick : ℤ → List ℤ → Option (ℕ × Process)}
    (hpick : ∀ t rem ip, pick t rem = some ip →
      ps[ip.1]? = some ip.2 ∧ 0 < rem.getD ip.1 0)
    (hids : (ps.map Process.id).Nodup) (hne : ∀ p ∈ ps, p.id ≠ "")
    (fuel : ℕ) : pRun pick true ps fuel = pRun pick false ps fuel := by
  unfold pRun
  apply loopRun_rel (PRel ps)
  · intro s₁ s₂ hr
    rw [hr.2.1]
  · intro s₁ s₂ hr _
    rw [hr.2.2.2.1, hr.2.2.2.2.1]
  · intro s₁ s₂ hr _
    exact pStep_rel hpick hids hne s₁ s₂ hr
  · exact ⟨rfl, rfl, rfl, rfl, rfl, Or.inl rfl⟩

theorem srtfPick_spec (ps : List Process) (t : ℤ) (rem : List ℤ)
    (ip : ℕ × Process) (h : srtfPick ps t rem = some ip) :
    ps[ip.1]? = some ip.2 ∧ 0 < rem.getD ip.1 0 := by
  obtain ⟨h1, h2⟩ := selectIdx_some h
  refine ⟨h1, ?_⟩
  simp only [pCand, Bool.and_eq_true, decide_eq_true_eq] at h2
  exact h2.2

theorem priorityPPick_spec (ps : List Process) (t : ℤ) (rem : List ℤ)
    (ip : ℕ × Process) (h : priorityPPick ps t rem = some ip) :
    ps[ip.1]? = some ip.2 ∧ 0 < rem.getD ip.1 0 := by
  obtain ⟨h1, h2⟩ := selectIdx_some h
  refine ⟨h1, ?_⟩
  simp only [pCand, Bool.and_eq_true, decide_eq_true_eq] at h2
  exact h2.2

set_option maxHeartbeats 4000000 in
/-- C10 counterexample: with two processes sharing the id "A", the logging
module's SRTF emits two Gantt blocks where the log-free module emits one
merged block — the outputs differ. -/
theorem c10_duplicate_id_cex :
    (solve "SRTF (Preemptive)"
        [{ id := "A", arrivalTime := 0, burstTime := 1, priority := 0 },
         { id := "A", arrivalTime := 0, burstTime := 2, priority := 0 }] 2 10).map
        SchedulerOutput.ganttChart =
      some [{ processId := "A", startTime := 0, endTime := 1 },
            { processId := "A", startTime := 1, endTime := 3 }] ∧
    (NoLog.solve "SRTF (Preemptive)"
        [{ id := "A", arrivalTime := 0, burstTime := 1, priority := 0 },
         { id := "A", arrivalTime := 0, burstTime := 2, priority := 0 }] 2 10).map
        SchedulerOutput.ganttChart =
      some [{ processId := "A", startTime := 0, endTime := 3 }] ∧
    ([{ processId := "A", startTime := 0, endTime := 1 },
      { processId := "A", startTime := 1, endTime := 3 }] : List GanttBlock) ≠
      [{ processId := "A", startTime := 0, endTime := 3 }] := by
  refine ⟨by decide, by decide, by decide⟩

/-- C10 amended: for process lists whose ids are pairwise distinct and
non-empty (the spec's §3 id contract), the two modules' `solve` return
identical results, Gantt chart and averages — the decision log being absent
from the embedding on both sides. -/
theorem c10_observational_equivalence (name : String) (ps : List Process)
    (q : ℤ) (fuel : ℕ) (hids : (ps.map Process.id).Nodup)
    (hne : ∀ p ∈ ps, p.id ≠ "") :
    solve name ps q fuel = NoLog.solve name ps q fuel := by
  by_cases h1 : name = "FCFS"
  · subst h1; rfl
  by_cases h2 : name = "SJF (Non-Preemptive)"
  · subst h2; rfl
  by_cases h3 : name = "SRTF (Preemptive)"
  · subst h3
    show solveSRTF ps fuel = NoLog.solveSRTF ps fuel
    exact pRun_resetLast_irrelevant (srtfPick_spec ps) hids hne fuel
  by_cases h4 : name = "Priority (Non-Preemptive)"
  · subst h4; rfl
  by_cases h5 : name = "Priority (Preemptive)"
  · subst h5
    show solvePriorityP ps fuel = NoLog.solvePriorityP ps fuel
    exact pRun_resetLast_irrelevant (priorityPPick_spec ps) hids hne fuel
  by_cases h6 : name = "Round Robin"
  · subst h6; rfl
  by_cases h7 : name = "LJF (Non-Preemptive)"
  · subst h7; rfl
  by_cases h8 : name = "LRTF (Preemptive)"
  · subst h8; rfl
  by_cases h9 : name = "HRRN"
  · subst h9; rfl
  by_cases h10 : name = "Multilevel Queue"
  · subst h10; rfl
  by_cases h11 : name = "Multilevel Feedback Queue (MLFQ)"
  · subst h11; rfl
  unfold solve NoLog.solve
  rw [if_neg h1, if_neg h2, if_neg h3, if_neg h4, if_neg h5, if_neg h6,
    if_neg h7, if_neg h8, if_neg h9, if_neg h10, if_neg h11,
    if_neg h1, if_neg h2, if_neg h3, if_neg h4, if_neg h5]

/-- C10 witness at a concrete algorithm and input with distinct non-empty ids. -/
theorem c10_observational_equivalence_witness :
    solve "SRTF (Preemptive)"
        [{ id := "A", arrivalTime := 0, burstTime := 2, priority := 0 },
         { id := "B", arrivalTime := 1, burstTime := 1, priority := 0 }] 2 12 =
      NoLog.solve "SRTF (Preemptive)"
        [{ id := "A", arrivalTime := 0, burstTime := 2, priority := 0 },
         { id := "B", arrivalTime := 1, burstTime := 1, priority := 0 }] 2 12 :=
  c10_observational_equivalence "SRTF (Preemptive)"
    [{ id := "A", arrivalTime := 0, burstTime := 2, priority := 0 },
     { id := "B", arrivalTime := 1, burstTime := 1, priority := 0 }] 2 12
    (by decide) (by decide)

/-! ## C5: Round Robin enqueue ordering

The newcomer scan (scheduler.ts lines 350-356) walks the process array by
index, so newcomers are enqueued in input-list order, not by arrival time;
the incumbent is re-enqueued only afterwards (lines 358-360). -/

theorem rrNewcomers_sorted (processes : List Process) (visited : List Bool)
    (t : ℤ) (rem : List ℤ) :
    (rrNewcomers processes visited t rem).Sorted (· < ·) := by
  have h1 : List.Sublist (rrNewcomers processes visited t rem)
      (processes.enum.map Prod.fst) :=
    (List.filter_sublist processes.enum).map Prod.fst
  rw [List.enum_map_fst] at h1
  exact (List.pairwise_lt_range processes.length).sublist h1

theorem rrNewcomers_mem (processes : List Process) (visited : List Bool)
    (t : ℤ) (rem : List ℤ) (j : ℕ) (q : Process) (hj : processes[j]? = some q) :
    j ∈ rrNewcomers processes visited t rem ↔
      (visited.getD j false = false ∧ q.arrivalTime ≤ t ∧ 0 < rem.getD j 0) := by
  unfold rrNewcomers
  rw [List.mem_map]
  constructor
  · rintro ⟨jq, hmem, rfl⟩
    rw [List.mem_filter] at hmem
    obtain ⟨henum, hcond⟩ := hmem
    rw [List.mem_enum_iff_getElem?] at henum
    rw [henum] at hj
    obtain rfl : jq.2 = q := by injection hj
    simp only [Bool.and_eq_true, Bool.not_eq_true', decide_eq_true_eq] at hcond
    exact ⟨hcond.1.1, hcond.1.2, hcond.2⟩
  · rintro ⟨hv, ha, hr⟩
    refine ⟨(j, q), ?_, rfl⟩
    rw [List.mem_filter]
    refine ⟨List.mem_enum_iff_getElem?.mpr hj, ?_⟩
    simp only [Bool.and_eq_true, Bool.not_eq_true', decide_eq_true_eq]
    exact ⟨⟨hv, ha⟩, hr⟩

/-- Processes `A(arr 0, burst 5) B(arr 3, burst 2) C(arr 2, burst 2)`: input
order differs from arrival order for B and C. -/
def c5ExampleInput : List Process :=
  [{ id := "A", arrivalTime := 0, burstTime := 5, priority := 0 },
   { id := "B", arrivalTime := 3, burstTime := 2, priority := 0 },
   { id := "C", arrivalTime := 2, burstTime := 2, priority := 0 }]

/-- C5 counterexample: processes `A(arr 0) B(arr 3) C(arr 2)` with quantum 5:
after A's slice the newcomers are enqueued as `[B, C]` (indices `[1, 2]`, the
input order) although C arrived before B — not in arrival order. -/
theorem c5_arrival_order_cex :
    (rrStep
        c5ExampleInput 5
        (rrInit
          c5ExampleInput)).queue.map
        (fun j =>
          (c5ExampleInput.getD j
              ({ id := "", arrivalTime := 0, burstTime := 0, priority := 0 } :
                Process)).arrivalTime) =
      [3, 2] ∧
    ¬ List.Sorted (· ≤ ·) ([3, 2] : List ℤ) := by
  refine ⟨by decide, by decide⟩

/-- C5 amended: after each executed Round Robin time slice, every not-yet
-visited process that has arrived by the new clock (and has remaining work) is
enqueued in input-list order — the strictly increasing index order, not
arrival order — and only after these newcomers is the just-run process, if it
still has remaining time, re-enqueued at the back. -/
theorem c5_enqueue_input_order (processes : List Process) (timeQuantum : ℤ)
    (s : RRState) (idx : ℕ) (rest : List ℕ) (p : Process)
    (hqueue : s.queue = idx :: rest) (hp : processes[idx]? = some p)
    (exec t' : ℤ) (rem' : List ℤ)
    (hexec : exec = min timeQuantum (s.remainingTime.getD idx 0))
    (ht' : t' = s.currentTime + exec)
    (hrem' : rem' = modIdx s.remainingTime idx (fun r => r - exec)) :
    (rrStep processes timeQuantum s).queue =
        rest ++ rrNewcomers processes s.visited t' rem' ++
          (if 0 < rem'.getD idx 0 then [idx] else []) ∧
      (rrNewcomers processes s.visited t' rem').Sorted (· < ·) ∧
      (∀ j q, processes[j]? = some q →
        (j ∈ rrNewcomers processes s.visited t' rem' ↔
          (s.visited.getD j false = false ∧ q.arrivalTime ≤ t' ∧
            0 < rem'.getD j 0))) := by
  subst hexec ht' hrem'
  refine ⟨?_, rrNewcomers_sorted processes s.visited _ _,
    fun j q hj => rrNewcomers_mem processes s.visited _ _ j q hj⟩
  unfold rrStep
  rw [hqueue]
  simp only [List.isEmpty_cons, Bool.false_eq_true, if_false, hqueue, hp]
  by_cases hfin :
      0 < (modIdx s.remainingTime idx
        (fun r => r - min timeQuantum (s.remainingTime.getD idx 0))).getD idx 0
  · simp only [hfin, if_true, List.append_assoc]
  · simp only [hfin, if_false, List.append_assoc, List.append_nil]

/-- C5 witness: the amended ordering at a concrete slice. -/
theorem c5_enqueue_input_order_witness :
    (rrStep
        c5ExampleInput 5
        (rrInit
          c5ExampleInput)).queue =
      [] ++ rrNewcomers
          c5ExampleInput
          (rrInit
            c5ExampleInput).visited
          5 [0, 2, 2] ++ (if (0 : ℤ) < List.getD [0, 2, 2] 0 0 then [0] else []) :=
  (c5_enqueue_input_order
    [{ id := "A", arrivalTime := 0, burstTime := 5, priority := 0 },
     { id := "B", arrivalTime := 3, burstTime := 2, priority := 0 },
     { id := "C", arrivalTime := 2, burstTime := 2, priority := 0 }] 5
    (rrInit
      c5ExampleInput)
    0 [] { id := "A", arrivalTime := 0, burstTime := 5, priority := 0 }
    (by decide) (by decide) 5 5 [0, 2, 2] (by decide) (by decide) (by decide)).1

/-! ## Shared correctness predicates -/

/-- C1's per-result invariant: `turnaroundTime = endTime − arrivalTime`,
`waitingTime = turnaroundTime − burstTime`, `waitingTime ≥ 0`. -/
def ResultOK (r : ProcessResult) : Prop :=
  r.turnaroundTime = r.endTime - r.arrivalTime ∧
  r.waitingTime = r.turnaroundTime - r.burstTime ∧
  0 ≤ r.waitingTime

/-- C1 for a fuelled solver output. -/
def ResultsOK (o : Option SchedulerOutput) : Prop :=
  ∀ out ∈ o, ∀ r ∈ out.results, ResultOK r

/-- The total duration of the Gantt blocks carrying a given process id. -/
def durSum (pid : String) (chart : List GanttBlock) : ℤ :=
  ((chart.filter (fun b => b.processId = pid)).map
    (fun b => b.endTime - b.startTime)).sum

/-- C2 for a fuelled solver output: per-process block durations sum to the
burst, blocks pairwise non-overlapping and strictly sorted by start, every
block non-degenerate. -/
def GanttOK (ps : List Process) (o : Option SchedulerOutput) : Prop :=
  ∀ out ∈ o,
    (∀ p ∈ ps, durSum p.id out.ganttChart = p.burstTime) ∧
    out.ganttChart.Pairwise
      (fun b₁ b₂ => b₁.endTime ≤ b₂.startTime ∧ b₁.startTime < b₂.startTime) ∧
    ∀ b ∈ out.ganttChart, b.startTime < b.endTime

/-- Every block names an input process (idle periods are never materialized,
C6). -/
def ChartIdsOK (ps : List Process) (o : Option SchedulerOutput) : Prop :=
  ∀ out ∈ o, ∀ b ∈ out.ganttChart, b.processId ∈ ps.map Process.id

/-- No two consecutive blocks name the same process (the merging consequence
of C6, for the non-queue-based policies). -/
def NoConsecDup (o : Option SchedulerOutput) : Prop :=
  ∀ out ∈ o, out.ganttChart.Chain' (fun b₁ b₂ => b₁.processId ≠ b₂.processId)

/-- Validity of a process list per spec §3/§6: non-empty, bursts ≥ 1,
arrivals ≥ 0, ids non-empty and pairwise distinct. -/
def ValidInput (ps : List Process) : Prop :=
  ps ≠ [] ∧ (∀ p ∈ ps, 1 ≤ p.burstTime ∧ 0 ≤ p.arrivalTime ∧ p.id ≠ "") ∧
    (ps.map Process.id).Nodup

/-- Sum of all burst times. -/
def sumBursts (ps : List Process) : ℤ := (ps.map Process.burstTime).sum

/-- Latest arrival, clamped to 0. -/
def maxArr (ps : List Process) : ℤ := (ps.map Process.arrivalTime).foldr max 0

/-- The uniform fuel bound used by the termination theorem: one loop-guard
check plus at most one iteration per process, per unit of burst, and per unit
of idle clock advance up to the latest arrival. -/
def fuelBound (ps : List Process) : ℕ :=
  ps.length + (sumBursts ps).toNat + (maxArr ps).toNat + 1

theorem zero_le_maxArr (ps : List Process) : 0 ≤ maxArr ps := by
  unfold maxArr
  induction ps with
  | nil => simp
  | cons p rest ih =>
    simp only [List.map_cons, List.foldr_cons]
    exact le_trans ih (le_max_right _ _)

theorem arrival_le_maxArr {ps : List Process} {p : Process} (h : p ∈ ps) :
    p.arrivalTime ≤ maxArr ps := by
  unfold maxArr
  induction ps with
  | nil => exact absurd h (List.not_mem_nil p)
  | cons x rest ih =>
    simp only [List.map_cons, List.foldr_cons]
    rcases List.mem_cons.mp h with rfl | hm
    · exact le_max_left _ _
    · exact le_trans (ih hm) (le_max_right _ _)

/-! ### Helpers for in-place array updates -/

theorem modIdx_cons {α : Type} (b : α) (tl : List α) (i : ℕ) (f : α → α) :
    modIdx (b :: tl) (i + 1) f = b :: modIdx tl i f := by
  unfold modIdx
  cases h : tl[i]? with
  | none => simp [h]
  | some a => simp [h]

theorem sum_modIdx (f : ℤ → ℤ) :
    ∀ (l : List ℤ) (i : ℕ) (a : ℤ), l[i]? = some a →
      (modIdx l i f).sum = l.sum - a + f a := by
  intro l
  induction l with
  | nil => intro i a h; simp at h
  | cons b tl ih =>
    intro i a h
    cases i with
    | zero =>
      obtain rfl : b = a := by simpa using h
      show (modIdx (b :: tl) 0 f).sum = _
      unfold modIdx
      simp only [List.getElem?_cons_zero]
      simp [List.set]
      ring
    | succ j =>
      rw [modIdx_cons]
      simp only [List.getElem?_cons_succ] at h
      simp only [List.sum_cons, ih j a h]
      ring

theorem countP_modIdx (p : ℤ → Bool) (f : ℤ → ℤ) :
    ∀ (l : List ℤ) (i : ℕ) (a : ℤ), l[i]? = some a →
      (modIdx l i f).countP p + (if p a then 1 else 0) =
        l.countP p + (if p (f a) then 1 else 0) := by
  intro l
  induction l with
  | nil => intro i a h; simp at h
  | cons b tl ih =>
    intro i a h
    cases i with
    | zero =>
      obtain rfl : b = a := by simpa using h
      show (modIdx (b :: tl) 0 f).countP p + _ = _
      unfold modIdx
      simp only [List.getElem?_cons_zero]
      show ((b :: tl).set 0 (f b)).countP p + _ = _
      simp only [List.set, List.countP_cons]
      by_cases h1 : p b <;> by_cases h2 : p (f b) <;> simp [h1, h2] <;> omega
    | succ j =>
      rw [modIdx_cons]
      simp only [List.getElem?_cons_succ] at h
      simp only [List.countP_cons]
      have := ih j a h
      by_cases h1 : p a <;> by_cases h2 : p (f a) <;> by_cases h3 : p b <;>
        simp [h1, h2, h3] at this ⊢ <;> omega

/-! ### Helpers for the reversed Gantt chart -/

/-- Adjacent blocks of the reversed (most-recent-first) chart: the older ends
no later than the newer starts. -/
def RevAdj (x y : GanttBlock) : Prop := y.endTime ≤ x.startTime

/-- The most recent block ends by time `t`. -/
def headEndLe (t : ℤ) : List GanttBlock → Prop
  | [] => True
  | b :: _ => b.endTime ≤ t

theorem headEndLe_mono {t t' : ℤ} (h : t ≤ t') :
    ∀ {l : List GanttBlock}, headEndLe t l → headEndLe t' l := by
  intro l
  cases l with
  | nil => intro; trivial
  | cons b rest => intro hb; exact le_trans hb h

theorem headEndLe_head? {t : ℤ} {l : List GanttBlock} (h : headEndLe t l)
    {y : GanttBlock} (hy : y ∈ l.head?) : y.endTime ≤ t := by
  cases l with
  | nil => exact absurd hy (by simp)
  | cons c cs =>
    simp only [List.head?_cons, Option.mem_def] at hy
    obtain rfl : c = y := by injection hy
    exact h

theorem mem_of_mem_head? {α : Type} {l : List α} {y : α} (hy : y ∈ l.head?) :
    y ∈ l := by
  cases l with
  | nil => exact absurd hy (by simp)
  | cons c cs =>
    simp only [List.head?_cons, Option.mem_def] at hy
    obtain rfl : c = y := by injection hy
    exact List.mem_cons_self c cs

theorem durSum_nil (pid : String) : durSum pid [] = 0 := rfl

theorem durSum_cons (pid : String) (b : GanttBlock) (l : List GanttBlock) :
    durSum pid (b :: l) =
      (if b.processId = pid then b.endTime - b.startTime else 0) + durSum pid l := by
  unfold durSum
  by_cases h : b.processId = pid
  · simp [List.filter_cons, h]
  · simp [List.filter_cons, h]

theorem durSum_reverse (pid : String) (l : List GanttBlock) :
    durSum pid l.reverse = durSum pid l := by
  unfold durSum
  rw [List.filter_reverse, List.map_reverse, List.sum_reverse]

theorem durSum_bumpHead (pid : String) (b : GanttBlock) (l : List GanttBlock) :
    durSum pid (bumpHead (b :: l)) =
      durSum pid (b :: l) + (if b.processId = pid then 1 else 0) := by
  show durSum pid ({ b with endTime := b.endTime + 1 } :: l) = _
  rw [durSum_cons, durSum_cons]
  by_cases h : b.processId = pid <;> simp [h] <;> ring

/-- A reversed chart whose adjacent blocks satisfy `RevAdj` and whose blocks
are all non-degenerate is, once re-reversed, pairwise ordered and
non-overlapping. -/
theorem revchain_pairwise :
    ∀ {l : List GanttBlock}, l.Chain' RevAdj →
      (∀ b ∈ l, b.startTime < b.endTime) →
      l.Pairwise (fun x y => y.endTime ≤ x.startTime ∧ y.startTime < x.startTime) := by
  intro l
  induction l with
  | nil => intro _ _; exact List.Pairwise.nil
  | cons b rest ih =>
    intro hchain hpos
    rw [List.chain'_cons'] at hchain
    obtain ⟨hhead, htail⟩ := hchain
    have hrest := ih htail (fun x hx => hpos x (List.mem_cons_of_mem b hx))
    refine List.Pairwise.cons ?_ hrest
    intro y hy
    have : ∀ z ∈ rest, z.endTime ≤ b.startTime := by
      intro z hz
      cases rest with
      | nil => exact absurd hz (List.not_mem_nil z)
      | cons c rest' =>
        have hc : c.endTime ≤ b.startTime := hhead c rfl
        rcases List.mem_cons.mp hz with rfl | hz'
        · exact hc
        · have := List.pairwise_cons.mp hrest
          have hzc := this.1 z hz'
          have hcpos : c.startTime < c.endTime :=
            hpos c (List.mem_cons_of_mem b (List.mem_cons_self c rest'))
          exact le_trans hzc.1 (le_of_lt (lt_of_lt_of_le hcpos hc))
    have hyend := this y hy
    have hypos : y.startTime < y.endTime := hpos y (List.mem_cons_of_mem b hy)
    have hbpos : b.startTime < b.endTime := hpos b (List.mem_cons_self b rest)
    exact ⟨hyend, lt_of_lt_of_le hypos hyend⟩

theorem chart_reverse_ok {l : List GanttBlock} (hchain : l.Chain' RevAdj)
    (hpos : ∀ b ∈ l, b.startTime < b.endTime) :
    l.reverse.Pairwise
        (fun b₁ b₂ => b₁.endTime ≤ b₂.startTime ∧ b₁.startTime < b₂.startTime) ∧
      ∀ b ∈ l.reverse, b.startTime < b.endTime := by
  constructor
  · rw [List.pairwise_reverse]
    exact revchain_pairwise hchain hpos
  · intro b hb
    exact hpos b (List.mem_reverse.mp hb)

/-! ## FCFS correctness -/

/-- The results `fcfsGo` accumulates, written without an accumulator. -/
def fcfsResults : List Process → ℤ → List ProcessResult
  | [], _ => []
  | p :: rest, currentTime =>
    let t := if currentTime < p.arrivalTime then p.arrivalTime else currentTime
    { id := p.id, arrivalTime := p.arrivalTime, burstTime := p.burstTime,
      priority := p.priority, startTime := t, endTime := t + p.burstTime,
      turnaroundTime := t + p.burstTime - p.arrivalTime,
      waitingTime := t - p.arrivalTime } :: fcfsResults rest (t + p.burstTime)

/-- The Gantt blocks `fcfsGo` accumulates, written without an accumulator. -/
def fcfsBlocks : List Process → ℤ → List GanttBlock
  | [], _ => []
  | p :: rest, currentTime =>
    let t := if currentTime < p.arrivalTime then p.arrivalTime else currentTime
    { processId := p.id, startTime := t, endTime := t + p.burstTime } ::
      fcfsBlocks rest (t + p.burstTime)

theorem fcfsGo_eq : ∀ (l : List Process) (t : ℤ) (res : List ProcessResult)
    (ch : List GanttBlock),
    fcfsGo l t res ch = (res.reverse ++ fcfsResults l t, ch.reverse ++ fcfsBlocks l t) := by
  intro l
  induction l with
  | nil => intro t res ch; simp [fcfsGo, fcfsResults, fcfsBlocks]
  | cons p rest ih =>
    intro t res ch
    show fcfsGo (p :: rest) t res ch = _
    unfold fcfsGo fcfsResults fcfsBlocks
    rw [ih]
    simp

theorem fcfsResults_ok : ∀ (l : List Process) (t : ℤ), ∀ r ∈ fcfsResults l t, ResultOK r := by
  intro l
  induction l with
  | nil => intro t r hr; exact absurd hr (List.not_mem_nil r)
  | cons p rest ih =>
    intro t r hr
    unfold fcfsResults at hr
    rcases List.mem_cons.mp hr with rfl | hr'
    · refine ⟨by ring, by dsimp only; ring, ?_⟩
      dsimp only
      by_cases h : t < p.arrivalTime <;> simp [h] <;> omega
    · exact ih _ r hr'

theorem fcfsBlocks_pos (l : List Process) (hv : ∀ p ∈ l, 1 ≤ p.burstTime) :
    ∀ (t : ℤ), ∀ b ∈ fcfsBlocks l t, b.startTime < b.endTime := by
  induction l with
  | nil => intro t b hb; exact absurd hb (List.not_mem_nil b)
  | cons p rest ih =>
    intro t b hb
    unfold fcfsBlocks at hb
    rcases List.mem_cons.mp hb with rfl | hb'
    · have := hv p (List.mem_cons_self p rest)
      dsimp only; omega
    · exact ih (fun q hq => hv q (List.mem_cons_of_mem p hq)) _ b hb'

/-- Blocks are produced in chronological order, each starting no earlier than
the running clock. -/
theorem fcfsBlocks_chain (l : List Process) (hv : ∀ p ∈ l, 1 ≤ p.burstTime) :
    ∀ (t : ℤ), (fcfsBlocks l t).Chain' (fun b₁ b₂ => b₁.endTime ≤ b₂.startTime) ∧
      ∀ b ∈ fcfsBlocks l t, t ≤ b.startTime := by
  induction l with
  | nil => intro t; exact ⟨List.chain'_nil, fun b hb => absurd hb (List.not_mem_nil b)⟩
  | cons p rest ih =>
    intro t
    obtain ⟨hchain, hstart⟩ := ih (fun q hq => hv q (List.mem_cons_of_mem p hq))
      ((if t < p.arrivalTime then p.arrivalTime else t) + p.burstTime)
    constructor
    · unfold fcfsBlocks
      rw [List.chain'_cons']
      refine ⟨?_, hchain⟩
      intro y hy
      have := hstart y (by
        cases hfb : fcfsBlocks rest ((if t < p.arrivalTime then p.arrivalTime else t) + p.burstTime) with
        | nil => rw [hfb] at hy; exact absurd hy (by simp)
        | cons c cs =>
          rw [hfb] at hy
          simp only [List.head?_cons, Option.mem_def] at hy
          obtain rfl : c = y := by injection hy
          exact List.mem_cons_self c cs)
      exact this
    · intro b hb
      unfold fcfsBlocks at hb
      rcases List.mem_cons.mp hb with rfl | hb'
      · dsimp only
        by_cases h : t < p.arrivalTime <;> simp [h] <;> omega
      · have h1 := hstart b hb'
        have h2 := hv p (List.mem_cons_self p rest)
        by_cases h : t < p.arrivalTime
        · simp only [h, if_true] at h1; omega
        · simp only [h, if_false] at h1; omega

theorem fcfsBlocks_map_id : ∀ (l : List Process) (t : ℤ),
    (fcfsBlocks l t).map GanttBlock.processId = l.map Process.id := by
  intro l
  induction l with
  | nil => intro t; rfl
  | cons p rest ih =>
    intro t
    unfold fcfsBlocks
    simp only [List.map_cons]
    rw [ih]

theorem fcfsBlocks_durSum : ∀ (l : List Process) (t : ℤ) (pid : String),
    durSum pid (fcfsBlocks l t) =
      ((l.filter (fun p => p.id = pid)).map Process.burstTime).sum := by
  intro l
  induction l with
  | nil => intro t pid; rfl
  | cons p rest ih =>
    intro t pid
    unfold fcfsBlocks
    rw [durSum_cons, ih]
    by_cases h : p.id = pid
    · simp [List.filter_cons, h]
    · simp [List.filter_cons, h]

/-- With pairwise-distinct ids, the filter by a member's id is that member
alone. -/
theorem filter_id_singleton :
    ∀ {l : List Process}, (l.map Process.id).Nodup → ∀ {p : Process}, p ∈ l →
      l.filter (fun q => q.id = p.id) = [p] := by
  intro l
  induction l with
  | nil => intro _ p hp; exact absurd hp (List.not_mem_nil p)
  | cons x rest ih =>
    intro hnd p hp
    simp only [List.map_cons, List.nodup_cons] at hnd
    rcases List.mem_cons.mp hp with rfl | hp'
    · rw [List.filter_cons]
      simp only [decide_eq_true_eq, if_true]
      congr 1
      rw [List.filter_eq_nil_iff]
      intro q hq hqid
      simp only [decide_eq_true_eq] at hqid
      exact hnd.1 (hqid ▸ List.mem_map_of_mem Process.id hq)
    · rw [List.filter_cons]
      have hxp : ¬ (x.id = p.id) := by
        intro h
        exact hnd.1 (h ▸ List.mem_map_of_mem Process.id hp')
      simp only [decide_eq_true_eq, hxp, if_false]
      exact ih hnd.2 hp'

theorem solveFCFS_eq (ps : List Process) :
    solveFCFS ps =
      calculateAverages
        (fcfsResults (sortBy (fun a b => a.arrivalTime < b.arrivalTime) ps) 0)
        (fcfsBlocks (sortBy (fun a b => a.arrivalTime < b.arrivalTime) ps) 0) := by
  unfold solveFCFS
  show calculateAverages
      (fcfsGo (sortBy (fun a b => a.arrivalTime < b.arrivalTime) ps) 0 [] []).1
      (fcfsGo (sortBy (fun a b => a.arrivalTime < b.arrivalTime) ps) 0 [] []).2 = _
  rw [fcfsGo_eq]
  simp

theorem solveFCFS_resultsOK (ps : List Process) :
    ∀ r ∈ (solveFCFS ps).results, ResultOK r := by
  intro r hr
  rw [solveFCFS_eq] at hr
  have hperm := calculateAverages_results_perm
    (fcfsResults (sortBy (fun a b => a.arrivalTime < b.arrivalTime) ps) 0)
    (fcfsBlocks (sortBy (fun a b => a.arrivalTime < b.arrivalTime) ps) 0)
  exact fcfsResults_ok _ 0 r (hperm.subset hr)

theorem solveFCFS_chart :
    ∀ (ps : List Process),
      (solveFCFS ps).ganttChart =
        fcfsBlocks (sortBy (fun a b => a.arrivalTime < b.arrivalTime) ps) 0 := by
  intro ps
  rw [solveFCFS_eq]
  rfl

theorem sortBy_map_nodup {ps : List Process} (hids : (ps.map Process.id).Nodup)
    (lt : Process → Process → Bool) :
    ((sortBy lt ps).map Process.id).Nodup :=
  (((sortBy_perm lt ps).map Process.id).nodup_iff).mpr hids

theorem solveFCFS_ganttOK (ps : List Process)
    (hv : ∀ p ∈ ps, 1 ≤ p.burstTime) (hids : (ps.map Process.id).Nodup) :
    (∀ p ∈ ps, durSum p.id (solveFCFS ps).ganttChart = p.burstTime) ∧
      (solveFCFS ps).ganttChart.Pairwise
        (fun b₁ b₂ => b₁.endTime ≤ b₂.startTime ∧ b₁.startTime < b₂.startTime) ∧
      ∀ b ∈ (solveFCFS ps).ganttChart, b.startTime < b.endTime := by
  rw [solveFCFS_chart]
  set sorted := sortBy (fun a b => a.arrivalTime < b.arrivalTime) ps with hsorted
  have hperm : sorted.Perm ps := sortBy_perm _ ps
  have hv' : ∀ p ∈ sorted, 1 ≤ p.burstTime := fun p hp => hv p (hperm.subset hp)
  have hids' : (sorted.map Process.id).Nodup := sortBy_map_nodup hids _
  have hpos := fcfsBlocks_pos sorted hv' 0
  refine ⟨?_, ?_, hpos⟩
  · intro p hp
    have hp' : p ∈ sorted := hperm.mem_iff.mpr hp
    rw [fcfsBlocks_durSum, filter_id_singleton hids' hp']
    simp
  · have hchain := (fcfsBlocks_chain sorted hv' 0).1
    have hrev : (fcfsBlocks sorted 0).reverse.Chain' RevAdj := by
      rw [List.chain'_reverse]
      exact hchain
    have := revchain_pairwise hrev (fun b hb => hpos b (List.mem_reverse.mp hb))
    rw [List.pairwise_reverse] at this
    exact this

theorem solveFCFS_idsOK (ps : List Process) :
    ∀ b ∈ (solveFCFS ps).ganttChart, b.processId ∈ ps.map Process.id := by
  intro b hb
  rw [solveFCFS_chart] at hb
  have : b.processId ∈ (fcfsBlocks (sortBy (fun a b => a.arrivalTime < b.arrivalTime) ps) 0).map
      GanttBlock.processId := List.mem_map_of_mem GanttBlock.processId hb
  rw [fcfsBlocks_map_id] at this
  exact (((sortBy_perm _ ps).map Process.id).mem_iff).mp this

theorem solveFCFS_noConsecDup (ps : List Process)
    (hids : (ps.map Process.id).Nodup) :
    (solveFCFS ps).ganttChart.Chain' (fun b₁ b₂ => b₁.processId ≠ b₂.processId) := by
  rw [solveFCFS_chart]
  have hids' := sortBy_map_nodup hids (fun a b => a.arrivalTime < b.arrivalTime)
  rw [← fcfsBlocks_map_id _ 0] at hids'
  have hpair : (fcfsBlocks (sortBy (fun a b => a.arrivalTime < b.arrivalTime) ps) 0).Pairwise
      (fun b₁ b₂ => b₁.processId ≠ b₂.processId) := by
    have h2 : ((fcfsBlocks (sortBy (fun a b => a.arrivalTime < b.arrivalTime) ps) 0).map
        GanttBlock.processId).Pairwise (· ≠ ·) := hids'
    rw [List.pairwise_map] at h2
    exact h2
  exact hpair.chain'

/-! ## The non-preemptive family: SJF, Priority-NP, LJF, HRRN -/

/-- Any selection through `npCand` returns an in-range, arrived, unfinished
candidate — uniformly in the policy key. -/
theorem npPick_spec {sorted : List Process} {t : ℤ} {done : List Bool}
    {replace : ℕ × Process → Option (ℕ × Process) → Bool} {ip : ℕ × Process}
    (h : selectIdx (npCand t done) replace sorted = some ip) :
    sorted[ip.1]? = some ip.2 ∧ ip.2.arrivalTime ≤ t ∧
      done.getD ip.1 false = false := by
  obtain ⟨h1, h2⟩ := selectIdx_some h
  simp only [npCand, Bool.and_eq_true, decide_eq_true_eq, Bool.not_eq_true'] at h2
  exact ⟨h1, h2.1, h2.2⟩

theorem npStep_resultsOK {pick : ℤ → List Bool → Option (ℕ × Process)}
    (hpick : ∀ t done ip, pick t done = some ip → ip.2.arrivalTime ≤ t)
    (s : NPState) (h : ∀ r ∈ s.resultsRev, ResultOK r) :
    ∀ r ∈ (npStep pick s).resultsRev, ResultOK r := by
  intro r hr
  unfold npStep at hr
  cases hp : pick s.currentTime s.isCompleted with
  | none => rw [hp] at hr; exact h r hr
  | some ip =>
    rw [hp] at hr
    rcases List.mem_cons.mp hr with rfl | hr'
    · have harr := hpick _ _ _ hp
      refine ⟨rfl, ?_, ?_⟩
      · show s.currentTime - ip.2.arrivalTime =
          s.currentTime + ip.2.burstTime - ip.2.arrivalTime - ip.2.burstTime
        ring
      · show 0 ≤ s.currentTime - ip.2.arrivalTime
        omega
    · exact h r hr'

/-- C1 for the whole non-preemptive skeleton. -/
theorem npRun_resultsOK {pick : ℤ → List Bool → Option (ℕ × Process)}
    (hpick : ∀ t done ip, pick t done = some ip → ip.2.arrivalTime ≤ t)
    (n : ℕ) (fuel : ℕ) : ResultsOK (npRun pick n fuel) := by
  intro out hout r hr
  have := loopRun_some_inv (fun s => ∀ r ∈ s.resultsRev, ResultOK r)
    (fun s hs _ => npStep_resultsOK hpick s hs) fuel (npInit n) out
    (by intro r hr; exact absurd hr (List.not_mem_nil r)) hout
  obtain ⟨s', hs', _, rfl⟩ := this
  have hperm := calculateAverages_results_perm s'.resultsRev.reverse s'.ganttRev.reverse
  have : r ∈ s'.resultsRev.reverse := hperm.subset hr
  exact hs' r (List.mem_reverse.mp this)

/-- The chart/accounting invariant of the non-preemptive loop. -/
structure NPInv (sorted : List Process) (s : NPState) : Prop where
  hlen : s.isCompleted.length = sorted.length
  hcount : s.completed = s.isCompleted.countP (fun b => b)
  hchain : s.ganttRev.Chain' RevAdj
  hpos : ∀ b ∈ s.ganttRev, b.startTime < b.endTime
  hhead : headEndLe s.currentTime s.ganttRev
  hacc : ∀ i p, sorted[i]? = some p →
    durSum p.id s.ganttRev = (if s.isCompleted.getD i false then p.burstTime else 0)
  hfrom : ∀ b ∈ s.ganttRev, ∃ j pj, sorted[j]? = some pj ∧
    s.isCompleted.getD j false = true ∧ b.processId = pj.id
  hdup : s.ganttRev.Chain' (fun x y => x.processId ≠ y.processId)

theorem getD_set_self {α : Type} {l : List α} {i : ℕ} (hi : i < l.length)
    (a d : α) : (l.set i a).getD i d = a := by
  rw [List.getD_eq_getElem?_getD, List.getElem?_set_self (by simpa using hi)]
  rfl

theorem getD_set_ne {α : Type} (l : List α) {i j : ℕ} (h : i ≠ j) (a d : α) :
    (l.set i a).getD j d = l.getD j d := by
  rw [List.getD_eq_getElem?_getD, List.getElem?_set_ne h, ← List.getD_eq_getElem?_getD]

theorem npInv_init (sorted : List Process) : NPInv sorted (npInit sorted.length) := by
  constructor
  · simp [npInit]
  · show 0 = (List.replicate sorted.length false).countP (fun b => b)
    refine (List.countP_eq_zero.mpr ?_).symm
    intro b hb
    rw [List.eq_of_mem_replicate hb]
    simp
  · exact List.chain'_nil
  · intro b hb; exact absurd hb (List.not_mem_nil b)
  · trivial
  · intro i p hp
    have : (List.replicate sorted.length false).getD i false = false := by
      rcases lt_or_ge i sorted.length with h | h
      · rw [List.getD_eq_getElem?_getD, List.getElem?_replicate]
        simp [h]
      · rw [List.getD_eq_getElem?_getD, List.getElem?_eq_none (by simpa using h)]
        rfl
    rw [show (npInit sorted.length).isCompleted = List.replicate sorted.length false from rfl,
      this]
    simp [npInit, durSum_nil]
  · intro b hb; exact absurd hb (List.not_mem_nil b)
  · exact List.chain'_nil

theorem npStep_eq_none {pick : ℤ → List Bool → Option (ℕ × Process)} {s : NPState}
    (hp : pick s.currentTime s.isCompleted = none) :
    npStep pick s = { s with currentTime := s.currentTime + 1 } := by
  unfold npStep
  rw [hp]

theorem npStep_eq_some {pick : ℤ → List Bool → Option (ℕ × Process)} {s : NPState}
    {ip : ℕ × Process} (hp : pick s.currentTime s.isCompleted = some ip) :
    npStep pick s =
      { currentTime := s.currentTime + ip.2.burstTime
        completed := s.completed + 1
        isCompleted := s.isCompleted.set ip.1 true
        resultsRev :=
          { id := ip.2.id, arrivalTime := ip.2.arrivalTime, burstTime := ip.2.burstTime,
            priority := ip.2.priority, startTime := s.currentTime,
            endTime := s.currentTime + ip.2.burstTime,
            turnaroundTime := s.currentTime + ip.2.burstTime - ip.2.arrivalTime,
            waitingTime := s.currentTime - ip.2.arrivalTime } :: s.resultsRev
        ganttRev :=
          { processId := ip.2.id, startTime := s.currentTime,
            endTime := s.currentTime + ip.2.burstTime } :: s.ganttRev } := by
  unfold npStep
  rw [hp]

theorem npInv_step {sorted : List Process}
    {pick : ℤ → List Bool → Option (ℕ × Process)}
    (hpick : ∀ t done ip, pick t done = some ip →
      sorted[ip.1]? = some ip.2 ∧ ip.2.arrivalTime ≤ t ∧ done.getD ip.1 false = false)
    (hv : ∀ p ∈ sorted, 1 ≤ p.burstTime)
    (hids : (sorted.map Process.id).Nodup)
    (s : NPState) (hinv : NPInv sorted s) : NPInv sorted (npStep pick s) := by
  obtain ⟨hlen, hcount, hchain, hpos, hhead, hacc, hfrom, hdup⟩ := hinv
  cases hp : pick s.currentTime s.isCompleted with
  | none =>
    rw [npStep_eq_none hp]
    refine ⟨hlen, hcount, hchain, hpos, ?_, hacc, hfrom, hdup⟩
    show headEndLe (s.currentTime + 1) s.ganttRev
    exact headEndLe_mono (by omega) hhead
  | some ip =>
    obtain ⟨hpp, harr, hdone⟩ := hpick _ _ _ hp
    have hi : ip.1 < sorted.length := by
      by_contra hge
      rw [List.getElem?_eq_none (by omega)] at hpp
      exact absurd hpp (by simp)
    have hilen : ip.1 < s.isCompleted.length := by omega
    have hburst : 1 ≤ ip.2.burstTime := hv ip.2 (mem_of_getElem?_proc hpp)
    have hd0 : durSum ip.2.id s.ganttRev = 0 := by
      have := hacc ip.1 ip.2 hpp
      rw [hdone] at this
      simpa using this
    rw [npStep_eq_some hp]
    constructor
    · simpa using hlen
    · show s.completed + 1 = (s.isCompleted.set ip.1 true).countP (fun b => b)
      rw [List.countP_set _ _ _ _ hilen]
      have hfalse : s.isCompleted[ip.1] = false := by
        have := hdone
        rw [List.getD_eq_getElem?_getD, List.getElem?_eq_getElem hilen] at this
        simpa using this
      rw [hfalse]
      simp [hcount]
    · show List.Chain' RevAdj (_ :: s.ganttRev)
      rw [List.chain'_cons']
      refine ⟨?_, hchain⟩
      intro y hy
      show y.endTime ≤ s.currentTime
      exact headEndLe_head? hhead hy
    · intro b hb
      rcases List.mem_cons.mp hb with rfl | hb'
      · show s.currentTime < s.currentTime + ip.2.burstTime
        omega
      · exact hpos b hb'
    · show (s.currentTime + ip.2.burstTime : ℤ) ≤ s.currentTime + ip.2.burstTime
      omega
    · intro j q hq
      rw [durSum_cons]
      by_cases hij : ip.1 = j
      · subst hij
        obtain rfl : ip.2 = q := by rw [hpp] at hq; injection hq
        rw [getD_set_self hilen]
        dsimp only
        rw [if_pos rfl, hd0, if_pos rfl]
        ring
      · have hneq : ip.2.id ≠ q.id := by
          intro h
          exact hij (idx_eq_of_id_eq hids hpp hq h)
        rw [getD_set_ne _ hij]
        dsimp only
        rw [if_neg hneq, hacc j q hq]
        ring
    · intro b hb
      rcases List.mem_cons.mp hb with rfl | hb'
      · exact ⟨ip.1, ip.2, hpp, getD_set_self hilen _ _, rfl⟩
      · obtain ⟨j, pj, hj, hjdone, hjid⟩ := hfrom b hb'
        by_cases hij : ip.1 = j
        · exact ⟨j, pj, hj, by rw [← hij, getD_set_self hilen], hjid⟩
        · exact ⟨j, pj, hj, by rw [getD_set_ne _ hij]; exact hjdone, hjid⟩
    · show List.Chain' _ (_ :: s.ganttRev)
      rw [List.chain'_cons']
      refine ⟨?_, hdup⟩
      intro y hy
      obtain ⟨j, pj, hj, hjdone, hjid⟩ := hfrom y (mem_of_mem_head? hy)
      show ip.2.id ≠ y.processId
      rw [hjid]
      intro h
      have hij := idx_eq_of_id_eq hids hpp hj h
      rw [← hij, hdone] at hjdone
      exact absurd hjdone (by simp)

/-- At loop exit every process is completed, so every per-process duration sum
equals the burst. -/
theorem npInv_exit {sorted : List Process} {s : NPState}
    (hinv : NPInv sorted s) (hexit : sorted.length ≤ s.completed) :
    ∀ (i : ℕ) (p : Process), sorted[i]? = some p →
      durSum p.id s.ganttRev = p.burstTime := by
  intro i p hp
  have hcount := hinv.hcount
  have hlen := hinv.hlen
  have hall : ∀ b ∈ s.isCompleted, b = true := by
    rw [← List.countP_eq_length]
    have h1 : s.isCompleted.countP (fun b => b) ≤ s.isCompleted.length :=
      List.countP_le_length _
    have : s.isCompleted.countP (fun b => b) = s.isCompleted.length := by omega
    simpa using this
  have hi : i < s.isCompleted.length := by
    have : i < sorted.length := by
      by_contra hge
      rw [List.getElem?_eq_none (by omega)] at hp
      exact absurd hp (by simp)
    omega
  have hdone : s.isCompleted.getD i false = true := by
    rw [List.getD_eq_getElem?_getD, List.getElem?_eq_getElem hi]
    exact hall _ (List.getElem_mem hi)
  have := hinv.hacc i p hp
  rw [hdone] at this
  simpa using this

/-- Chart facts carried to any output of the non-preemptive loop. -/
theorem npRun_chart {sorted : List Process}
    {pick : ℤ → List Bool → Option (ℕ × Process)}
    (hpick : ∀ t done ip, pick t done = some ip →
      sorted[ip.1]? = some ip.2 ∧ ip.2.arrivalTime ≤ t ∧ done.getD ip.1 false = false)
    (hv : ∀ p ∈ sorted, 1 ≤ p.burstTime)
    (hids : (sorted.map Process.id).Nodup) (fuel : ℕ) :
    ∀ out ∈ npRun pick sorted.length fuel,
      (∀ (i : ℕ) (p : Process), sorted[i]? = some p →
        durSum p.id out.ganttChart = p.burstTime) ∧
      out.ganttChart.Pairwise
        (fun b₁ b₂ => b₁.endTime ≤ b₂.startTime ∧ b₁.startTime < b₂.startTime) ∧
      (∀ b ∈ out.ganttChart, b.startTime < b.endTime) ∧
      (∀ b ∈ out.ganttChart, b.processId ∈ sorted.map Process.id) ∧
      out.ganttChart.Chain' (fun b₁ b₂ => b₁.processId ≠ b₂.processId) := by
  intro out hout
  obtain ⟨s', hs', hexit, rfl⟩ := loopRun_some_inv (NPInv sorted)
    (fun s hs _ => npInv_step hpick hv hids s hs) fuel (npInit sorted.length) out
    (npInv_init sorted) hout
  rw [decide_eq_true_eq] at hexit
  have hchart : (calculateAverages s'.resultsRev.reverse s'.ganttRev.reverse).ganttChart =
      s'.ganttRev.reverse := rfl
  rw [hchart]
  obtain ⟨hpair, hpos⟩ := chart_reverse_ok hs'.hchain hs'.hpos
  refine ⟨?_, hpair, hpos, ?_, ?_⟩
  · intro i p hp
    rw [durSum_reverse]
    exact npInv_exit hs' hexit i p hp
  · intro b hb
    obtain ⟨j, pj, hj, _, hjid⟩ := hs'.hfrom b (List.mem_reverse.mp hb)
    rw [hjid]
    exact List.mem_map_of_mem Process.id (mem_of_getElem?_proc hj)
  · rw [List.chain'_reverse]
    exact List.Chain'.imp (fun a b hab => Ne.symm hab) hs'.hdup

/-- Termination of the non-preemptive loop under a strictly decreasing
measure: completions plus the remaining idle climb to the latest arrival. -/
theorem npRun_isSome {sorted : List Process}
    {pick : ℤ → List Bool → Option (ℕ × Process)} {A : ℤ}
    (hv : ∀ p ∈ sorted, 1 ≤ p.burstTime)
    (harr : ∀ p ∈ sorted, p.arrivalTime ≤ A) (hA : 0 ≤ A)
    (hpick : ∀ t done ip, pick t done = some ip →
      sorted[ip.1]? = some ip.2 ∧ ip.2.arrivalTime ≤ t ∧ done.getD ip.1 false = false)
    (hpnone : ∀ t done, pick t done = none →
      ∀ (i : ℕ) (p : Process), sorted[i]? = some p → npCand t done i p = false)
    (fuel : ℕ) (hfuel : sorted.length + A.toNat < fuel) :
    (npRun pick sorted.length fuel).isSome := by
  apply loopRun_isSome
    (fun s => s.isCompleted.length = sorted.length ∧
      s.completed = s.isCompleted.countP (fun b => b))
    (fun s => (sorted.length - s.completed) + (A - s.currentTime).toNat)
  · intro s hs hexit
    rw [decide_eq_false_iff_not, not_le] at hexit
    obtain ⟨hlen, hcount⟩ := hs
    cases hp : pick s.currentTime s.isCompleted with
    | none =>
      rw [npStep_eq_none hp]
      refine ⟨⟨hlen, hcount⟩, ?_⟩
      have hex : ∃ (i : ℕ), s.isCompleted[i]? = some false := by
        by_contra hno
        push_neg at hno
        have : ∀ b ∈ s.isCompleted, (fun b => b) b = true := by
          intro b hb
          obtain ⟨i, hi⟩ := List.getElem?_of_mem hb
          cases b with
          | true => rfl
          | false => exact absurd hi (hno i)
        have := List.countP_eq_length.mpr this
        omega
      obtain ⟨i, hi⟩ := hex
      have hilen : i < s.isCompleted.length := by
        by_contra hge
        rw [List.getElem?_eq_none (by omega)] at hi
        exact absurd hi (by simp)
      have hplt : i < sorted.length := by omega
      obtain ⟨p, hp'⟩ : ∃ p, sorted[i]? = some p :=
        ⟨sorted[i], List.getElem?_eq_getElem hplt⟩
      have hcand := hpnone _ _ hp i p hp'
      have hdonei : s.isCompleted.getD i false = false := by
        rw [List.getD_eq_getElem?_getD, hi]
        rfl
      rw [npCand, hdonei] at hcand
      simp only [Bool.not_false, Bool.and_true, decide_eq_false_iff_not, not_le] at hcand
      have hpA : p.arrivalTime ≤ A := harr p (mem_of_getElem?_proc hp')
      have h1 : s.currentTime < A := lt_of_lt_of_le hcand hpA
      show (sorted.length - s.completed) + (A - (s.currentTime + 1)).toNat <
        (sorted.length - s.completed) + (A - s.currentTime).toNat
      omega
    | some ip =>
      obtain ⟨hpp, harr', hdone⟩ := hpick _ _ _ hp
      have hburst : 1 ≤ ip.2.burstTime := hv ip.2 (mem_of_getElem?_proc hpp)
      rw [npStep_eq_some hp]
      refine ⟨⟨by simpa using hlen, ?_⟩, ?_⟩
      · show s.completed + 1 = (s.isCompleted.set ip.1 true).countP (fun b => b)
        have hilen : ip.1 < s.isCompleted.length := by
          have : ip.1 < sorted.length := by
            by_contra hge
            rw [List.getElem?_eq_none (by omega)] at hpp
            exact absurd hpp (by simp)
          omega
        rw [List.countP_set _ _ _ _ hilen]
        have hfalse : s.isCompleted[ip.1] = false := by
          have := hdone
          rw [List.getD_eq_getElem?_getD, List.getElem?_eq_getElem hilen] at this
          simpa using this
        rw [hfalse]
        simp [hcount]
      · show (sorted.length - (s.completed + 1)) +
            (A - (s.currentTime + ip.2.burstTime)).toNat <
          (sorted.length - s.completed) + (A - s.currentTime).toNat
        omega
  · exact ⟨by simp [npInit], by
      show (0 : ℕ) = (List.replicate sorted.length false).countP (fun b => b)
      refine (List.countP_eq_zero.mpr ?_).symm
      intro b hb
      rw [List.eq_of_mem_replicate hb]
      simp⟩
  · show (sorted.length - 0) + (A - 0).toNat < fuel
    omega

/-! ### Per-solver pick properties -/

theorem sjfPick_spec (sorted : List Process) (t : ℤ) (done : List Bool)
    (ip : ℕ × Process) (h : sjfPick sorted t done = some ip) :
    sorted[ip.1]? = some ip.2 ∧ ip.2.arrivalTime ≤ t ∧
      done.getD ip.1 false = false := npPick_spec h

theorem sjfPick_none (sorted : List Process) (t : ℤ) (done : List Bool)
    (h : sjfPick sorted t done = none) :
    ∀ (i : ℕ) (p : Process), sorted[i]? = some p → npCand t done i p = false :=
  selectIdx_none (fun _ _ _ _ => rfl) h

theorem priorityNPPick_spec (sorted : List Process) (t : ℤ) (done : List Bool)
    (ip : ℕ × Process) (h : priorityNPPick sorted t done = some ip) :
    sorted[ip.1]? = some ip.2 ∧ ip.2.arrivalTime ≤ t ∧
      done.getD ip.1 false = false := npPick_spec h

theorem priorityNPPick_none (sorted : List Process) (t : ℤ) (done : List Bool)
    (h : priorityNPPick sorted t done = none) :
    ∀ (i : ℕ) (p : Process), sorted[i]? = some p → npCand t done i p = false :=
  selectIdx_none (fun _ _ _ _ => rfl) h

theorem ljfPick_spec (sorted : List Process) (t : ℤ) (done : List Bool)
    (ip : ℕ × Process) (h : ljfPick sorted t done = some ip) :
    sorted[ip.1]? = some ip.2 ∧ ip.2.arrivalTime ≤ t ∧
      done.getD ip.1 false = false := npPick_spec h

theorem ljfPick_none {sorted : List Process} (hv : ∀ p ∈ sorted, 1 ≤ p.burstTime)
    (t : ℤ) (done : List Bool) (h : ljfPick sorted t done = none) :
    ∀ (i : ℕ) (p : Process), sorted[i]? = some p → npCand t done i p = false := by
  refine selectIdx_none (fun i p hp _ => ?_) h
  have := hv p (mem_of_getElem?_proc hp)
  simp only [decide_eq_true_eq]
  omega

theorem hrrnPick_spec (sorted : List Process) (t : ℤ) (done : List Bool)
    (ip : ℕ × Process) (h : hrrnPick sorted t done = some ip) :
    sorted[ip.1]? = some ip.2 ∧ ip.2.arrivalTime ≤ t ∧
      done.getD ip.1 false = false := npPick_spec h

theorem hrrnPick_none {sorted : List Process} (hv : ∀ p ∈ sorted, 1 ≤ p.burstTime)
    (t : ℤ) (done : List Bool) (h : hrrnPick sorted t done = none) :
    ∀ (i : ℕ) (p : Process), sorted[i]? = some p → npCand t done i p = false := by
  refine selectIdx_none (fun i p hp hc => ?_) h
  have hb := hv p (mem_of_getElem?_proc hp)
  simp only [npCand, Bool.and_eq_true, decide_eq_true_eq, Bool.not_eq_true'] at hc
  simp only [decide_eq_true_eq]
  have hpos : (0 : ℚ) < responseRatio t p := by
    unfold responseRatio
    apply div_pos
    · have : (0 : ℤ) < t - p.arrivalTime + p.burstTime := by omega
      exact_mod_cast this
    · have : (0 : ℤ) < p.burstTime := by omega
      exact_mod_cast this
  linarith

/-! ### Solver-level facts for the non-preemptive four -/

/-- All chart facts claimed by C2 and C6 for one solver output. -/
def ChartFacts (ps : List Process) (o : Option SchedulerOutput) : Prop :=
  GanttOK ps o ∧ ChartIdsOK ps o ∧ NoConsecDup o

/-- `arrivalLt` is the comparator of every `[...].sort((a, b) =>
a.arrivalTime - b.arrivalTime)` copy. -/
def arrivalLt (a b : Process) : Bool := a.arrivalTime < b.arrivalTime

theorem chartFacts_of_sorted {ps : List Process} {o : Option SchedulerOutput}
    (hkey : ∀ out ∈ o,
      (∀ (i : ℕ) (p : Process), (sortBy arrivalLt ps)[i]? = some p →
        durSum p.id out.ganttChart = p.burstTime) ∧
      out.ganttChart.Pairwise
        (fun b₁ b₂ => b₁.endTime ≤ b₂.startTime ∧ b₁.startTime < b₂.startTime) ∧
      (∀ b ∈ out.ganttChart, b.startTime < b.endTime) ∧
      (∀ b ∈ out.ganttChart, b.processId ∈ (sortBy arrivalLt ps).map Process.id) ∧
      out.ganttChart.Chain' (fun b₁ b₂ => b₁.processId ≠ b₂.processId)) :
    ChartFacts ps o := by
  have hperm := sortBy_perm arrivalLt ps
  refine ⟨?_, ?_, ?_⟩
  · intro out hout
    obtain ⟨hd, hpair, hpos, _, _⟩ := hkey out hout
    refine ⟨?_, hpair, hpos⟩
    intro p hp
    obtain ⟨i, hi⟩ := List.getElem?_of_mem (hperm.mem_iff.mpr hp)
    exact hd i p hi
  · intro out hout b hb
    obtain ⟨_, _, _, hids, _⟩ := hkey out hout
    exact ((hperm.map Process.id).mem_iff).mp (hids b hb)
  · intro out hout
    exact (hkey out hout).2.2.2.2

theorem solveSJF_eq (ps : List Process) (fuel : ℕ) :
    solveSJF ps fuel =
      npRun (sjfPick (sortBy arrivalLt ps)) (sortBy arrivalLt ps).length fuel := rfl

theorem solvePriorityNP_eq (ps : List Process) (fuel : ℕ) :
    solvePriorityNP ps fuel =
      npRun (priorityNPPick (sortBy arrivalLt ps)) (sortBy arrivalLt ps).length fuel := rfl

theorem solveLJF_eq (ps : List Process) (fuel : ℕ) :
    solveLJF ps fuel =
      npRun (ljfPick (sortBy arrivalLt ps)) (sortBy arrivalLt ps).length fuel := rfl

theorem solveHRRN_eq (ps : List Process) (fuel : ℕ) :
    solveHRRN ps fuel =
      npRun (hrrnPick (sortBy arrivalLt ps)) (sortBy arrivalLt ps).length fuel := rfl

theorem solveSJF_resultsOK (ps : List Process) (fuel : ℕ) :
    ResultsOK (solveSJF ps fuel) := by
  rw [ResultsOK, solveSJF_eq]
  exact npRun_resultsOK (fun t done ip h => ((sjfPick_spec _ t done ip h).2.1)) _ fuel

theorem solvePriorityNP_resultsOK (ps : List Process) (fuel : ℕ) :
    ResultsOK (solvePriorityNP ps fuel) := by
  rw [ResultsOK, solvePriorityNP_eq]
  exact npRun_resultsOK (fun t done ip h => ((priorityNPPick_spec _ t done ip h).2.1)) _ fuel

theorem solveLJF_resultsOK (ps : List Process) (fuel : ℕ) :
    ResultsOK (solveLJF ps fuel) := by
  rw [ResultsOK, solveLJF_eq]
  exact npRun_resultsOK (fun t done ip h => ((ljfPick_spec _ t done ip h).2.1)) _ fuel

theorem solveHRRN_resultsOK (ps : List Process) (fuel : ℕ) :
    ResultsOK (solveHRRN ps fuel) := by
  rw [ResultsOK, solveHRRN_eq]
  exact npRun_resultsOK (fun t done ip h => ((hrrnPick_spec _ t done ip h).2.1)) _ fuel

theorem sorted_burst {ps : List Process} (hv : ∀ p ∈ ps, 1 ≤ p.burstTime) :
    ∀ p ∈ sortBy arrivalLt ps, 1 ≤ p.burstTime :=
  fun p hp => hv p ((sortBy_perm arrivalLt ps).subset hp)

theorem sorted_arr {ps : List Process} :
    ∀ p ∈ sortBy arrivalLt ps, p.arrivalTime ≤ maxArr ps :=
  fun p hp => arrival_le_maxArr ((sortBy_perm arrivalLt ps).subset hp)

theorem solveSJF_chartFacts (ps : List Process)
    (hv : ∀ p ∈ ps, 1 ≤ p.burstTime) (hids : (ps.map Process.id).Nodup)
    (fuel : ℕ) : ChartFacts ps (solveSJF ps fuel) := by
  refine chartFacts_of_sorted ?_
  rw [solveSJF_eq]
  exact npRun_chart (fun t done ip h => sjfPick_spec _ t done ip h)
    (sorted_burst hv) (sortBy_map_nodup hids _) fuel

theorem solvePriorityNP_chartFacts (ps : List Process)
    (hv : ∀ p ∈ ps, 1 ≤ p.burstTime) (hids : (ps.map Process.id).Nodup)
    (fuel : ℕ) : ChartFacts ps (solvePriorityNP ps fuel) := by
  refine chartFacts_of_sorted ?_
  rw [solvePriorityNP_eq]
  exact npRun_chart (fun t done ip h => priorityNPPick_spec _ t done ip h)
    (sorted_burst hv) (sortBy_map_nodup hids _) fuel

theorem solveLJF_chartFacts (ps : List Process)
    (hv : ∀ p ∈ ps, 1 ≤ p.burstTime) (hids : (ps.map Process.id).Nodup)
    (fuel : ℕ) : ChartFacts ps (solveLJF ps fuel) := by
  refine chartFacts_of_sorted ?_
  rw [solveLJF_eq]
  exact npRun_chart (fun t done ip h => ljfPick_spec _ t done ip h)
    (sorted_burst hv) (sortBy_map_nodup hids _) fuel

theorem solveHRRN_chartFacts (ps : List Process)
    (hv : ∀ p ∈ ps, 1 ≤ p.burstTime) (hids : (ps.map Process.id).Nodup)
    (fuel : ℕ) : ChartFacts ps (solveHRRN ps fuel) := by
  refine chartFacts_of_sorted ?_
  rw [solveHRRN_eq]
  exact npRun_chart (fun t done ip h => hrrnPick_spec _ t done ip h)
    (sorted_burst hv) (sortBy_map_nodup hids _) fuel

theorem fuelBound_np {ps : List Process} {fuel : ℕ} (h : fuelBound ps ≤ fuel) :
    (sortBy arrivalLt ps).length + (maxArr ps).toNat < fuel := by
  have hlen : (sortBy arrivalLt ps).length = ps.length := length_sortBy _ ps
  have : 0 ≤ sumBursts ps ∨ True := Or.inr trivial
  unfold fuelBound at h
  omega

theorem solveSJF_isSome (ps : List Process) (hv : ∀ p ∈ ps, 1 ≤ p.burstTime)
    (fuel : ℕ) (hfuel : fuelBound ps ≤ fuel) : (solveSJF ps fuel).isSome := by
  rw [solveSJF_eq]
  exact npRun_isSome (sorted_burst hv) sorted_arr (zero_le_maxArr ps)
    (fun t done ip h => sjfPick_spec _ t done ip h)
    (fun t done h => sjfPick_none _ t done h) fuel (fuelBound_np hfuel)

theorem solvePriorityNP_isSome (ps : List Process) (hv : ∀ p ∈ ps, 1 ≤ p.burstTime)
    (fuel : ℕ) (hfuel : fuelBound ps ≤ fuel) : (solvePriorityNP ps fuel).isSome := by
  rw [solvePriorityNP_eq]
  exact npRun_isSome (sorted_burst hv) sorted_arr (zero_le_maxArr ps)
    (fun t done ip h => priorityNPPick_spec _ t done ip h)
    (fun t done h => priorityNPPick_none _ t done h) fuel (fuelBound_np hfuel)

theorem solveLJF_isSome (ps : List Process) (hv : ∀ p ∈ ps, 1 ≤ p.burstTime)
    (fuel : ℕ) (hfuel : fuelBound ps ≤ fuel) : (solveLJF ps fuel).isSome := by
  rw [solveLJF_eq]
  exact npRun_isSome (sorted_burst hv) sorted_arr (zero_le_maxArr ps)
    (fun t done ip h => ljfPick_spec _ t done ip h)
    (fun t done h => ljfPick_none (sorted_burst hv) t done h) fuel (fuelBound_np hfuel)

theorem solveHRRN_isSome (ps : List Process) (hv : ∀ p ∈ ps, 1 ≤ p.burstTime)
    (fuel : ℕ) (hfuel : fuelBound ps ≤ fuel) : (solveHRRN ps fuel).isSome := by
  rw [solveHRRN_eq]
  exact npRun_isSome (sorted_burst hv) sorted_arr (zero_le_maxArr ps)
    (fun t done ip h => hrrnPick_spec _ t done ip h)
    (fun t done h => hrrnPick_none (sorted_burst hv) t done h) fuel (fuelBound_np hfuel)

/-! ## The preemptive family: SRTF, Priority-P, LRTF (both modules) -/

theorem getD_map_burst {ps : List Process} {i : ℕ} {p : Process}
    (h : ps[i]? = some p) (d : ℤ) :
    (ps.map (fun q => q.burstTime)).getD i d = p.burstTime := by
  rw [List.getD_eq_getElem?_getD, List.getElem?_map, h]
  rfl

theorem getElem?_map_initResult {ps : List Process} {i : ℕ} {p : Process}
    (h : ps[i]? = some p) :
    (ps.map initResult)[i]? = some (initResult p) := by
  rw [List.getElem?_map, h]
  rfl

/-- Any selection through `pCand` returns an in-range, arrived candidate with
remaining work — uniformly in the policy key. -/
theorem pPick_spec {ps : List Process} {t : ℤ} {rem : List ℤ}
    {replace : ℕ × Process → Option (ℕ × Process) → Bool} {ip : ℕ × Process}
    (h : selectIdx (pCand t rem) replace ps = some ip) :
    ps[ip.1]? = some ip.2 ∧ ip.2.arrivalTime ≤ t ∧ 0 < rem.getD ip.1 0 := by
  obtain ⟨h1, h2⟩ := selectIdx_some h
  simp only [pCand, Bool.and_eq_true, decide_eq_true_eq] at h2
  exact ⟨h1, h2.1, h2.2⟩

/-- The C1 state invariant of the preemptive unit-step loop. -/
structure PInvBase (ps : List Process) (s : PState) : Prop where
  hremlen : s.remainingTime.length = ps.length
  hreslen : s.results.length = ps.length
  hcount : s.completed = s.remainingTime.countP (fun r => decide (r = 0))
  hrem : ∀ (i : ℕ) (p : Process), ps[i]? = some p →
    0 ≤ s.remainingTime.getD i 0 ∧ s.remainingTime.getD i 0 ≤ p.burstTime ∧
    (s.remainingTime.getD i 0 < p.burstTime →
      p.arrivalTime + (p.burstTime - s.remainingTime.getD i 0) ≤ s.currentTime)
  hres : ∀ (i : ℕ) (p : Process), ps[i]? = some p → ∃ r, s.results[i]? = some r ∧
    r.arrivalTime = p.arrivalTime ∧ r.burstTime = p.burstTime ∧
    (s.remainingTime.getD i 0 = 0 → ResultOK r)

theorem pStep_eq_none {pick : ℤ → List ℤ → Option (ℕ × Process)}
    {resetLast : Bool} {s : PState}
    (hp : pick s.currentTime s.remainingTime = none) :
    pStep pick resetLast s = { s with currentTime := s.currentTime + 1 } := by
  unfold pStep
  rw [hp]

theorem pStep_eq_some {pick : ℤ → List ℤ → Option (ℕ × Process)}
    {resetLast : Bool} {s : PState} {ip : ℕ × Process}
    (hp : pick s.currentTime s.remainingTime = some ip) :
    pStep pick resetLast s =
      if (modIdx s.remainingTime ip.1 (fun r => r - 1)).getD ip.1 0 = 0 then
        { currentTime := s.currentTime + 1
          completed := s.completed + 1
          remainingTime := modIdx s.remainingTime ip.1 (fun r => r - 1)
          results := modIdx
            (modIdx s.results ip.1
              (fun r => if r.startTime = -1 then { r with startTime := s.currentTime } else r))
            ip.1 (fun r =>
              { r with endTime := s.currentTime + 1,
                       turnaroundTime := s.currentTime + 1 - r.arrivalTime,
                       waitingTime := s.currentTime + 1 - r.arrivalTime - r.burstTime })
          ganttRev :=
            if s.lastProcessId = ip.2.id then bumpHead s.ganttRev
            else { processId := ip.2.id, startTime := s.currentTime,
                   endTime := s.currentTime + 1 } :: s.ganttRev
          lastProcessId := if resetLast then "" else ip.2.id }
      else
        { currentTime := s.currentTime + 1
          completed := s.completed
          remainingTime := modIdx s.remainingTime ip.1 (fun r => r - 1)
          results := modIdx s.results ip.1
            (fun r => if r.startTime = -1 then { r with startTime := s.currentTime } else r)
          ganttRev :=
            if s.lastProcessId = ip.2.id then bumpHead s.ganttRev
            else { processId := ip.2.id, startTime := s.currentTime,
                   endTime := s.currentTime + 1 } :: s.ganttRev
          lastProcessId := ip.2.id } := by
  unfold pStep
  rw [hp]

theorem pInvBase_init {ps : List Process} (hv : ∀ p ∈ ps, 1 ≤ p.burstTime) :
    PInvBase ps (pInit ps) := by
  have hg : ∀ (i : ℕ) (p : Process), ps[i]? = some p →
      (pInit ps).remainingTime.getD i 0 = p.burstTime :=
    fun i p hp => getD_map_burst hp 0
  constructor
  · simp [pInit]
  · simp [pInit]
  · show (0 : ℕ) = (ps.map (fun p => p.burstTime)).countP (fun r => decide (r = 0))
    refine (List.countP_eq_zero.mpr ?_).symm
    intro r hr
    obtain ⟨p, hp, rfl⟩ := List.mem_map.mp hr
    have := hv p hp
    simp only [decide_eq_true_eq]
    omega
  · intro i p hp
    rw [hg i p hp]
    have := hv p (mem_of_getElem?_proc hp)
    exact ⟨by omega, le_refl _, by omega⟩
  · intro i p hp
    refine ⟨initResult p, getElem?_map_initResult hp, rfl, rfl, ?_⟩
    intro h0
    rw [hg i p hp] at h0
    have := hv p (mem_of_getElem?_proc hp)
    omega

theorem pInvBase_step {ps : List Process}
    {pick : ℤ → List ℤ → Option (ℕ × Process)} {resetLast : Bool}
    (hpick : ∀ t rem ip, pick t rem = some ip →
      ps[ip.1]? = some ip.2 ∧ ip.2.arrivalTime ≤ t ∧ 0 < rem.getD ip.1 0)
    (s : PState) (hinv : PInvBase ps s) : PInvBase ps (pStep pick resetLast s) := by
  obtain ⟨hremlen, hreslen, hcount, hrem, hres⟩ := hinv
  cases hp : pick s.currentTime s.remainingTime with
  | none =>
    rw [pStep_eq_none hp]
    refine ⟨hremlen, hreslen, hcount, ?_, hres⟩
    intro i p hp'
    obtain ⟨h1, h2, h3⟩ := hrem i p hp'
    refine ⟨h1, h2, fun hlt => ?_⟩
    show p.arrivalTime + (p.burstTime - s.remainingTime.getD i 0) ≤ s.currentTime + 1
    have := h3 hlt
    omega
  | some ip =>
    obtain ⟨hpp, harr, hposrem⟩ := hpick _ _ _ hp
    have hi : ip.1 < ps.length := by
      by_contra hge
      rw [List.getElem?_eq_none (by omega)] at hpp
      exact absurd hpp (by simp)
    have hremi : s.remainingTime[ip.1]? = some (s.remainingTime.getD ip.1 0) := by
      rw [List.getD_eq_getElem?_getD, List.getElem?_eq_getElem (by omega)]
      rfl
    obtain ⟨hr0, hrb, hrt⟩ := hrem ip.1 ip.2 hpp
    obtain ⟨r, hrget, hrarr, hrburst, _⟩ := hres ip.1 ip.2 hpp
    have hburst1 : 1 ≤ ip.2.burstTime := by omega
    have hremget : ∀ (j : ℕ), j ≠ ip.1 →
        (modIdx s.remainingTime ip.1 (fun r => r - 1)).getD j 0 =
          s.remainingTime.getD j 0 :=
      fun j hj => getD_modIdx_ne _ _ _ (fun h => hj h.symm) 0
    have hremip : (modIdx s.remainingTime ip.1 (fun r => r - 1)).getD ip.1 0 =
        s.remainingTime.getD ip.1 0 - 1 := getD_modIdx_self hremi _ 0
    have hcount' : ∀ (c : ℕ),
        c = s.remainingTime.countP (fun r => decide (r = 0)) →
        c + (if s.remainingTime.getD ip.1 0 - 1 = 0 then 1 else 0) =
          (modIdx s.remainingTime ip.1 (fun r => r - 1)).countP
            (fun r => decide (r = 0)) := by
      intro c hc
      have hthis := countP_modIdx (fun r => decide (r = 0)) (fun r => r - 1)
        s.remainingTime ip.1 _ hremi
      simp only [decide_eq_true_eq] at hthis
      rw [if_neg (by omega : ¬ (s.remainingTime.getD ip.1 0 = 0))] at hthis
      by_cases hz : s.remainingTime.getD ip.1 0 - 1 = 0
      · rw [if_pos hz] at hthis
        rw [if_pos hz]
        omega
      · rw [if_neg hz] at hthis
        rw [if_neg hz]
        omega
    have hremclause : ∀ (j : ℕ) (q : Process), ps[j]? = some q →
        0 ≤ (modIdx s.remainingTime ip.1 (fun r => r - 1)).getD j 0 ∧
        (modIdx s.remainingTime ip.1 (fun r => r - 1)).getD j 0 ≤ q.burstTime ∧
        ((modIdx s.remainingTime ip.1 (fun r => r - 1)).getD j 0 < q.burstTime →
          q.arrivalTime + (q.burstTime -
            (modIdx s.remainingTime ip.1 (fun r => r - 1)).getD j 0) ≤
            s.currentTime + 1) := by
      intro j q hq
      by_cases hj : j = ip.1
      · subst hj
        obtain rfl : ip.2 = q := by rw [hpp] at hq; injection hq
        rw [hremip]
        refine ⟨by omega, by omega, fun _ => ?_⟩
        by_cases hfull : s.remainingTime.getD ip.1 0 = ip.2.burstTime
        · rw [hfull]
          omega
        · have := hrt (by omega)
          omega
      · rw [hremget j hj]
        obtain ⟨h1, h2, h3⟩ := hrem j q hq
        refine ⟨h1, h2, fun hlt => ?_⟩
        have := h3 hlt
        omega
    rw [pStep_eq_some hp]
    by_cases hfin : (modIdx s.remainingTime ip.1 (fun r => r - 1)).getD ip.1 0 = 0
    · rw [if_pos hfin]
      have hfin' : s.remainingTime.getD ip.1 0 - 1 = 0 := by rw [← hremip]; exact hfin
      constructor
      · rw [length_modIdx]
        exact hremlen
      · rw [length_modIdx, length_modIdx]
        exact hreslen
      · show s.completed + 1 = (modIdx s.remainingTime ip.1 (fun r => r - 1)).countP
            (fun r => decide (r = 0))
        rw [← hcount' s.completed hcount, if_pos hfin']
      · exact hremclause
      · intro j q hq
        by_cases hj : j = ip.1
        · subst hj
          obtain rfl : ip.2 = q := by rw [hpp] at hq; injection hq
          have hstep1 : (modIdx s.results ip.1
              (fun r => if r.startTime = -1 then
                { r with startTime := s.currentTime } else r))[ip.1]? =
              some (if r.startTime = -1 then
                { r with startTime := s.currentTime } else r) :=
            getElem?_modIdx_self hrget _
          set r₁ := if r.startTime = -1 then { r with startTime := s.currentTime } else r
            with hr₁
          have hr₁arr : r₁.arrivalTime = ip.2.arrivalTime := by
            rw [hr₁]
            by_cases h : r.startTime = -1 <;> simp [h, hrarr]
          have hr₁burst : r₁.burstTime = ip.2.burstTime := by
            rw [hr₁]
            by_cases h : r.startTime = -1 <;> simp [h, hrburst]
          refine ⟨{ r₁ with
              endTime := s.currentTime + 1,
              turnaroundTime := s.currentTime + 1 - r₁.arrivalTime,
              waitingTime := s.currentTime + 1 - r₁.arrivalTime - r₁.burstTime },
            getElem?_modIdx_self hstep1 _, by simpa using hr₁arr,
            by simpa using hr₁burst, fun _ => ⟨rfl, rfl, ?_⟩⟩
          show 0 ≤ s.currentTime + 1 - r₁.arrivalTime - r₁.burstTime
          rw [hr₁arr, hr₁burst]
          by_cases hfull : s.remainingTime.getD ip.1 0 = ip.2.burstTime
          · rw [← hfull]
            omega
          · have := hrt (by omega)
            omega
        · obtain ⟨r', hr', h1, h2, h3⟩ := hres j q hq
          refine ⟨r', ?_, h1, h2, ?_⟩
          · rw [getElem?_modIdx_ne _ _ _ (fun h => hj h.symm),
              getElem?_modIdx_ne _ _ _ (fun h => hj h.symm)]
            exact hr'
          · rw [hremget j hj]
            exact h3
    · rw [if_neg hfin]
      have hfin' : ¬ (s.remainingTime.getD ip.1 0 - 1 = 0) := by
        rw [← hremip]
        exact hfin
      constructor
      · rw [length_modIdx]
        exact hremlen
      · rw [length_modIdx]
        exact hreslen
      · show s.completed = (modIdx s.remainingTime ip.1 (fun r => r - 1)).countP
            (fun r => decide (r = 0))
        have := hcount' s.completed hcount
        rw [if_neg hfin'] at this
        omega
      · exact hremclause
      · intro j q hq
        by_cases hj : j = ip.1
        · subst hj
          obtain rfl : ip.2 = q := by rw [hpp] at hq; injection hq
          refine ⟨if r.startTime = -1 then { r with startTime := s.currentTime } else r,
            getElem?_modIdx_self hrget _, ?_, ?_, ?_⟩
          · by_cases h : r.startTime = -1 <;> simp [h, hrarr]
          · by_cases h : r.startTime = -1 <;> simp [h, hrburst]
          · intro h0
            rw [hremip] at h0
            omega
        · obtain ⟨r', hr', h1, h2, h3⟩ := hres j q hq
          refine ⟨r', ?_, h1, h2, ?_⟩
          · rw [getElem?_modIdx_ne _ _ _ (fun h => hj h.symm)]
            exact hr'
          · rw [hremget j hj]
            exact h3

theorem mem_of_getElem?_any {α : Type} {l : List α} {i : ℕ} {a : α}
    (h : l[i]? = some a) : a ∈ l := by
  rcases List.getElem?_eq_some.mp h with ⟨hi, rfl⟩
  exact List.getElem_mem hi

/-- When the loop guard `completed < n` has failed, every remaining time is 0. -/
theorem all_rem_zero {rem : List ℤ} {n c : ℕ} (hlen : rem.length = n)
    (hcount : c = rem.countP (fun r => decide (r = 0))) (hexit : n ≤ c) :
    ∀ (i : ℕ), rem.getD i 0 = 0 := by
  have hall : ∀ r ∈ rem, r = 0 := by
    have h1 : rem.countP (fun r => decide (r = 0)) ≤ rem.length :=
      List.countP_le_length _
    have heq : rem.countP (fun r => decide (r = 0)) = rem.length := by omega
    have h2 := List.countP_eq_length.mp heq
    intro r hr
    simpa using h2 r hr
  intro i
  cases h : rem[i]? with
  | none => rw [List.getD_eq_getElem?_getD, h]; rfl
  | some a =>
    rw [List.getD_eq_getElem?_getD, h]
    exact hall a (mem_of_getElem?_any h)

theorem getD_le_sum : ∀ {l : List ℤ}, (∀ r ∈ l, 0 ≤ r) → ∀ {i : ℕ}, i < l.length →
    l.getD i 0 ≤ l.sum := by
  intro l
  induction l with
  | nil => intro _ i hi; simp at hi
  | cons a tl ih =>
    intro hpos i hi
    have hsum : 0 ≤ tl.sum :=
      List.sum_nonneg (fun r hr => hpos r (List.mem_cons_of_mem a hr))
    cases i with
    | zero =>
      show a ≤ (a :: tl).sum
      rw [List.sum_cons]
      omega
    | succ j =>
      show tl.getD j 0 ≤ (a :: tl).sum
      rw [List.sum_cons]
      have h1 := ih (fun r hr => hpos r (List.mem_cons_of_mem a hr)) (by simpa using hi)
      have h2 := hpos a (List.mem_cons_self a tl)
      omega

theorem pInvBase_rem_nonneg {ps : List Process} {s : PState} (hinv : PInvBase ps s) :
    ∀ r ∈ s.remainingTime, 0 ≤ r := by
  intro r hr
  obtain ⟨i, hi⟩ := List.getElem?_of_mem hr
  have hilt : i < ps.length := by
    have h1 : i < s.remainingTime.length := by
      by_contra hge
      rw [List.getElem?_eq_none (by omega)] at hi
      exact absurd hi (by simp)
    have := hinv.hremlen
    omega
  obtain ⟨p, hp⟩ : ∃ p, ps[i]? = some p := ⟨ps[i], List.getElem?_eq_getElem hilt⟩
  have := (hinv.hrem i p hp).1
  rw [List.getD_eq_getElem?_getD, hi] at this
  exact this

/-- C1 for the whole preemptive skeleton. -/
theorem pRun_resultsOK {ps : List Process}
    {pick : ℤ → List ℤ → Option (ℕ × Process)} {resetLast : Bool}
    (hpick : ∀ t rem ip, pick t rem = some ip →
      ps[ip.1]? = some ip.2 ∧ ip.2.arrivalTime ≤ t ∧ 0 < rem.getD ip.1 0)
    (hv : ∀ p ∈ ps, 1 ≤ p.burstTime) (fuel : ℕ) :
    ResultsOK (pRun pick resetLast ps fuel) := by
  intro out hout r hr
  obtain ⟨s', hs', hexit, rfl⟩ := loopRun_some_inv (PInvBase ps)
    (fun s hs _ => pInvBase_step hpick s hs) fuel (pInit ps) out
    (pInvBase_init hv) hout
  rw [decide_eq_true_eq] at hexit
  have hperm := calculateAverages_results_perm s'.results s'.ganttRev.reverse
  obtain ⟨i, hi⟩ := List.getElem?_of_mem (hperm.subset hr)
  have hilt : i < ps.length := by
    have h1 : i < s'.results.length := by
      by_contra hge
      rw [List.getElem?_eq_none (by omega)] at hi
      exact absurd hi (by simp)
    have := hs'.hreslen
    omega
  obtain ⟨p, hp⟩ : ∃ p, ps[i]? = some p := ⟨ps[i], List.getElem?_eq_getElem hilt⟩
  obtain ⟨r', hr'', _, _, hok⟩ := hs'.hres i p hp
  obtain rfl : r' = r := by
    rw [hi] at hr''
    injection hr'' with hinj
    exact hinj.symm
  exact hok (all_rem_zero hs'.hremlen hs'.hcount hexit i)

/-- Termination of the preemptive loop. -/
theorem pRun_isSome {ps : List Process}
    {pick : ℤ → List ℤ → Option (ℕ × Process)} {resetLast : Bool} {A : ℤ}
    (hpick : ∀ t rem ip, pick t rem = some ip →
      ps[ip.1]? = some ip.2 ∧ ip.2.arrivalTime ≤ t ∧ 0 < rem.getD ip.1 0)
    (hpnone : ∀ t rem, pick t rem = none →
      ∀ (i : ℕ) (p : Process), ps[i]? = some p → pCand t rem i p = false)
    (hv : ∀ p ∈ ps, 1 ≤ p.burstTime)
    (harr : ∀ p ∈ ps, p.arrivalTime ≤ A) (hA : 0 ≤ A) (fuel : ℕ)
    (hfuel : (sumBursts ps).toNat + A.toNat < fuel) :
    (pRun pick resetLast ps fuel).isSome := by
  apply loopRun_isSome (PInvBase ps)
    (fun s => s.remainingTime.sum.toNat + (A - s.currentTime).toNat)
  · intro s hs hexit
    rw [decide_eq_false_iff_not, not_le] at hexit
    refine ⟨pInvBase_step hpick s hs, ?_⟩
    have hnn := pInvBase_rem_nonneg hs
    cases hp : pick s.currentTime s.remainingTime with
    | none =>
      rw [pStep_eq_none hp]
      show s.remainingTime.sum.toNat + (A - (s.currentTime + 1)).toNat <
        s.remainingTime.sum.toNat + (A - s.currentTime).toNat
      obtain ⟨r, hrmem, hrne⟩ : ∃ r ∈ s.remainingTime, ¬ (r = 0) := by
        by_contra hno
        push_neg at hno
        have : ∀ r ∈ s.remainingTime, (fun r => decide (r = 0)) r = true := by
          intro r hr
          simpa using hno r hr
        have := List.countP_eq_length.mpr this
        have h1 := hs.hcount
        have h2 := hs.hremlen
        omega
      obtain ⟨i, hi⟩ := List.getElem?_of_mem hrmem
      have hilt : i < ps.length := by
        have h1 : i < s.remainingTime.length := by
          by_contra hge
          rw [List.getElem?_eq_none (by omega)] at hi
          exact absurd hi (by simp)
        have := hs.hremlen
        omega
      obtain ⟨p, hp'⟩ : ∃ p, ps[i]? = some p := ⟨ps[i], List.getElem?_eq_getElem hilt⟩
      have hcand := hpnone _ _ hp i p hp'
      have hrpos : 0 < s.remainingTime.getD i 0 := by
        rw [List.getD_eq_getElem?_getD, hi]
        have := hnn r hrmem
        show 0 < r
        omega
      rw [pCand] at hcand
      rcases Bool.and_eq_false_iff.mp hcand with h | h
      · rw [decide_eq_false_iff_not] at h
        have harrp : p.arrivalTime ≤ A := harr p (mem_of_getElem?_proc hp')
        omega
      · rw [decide_eq_false_iff_not] at h
        exact absurd hrpos h
    | some ip =>
      obtain ⟨hpp, harr', hposrem⟩ := hpick _ _ _ hp
      have hi : ip.1 < ps.length := by
        by_contra hge
        rw [List.getElem?_eq_none (by omega)] at hpp
        exact absurd hpp (by simp)
      have hremi : s.remainingTime[ip.1]? = some (s.remainingTime.getD ip.1 0) := by
        rw [List.getD_eq_getElem?_getD, List.getElem?_eq_getElem (by
          have := hs.hremlen; omega)]
        rfl
      have hsum := sum_modIdx (fun r => r - 1) s.remainingTime ip.1 _ hremi
      have hbeta : ((fun r => r - 1) (s.remainingTime.getD ip.1 0) : ℤ) =
          s.remainingTime.getD ip.1 0 - 1 := rfl
      rw [hbeta] at hsum
      have hle := getD_le_sum hnn (i := ip.1) (by have := hs.hremlen; omega)
      rw [pStep_eq_some hp]
      by_cases hfin : (modIdx s.remainingTime ip.1 (fun r => r - 1)).getD ip.1 0 = 0
      · rw [if_pos hfin]
        show (modIdx s.remainingTime ip.1 (fun r => r - 1)).sum.toNat +
            (A - (s.currentTime + 1)).toNat < _
        omega
      · rw [if_neg hfin]
        show (modIdx s.remainingTime ip.1 (fun r => r - 1)).sum.toNat +
            (A - (s.currentTime + 1)).toNat < _
        omega
  · exact pInvBase_init hv
  · show (ps.map (fun p : Process => p.burstTime)).sum.toNat + (A - 0).toNat < fuel
    have : (ps.map (fun p : Process => p.burstTime)).sum = sumBursts ps := rfl
    omega

theorem srtfPick_none (ps : List Process) (t : ℤ) (rem : List ℤ)
    (h : srtfPick ps t rem = none) :
    ∀ (i : ℕ) (p : Process), ps[i]? = some p → pCand t rem i p = false :=
  selectIdx_none (fun _ _ _ _ => rfl) h

theorem priorityPPick_none (ps : List Process) (t : ℤ) (rem : List ℤ)
    (h : priorityPPick ps t rem = none) :
    ∀ (i : ℕ) (p : Process), ps[i]? = some p → pCand t rem i p = false :=
  selectIdx_none (fun _ _ _ _ => rfl) h

theorem lrtfPick_none (ps : List Process) (t : ℤ) (rem : List ℤ)
    (h : lrtfPick ps t rem = none) :
    ∀ (i : ℕ) (p : Process), ps[i]? = some p → pCand t rem i p = false := by
  refine selectIdx_none (fun i p _ hc => ?_) h
  simp only [pCand, Bool.and_eq_true, decide_eq_true_eq] at hc
  simp only [decide_eq_true_eq]
  omega

/-- The chart/accounting invariant of the preemptive unit-step loop.  The last
two fields track `lastProcessId`: when it is non-empty it names the head
block, and the head block is named either by `lastProcessId` or by an
already-finished process (the `resetLast` case). -/
structure PInvChart (ps : List Process) (s : PState) : Prop where
  hchain : s.ganttRev.Chain' RevAdj
  hpos : ∀ b ∈ s.ganttRev, b.startTime < b.endTime
  hhead : headEndLe s.currentTime s.ganttRev
  hacc : ∀ (i : ℕ) (p : Process), ps[i]? = some p →
    durSum p.id s.ganttRev = p.burstTime - s.remainingTime.getD i 0
  hfrom : ∀ b ∈ s.ganttRev, ∃ (j : ℕ) (pj : Process), ps[j]? = some pj ∧
    b.processId = pj.id
  hdup : s.ganttRev.Chain' (fun x y => x.processId ≠ y.processId)
  hlast : s.lastProcessId ≠ "" → ∃ hd, s.ganttRev.head? = some hd ∧
    hd.processId = s.lastProcessId
  hheadid : ∀ hd, s.ganttRev.head? = some hd →
    hd.processId = s.lastProcessId ∨ ∃ (j : ℕ) (pj : Process), ps[j]? = some pj ∧
      hd.processId = pj.id ∧ s.remainingTime.getD j 0 = 0

theorem pInvChart_init (ps : List Process) : PInvChart ps (pInit ps) := by
  refine ⟨List.chain'_nil, ?_, trivial, ?_, ?_, List.chain'_nil, ?_, ?_⟩
  · intro b hb; exact absurd hb (List.not_mem_nil b)
  · intro i p hp
    have h1 : durSum p.id (pInit ps).ganttRev = 0 := rfl
    have h2 : (pInit ps).remainingTime.getD i 0 = p.burstTime := getD_map_burst hp 0
    rw [h1, h2]
    ring
  · intro b hb; exact absurd hb (List.not_mem_nil b)
  · intro h; exact absurd rfl h
  · intro hd h; exact absurd h (by simp [pInit])

theorem pInvChart_step {ps : List Process}
    {pick : ℤ → List ℤ → Option (ℕ × Process)} {resetLast : Bool}
    (hpick : ∀ t rem ip, pick t rem = some ip →
      ps[ip.1]? = some ip.2 ∧ ip.2.arrivalTime ≤ t ∧ 0 < rem.getD ip.1 0)
    (hids : (ps.map Process.id).Nodup)
    (hne : ∀ p ∈ ps, p.id ≠ "")
    (s : PState) (hbase : PInvBase ps s) (hch : PInvChart ps s) :
    PInvChart ps (pStep pick resetLast s) := by
  obtain ⟨hchain, hpos, hhead, hacc, hfrom, hdup, hlast, hheadid⟩ := hch
  cases hp : pick s.currentTime s.remainingTime with
  | none =>
    rw [pStep_eq_none hp]
    exact ⟨hchain, hpos, headEndLe_mono (le_of_lt (lt_add_one s.currentTime)) hhead,
      hacc, hfrom, hdup, hlast, hheadid⟩
  | some ip =>
    obtain ⟨hpp, harr, hposrem⟩ := hpick _ _ _ hp
    have hi : ip.1 < ps.length := by
      by_contra hge
      rw [List.getElem?_eq_none (by omega)] at hpp
      exact absurd hpp (by simp)
    have hremi : s.remainingTime[ip.1]? = some (s.remainingTime.getD ip.1 0) := by
      rw [List.getD_eq_getElem?_getD, List.getElem?_eq_getElem (by
        have := hbase.hremlen; omega)]
      rfl
    have hremip : (modIdx s.remainingTime ip.1 (fun r => r - 1)).getD ip.1 0 =
        s.remainingTime.getD ip.1 0 - 1 := getD_modIdx_self hremi _ 0
    have hremget : ∀ (j : ℕ), j ≠ ip.1 →
        (modIdx s.remainingTime ip.1 (fun r => r - 1)).getD j 0 =
          s.remainingTime.getD j 0 :=
      fun j hj => getD_modIdx_ne _ _ _ (fun h => hj h.symm) 0
    have hidne : ip.2.id ≠ "" := hne ip.2 (mem_of_getElem?_proc hpp)
    rw [pStep_eq_some hp]
    by_cases hlid : s.lastProcessId = ip.2.id
    · rw [if_pos hlid]
      obtain ⟨hd, hhd, hdid⟩ := hlast (by rw [hlid]; exact hidne)
      have hdip : hd.processId = ip.2.id := by rw [hdid, hlid]
      obtain ⟨rest, hrest⟩ : ∃ rest, s.ganttRev = hd :: rest := by
        cases hg : s.ganttRev with
        | nil => rw [hg] at hhd; exact absurd hhd (by simp)
        | cons a l =>
          rw [hg] at hhd
          simp only [List.head?_cons, Option.some.injEq] at hhd
          exact ⟨l, by rw [hhd]⟩
      have hbump : bumpHead (hd :: rest) = { hd with endTime := hd.endTime + 1 } :: rest :=
        rfl
      rw [hrest, hbump]
      rw [hrest] at hchain hpos hhead hdup
      have Hchain : List.Chain' RevAdj ({ hd with endTime := hd.endTime + 1 } :: rest) := by
        rw [List.chain'_cons'] at hchain ⊢
        exact ⟨fun y hy => hchain.1 y hy, hchain.2⟩
      have Hpos : ∀ b ∈ ({ hd with endTime := hd.endTime + 1 } :: rest),
          b.startTime < b.endTime := by
        intro b hb
        rcases List.mem_cons.mp hb with rfl | hb'
        · show hd.startTime < hd.endTime + 1
          have := hpos hd (List.mem_cons_self hd rest)
          omega
        · exact hpos b (List.mem_cons_of_mem hd hb')
      have Hhead : headEndLe (s.currentTime + 1)
          ({ hd with endTime := hd.endTime + 1 } :: rest) := by
        show hd.endTime + 1 ≤ s.currentTime + 1
        have h1 : hd.endTime ≤ s.currentTime := hhead
        omega
      have Hacc : ∀ (j : ℕ) (q : Process), ps[j]? = some q →
          durSum q.id ({ hd with endTime := hd.endTime + 1 } :: rest) =
            q.burstTime - (modIdx s.remainingTime ip.1 (fun r => r - 1)).getD j 0 := by
        intro j q hq
        have hds := durSum_bumpHead q.id hd rest
        rw [hbump] at hds
        have hold := hacc j q hq
        rw [hrest] at hold
        by_cases hj : j = ip.1
        · subst hj
          obtain rfl : ip.2 = q := by rw [hpp] at hq; injection hq
          rw [hds, if_pos hdip, hremip, hold]
          ring
        · have hneq : hd.processId ≠ q.id := by
            rw [hdip]
            intro h
            exact hj (idx_eq_of_id_eq hids hpp hq h).symm
          rw [hds, if_neg hneq, hremget j hj, hold]
          ring
      have Hfrom : ∀ b ∈ ({ hd with endTime := hd.endTime + 1 } :: rest),
          ∃ (j : ℕ) (pj : Process), ps[j]? = some pj ∧ b.processId = pj.id := by
        intro b hb
        rcases List.mem_cons.mp hb with rfl | hb'
        · obtain ⟨j, pj, hj, hjid⟩ := hfrom hd (by rw [hrest]; exact List.mem_cons_self hd rest)
          exact ⟨j, pj, hj, hjid⟩
        · exact hfrom b (by rw [hrest]; exact List.mem_cons_of_mem hd hb')
      have Hdup : List.Chain' (fun x y => x.processId ≠ y.processId)
          ({ hd with endTime := hd.endTime + 1 } :: rest) := by
        rw [List.chain'_cons'] at hdup ⊢
        exact ⟨fun y hy => hdup.1 y hy, hdup.2⟩
      by_cases hfin : (modIdx s.remainingTime ip.1 (fun r => r - 1)).getD ip.1 0 = 0
      · rw [if_pos hfin]
        refine ⟨Hchain, Hpos, Hhead, Hacc, Hfrom, Hdup, ?_, ?_⟩
        · cases resetLast with
          | true => intro h; exact absurd rfl h
          | false => intro h; exact ⟨{ hd with endTime := hd.endTime + 1 }, rfl, hdip⟩
        · intro hd₂ hhd₂
          have heq : hd₂ = { hd with endTime := hd.endTime + 1 } := by
            simp only [List.head?_cons, Option.some.injEq] at hhd₂
            exact hhd₂.symm
          subst heq
          exact Or.inr ⟨ip.1, ip.2, hpp, hdip, hfin⟩
      · rw [if_neg hfin]
        refine ⟨Hchain, Hpos, Hhead, Hacc, Hfrom, Hdup, ?_, ?_⟩
        · intro h; exact ⟨{ hd with endTime := hd.endTime + 1 }, rfl, hdip⟩
        · intro hd₂ hhd₂
          have heq : hd₂ = { hd with endTime := hd.endTime + 1 } := by
            simp only [List.head?_cons, Option.some.injEq] at hhd₂
            exact hhd₂.symm
          subst heq
          exact Or.inl hdip
    · rw [if_neg hlid]
      set nb : GanttBlock :=
        { processId := ip.2.id, startTime := s.currentTime, endTime := s.currentTime + 1 } with hnb
      have Hchain : List.Chain' RevAdj (nb :: s.ganttRev) := by
        rw [List.chain'_cons']
        exact ⟨fun y hy => headEndLe_head? hhead hy, hchain⟩
      have Hpos : ∀ b ∈ (nb :: s.ganttRev), b.startTime < b.endTime := by
        intro b hb
        rcases List.mem_cons.mp hb with rfl | hb'
        · show s.currentTime < s.currentTime + 1
          omega
        · exact hpos b hb'
      have Hhead : headEndLe (s.currentTime + 1) (nb :: s.ganttRev) := le_refl _
      have Hacc : ∀ (j : ℕ) (q : Process), ps[j]? = some q →
          durSum q.id (nb :: s.ganttRev) =
            q.burstTime - (modIdx s.remainingTime ip.1 (fun r => r - 1)).getD j 0 := by
        intro j q hq
        rw [durSum_cons]
        have hold := hacc j q hq
        have hnbid : nb.processId = ip.2.id := rfl
        have hdur : nb.endTime - nb.startTime = 1 := by
          show s.currentTime + 1 - s.currentTime = 1
          ring
        by_cases hj : j = ip.1
        · subst hj
          obtain rfl : ip.2 = q := by rw [hpp] at hq; injection hq
          rw [hremip, if_pos hnbid, hdur, hold]
          ring
        · have hneq : nb.processId ≠ q.id := by
            rw [hnbid]
            intro h
            exact hj (idx_eq_of_id_eq hids hpp hq h).symm
          rw [hremget j hj, if_neg hneq, hold]
          ring
      have Hfrom : ∀ b ∈ (nb :: s.ganttRev),
          ∃ (j : ℕ) (pj : Process), ps[j]? = some pj ∧ b.processId = pj.id := by
        intro b hb
        rcases List.mem_cons.mp hb with rfl | hb'
        · exact ⟨ip.1, ip.2, hpp, rfl⟩
        · exact hfrom b hb'
      have Hdup : List.Chain' (fun x y => x.processId ≠ y.processId)
          (nb :: s.ganttRev) := by
        rw [List.chain'_cons']
        refine ⟨?_, hdup⟩
        intro y hy
        show nb.processId ≠ y.processId
        have hnbid : nb.processId = ip.2.id := rfl
        rw [hnbid]
        rcases hheadid y (Option.mem_def.mp hy) with h | ⟨j, pj, hj, hyid, hrj⟩
        · rw [h]
          exact fun heq => hlid heq.symm
        · rw [hyid]
          intro heq
          have hij : ip.1 = j := idx_eq_of_id_eq hids hpp hj heq
          rw [← hij] at hrj
          omega
      by_cases hfin : (modIdx s.remainingTime ip.1 (fun r => r - 1)).getD ip.1 0 = 0
      · rw [if_pos hfin]
        refine ⟨Hchain, Hpos, Hhead, Hacc, Hfrom, Hdup, ?_, ?_⟩
        · cases resetLast with
          | true => intro h; exact absurd rfl h
          | false => intro h; exact ⟨nb, rfl, rfl⟩
        · intro hd₂ hhd₂
          have heq : hd₂ = nb := by
            simp only [List.head?_cons, Option.some.injEq] at hhd₂
            exact hhd₂.symm
          subst heq
          exact Or.inr ⟨ip.1, ip.2, hpp, rfl, hfin⟩
      · rw [if_neg hfin]
        refine ⟨Hchain, Hpos, Hhead, Hacc, Hfrom, Hdup, ?_, ?_⟩
        · intro h; exact ⟨nb, rfl, rfl⟩
        · intro hd₂ hhd₂
          have heq : hd₂ = nb := by
            simp only [List.head?_cons, Option.some.injEq] at hhd₂
            exact hhd₂.symm
          subst heq
          exact Or.inl rfl

/-- At loop exit every remaining time is 0, so every per-process duration sum
equals the burst. -/
theorem pInv_exit {ps : List Process} {s : PState}
    (hbase : PInvBase ps s) (hch : PInvChart ps s)
    (hexit : ps.length ≤ s.completed) :
    ∀ (i : ℕ) (p : Process), ps[i]? = some p →
      durSum p.id s.ganttRev = p.burstTime := by
  intro i p hp
  have h0 := all_rem_zero hbase.hremlen hbase.hcount hexit i
  have h1 := hch.hacc i p hp
  omega

/-- Chart facts carried to any output of the preemptive loop. -/
theorem pRun_chart {ps : List Process}
    {pick : ℤ → List ℤ → Option (ℕ × Process)} {resetLast : Bool}
    (hpick : ∀ t rem ip, pick t rem = some ip →
      ps[ip.1]? = some ip.2 ∧ ip.2.arrivalTime ≤ t ∧ 0 < rem.getD ip.1 0)
    (hv : ∀ p ∈ ps, 1 ≤ p.burstTime)
    (hids : (ps.map Process.id).Nodup)
    (hne : ∀ p ∈ ps, p.id ≠ "") (fuel : ℕ) :
    ∀ out ∈ pRun pick resetLast ps fuel,
      (∀ (i : ℕ) (p : Process), ps[i]? = some p →
        durSum p.id out.ganttChart = p.burstTime) ∧
      out.ganttChart.Pairwise
        (fun b₁ b₂ => b₁.endTime ≤ b₂.startTime ∧ b₁.startTime < b₂.startTime) ∧
      (∀ b ∈ out.ganttChart, b.startTime < b.endTime) ∧
      (∀ b ∈ out.ganttChart, b.processId ∈ ps.map Process.id) ∧
      out.ganttChart.Chain' (fun b₁ b₂ => b₁.processId ≠ b₂.processId) := by
  intro out hout
  obtain ⟨s', hs', hexit, rfl⟩ := loopRun_some_inv
    (fun s => PInvBase ps s ∧ PInvChart ps s)
    (fun s hs _ => ⟨pInvBase_step hpick s hs.1,
      pInvChart_step hpick hids hne s hs.1 hs.2⟩)
    fuel (pInit ps) out ⟨pInvBase_init hv, pInvChart_init ps⟩ hout
  rw [decide_eq_true_eq] at hexit
  have hchart : (calculateAverages s'.results s'.ganttRev.reverse).ganttChart =
      s'.ganttRev.reverse := rfl
  rw [hchart]
  obtain ⟨hpair, hpos⟩ := chart_reverse_ok hs'.2.hchain hs'.2.hpos
  refine ⟨?_, hpair, hpos, ?_, ?_⟩
  · intro i p hp
    rw [durSum_reverse]
    exact pInv_exit hs'.1 hs'.2 hexit i p hp
  · intro b hb
    obtain ⟨j, pj, hj, hjid⟩ := hs'.2.hfrom b (List.mem_reverse.mp hb)
    rw [hjid]
    exact List.mem_map_of_mem Process.id (mem_of_getElem?_proc hj)
  · rw [List.chain'_reverse]
    exact List.Chain'.imp (fun a b hab => Ne.symm hab) hs'.2.hdup

/-- `ChartFacts` from the indexed per-process facts of an unsorted solver. -/
theorem chartFacts_of_plain {ps : List Process} {o : Option SchedulerOutput}
    (hkey : ∀ out ∈ o,
      (∀ (i : ℕ) (p : Process), ps[i]? = some p →
        durSum p.id out.ganttChart = p.burstTime) ∧
      out.ganttChart.Pairwise
        (fun b₁ b₂ => b₁.endTime ≤ b₂.startTime ∧ b₁.startTime < b₂.startTime) ∧
      (∀ b ∈ out.ganttChart, b.startTime < b.endTime) ∧
      (∀ b ∈ out.ganttChart, b.processId ∈ ps.map Process.id) ∧
      out.ganttChart.Chain' (fun b₁ b₂ => b₁.processId ≠ b₂.processId)) :
    ChartFacts ps o := by
  refine ⟨?_, ?_, ?_⟩
  · intro out hout
    obtain ⟨hd, hpair, hpos, _, _⟩ := hkey out hout
    refine ⟨?_, hpair, hpos⟩
    intro p hp
    obtain ⟨i, hi⟩ := List.getElem?_of_mem hp
    exact hd i p hi
  · intro out hout
    exact (hkey out hout).2.2.2.1
  · intro out hout
    exact (hkey out hout).2.2.2.2

theorem srtfPick_full (ps : List Process) (t : ℤ) (rem : List ℤ)
    (ip : ℕ × Process) (h : srtfPick ps t rem = some ip) :
    ps[ip.1]? = some ip.2 ∧ ip.2.arrivalTime ≤ t ∧ 0 < rem.getD ip.1 0 :=
  pPick_spec h

theorem priorityPPick_full (ps : List Process) (t : ℤ) (rem : List ℤ)
    (ip : ℕ × Process) (h : priorityPPick ps t rem = some ip) :
    ps[ip.1]? = some ip.2 ∧ ip.2.arrivalTime ≤ t ∧ 0 < rem.getD ip.1 0 :=
  pPick_spec h

theorem lrtfPick_full (ps : List Process) (t : ℤ) (rem : List ℤ)
    (ip : ℕ × Process) (h : lrtfPick ps t rem = some ip) :
    ps[ip.1]? = some ip.2 ∧ ip.2.arrivalTime ≤ t ∧ 0 < rem.getD ip.1 0 :=
  pPick_spec h

theorem fuelBound_p {ps : List Process} {fuel : ℕ} (h : fuelBound ps ≤ fuel) :
    (sumBursts ps).toNat + (maxArr ps).toNat < fuel := by
  unfold fuelBound at h
  omega

theorem arr_le_maxArr (ps : List Process) :
    ∀ p ∈ ps, p.arrivalTime ≤ maxArr ps :=
  fun _ hp => arrival_le_maxArr hp

theorem solveSRTF_resultsOK (ps : List Process) (hv : ∀ p ∈ ps, 1 ≤ p.burstTime)
    (fuel : ℕ) : ResultsOK (solveSRTF ps fuel) :=
  pRun_resultsOK (srtfPick_full ps) hv fuel

theorem solvePriorityP_resultsOK (ps : List Process) (hv : ∀ p ∈ ps, 1 ≤ p.burstTime)
    (fuel : ℕ) : ResultsOK (solvePriorityP ps fuel) :=
  pRun_resultsOK (priorityPPick_full ps) hv fuel

theorem solveLRTF_resultsOK (ps : List Process) (hv : ∀ p ∈ ps, 1 ≤ p.burstTime)
    (fuel : ℕ) : ResultsOK (solveLRTF ps fuel) :=
  pRun_resultsOK (lrtfPick_full ps) hv fuel

theorem solveSRTF_chartFacts (ps : List Process)
    (hv : ∀ p ∈ ps, 1 ≤ p.burstTime) (hids : (ps.map Process.id).Nodup)
    (hne : ∀ p ∈ ps, p.id ≠ "") (fuel : ℕ) :
    ChartFacts ps (solveSRTF ps fuel) :=
  chartFacts_of_plain (pRun_chart (srtfPick_full ps) hv hids hne fuel)

theorem solvePriorityP_chartFacts (ps : List Process)
    (hv : ∀ p ∈ ps, 1 ≤ p.burstTime) (hids : (ps.map Process.id).Nodup)
    (hne : ∀ p ∈ ps, p.id ≠ "") (fuel : ℕ) :
    ChartFacts ps (solvePriorityP ps fuel) :=
  chartFacts_of_plain (pRun_chart (priorityPPick_full ps) hv hids hne fuel)

theorem solveLRTF_chartFacts (ps : List Process)
    (hv : ∀ p ∈ ps, 1 ≤ p.burstTime) (hids : (ps.map Process.id).Nodup)
    (hne : ∀ p ∈ ps, p.id ≠ "") (fuel : ℕ) :
    ChartFacts ps (solveLRTF ps fuel) :=
  chartFacts_of_plain (pRun_chart (lrtfPick_full ps) hv hids hne fuel)

theorem solveSRTF_isSome (ps : List Process) (hv : ∀ p ∈ ps, 1 ≤ p.burstTime)
    (fuel : ℕ) (hfuel : fuelBound ps ≤ fuel) : (solveSRTF ps fuel).isSome :=
  pRun_isSome (srtfPick_full ps) (srtfPick_none ps) hv (arr_le_maxArr ps)
    (zero_le_maxArr ps) fuel (fuelBound_p hfuel)

theorem solvePriorityP_isSome (ps : List Process) (hv : ∀ p ∈ ps, 1 ≤ p.burstTime)
    (fuel : ℕ) (hfuel : fuelBound ps ≤ fuel) : (solvePriorityP ps fuel).isSome :=
  pRun_isSome (priorityPPick_full ps) (priorityPPick_none ps) hv (arr_le_maxArr ps)
    (zero_le_maxArr ps) fuel (fuelBound_p hfuel)

theorem solveLRTF_isSome (ps : List Process) (hv : ∀ p ∈ ps, 1 ≤ p.burstTime)
    (fuel : ℕ) (hfuel : fuelBound ps ≤ fuel) : (solveLRTF ps fuel).isSome :=
  pRun_isSome (lrtfPick_full ps) (lrtfPick_none ps) hv (arr_le_maxArr ps)
    (zero_le_maxArr ps) fuel (fuelBound_p hfuel)

/-! ## Round Robin correctness -/

/-- The fast-forward half of `rrStep` in isolation. -/
def rrFF (processes : List Process) (s : RRState) : RRState :=
  if s.queue.isEmpty then
    match rrFindNext processes s.visited with
    | some ip =>
      { s with currentTime := ip.2.arrivalTime, queue := [ip.1],
               visited := s.visited.set ip.1 true }
    | none => s
  else s

/-- The executed slice length `min(timeQuantum, remaining)`. -/
def rrExec (timeQuantum : ℤ) (s₁ : RRState) (idx : ℕ) : ℤ :=
  min timeQuantum (s₁.remainingTime.getD idx 0)

/-- The remaining times after a slice of the head `idx`. -/
def rrRem (timeQuantum : ℤ) (s₁ : RRState) (idx : ℕ) : List ℤ :=
  modIdx s₁.remainingTime idx (fun r => r - rrExec timeQuantum s₁ idx)

/-- The clock after a slice. -/
def rrT (timeQuantum : ℤ) (s₁ : RRState) (idx : ℕ) : ℤ :=
  s₁.currentTime + rrExec timeQuantum s₁ idx

/-- The newcomers enqueued after a slice. -/
def rrNewc (processes : List Process) (timeQuantum : ℤ) (s₁ : RRState)
    (idx : ℕ) : List ℕ :=
  rrNewcomers processes s₁.visited (rrT timeQuantum s₁ idx) (rrRem timeQuantum s₁ idx)

/-- The visited flags after the newcomers are marked. -/
def rrVis (processes : List Process) (timeQuantum : ℤ) (s₁ : RRState)
    (idx : ℕ) : List Bool :=
  (rrNewc processes timeQuantum s₁ idx).foldl (fun v j => v.set j true) s₁.visited

/-- The results after the start-time stamp of the sliced head. -/
def rrRes (s₁ : RRState) (idx : ℕ) : List ProcessResult :=
  modIdx s₁.results idx
    (fun r => if r.startTime = -1 then { r with startTime := s₁.currentTime } else r)

/-- A slice of the head `idx` (already known in range, `rest` the queue tail). -/
def rrRun1 (processes : List Process) (timeQuantum : ℤ) (s₁ : RRState)
    (idx : ℕ) (rest : List ℕ) (p : Process) : RRState :=
  if 0 < (rrRem timeQuantum s₁ idx).getD idx 0 then
    { currentTime := rrT timeQuantum s₁ idx, completed := s₁.completed,
      remainingTime := rrRem timeQuantum s₁ idx, results := rrRes s₁ idx,
      ganttRev := { processId := p.id, startTime := s₁.currentTime,
                    endTime := rrT timeQuantum s₁ idx } :: s₁.ganttRev,
      queue := (rest ++ rrNewc processes timeQuantum s₁ idx) ++ [idx],
      visited := rrVis processes timeQuantum s₁ idx }
  else
    { currentTime := rrT timeQuantum s₁ idx, completed := s₁.completed + 1,
      remainingTime := rrRem timeQuantum s₁ idx,
      results := modIdx (rrRes s₁ idx) idx (fun r =>
        { r with endTime := rrT timeQuantum s₁ idx,
                 turnaroundTime := rrT timeQuantum s₁ idx - p.arrivalTime,
                 waitingTime := rrT timeQuantum s₁ idx - p.arrivalTime - p.burstTime }),
      ganttRev := { processId := p.id, startTime := s₁.currentTime,
                    endTime := rrT timeQuantum s₁ idx } :: s₁.ganttRev,
      queue := rest ++ rrNewc processes timeQuantum s₁ idx,
      visited := rrVis processes timeQuantum s₁ idx }

/-- The slice half of `rrStep` in isolation. -/
def rrSlice (processes : List Process) (timeQuantum : ℤ) (s₁ : RRState) : RRState :=
  match s₁.queue with
  | [] => s₁
  | idx :: rest =>
    match processes[idx]? with
    | none => { s₁ with queue := rest }
    | some p => rrRun1 processes timeQuantum s₁ idx rest p

theorem rrStep_eq (ps : List Process) (q : ℤ) (s : RRState) :
    rrStep ps q s = rrSlice ps q (rrFF ps s) := rfl

theorem rrSlice_eq_nil {ps : List Process} {q : ℤ} {s₁ : RRState}
    (h : s₁.queue = []) : rrSlice ps q s₁ = s₁ := by
  unfold rrSlice
  rw [h]

theorem rrSlice_eq_run1 {ps : List Process} {q : ℤ} {s₁ : RRState} {idx : ℕ}
    {rest : List ℕ} {p : Process}
    (hq : s₁.queue = idx :: rest) (hp : ps[idx]? = some p) :
    rrSlice ps q s₁ = rrRun1 ps q s₁ idx rest p := by
  unfold rrSlice
  rw [hq]
  show (match ps[idx]? with
    | none => { s₁ with queue := rest }
    | some p' => rrRun1 ps q s₁ idx rest p') = rrRun1 ps q s₁ idx rest p
  rw [hp]

theorem length_foldl_set : ∀ (l : List ℕ) (v : List Bool),
    (l.foldl (fun v j => v.set j true) v).length = v.length := by
  intro l
  induction l with
  | nil => intro v; rfl
  | cons a tl ih =>
    intro v
    rw [List.foldl_cons, ih, List.length_set]

theorem getD_foldl_set_not_mem : ∀ (l : List ℕ) (v : List Bool) (i : ℕ), i ∉ l →
    (l.foldl (fun v j => v.set j true) v).getD i false = v.getD i false := by
  intro l
  induction l with
  | nil => intro v i _; rfl
  | cons a tl ih =>
    intro v i hi
    rw [List.foldl_cons, ih _ _ (fun h => hi (List.mem_cons_of_mem a h)),
      getD_set_ne _ (fun h => hi (by rw [← h]; exact List.mem_cons_self a tl)) _ _]

theorem getD_foldl_set_mem : ∀ (l : List ℕ) (v : List Bool) (i : ℕ), i ∈ l →
    i < v.length → (l.foldl (fun v j => v.set j true) v).getD i false = true := by
  intro l
  induction l with
  | nil => intro v i hi _; exact absurd hi (List.not_mem_nil i)
  | cons a tl ih =>
    intro v i hi hlen
    rw [List.foldl_cons]
    by_cases hmem : i ∈ tl
    · exact ih _ _ hmem (by rw [List.length_set]; exact hlen)
    · rcases List.mem_cons.mp hi with rfl | h
      · rw [getD_foldl_set_not_mem _ _ _ hmem, getD_set_self hlen]
      · exact absurd h hmem

theorem getD_foldl_set_true : ∀ (l : List ℕ) (v : List Bool) (i : ℕ),
    v.getD i false = true →
    (l.foldl (fun v j => v.set j true) v).getD i false = true := by
  intro l
  induction l with
  | nil => intro v i h; exact h
  | cons a tl ih =>
    intro v i h
    have hlen : i < v.length := by
      by_contra hge
      rw [List.getD_eq_getElem?_getD, List.getElem?_eq_none (by omega)] at h
      exact absurd h (by simp)
    rw [List.foldl_cons]
    apply ih
    by_cases hai : a = i
    · subst hai
      rw [getD_set_self hlen]
    · rw [getD_set_ne _ hai _ _]
      exact h

theorem rrNewcomers_lt (processes : List Process) (visited : List Bool)
    (t : ℤ) (rem : List ℤ) :
    ∀ j ∈ rrNewcomers processes visited t rem, j < processes.length := by
  intro j hj
  have h1 : List.Sublist (rrNewcomers processes visited t rem)
      (processes.enum.map Prod.fst) :=
    (List.filter_sublist processes.enum).map Prod.fst
  rw [List.enum_map_fst] at h1
  exact List.mem_range.mp (h1.subset hj)

theorem rrNewcomers_nodup (processes : List Process) (visited : List Bool)
    (t : ℤ) (rem : List ℤ) : (rrNewcomers processes visited t rem).Nodup := by
  have h1 : List.Sublist (rrNewcomers processes visited t rem)
      (processes.enum.map Prod.fst) :=
    (List.filter_sublist processes.enum).map Prod.fst
  rw [List.enum_map_fst] at h1
  exact (List.nodup_range processes.length).sublist h1

theorem rrFindNext_some {ps : List Process} {vis : List Bool} {ip : ℕ × Process}
    (h : rrFindNext ps vis = some ip) :
    ps[ip.1]? = some ip.2 ∧ vis.getD ip.1 false = false := by
  obtain ⟨h1, h2⟩ := selectIdx_some h
  refine ⟨h1, ?_⟩
  have h2' : (! vis.getD ip.1 false) = true := h2
  cases hb : vis.getD ip.1 false with
  | false => rfl
  | true => rw [hb] at h2'; exact absurd h2' (by decide)

theorem rrFindNext_none {ps : List Process} {vis : List Bool}
    (h : rrFindNext ps vis = none) :
    ∀ (i : ℕ) (p : Process), ps[i]? = some p → vis.getD i false = true := by
  have hall := selectIdx_none (fun i p _ _ => rfl) h
  intro i p hp
  have hc := hall i p hp
  have hc' : (! vis.getD i false) = false := hc
  cases hb : vis.getD i false with
  | true => rfl
  | false => rw [hb] at hc'; exact absurd hc' (by decide)

theorem foldl_arrmin_mono (cand : ℕ → Process → Bool) :
    ∀ (l : List (ℕ × Process)) (a : ℕ × Process),
      ∃ r, l.foldl (selUpd cand (fun ip acc =>
          match acc with
          | none => true
          | some jq => decide (ip.2.arrivalTime < jq.2.arrivalTime))) (some a) =
          some r ∧
        r.2.arrivalTime ≤ a.2.arrivalTime := by
  intro l
  induction l with
  | nil => intro a; exact ⟨a, rfl, le_refl _⟩
  | cons x xs ih =>
    intro a
    rw [List.foldl_cons]
    by_cases hc : cand x.1 x.2 = true
    · by_cases hlt : x.2.arrivalTime < a.2.arrivalTime
      · have hstep : selUpd cand (fun ip acc =>
            match acc with
            | none => true
            | some jq => decide (ip.2.arrivalTime < jq.2.arrivalTime)) (some a) x =
            some x := by
          simp [selUpd, hc, hlt]
        rw [hstep]
        obtain ⟨r, hr, hle⟩ := ih x
        exact ⟨r, hr, le_trans hle (le_of_lt hlt)⟩
      · have hstep : selUpd cand (fun ip acc =>
            match acc with
            | none => true
            | some jq => decide (ip.2.arrivalTime < jq.2.arrivalTime)) (some a) x =
            some a := by
          simp [selUpd, hc, hlt]
        rw [hstep]
        exact ih a
    · have hstep : selUpd cand (fun ip acc =>
          match acc with
          | none => true
          | some jq => decide (ip.2.arrivalTime < jq.2.arrivalTime)) (some a) x =
          some a := by
        simp only [Bool.not_eq_true] at hc
        simp [selUpd, hc]
      rw [hstep]
      exact ih a

theorem foldl_arrmin (cand : ℕ → Process → Bool) :
    ∀ (l : List (ℕ × Process)) (acc : Option (ℕ × Process)) (x : ℕ × Process),
      x ∈ l → cand x.1 x.2 = true →
      ∃ r, l.foldl (selUpd cand (fun ip acc =>
          match acc with
          | none => true
          | some jq => decide (ip.2.arrivalTime < jq.2.arrivalTime))) acc =
          some r ∧
        r.2.arrivalTime ≤ x.2.arrivalTime := by
  intro l
  induction l with
  | nil => intro acc x hx _; exact absurd hx (List.not_mem_nil x)
  | cons y ys ih =>
    intro acc x hx hc
    rw [List.foldl_cons]
    rcases List.mem_cons.mp hx with rfl | hx'
    · cases acc with
      | none =>
        have hstep : selUpd cand (fun ip acc =>
            match acc with
            | none => true
            | some jq => decide (ip.2.arrivalTime < jq.2.arrivalTime)) none x =
            some x := by
          simp [selUpd, hc]
        rw [hstep]
        exact foldl_arrmin_mono cand ys x
      | some a =>
        by_cases hlt : x.2.arrivalTime < a.2.arrivalTime
        · have hstep : selUpd cand (fun ip acc =>
              match acc with
              | none => true
              | some jq => decide (ip.2.arrivalTime < jq.2.arrivalTime)) (some a) x =
              some x := by
            simp [selUpd, hc, hlt]
          rw [hstep]
          exact foldl_arrmin_mono cand ys x
        · have hstep : selUpd cand (fun ip acc =>
              match acc with
              | none => true
              | some jq => decide (ip.2.arrivalTime < jq.2.arrivalTime)) (some a) x =
              some a := by
            simp [selUpd, hc, hlt]
          rw [hstep]
          obtain ⟨r, hr, hle⟩ := foldl_arrmin_mono cand ys a
          exact ⟨r, hr, le_trans hle (by omega)⟩
    · exact ih _ x hx' hc

/-- `rrFindNext` returns the unvisited process with the smallest arrival. -/
theorem rrFindNext_min {ps : List Process} {vis : List Bool} {ip : ℕ × Process}
    (h : rrFindNext ps vis = some ip) :
    ∀ (j : ℕ) (q : Process), ps[j]? = some q → vis.getD j false = false →
      ip.2.arrivalTime ≤ q.arrivalTime := by
  intro j q hj hv
  have hmem : (j, q) ∈ ps.enum := List.mem_enum_iff_getElem?.mpr hj
  have hcand : (fun i (_ : Process) => ! vis.getD i false) (j, q).1 (j, q).2 = true := by
    show (! vis.getD j false) = true
    rw [hv]
    rfl
  obtain ⟨r, hr, hle⟩ :=
    foldl_arrmin (fun i (_ : Process) => ! vis.getD i false) ps.enum none (j, q)
      hmem hcand
  unfold rrFindNext selectIdx at h
  rw [h] at hr
  obtain rfl : r = ip := by injection hr with h'; exact h'.symm
  exact hle

theorem getD_map_proc {α : Type} {ps : List Process} {i : ℕ} {p : Process}
    (h : ps[i]? = some p) (f : Process → α) (d : α) :
    (ps.map f).getD i d = f p := by
  rw [List.getD_eq_getElem?_getD, List.getElem?_map, h]
  rfl

theorem rrInitQueue_mem (ps : List Process) (j : ℕ) (q : Process)
    (hj : ps[j]? = some q) :
    j ∈ (rrInit ps).queue ↔ q.arrivalTime = 0 := by
  show j ∈ (ps.enum.filter (fun ip => decide (ip.2.arrivalTime = 0))).map Prod.fst ↔ _
  rw [List.mem_map]
  constructor
  · rintro ⟨jq, hmem, rfl⟩
    rw [List.mem_filter] at hmem
    obtain ⟨henum, hcond⟩ := hmem
    rw [List.mem_enum_iff_getElem?] at henum
    rw [henum] at hj
    obtain rfl : jq.2 = q := by injection hj
    simpa using hcond
  · intro h0
    refine ⟨(j, q), ?_, rfl⟩
    rw [List.mem_filter]
    exact ⟨List.mem_enum_iff_getElem?.mpr hj, by simpa using h0⟩

theorem rrInitQueue_nodup (ps : List Process) : (rrInit ps).queue.Nodup := by
  have h1 : List.Sublist (rrInit ps).queue (ps.enum.map Prod.fst) :=
    (List.filter_sublist ps.enum).map Prod.fst
  rw [List.enum_map_fst] at h1
  exact (List.nodup_range ps.length).sublist h1

/-- The queue/visited/remaining invariant of the Round Robin loop that needs no
assumption on arrival times: lengths, completion counting, remaining-time
bounds, every queue member in range with work left and marked visited, every
unvisited process untouched, the queue duplicate-free, and every visited
process with work left still queued. -/
structure RRInvBase (ps : List Process) (s : RRState) : Prop where
  hremlen : s.remainingTime.length = ps.length
  hvislen : s.visited.length = ps.length
  hcount : s.completed = s.remainingTime.countP (fun r => decide (r = 0))
  hrem : ∀ (i : ℕ) (p : Process), ps[i]? = some p →
    0 ≤ s.remainingTime.getD i 0 ∧ s.remainingTime.getD i 0 ≤ p.burstTime
  hqmem : ∀ j ∈ s.queue, j < ps.length ∧ 0 < s.remainingTime.getD j 0 ∧
    s.visited.getD j false = true
  hunvis : ∀ (i : ℕ) (p : Process), ps[i]? = some p →
    s.visited.getD i false = false → s.remainingTime.getD i 0 = p.burstTime
  hnodup : s.queue.Nodup
  hcover : ∀ (i : ℕ) (p : Process), ps[i]? = some p →
    s.visited.getD i false = true → 0 < s.remainingTime.getD i 0 → i ∈ s.queue

theorem rrInvBase_init {ps : List Process} (hv : ∀ p ∈ ps, 1 ≤ p.burstTime) :
    RRInvBase ps (rrInit ps) := by
  constructor
  · simp [rrInit]
  · simp [rrInit]
  · show (0 : ℕ) = (ps.map (fun p => p.burstTime)).countP (fun r => decide (r = 0))
    refine (List.countP_eq_zero.mpr ?_).symm
    intro r hr
    obtain ⟨p, hp, rfl⟩ := List.mem_map.mp hr
    have := hv p hp
    simp only [decide_eq_true_eq]
    omega
  · intro i p hp
    have hg : (rrInit ps).remainingTime.getD i 0 = p.burstTime := getD_map_proc hp _ 0
    rw [hg]
    have := hv p (mem_of_getElem?_proc hp)
    exact ⟨by omega, le_refl _⟩
  · intro j hj
    have hjlen : j < ps.length := by
      have h1 : List.Sublist (rrInit ps).queue (ps.enum.map Prod.fst) :=
        (List.filter_sublist ps.enum).map Prod.fst
      rw [List.enum_map_fst] at h1
      exact List.mem_range.mp (h1.subset hj)
    obtain ⟨pj, hpj⟩ : ∃ pj, ps[j]? = some pj := ⟨ps[j], List.getElem?_eq_getElem hjlen⟩
    have h0 : pj.arrivalTime = 0 := (rrInitQueue_mem ps j pj hpj).mp hj
    refine ⟨hjlen, ?_, ?_⟩
    · have hg : (rrInit ps).remainingTime.getD j 0 = pj.burstTime := getD_map_proc hpj _ 0
      rw [hg]
      have := hv pj (mem_of_getElem?_proc hpj)
      omega
    · have hg : (rrInit ps).visited.getD j false = decide (pj.arrivalTime = 0) :=
        getD_map_proc hpj _ false
      rw [hg, h0]
      rfl
  · intro i p hp _
    exact getD_map_proc hp (fun p => p.burstTime) 0
  · exact rrInitQueue_nodup ps
  · intro i p hp hvis _
    have hg : (rrInit ps).visited.getD i false = decide (p.arrivalTime = 0) :=
      getD_map_proc hp _ false
    rw [hg] at hvis
    rw [rrInitQueue_mem ps i p hp]
    simpa using hvis

theorem rrFF_rem (ps : List Process) (s : RRState) :
    (rrFF ps s).remainingTime = s.remainingTime := by
  unfold rrFF
  by_cases hemp : s.queue.isEmpty = true
  · rw [if_pos hemp]
    cases rrFindNext ps s.visited with
    | some ip => rfl
    | none => rfl
  · rw [if_neg hemp]

theorem rrFF_queue_ne {ps : List Process} {s : RRState}
    (hexit : rrExit ps s = false) : (rrFF ps s).queue ≠ [] := by
  unfold rrExit at hexit
  rw [Bool.or_eq_false_iff, Bool.and_eq_false_iff] at hexit
  obtain ⟨h1, h2⟩ := hexit
  unfold rrFF
  by_cases hemp : s.queue.isEmpty = true
  · rw [if_pos hemp]
    rcases h2 with h | h
    · rw [hemp] at h
      exact absurd h (by decide)
    · cases hfn : rrFindNext ps s.visited with
      | none => rw [hfn] at h; exact absurd h (by decide)
      | some ip =>
        show ([ip.1] : List ℕ) ≠ []
        simp
  · rw [if_neg hemp]
    intro h
    rw [h] at hemp
    exact hemp rfl

theorem rrFF_base {ps : List Process} (hv : ∀ p ∈ ps, 1 ≤ p.burstTime)
    {s : RRState} (hinv : RRInvBase ps s) : RRInvBase ps (rrFF ps s) := by
  obtain ⟨hremlen, hvislen, hcount, hrem, hqmem, hunvis, hnodup, hcover⟩ := hinv
  unfold rrFF
  by_cases hemp : s.queue.isEmpty = true
  · rw [if_pos hemp]
    have hqnil : s.queue = [] := List.isEmpty_iff.mp hemp
    cases hfn : rrFindNext ps s.visited with
    | none => exact ⟨hremlen, hvislen, hcount, hrem, hqmem, hunvis, hnodup, hcover⟩
    | some ip =>
      obtain ⟨hpp, hvip⟩ := rrFindNext_some hfn
      have hilen : ip.1 < ps.length := by
        by_contra hge
        rw [List.getElem?_eq_none (by omega)] at hpp
        exact absurd hpp (by simp)
      refine ⟨hremlen, ?_, hcount, hrem, ?_, ?_, List.nodup_singleton ip.1, ?_⟩
      · show (s.visited.set ip.1 true).length = ps.length
        rw [List.length_set]
        exact hvislen
      · intro j hj
        obtain rfl : j = ip.1 := List.mem_singleton.mp hj
        refine ⟨hilen, ?_, ?_⟩
        · show 0 < s.remainingTime.getD ip.1 0
          rw [hunvis ip.1 ip.2 hpp hvip]
          have := hv ip.2 (mem_of_getElem?_proc hpp)
          omega
        · show (s.visited.set ip.1 true).getD ip.1 false = true
          exact getD_set_self (by omega) _ _
      · intro i p hp hvi
        have hvi' : (s.visited.set ip.1 true).getD i false = false := hvi
        by_cases hii : ip.1 = i
        · subst hii
          rw [getD_set_self (by omega) _ _] at hvi'
          exact absurd hvi' (by decide)
        · rw [getD_set_ne _ hii _ _] at hvi'
          exact hunvis i p hp hvi'
      · intro i p hp hvi hri
        have hvi' : (s.visited.set ip.1 true).getD i false = true := hvi
        show i ∈ [ip.1]
        by_cases hii : ip.1 = i
        · rw [hii]
          exact List.mem_singleton.mpr rfl
        · rw [getD_set_ne _ hii _ _] at hvi'
          have := hcover i p hp hvi' hri
          rw [hqnil] at this
          exact absurd this (List.not_mem_nil i)
  · rw [if_neg hemp]
    exact ⟨hremlen, hvislen, hcount, hrem, hqmem, hunvis, hnodup, hcover⟩

theorem rrSlice_base {ps : List Process} {q : ℤ} (hq1 : 1 ≤ q)
    (hv : ∀ p ∈ ps, 1 ≤ p.burstTime) {s₁ : RRState}
    (hinv : RRInvBase ps s₁) : RRInvBase ps (rrSlice ps q s₁) := by
  obtain ⟨hremlen, hvislen, hcount, hrem, hqmem, hunvis, hnodup, hcover⟩ := hinv
  cases hqe : s₁.queue with
  | nil =>
    rw [rrSlice_eq_nil hqe]
    exact ⟨hremlen, hvislen, hcount, hrem, hqmem, hunvis, hnodup, hcover⟩
  | cons idx rest =>
    obtain ⟨hilen, hrpos, hvidx⟩ :=
      hqmem idx (by rw [hqe]; exact List.mem_cons_self idx rest)
    obtain ⟨p, hp⟩ : ∃ p, ps[idx]? = some p := ⟨ps[idx], List.getElem?_eq_getElem hilen⟩
    rw [rrSlice_eq_run1 hqe hp]
    have hexec1 : 1 ≤ rrExec q s₁ idx := le_min hq1 (by omega)
    have hexecle : rrExec q s₁ idx ≤ s₁.remainingTime.getD idx 0 := min_le_right _ _
    have hremi : s₁.remainingTime[idx]? = some (s₁.remainingTime.getD idx 0) := by
      rw [List.getD_eq_getElem?_getD, List.getElem?_eq_getElem (by omega)]
      rfl
    have hremip : (rrRem q s₁ idx).getD idx 0 =
        s₁.remainingTime.getD idx 0 - rrExec q s₁ idx := getD_modIdx_self hremi _ 0
    have hremget : ∀ (j : ℕ), j ≠ idx →
        (rrRem q s₁ idx).getD j 0 = s₁.remainingTime.getD j 0 :=
      fun j hj => getD_modIdx_ne _ _ _ (fun h => hj h.symm) 0
    have hremlen' : (rrRem q s₁ idx).length = ps.length := by
      show (modIdx s₁.remainingTime idx (fun r => r - rrExec q s₁ idx)).length = ps.length
      rw [length_modIdx]
      exact hremlen
    have hnodup' : (idx :: rest).Nodup := by rw [← hqe]; exact hnodup
    have hidxnotrest : idx ∉ rest := (List.nodup_cons.mp hnodup').1
    have hrestnodup : rest.Nodup := (List.nodup_cons.mp hnodup').2
    have hnewlt : ∀ j ∈ rrNewc ps q s₁ idx, j < ps.length := by
      intro j hj
      exact rrNewcomers_lt ps s₁.visited _ _ j hj
    have hnewfacts : ∀ j ∈ rrNewc ps q s₁ idx,
        s₁.visited.getD j false = false ∧ 0 < (rrRem q s₁ idx).getD j 0 := by
      intro j hj
      have hjlen : j < ps.length := hnewlt j hj
      obtain ⟨pj, hpj⟩ : ∃ pj, ps[j]? = some pj := ⟨ps[j], List.getElem?_eq_getElem hjlen⟩
      have h := (rrNewcomers_mem ps s₁.visited (rrT q s₁ idx) (rrRem q s₁ idx)
        j pj hpj).mp hj
      exact ⟨h.1, h.2.2⟩
    have hnewnodup : (rrNewc ps q s₁ idx).Nodup := rrNewcomers_nodup ps s₁.visited _ _
    have hnewnotq : ∀ j ∈ rrNewc ps q s₁ idx, j ∉ (idx :: rest) := by
      intro j hj hmem
      have h1 : s₁.visited.getD j false = true :=
        (hqmem j (by rw [hqe]; exact hmem)).2.2
      have h2 := (hnewfacts j hj).1
      rw [h1] at h2
      exact absurd h2 (by decide)
    have hvlen' : (rrVis ps q s₁ idx).length = ps.length := by
      show ((rrNewc ps q s₁ idx).foldl (fun v j => v.set j true) s₁.visited).length =
        ps.length
      rw [length_foldl_set]
      exact hvislen
    have hvis'true : ∀ (i : ℕ), s₁.visited.getD i false = true →
        (rrVis ps q s₁ idx).getD i false = true :=
      fun i h => getD_foldl_set_true _ _ _ h
    have hvis'new : ∀ j ∈ rrNewc ps q s₁ idx,
        (rrVis ps q s₁ idx).getD j false = true := by
      intro j hj
      exact getD_foldl_set_mem _ _ _ hj (by rw [hvislen]; exact hnewlt j hj)
    have hvis'not : ∀ (i : ℕ), i ∉ rrNewc ps q s₁ idx →
        (rrVis ps q s₁ idx).getD i false = s₁.visited.getD i false :=
      fun i h => getD_foldl_set_not_mem _ _ _ h
    have hcnt := countP_modIdx (fun r => decide (r = 0)) (fun r => r - rrExec q s₁ idx)
      s₁.remainingTime idx _ hremi
    simp only [decide_eq_true_eq] at hcnt
    rw [if_neg (by omega : ¬ (s₁.remainingTime.getD idx 0 = 0))] at hcnt
    have hremclause : ∀ (i : ℕ) (p' : Process), ps[i]? = some p' →
        0 ≤ (rrRem q s₁ idx).getD i 0 ∧ (rrRem q s₁ idx).getD i 0 ≤ p'.burstTime := by
      intro i p' hp'
      by_cases hii : i = idx
      · subst hii
        obtain rfl : p = p' := by
          rw [hp] at hp'
          injection hp'
        rw [hremip]
        obtain ⟨h1, h2⟩ := hrem i p hp
        exact ⟨by omega, by omega⟩
      · rw [hremget i hii]
        exact hrem i p' hp'
    have hunvisclause : ∀ (i : ℕ) (p' : Process), ps[i]? = some p' →
        (rrVis ps q s₁ idx).getD i false = false →
        (rrRem q s₁ idx).getD i 0 = p'.burstTime := by
      intro i p' hp' hvf
      have hinew : i ∉ rrNewc ps q s₁ idx := by
        intro h
        rw [hvis'new i h] at hvf
        exact absurd hvf (by decide)
      rw [hvis'not i hinew] at hvf
      have hine : i ≠ idx := by
        intro h
        rw [h, hvidx] at hvf
        exact absurd hvf (by decide)
      rw [hremget i hine]
      exact hunvis i p' hp' hvf
    unfold rrRun1
    by_cases hfin : 0 < (rrRem q s₁ idx).getD idx 0
    · rw [if_pos hfin]
      refine ⟨hremlen', hvlen', ?_, hremclause, ?_, hunvisclause, ?_, ?_⟩
      · show s₁.completed = (modIdx s₁.remainingTime idx
          (fun r => r - rrExec q s₁ idx)).countP (fun r => decide (r = 0))
        have hz : ¬ (s₁.remainingTime.getD idx 0 - rrExec q s₁ idx = 0) := by
          rw [← hremip]
          omega
        rw [if_neg hz] at hcnt
        omega
      · intro j hj
        have hj' : j ∈ (rest ++ rrNewc ps q s₁ idx) ++ [idx] := hj
        show j < ps.length ∧ 0 < (rrRem q s₁ idx).getD j 0 ∧
          (rrVis ps q s₁ idx).getD j false = true
        rcases List.mem_append.mp hj' with hj2 | hj3
        · rcases List.mem_append.mp hj2 with hrest | hnew
          · have hmemq : j ∈ s₁.queue := by
              rw [hqe]
              exact List.mem_cons_of_mem idx hrest
            obtain ⟨hl, hr0, hvt⟩ := hqmem j hmemq
            have hjne : j ≠ idx := fun h =>
              hidxnotrest (by rw [← h]; exact hrest)
            refine ⟨hl, ?_, hvis'true j hvt⟩
            rw [hremget j hjne]
            exact hr0
          · obtain ⟨hvf, hr0⟩ := hnewfacts j hnew
            exact ⟨hnewlt j hnew, hr0, hvis'new j hnew⟩
        · obtain rfl : j = idx := List.mem_singleton.mp hj3
          exact ⟨hilen, hfin, hvis'true j hvidx⟩
      · show ((rest ++ rrNewc ps q s₁ idx) ++ [idx]).Nodup
        refine List.Nodup.append (List.Nodup.append hrestnodup hnewnodup ?_)
          (List.nodup_singleton idx) ?_
        · intro a ha hanew
          exact hnewnotq a hanew (List.mem_cons_of_mem idx ha)
        · intro a ha hidx
          obtain rfl : a = idx := List.mem_singleton.mp hidx
          rcases List.mem_append.mp ha with h | h
          · exact hidxnotrest h
          · exact hnewnotq a h (List.mem_cons_self a rest)
      · intro i p' hp' hvt hr0
        have hvt' : (rrVis ps q s₁ idx).getD i false = true := hvt
        have hr0' : 0 < (rrRem q s₁ idx).getD i 0 := hr0
        show i ∈ (rest ++ rrNewc ps q s₁ idx) ++ [idx]
        by_cases hinew : i ∈ rrNewc ps q s₁ idx
        · exact List.mem_append.mpr (Or.inl (List.mem_append.mpr (Or.inr hinew)))
        · rw [hvis'not i hinew] at hvt'
          by_cases hii : i = idx
          · subst hii
            exact List.mem_append.mpr (Or.inr (List.mem_singleton.mpr rfl))
          · have hr1 : 0 < s₁.remainingTime.getD i 0 := by
              rw [← hremget i hii]
              exact hr0'
            have hmem := hcover i p' hp' hvt' hr1
            rw [hqe] at hmem
            rcases List.mem_cons.mp hmem with h | h
            · exact absurd h hii
            · exact List.mem_append.mpr (Or.inl (List.mem_append.mpr (Or.inl h)))
    · rw [if_neg hfin]
      have hz0 : (rrRem q s₁ idx).getD idx 0 = 0 := by
        rw [hremip] at hfin ⊢
        omega
      refine ⟨hremlen', hvlen', ?_, hremclause, ?_, hunvisclause, ?_, ?_⟩
      · show s₁.completed + 1 = (modIdx s₁.remainingTime idx
          (fun r => r - rrExec q s₁ idx)).countP (fun r => decide (r = 0))
        have hz : s₁.remainingTime.getD idx 0 - rrExec q s₁ idx = 0 := by
          rw [← hremip]
          exact hz0
        rw [if_pos hz] at hcnt
        omega
      · intro j hj
        have hj' : j ∈ rest ++ rrNewc ps q s₁ idx := hj
        show j < ps.length ∧ 0 < (rrRem q s₁ idx).getD j 0 ∧
          (rrVis ps q s₁ idx).getD j false = true
        rcases List.mem_append.mp hj' with hrest | hnew
        · have hmemq : j ∈ s₁.queue := by
            rw [hqe]
            exact List.mem_cons_of_mem idx hrest
          obtain ⟨hl, hr0, hvt⟩ := hqmem j hmemq
          have hjne : j ≠ idx := fun h =>
            hidxnotrest (by rw [← h]; exact hrest)
          refine ⟨hl, ?_, hvis'true j hvt⟩
          rw [hremget j hjne]
          exact hr0
        · obtain ⟨hvf, hr0⟩ := hnewfacts j hnew
          exact ⟨hnewlt j hnew, hr0, hvis'new j hnew⟩
      · show (rest ++ rrNewc ps q s₁ idx).Nodup
        refine List.Nodup.append hrestnodup hnewnodup ?_
        intro a ha hanew
        exact hnewnotq a hanew (List.mem_cons_of_mem idx ha)
      · intro i p' hp' hvt hr0
        have hvt' : (rrVis ps q s₁ idx).getD i false = true := hvt
        have hr0' : 0 < (rrRem q s₁ idx).getD i 0 := hr0
        show i ∈ rest ++ rrNewc ps q s₁ idx
        by_cases hinew : i ∈ rrNewc ps q s₁ idx
        · exact List.mem_append.mpr (Or.inr hinew)
        · rw [hvis'not i hinew] at hvt'
          by_cases hii : i = idx
          · subst hii
            rw [hz0] at hr0'
            exact absurd hr0' (by omega)
          · have hr1 : 0 < s₁.remainingTime.getD i 0 := by
              rw [← hremget i hii]
              exact hr0'
            have hmem := hcover i p' hp' hvt' hr1
            rw [hqe] at hmem
            rcases List.mem_cons.mp hmem with h | h
            · exact absurd h hii
            · exact List.mem_append.mpr (Or.inl h)

theorem rrInvBase_rem_nonneg {ps : List Process} {s : RRState}
    (hinv : RRInvBase ps s) : ∀ r ∈ s.remainingTime, 0 ≤ r := by
  intro r hr
  obtain ⟨i, hi⟩ := List.getElem?_of_mem hr
  have hilt : i < ps.length := by
    have h1 : i < s.remainingTime.length := by
      by_contra hge
      rw [List.getElem?_eq_none (by omega)] at hi
      exact absurd hi (by simp)
    have := hinv.hremlen
    omega
  obtain ⟨p, hp⟩ : ∃ p, ps[i]? = some p := ⟨ps[i], List.getElem?_eq_getElem hilt⟩
  have := (hinv.hrem i p hp).1
  rw [List.getD_eq_getElem?_getD, hi] at this
  exact this

/-- At Round Robin loop exit (all completed, or empty queue with no one left
to fast-forward to) every remaining time is 0. -/
theorem rrInvBase_exit {ps : List Process} {s : RRState}
    (hinv : RRInvBase ps s) (hexit : rrExit ps s = true) :
    ∀ (i : ℕ), s.remainingTime.getD i 0 = 0 := by
  obtain ⟨hremlen, hvislen, hcount, hrem, hqmem, hunvis, hnodup, hcover⟩ := hinv
  unfold rrExit at hexit
  rw [Bool.or_eq_true] at hexit
  rcases hexit with h | h
  · rw [decide_eq_true_eq] at h
    exact all_rem_zero hremlen hcount h
  · rw [Bool.and_eq_true] at h
    obtain ⟨hq0, hfn⟩ := h
    have hqnil : s.queue = [] := List.isEmpty_iff.mp hq0
    have hfn' : rrFindNext ps s.visited = none := by
      rw [Option.isNone_iff_eq_none] at hfn
      exact hfn
    intro i
    rcases lt_or_ge i s.remainingTime.length with hi | hi
    · have hilen : i < ps.length := by omega
      obtain ⟨p, hp⟩ : ∃ p, ps[i]? = some p := ⟨ps[i], List.getElem?_eq_getElem hilen⟩
      have hvt := rrFindNext_none hfn' i p hp
      by_contra hne
      have h0 := (hrem i p hp).1
      have hpos : 0 < s.remainingTime.getD i 0 := by omega
      have := hcover i p hp hvt hpos
      rw [hqnil] at this
      exact absurd this (List.not_mem_nil i)
    · rw [List.getD_eq_getElem?_getD, List.getElem?_eq_none (by omega)]
      rfl

/-- Termination of the Round Robin loop: every non-exit iteration executes a
positive slice, so the total remaining time strictly decreases. -/
theorem solveRR_isSome (ps : List Process) (q : ℤ) (hq1 : 1 ≤ q)
    (hv : ∀ p ∈ ps, 1 ≤ p.burstTime) (fuel : ℕ)
    (hfuel : fuelBound ps ≤ fuel) : (solveRR ps q fuel).isSome := by
  apply loopRun_isSome (RRInvBase ps) (fun s => s.remainingTime.sum.toNat)
  · intro s hs hexit
    have hs₁ : RRInvBase ps (rrFF ps s) := rrFF_base hv hs
    have hne := rrFF_queue_ne hexit
    refine ⟨?_, ?_⟩
    · rw [rrStep_eq]
      exact rrSlice_base hq1 hv hs₁
    · cases hqe : (rrFF ps s).queue with
      | nil => exact absurd hqe hne
      | cons idx rest =>
        obtain ⟨hilen, hrpos, hvidx⟩ :=
          hs₁.hqmem idx (by rw [hqe]; exact List.mem_cons_self idx rest)
        obtain ⟨p, hp⟩ : ∃ p, ps[idx]? = some p :=
          ⟨ps[idx], List.getElem?_eq_getElem hilen⟩
        have hrw : rrStep ps q s = rrRun1 ps q (rrFF ps s) idx rest p := by
          rw [rrStep_eq, rrSlice_eq_run1 hqe hp]
        rw [hrw]
        have hrun : (rrRun1 ps q (rrFF ps s) idx rest p).remainingTime =
            rrRem q (rrFF ps s) idx := by
          unfold rrRun1
          by_cases hfin : 0 < (rrRem q (rrFF ps s) idx).getD idx 0
          · rw [if_pos hfin]
          · rw [if_neg hfin]
        rw [hrun]
        have hremfacts : (rrFF ps s).remainingTime = s.remainingTime := rrFF_rem ps s
        have hremi : (rrFF ps s).remainingTime[idx]? =
            some ((rrFF ps s).remainingTime.getD idx 0) := by
          rw [List.getD_eq_getElem?_getD, List.getElem?_eq_getElem (by
            have := hs₁.hremlen
            omega)]
          rfl
        have hsum := sum_modIdx (fun r => r - rrExec q (rrFF ps s) idx)
          (rrFF ps s).remainingTime idx _ hremi
        have hbeta : ((fun r => r - rrExec q (rrFF ps s) idx)
            ((rrFF ps s).remainingTime.getD idx 0) : ℤ) =
            (rrFF ps s).remainingTime.getD idx 0 - rrExec q (rrFF ps s) idx := rfl
        rw [hbeta] at hsum
        have hexec1 : 1 ≤ rrExec q (rrFF ps s) idx := le_min hq1 (by omega)
        have hexecle : rrExec q (rrFF ps s) idx ≤
            (rrFF ps s).remainingTime.getD idx 0 := min_le_right _ _
        have hnn := rrInvBase_rem_nonneg hs₁
        have hle := getD_le_sum hnn (i := idx) (by
          have := hs₁.hremlen
          omega)
        show (modIdx (rrFF ps s).remainingTime idx
          (fun r => r - rrExec q (rrFF ps s) idx)).sum.toNat <
          s.remainingTime.sum.toNat
        rw [← hremfacts]
        omega
  · exact rrInvBase_init hv
  · show (ps.map (fun p : Process => p.burstTime)).sum.toNat < fuel
    unfold fuelBound at hfuel
    have hsb : (ps.map (fun p : Process => p.burstTime)).sum = sumBursts ps := rfl
    omega

/-- The result/clock invariant of the Round Robin loop: results aligned with
the input, remaining-time progress tied to the clock, queue members arrived,
unvisited processes not yet due, and completed results correct. -/
structure RRInvRes (ps : List Process) (s : RRState) : Prop where
  hreslen : s.results.length = ps.length
  hremarr : ∀ (i : ℕ) (p : Process), ps[i]? = some p →
    s.remainingTime.getD i 0 < p.burstTime →
    p.arrivalTime + (p.burstTime - s.remainingTime.getD i 0) ≤ s.currentTime
  hqarr : ∀ (j : ℕ) (p : Process), ps[j]? = some p → j ∈ s.queue →
    p.arrivalTime ≤ s.currentTime
  hunvisarr : ∀ (i : ℕ) (p : Process), ps[i]? = some p →
    s.visited.getD i false = false → s.currentTime ≤ p.arrivalTime
  hres : ∀ (i : ℕ) (p : Process), ps[i]? = some p → ∃ r, s.results[i]? = some r ∧
    r.arrivalTime = p.arrivalTime ∧ r.burstTime = p.burstTime ∧
    (s.remainingTime.getD i 0 = 0 → ResultOK r)

theorem rrInvRes_init {ps : List Process} (hv : ∀ p ∈ ps, 1 ≤ p.burstTime)
    (harr : ∀ p ∈ ps, 0 ≤ p.arrivalTime) : RRInvRes ps (rrInit ps) := by
  constructor
  · simp [rrInit]
  · intro i p hp hlt
    have hg : (rrInit ps).remainingTime.getD i 0 = p.burstTime := getD_map_proc hp _ 0
    rw [hg] at hlt
    omega
  · intro j p hp hj
    have h0 : p.arrivalTime = 0 := (rrInitQueue_mem ps j p hp).mp hj
    show p.arrivalTime ≤ 0
    omega
  · intro i p hp _
    show (0 : ℤ) ≤ p.arrivalTime
    exact harr p (mem_of_getElem?_proc hp)
  · intro i p hp
    refine ⟨initResult p, getElem?_map_initResult hp, rfl, rfl, ?_⟩
    intro h0
    have hg : (rrInit ps).remainingTime.getD i 0 = p.burstTime := getD_map_proc hp _ 0
    rw [hg] at h0
    have := hv p (mem_of_getElem?_proc hp)
    omega

theorem rrFF_res {ps : List Process} {s : RRState}
    (hbase : RRInvBase ps s) (hres : RRInvRes ps s) : RRInvRes ps (rrFF ps s) := by
  obtain ⟨hreslen, hremarr, hqarr, hunvisarr, hresc⟩ := hres
  unfold rrFF
  by_cases hemp : s.queue.isEmpty = true
  · rw [if_pos hemp]
    cases hfn : rrFindNext ps s.visited with
    | none => exact ⟨hreslen, hremarr, hqarr, hunvisarr, hresc⟩
    | some ip =>
      obtain ⟨hpp, hvip⟩ := rrFindNext_some hfn
      have hilen : ip.1 < ps.length := by
        by_contra hge
        rw [List.getElem?_eq_none (by omega)] at hpp
        exact absurd hpp (by simp)
      have htle : s.currentTime ≤ ip.2.arrivalTime := hunvisarr ip.1 ip.2 hpp hvip
      refine ⟨hreslen, ?_, ?_, ?_, hresc⟩
      · intro i p hp hlt
        show p.arrivalTime + (p.burstTime - s.remainingTime.getD i 0) ≤
          ip.2.arrivalTime
        have := hremarr i p hp hlt
        omega
      · intro j p hp hj
        obtain rfl : j = ip.1 := List.mem_singleton.mp hj
        have hpe : p = ip.2 := by
          rw [hpp] at hp
          injection hp with h
          exact h.symm
        show p.arrivalTime ≤ ip.2.arrivalTime
        rw [hpe]
      · intro i p hp hvi
        have hvi' : (s.visited.set ip.1 true).getD i false = false := hvi
        show ip.2.arrivalTime ≤ p.arrivalTime
        by_cases hii : ip.1 = i
        · subst hii
          have hvlen := hbase.hvislen
          rw [getD_set_self (by omega) _ _] at hvi'
          exact absurd hvi' (by decide)
        · rw [getD_set_ne _ hii _ _] at hvi'
          exact rrFindNext_min hfn i p hp hvi'
  · rw [if_neg hemp]
    exact ⟨hreslen, hremarr, hqarr, hunvisarr, hresc⟩

theorem rrSlice_res {ps : List Process} {q : ℤ} (hq1 : 1 ≤ q)
    (hv : ∀ p ∈ ps, 1 ≤ p.burstTime) {s₁ : RRState}
    (hbase : RRInvBase ps s₁) (hres : RRInvRes ps s₁) :
    RRInvRes ps (rrSlice ps q s₁) := by
  obtain ⟨hremlen, hvislen, hcount, hrem, hqmem, hunvis, hnodup, hcover⟩ := hbase
  obtain ⟨hreslen, hremarr, hqarr, hunvisarr, hresc⟩ := hres
  cases hqe : s₁.queue with
  | nil =>
    rw [rrSlice_eq_nil hqe]
    exact ⟨hreslen, hremarr, hqarr, hunvisarr, hresc⟩
  | cons idx rest =>
    obtain ⟨hilen, hrpos, hvidx⟩ :=
      hqmem idx (by rw [hqe]; exact List.mem_cons_self idx rest)
    obtain ⟨p, hp⟩ : ∃ p, ps[idx]? = some p := ⟨ps[idx], List.getElem?_eq_getElem hilen⟩
    rw [rrSlice_eq_run1 hqe hp]
    have harridx : p.arrivalTime ≤ s₁.currentTime :=
      hqarr idx p hp (by rw [hqe]; exact List.mem_cons_self idx rest)
    have hexec1 : 1 ≤ rrExec q s₁ idx := le_min hq1 (by omega)
    have hexecle : rrExec q s₁ idx ≤ s₁.remainingTime.getD idx 0 := min_le_right _ _
    have hremi : s₁.remainingTime[idx]? = some (s₁.remainingTime.getD idx 0) := by
      rw [List.getD_eq_getElem?_getD, List.getElem?_eq_getElem (by omega)]
      rfl
    have hremip : (rrRem q s₁ idx).getD idx 0 =
        s₁.remainingTime.getD idx 0 - rrExec q s₁ idx := getD_modIdx_self hremi _ 0
    have hremget : ∀ (j : ℕ), j ≠ idx →
        (rrRem q s₁ idx).getD j 0 = s₁.remainingTime.getD j 0 :=
      fun j hj => getD_modIdx_ne _ _ _ (fun h => hj h.symm) 0
    have hnewlt : ∀ j ∈ rrNewc ps q s₁ idx, j < ps.length := by
      intro j hj
      exact rrNewcomers_lt ps s₁.visited _ _ j hj
    have hvis'new : ∀ j ∈ rrNewc ps q s₁ idx,
        (rrVis ps q s₁ idx).getD j false = true := by
      intro j hj
      exact getD_foldl_set_mem _ _ _ hj (by rw [hvislen]; exact hnewlt j hj)
    have hvis'not : ∀ (i : ℕ), i ∉ rrNewc ps q s₁ idx →
        (rrVis ps q s₁ idx).getD i false = s₁.visited.getD i false :=
      fun i h => getD_foldl_set_not_mem _ _ _ h
    have hremarr' : ∀ (i : ℕ) (p' : Process), ps[i]? = some p' →
        (rrRem q s₁ idx).getD i 0 < p'.burstTime →
        p'.arrivalTime + (p'.burstTime - (rrRem q s₁ idx).getD i 0) ≤
          rrT q s₁ idx := by
      intro i p' hp' hlt
      show p'.arrivalTime + (p'.burstTime - (rrRem q s₁ idx).getD i 0) ≤
        s₁.currentTime + rrExec q s₁ idx
      by_cases hii : i = idx
      · subst hii
        obtain rfl : p = p' := by
          rw [hp] at hp'
          injection hp'
        rw [hremip]
        by_cases hfull : s₁.remainingTime.getD i 0 = p.burstTime
        · rw [hfull]
          omega
        · obtain ⟨h1, h2⟩ := hrem i p hp
          have := hremarr i p hp (by omega)
          omega
      · rw [hremget i hii] at hlt ⊢
        have := hremarr i p' hp' hlt
        omega
    have hqarr' : ∀ (j : ℕ) (p' : Process), ps[j]? = some p' →
        (j ∈ rest ∨ j ∈ rrNewc ps q s₁ idx ∨ j = idx) →
        p'.arrivalTime ≤ rrT q s₁ idx := by
      intro j p' hp' hj
      show p'.arrivalTime ≤ s₁.currentTime + rrExec q s₁ idx
      rcases hj with h | h | h
      · have := hqarr j p' hp' (by rw [hqe]; exact List.mem_cons_of_mem idx h)
        omega
      · have hmem := (rrNewcomers_mem ps s₁.visited (rrT q s₁ idx)
          (rrRem q s₁ idx) j p' hp').mp h
        exact hmem.2.1
      · subst h
        obtain rfl : p = p' := by
          rw [hp] at hp'
          injection hp'
        omega
    have hunvisarr' : ∀ (i : ℕ) (p' : Process), ps[i]? = some p' →
        (rrVis ps q s₁ idx).getD i false = false →
        rrT q s₁ idx ≤ p'.arrivalTime := by
      intro i p' hp' hvf
      have hinew : i ∉ rrNewc ps q s₁ idx := by
        intro h
        rw [hvis'new i h] at hvf
        exact absurd hvf (by decide)
      rw [hvis'not i hinew] at hvf
      have hrempos : 0 < (rrRem q s₁ idx).getD i 0 := by
        have hine : i ≠ idx := by
          intro h
          rw [h, hvidx] at hvf
          exact absurd hvf (by decide)
        rw [hremget i hine, hunvis i p' hp' hvf]
        have := hv p' (mem_of_getElem?_proc hp')
        omega
      by_contra hgt
      push_neg at hgt
      exact hinew ((rrNewcomers_mem ps s₁.visited (rrT q s₁ idx)
        (rrRem q s₁ idx) i p' hp').mpr ⟨hvf, le_of_lt hgt, hrempos⟩)
    have hstamp : ∀ (r : ProcessResult),
        ((fun r => if r.startTime = -1 then { r with startTime := s₁.currentTime }
          else r) r).arrivalTime = r.arrivalTime ∧
        ((fun r => if r.startTime = -1 then { r with startTime := s₁.currentTime }
          else r) r).burstTime = r.burstTime := by
      intro r
      by_cases h : r.startTime = -1 <;> simp [h]
    unfold rrRun1
    by_cases hfin : 0 < (rrRem q s₁ idx).getD idx 0
    · rw [if_pos hfin]
      refine ⟨?_, hremarr', ?_, hunvisarr', ?_⟩
      · show (rrRes s₁ idx).length = ps.length
        show (modIdx s₁.results idx _).length = ps.length
        rw [length_modIdx]
        exact hreslen
      · intro j p' hp' hj
        have hj' : j ∈ (rest ++ rrNewc ps q s₁ idx) ++ [idx] := hj
        refine hqarr' j p' hp' ?_
        rcases List.mem_append.mp hj' with h2 | h3
        · rcases List.mem_append.mp h2 with h | h
          · exact Or.inl h
          · exact Or.inr (Or.inl h)
        · exact Or.inr (Or.inr (List.mem_singleton.mp h3))
      · intro i p' hp'
        obtain ⟨r, hr, harr2, hburst2, hok⟩ := hresc i p' hp'
        by_cases hii : i = idx
        · subst hii
          refine ⟨if r.startTime = -1 then { r with startTime := s₁.currentTime }
            else r, getElem?_modIdx_self hr _, ?_, ?_, ?_⟩
          · rw [(hstamp r).1]
            exact harr2
          · rw [(hstamp r).2]
            exact hburst2
          · intro h0
            have h0' : (rrRem q s₁ i).getD i 0 = 0 := h0
            exact absurd h0' (by omega)
        · refine ⟨r, ?_, harr2, hburst2, ?_⟩
          · show (modIdx s₁.results idx _)[i]? = some r
            rw [getElem?_modIdx_ne _ _ _ (fun h => hii h.symm)]
            exact hr
          · rw [hremget i hii]
            exact hok
    · rw [if_neg hfin]
      have hz0 : s₁.remainingTime.getD idx 0 - rrExec q s₁ idx = 0 := by
        rw [← hremip]
        rw [hremip] at hfin
        omega
      refine ⟨?_, hremarr', ?_, hunvisarr', ?_⟩
      · show (modIdx (rrRes s₁ idx) idx _).length = ps.length
        rw [length_modIdx]
        show (modIdx s₁.results idx _).length = ps.length
        rw [length_modIdx]
        exact hreslen
      · intro j p' hp' hj
        have hj' : j ∈ rest ++ rrNewc ps q s₁ idx := hj
        refine hqarr' j p' hp' ?_
        rcases List.mem_append.mp hj' with h | h
        · exact Or.inl h
        · exact Or.inr (Or.inl h)
      · intro i p' hp'
        obtain ⟨r, hr, harr2, hburst2, hok⟩ := hresc i p' hp'
        by_cases hii : i = idx
        · subst hii
          obtain rfl : p = p' := by
            rw [hp] at hp'
            injection hp'
          have hstamp1 : (rrRes s₁ i)[i]? =
              some (if r.startTime = -1 then { r with startTime := s₁.currentTime }
                else r) := getElem?_modIdx_self hr _
          set r₁ := if r.startTime = -1 then { r with startTime := s₁.currentTime }
            else r with hr₁
          have hr₁arr : r₁.arrivalTime = p.arrivalTime := by
            rw [hr₁]
            rw [← harr2]
            exact (hstamp r).1
          have hr₁burst : r₁.burstTime = p.burstTime := by
            rw [hr₁]
            rw [← hburst2]
            exact (hstamp r).2
          refine ⟨{ r₁ with
              endTime := rrT q s₁ i,
              turnaroundTime := rrT q s₁ i - p.arrivalTime,
              waitingTime := rrT q s₁ i - p.arrivalTime - p.burstTime },
            getElem?_modIdx_self hstamp1 _, by simpa using hr₁arr,
            by simpa using hr₁burst, fun _ => ⟨?_, ?_, ?_⟩⟩
          · show rrT q s₁ i - p.arrivalTime = rrT q s₁ i - r₁.arrivalTime
            rw [hr₁arr]
          · show rrT q s₁ i - p.arrivalTime - p.burstTime =
              rrT q s₁ i - p.arrivalTime - r₁.burstTime
            rw [hr₁burst]
          · show (0 : ℤ) ≤ rrT q s₁ i - p.arrivalTime - p.burstTime
            have ht' : rrT q s₁ i = s₁.currentTime + rrExec q s₁ i := rfl
            by_cases hfull : s₁.remainingTime.getD i 0 = p.burstTime
            · rw [ht']
              omega
            · obtain ⟨h1, h2⟩ := hrem i p hp
              have := hremarr i p hp (by omega)
              rw [ht']
              omega
        · refine ⟨r, ?_, harr2, hburst2, ?_⟩
          · show (modIdx (rrRes s₁ idx) idx _)[i]? = some r
            rw [getElem?_modIdx_ne _ _ _ (fun h => hii h.symm)]
            show (modIdx s₁.results idx _)[i]? = some r
            rw [getElem?_modIdx_ne _ _ _ (fun h => hii h.symm)]
            exact hr
          · rw [hremget i hii]
            exact hok

/-- The chart invariant of the Round Robin loop: one block per executed slice,
in chronological order, accounted against the remaining times.  Consecutive
blocks may share a process id — Round Robin never merges blocks. -/
structure RRInvChart (ps : List Process) (s : RRState) : Prop where
  hchain : s.ganttRev.Chain' RevAdj
  hpos : ∀ b ∈ s.ganttRev, b.startTime < b.endTime
  hhead : headEndLe s.currentTime s.ganttRev
  hacc : ∀ (i : ℕ) (p : Process), ps[i]? = some p →
    durSum p.id s.ganttRev = p.burstTime - s.remainingTime.getD i 0
  hfrom : ∀ b ∈ s.ganttRev, ∃ (j : ℕ) (pj : Process), ps[j]? = some pj ∧
    b.processId = pj.id

theorem rrInvChart_init (ps : List Process) : RRInvChart ps (rrInit ps) := by
  refine ⟨List.chain'_nil, ?_, trivial, ?_, ?_⟩
  · intro b hb; exact absurd hb (List.not_mem_nil b)
  · intro i p hp
    have h1 : durSum p.id (rrInit ps).ganttRev = 0 := rfl
    have h2 : (rrInit ps).remainingTime.getD i 0 = p.burstTime := getD_map_proc hp _ 0
    rw [h1, h2]
    ring
  · intro b hb; exact absurd hb (List.not_mem_nil b)

theorem rrFF_chart {ps : List Process} {s : RRState}
    (hres : RRInvRes ps s) (hch : RRInvChart ps s) : RRInvChart ps (rrFF ps s) := by
  obtain ⟨hchain, hpos, hhead, hacc, hfrom⟩ := hch
  unfold rrFF
  by_cases hemp : s.queue.isEmpty = true
  · rw [if_pos hemp]
    cases hfn : rrFindNext ps s.visited with
    | none => exact ⟨hchain, hpos, hhead, hacc, hfrom⟩
    | some ip =>
      obtain ⟨hpp, hvip⟩ := rrFindNext_some hfn
      have htle : s.currentTime ≤ ip.2.arrivalTime := hres.hunvisarr ip.1 ip.2 hpp hvip
      exact ⟨hchain, hpos, headEndLe_mono htle hhead, hacc, hfrom⟩
  · rw [if_neg hemp]
    exact ⟨hchain, hpos, hhead, hacc, hfrom⟩

theorem rrSlice_chart {ps : List Process} {q : ℤ} (hq1 : 1 ≤ q)
    (hids : (ps.map Process.id).Nodup) {s₁ : RRState}
    (hbase : RRInvBase ps s₁) (hch : RRInvChart ps s₁) :
    RRInvChart ps (rrSlice ps q s₁) := by
  obtain ⟨hchain, hpos, hhead, hacc, hfrom⟩ := hch
  cases hqe : s₁.queue with
  | nil =>
    rw [rrSlice_eq_nil hqe]
    exact ⟨hchain, hpos, hhead, hacc, hfrom⟩
  | cons idx rest =>
    obtain ⟨hilen, hrpos, hvidx⟩ :=
      hbase.hqmem idx (by rw [hqe]; exact List.mem_cons_self idx rest)
    obtain ⟨p, hp⟩ : ∃ p, ps[idx]? = some p := ⟨ps[idx], List.getElem?_eq_getElem hilen⟩
    rw [rrSlice_eq_run1 hqe hp]
    have hexec1 : 1 ≤ rrExec q s₁ idx := le_min hq1 (by omega)
    have hremi : s₁.remainingTime[idx]? = some (s₁.remainingTime.getD idx 0) := by
      rw [List.getD_eq_getElem?_getD, List.getElem?_eq_getElem (by
        have := hbase.hremlen
        omega)]
      rfl
    have hremip : (rrRem q s₁ idx).getD idx 0 =
        s₁.remainingTime.getD idx 0 - rrExec q s₁ idx := getD_modIdx_self hremi _ 0
    have hremget : ∀ (j : ℕ), j ≠ idx →
        (rrRem q s₁ idx).getD j 0 = s₁.remainingTime.getD j 0 :=
      fun j hj => getD_modIdx_ne _ _ _ (fun h => hj h.symm) 0
    set nb : GanttBlock :=
      { processId := p.id, startTime := s₁.currentTime, endTime := rrT q s₁ idx } with hnb
    have Hchain : List.Chain' RevAdj (nb :: s₁.ganttRev) := by
      rw [List.chain'_cons']
      exact ⟨fun y hy => headEndLe_head? hhead hy, hchain⟩
    have Hpos : ∀ b ∈ (nb :: s₁.ganttRev), b.startTime < b.endTime := by
      intro b hb
      rcases List.mem_cons.mp hb with rfl | hb'
      · show s₁.currentTime < s₁.currentTime + rrExec q s₁ idx
        omega
      · exact hpos b hb'
    have Hhead : headEndLe (rrT q s₁ idx) (nb :: s₁.ganttRev) := le_refl _
    have Hacc : ∀ (i : ℕ) (p' : Process), ps[i]? = some p' →
        durSum p'.id (nb :: s₁.ganttRev) =
          p'.burstTime - (rrRem q s₁ idx).getD i 0 := by
      intro i p' hp'
      rw [durSum_cons]
      have hold := hacc i p' hp'
      have hnbid : nb.processId = p.id := rfl
      have hdur : nb.endTime - nb.startTime = rrExec q s₁ idx := by
        show s₁.currentTime + rrExec q s₁ idx - s₁.currentTime = rrExec q s₁ idx
        ring
      by_cases hii : i = idx
      · subst hii
        obtain rfl : p = p' := by
          rw [hp] at hp'
          injection hp'
        rw [hremip, if_pos hnbid, hdur, hold]
        ring
      · have hneq : nb.processId ≠ p'.id := by
          rw [hnbid]
          intro h
          exact hii (idx_eq_of_id_eq hids hp hp' h).symm
        rw [hremget i hii, if_neg hneq, hold]
        ring
    have Hfrom : ∀ b ∈ (nb :: s₁.ganttRev),
        ∃ (j : ℕ) (pj : Process), ps[j]? = some pj ∧ b.processId = pj.id := by
      intro b hb
      rcases List.mem_cons.mp hb with rfl | hb'
      · exact ⟨idx, p, hp, rfl⟩
      · exact hfrom b hb'
    unfold rrRun1
    by_cases hfin : 0 < (rrRem q s₁ idx).getD idx 0
    · rw [if_pos hfin]
      exact ⟨Hchain, Hpos, Hhead, Hacc, Hfrom⟩
    · rw [if_neg hfin]
      exact ⟨Hchain, Hpos, Hhead, Hacc, Hfrom⟩

/-- C1 for Round Robin. -/
theorem solveRR_resultsOK (ps : List Process) (q : ℤ) (hq1 : 1 ≤ q)
    (hv : ∀ p ∈ ps, 1 ≤ p.burstTime) (harr : ∀ p ∈ ps, 0 ≤ p.arrivalTime)
    (fuel : ℕ) : ResultsOK (solveRR ps q fuel) := by
  intro out hout r hr
  obtain ⟨s', hs', hexit, rfl⟩ := loopRun_some_inv
    (fun s => RRInvBase ps s ∧ RRInvRes ps s)
    (fun s hs _ => by
      rw [rrStep_eq]
      exact ⟨rrSlice_base hq1 hv (rrFF_base hv hs.1),
        rrSlice_res hq1 hv (rrFF_base hv hs.1) (rrFF_res hs.1 hs.2)⟩)
    fuel (rrInit ps) out ⟨rrInvBase_init hv, rrInvRes_init hv harr⟩ hout
  have hall := rrInvBase_exit hs'.1 hexit
  have hperm := calculateAverages_results_perm s'.results s'.ganttRev.reverse
  obtain ⟨i, hi⟩ := List.getElem?_of_mem (hperm.subset hr)
  have hilt : i < ps.length := by
    have h1 : i < s'.results.length := by
      by_contra hge
      rw [List.getElem?_eq_none (by omega)] at hi
      exact absurd hi (by simp)
    have := hs'.2.hreslen
    omega
  obtain ⟨p, hp⟩ : ∃ p, ps[i]? = some p := ⟨ps[i], List.getElem?_eq_getElem hilt⟩
  obtain ⟨r', hr'', _, _, hok⟩ := hs'.2.hres i p hp
  obtain rfl : r' = r := by
    rw [hi] at hr''
    injection hr'' with hinj
    exact hinj.symm
  exact hok (hall i)

/-- C2 and the idle-free part of C6 for Round Robin. -/
theorem solveRR_chart (ps : List Process) (q : ℤ) (hq1 : 1 ≤ q)
    (hv : ∀ p ∈ ps, 1 ≤ p.burstTime) (harr : ∀ p ∈ ps, 0 ≤ p.arrivalTime)
    (hids : (ps.map Process.id).Nodup) (fuel : ℕ) :
    GanttOK ps (solveRR ps q fuel) ∧ ChartIdsOK ps (solveRR ps q fuel) := by
  have hkey : ∀ out ∈ solveRR ps q fuel,
      (∀ (i : ℕ) (p : Process), ps[i]? = some p →
        durSum p.id out.ganttChart = p.burstTime) ∧
      out.ganttChart.Pairwise
        (fun b₁ b₂ => b₁.endTime ≤ b₂.startTime ∧ b₁.startTime < b₂.startTime) ∧
      (∀ b ∈ out.ganttChart, b.startTime < b.endTime) ∧
      (∀ b ∈ out.ganttChart, b.processId ∈ ps.map Process.id) := by
    intro out hout
    obtain ⟨s', hs', hexit, rfl⟩ := loopRun_some_inv
      (fun s => RRInvBase ps s ∧ RRInvRes ps s ∧ RRInvChart ps s)
      (fun s hs _ => by
        rw [rrStep_eq]
        exact ⟨rrSlice_base hq1 hv (rrFF_base hv hs.1),
          rrSlice_res hq1 hv (rrFF_base hv hs.1) (rrFF_res hs.1 hs.2.1),
          rrSlice_chart hq1 hids (rrFF_base hv hs.1)
            (rrFF_chart hs.2.1 hs.2.2)⟩)
      fuel (rrInit ps) out
      ⟨rrInvBase_init hv, rrInvRes_init hv harr, rrInvChart_init ps⟩ hout
    have hall := rrInvBase_exit hs'.1 hexit
    have hchart : (calculateAverages s'.results s'.ganttRev.reverse).ganttChart =
        s'.ganttRev.reverse := rfl
    rw [hchart]
    obtain ⟨hpair, hpos⟩ := chart_reverse_ok hs'.2.2.hchain hs'.2.2.hpos
    refine ⟨?_, hpair, hpos, ?_⟩
    · intro i p hp
      rw [durSum_reverse]
      have := hs'.2.2.hacc i p hp
      have h0 := hall i
      omega
    · intro b hb
      obtain ⟨j, pj, hj, hjid⟩ := hs'.2.2.hfrom b (List.mem_reverse.mp hb)
      rw [hjid]
      exact List.mem_map_of_mem Process.id (mem_of_getElem?_proc hj)
  refine ⟨?_, ?_⟩
  · intro out hout
    obtain ⟨hd, hpair, hpos, _⟩ := hkey out hout
    refine ⟨?_, hpair, hpos⟩
    intro p hp
    obtain ⟨i, hi⟩ := List.getElem?_of_mem hp
    exact hd i p hi
  · intro out hout
    exact (hkey out hout).2.2.2

/-! ## Multilevel Queue correctness -/

/-- One step of the `mlqClassify` scan, named for the induction lemmas. -/
def mlqScan (t : ℤ) (acc : List ℕ × List ℕ × List Bool) (ip : ℕ × Process) :
    List ℕ × List ℕ × List Bool :=
  if ! acc.2.2.getD ip.1 false && decide (ip.2.arrivalTime ≤ t) then
    if decide (ip.2.priority ≤ 2) then
      (acc.1 ++ [ip.1], acc.2.1, acc.2.2.set ip.1 true)
    else
      (acc.1, acc.2.1 ++ [ip.1], acc.2.2.set ip.1 true)
  else acc

theorem mlqClassify_eq (ps : List Process) (t : ℤ) (q1 q2 : List ℕ)
    (vis : List Bool) :
    mlqClassify ps t q1 q2 vis = ps.enum.foldl (mlqScan t) (q1, q2, vis) := rfl

theorem getD_set_true_mono {v : List Bool} {j : ℕ} (i : ℕ)
    (h : v.getD j false = true) : (v.set i true).getD j false = true := by
  by_cases hij : i = j
  · subst hij
    by_cases hlen : i < v.length
    · rw [getD_set_self hlen]
    · rw [List.getD_eq_getElem?_getD, List.getElem?_eq_none (by omega)] at h
      exact absurd h (by decide)
  · rw [getD_set_ne _ hij]
    exact h

theorem mlqScan_len (t : ℤ) :
    ∀ (l : List (ℕ × Process)) (acc : List ℕ × List ℕ × List Bool),
      (l.foldl (mlqScan t) acc).2.2.length = acc.2.2.length := by
  intro l
  induction l with
  | nil => intro acc; rfl
  | cons x xs ih =>
    intro acc
    rw [List.foldl_cons, ih]
    unfold mlqScan
    by_cases h1 : (! acc.2.2.getD x.1 false && decide (x.2.arrivalTime ≤ t)) = true
    · rw [if_pos h1]
      by_cases h2 : decide (x.2.priority ≤ 2) = true
      · rw [if_pos h2]
        exact List.length_set _ _ _
      · rw [if_neg h2]
        exact List.length_set _ _ _
    · rw [if_neg h1]

theorem mlqScan_vis_mono (t : ℤ) :
    ∀ (l : List (ℕ × Process)) (acc : List ℕ × List ℕ × List Bool) (j : ℕ),
      acc.2.2.getD j false = true →
      (l.foldl (mlqScan t) acc).2.2.getD j false = true := by
  intro l
  induction l with
  | nil => intro acc j h; exact h
  | cons x xs ih =>
    intro acc j h
    rw [List.foldl_cons]
    apply ih
    unfold mlqScan
    by_cases h1 : (! acc.2.2.getD x.1 false && decide (x.2.arrivalTime ≤ t)) = true
    · rw [if_pos h1]
      by_cases h2 : decide (x.2.priority ≤ 2) = true
      · rw [if_pos h2]
        exact getD_set_true_mono x.1 h
      · rw [if_neg h2]
        exact getD_set_true_mono x.1 h
    · rw [if_neg h1]
      exact h

theorem mlqScan_suffix (t : ℤ) :
    ∀ (l : List (ℕ × Process)) (acc : List ℕ × List ℕ × List Bool),
      ∃ e1 e2, (l.foldl (mlqScan t) acc).1 = acc.1 ++ e1 ∧
        (l.foldl (mlqScan t) acc).2.1 = acc.2.1 ++ e2 := by
  intro l
  induction l with
  | nil => intro acc; exact ⟨[], [], (List.append_nil _).symm, (List.append_nil _).symm⟩
  | cons x xs ih =>
    intro acc
    rw [List.foldl_cons]
    by_cases h1 : (! acc.2.2.getD x.1 false && decide (x.2.arrivalTime ≤ t)) = true
    · by_cases h2 : decide (x.2.priority ≤ 2) = true
      · have hstep : mlqScan t acc x =
            (acc.1 ++ [x.1], acc.2.1, acc.2.2.set x.1 true) := by
          unfold mlqScan
          rw [if_pos h1, if_pos h2]
        rw [hstep]
        obtain ⟨e1, e2, he1, he2⟩ :=
          ih (acc.1 ++ [x.1], acc.2.1, acc.2.2.set x.1 true)
        refine ⟨[x.1] ++ e1, e2, ?_, ?_⟩
        · rw [he1]
          simp
        · rw [he2]
      · have hstep : mlqScan t acc x =
            (acc.1, acc.2.1 ++ [x.1], acc.2.2.set x.1 true) := by
          unfold mlqScan
          rw [if_pos h1, if_neg h2]
        rw [hstep]
        obtain ⟨e1, e2, he1, he2⟩ :=
          ih (acc.1, acc.2.1 ++ [x.1], acc.2.2.set x.1 true)
        refine ⟨e1, [x.1] ++ e2, ?_, ?_⟩
        · rw [he1]
        · rw [he2]
          simp
    · have hstep : mlqScan t acc x = acc := by
        unfold mlqScan
        rw [if_neg h1]
      rw [hstep]
      exact ih acc

theorem mlqScan_mem_q1 (t : ℤ) :
    ∀ (l : List (ℕ × Process)) (acc : List ℕ × List ℕ × List Bool) (j : ℕ),
      j ∈ (l.foldl (mlqScan t) acc).1 →
      j ∈ acc.1 ∨ ∃ p, (j, p) ∈ l ∧ p.arrivalTime ≤ t ∧ p.priority ≤ 2 ∧
        acc.2.2.getD j false = false := by
  intro l
  induction l with
  | nil => intro acc j h; exact Or.inl h
  | cons x xs ih =>
    intro acc j h
    rw [List.foldl_cons] at h
    rcases ih (mlqScan t acc x) j h with h' | ⟨p, hmem, harr, hpri, hvis⟩
    · unfold mlqScan at h'
      by_cases h1 : (! acc.2.2.getD x.1 false && decide (x.2.arrivalTime ≤ t)) = true
      · rw [if_pos h1] at h'
        rw [Bool.and_eq_true, Bool.not_eq_true', decide_eq_true_eq] at h1
        by_cases h2 : decide (x.2.priority ≤ 2) = true
        · rw [if_pos h2] at h'
          rw [decide_eq_true_eq] at h2
          rcases List.mem_append.mp h' with hin | hnew
          · exact Or.inl hin
          · obtain rfl : j = x.1 := List.mem_singleton.mp hnew
            exact Or.inr ⟨x.2, List.mem_cons_self x xs, h1.2, h2, h1.1⟩
        · rw [if_neg h2] at h'
          exact Or.inl h'
      · rw [if_neg h1] at h'
        exact Or.inl h'
    · refine Or.inr ⟨p, List.mem_cons_of_mem x hmem, harr, hpri, ?_⟩
      unfold mlqScan at hvis
      by_cases h1 : (! acc.2.2.getD x.1 false && decide (x.2.arrivalTime ≤ t)) = true
      · rw [if_pos h1] at hvis
        by_cases h2 : decide (x.2.priority ≤ 2) = true
        · rw [if_pos h2] at hvis
          by_contra hacc
          rw [Bool.not_eq_false] at hacc
          rw [getD_set_true_mono x.1 hacc] at hvis
          exact absurd hvis (by decide)
        · rw [if_neg h2] at hvis
          by_contra hacc
          rw [Bool.not_eq_false] at hacc
          rw [getD_set_true_mono x.1 hacc] at hvis
          exact absurd hvis (by decide)
      · rw [if_neg h1] at hvis
        exact hvis

theorem mlqScan_mem_q2 (t : ℤ) :
    ∀ (l : List (ℕ × Process)) (acc : List ℕ × List ℕ × List Bool) (j : ℕ),
      j ∈ (l.foldl (mlqScan t) acc).2.1 →
      j ∈ acc.2.1 ∨ ∃ p, (j, p) ∈ l ∧ p.arrivalTime ≤ t ∧ ¬ (p.priority ≤ 2) ∧
        acc.2.2.getD j false = false := by
  intro l
  induction l with
  | nil => intro acc j h; exact Or.inl h
  | cons x xs ih =>
    intro acc j h
    rw [List.foldl_cons] at h
    rcases ih (mlqScan t acc x) j h with h' | ⟨p, hmem, harr, hpri, hvis⟩
    · unfold mlqScan at h'
      by_cases h1 : (! acc.2.2.getD x.1 false && decide (x.2.arrivalTime ≤ t)) = true
      · rw [if_pos h1] at h'
        rw [Bool.and_eq_true, Bool.not_eq_true', decide_eq_true_eq] at h1
        by_cases h2 : decide (x.2.priority ≤ 2) = true
        · rw [if_pos h2] at h'
          exact Or.inl h'
        · rw [if_neg h2] at h'
          rw [decide_eq_true_eq] at h2
          rcases List.mem_append.mp h' with hin | hnew
          · exact Or.inl hin
          · obtain rfl : j = x.1 := List.mem_singleton.mp hnew
            exact Or.inr ⟨x.2, List.mem_cons_self x xs, h1.2, h2, h1.1⟩
      · rw [if_neg h1] at h'
        exact Or.inl h'
    · refine Or.inr ⟨p, List.mem_cons_of_mem x hmem, harr, hpri, ?_⟩
      unfold mlqScan at hvis
      by_cases h1 : (! acc.2.2.getD x.1 false && decide (x.2.arrivalTime ≤ t)) = true
      · rw [if_pos h1] at hvis
        by_cases h2 : decide (x.2.priority ≤ 2) = true
        · rw [if_pos h2] at hvis
          by_contra hacc
          rw [Bool.not_eq_false] at hacc
          rw [getD_set_true_mono x.1 hacc] at hvis
          exact absurd hvis (by decide)
        · rw [if_neg h2] at hvis
          by_contra hacc
          rw [Bool.not_eq_false] at hacc
          rw [getD_set_true_mono x.1 hacc] at hvis
          exact absurd hvis (by decide)
      · rw [if_neg h1] at hvis
        exact hvis

theorem mlqScan_cover (t : ℤ) :
    ∀ (l : List (ℕ × Process)) (acc : List ℕ × List ℕ × List Bool)
      (j : ℕ) (p : Process), (j, p) ∈ l → j < acc.2.2.length →
      p.arrivalTime ≤ t → (l.foldl (mlqScan t) acc).2.2.getD j false = true := by
  intro l
  induction l with
  | nil => intro acc j p hm _ _; exact absurd hm (List.not_mem_nil _)
  | cons x xs ih =>
    intro acc j p hm hlen harr
    rw [List.foldl_cons]
    rcases List.mem_cons.mp hm with heq | hm'
    · obtain rfl : x = (j, p) := heq.symm
      by_cases hv : acc.2.2.getD j false = true
      · apply mlqScan_vis_mono
        unfold mlqScan
        by_cases h1 : (! acc.2.2.getD (j, p).1 false &&
            decide ((j, p).2.arrivalTime ≤ t)) = true
        · rw [if_pos h1]
          by_cases h2 : decide ((j, p).2.priority ≤ 2) = true
          · rw [if_pos h2]
            exact getD_set_true_mono j hv
          · rw [if_neg h2]
            exact getD_set_true_mono j hv
        · rw [if_neg h1]
          exact hv
      · have h1 : (! acc.2.2.getD (j, p).1 false &&
            decide ((j, p).2.arrivalTime ≤ t)) = true := by
          rw [Bool.and_eq_true, Bool.not_eq_true', decide_eq_true_eq]
          rw [Bool.not_eq_true] at hv
          exact ⟨hv, harr⟩
        apply mlqScan_vis_mono
        unfold mlqScan
        rw [if_pos h1]
        by_cases h2 : decide ((j, p).2.priority ≤ 2) = true
        · rw [if_pos h2]
          exact getD_set_self hlen _ _
        · rw [if_neg h2]
          exact getD_set_self hlen _ _
    · refine ih (mlqScan t acc x) j p hm' ?_ harr
      unfold mlqScan
      by_cases h1 : (! acc.2.2.getD x.1 false && decide (x.2.arrivalTime ≤ t)) = true
      · rw [if_pos h1]
        by_cases h2 : decide (x.2.priority ≤ 2) = true
        · rw [if_pos h2]
          show j < (acc.2.2.set x.1 true).length
          rw [List.length_set]
          exact hlen
        · rw [if_neg h2]
          show j < (acc.2.2.set x.1 true).length
          rw [List.length_set]
          exact hlen
      · rw [if_neg h1]
        exact hlen

theorem mlqScan_vis_src (t : ℤ) :
    ∀ (l : List (ℕ × Process)) (acc : List ℕ × List ℕ × List Bool) (j : ℕ),
      (l.foldl (mlqScan t) acc).2.2.getD j false = true →
      acc.2.2.getD j false = true ∨ j ∈ (l.foldl (mlqScan t) acc).1 ∨
        j ∈ (l.foldl (mlqScan t) acc).2.1 := by
  intro l
  induction l with
  | nil => intro acc j h; exact Or.inl h
  | cons x xs ih =>
    intro acc j h
    rw [List.foldl_cons] at h ⊢
    rcases ih (mlqScan t acc x) j h with h' | h' | h'
    · by_cases hv : acc.2.2.getD j false = true
      · exact Or.inl hv
      · rw [Bool.not_eq_true] at hv
        by_cases h1 : (! acc.2.2.getD x.1 false && decide (x.2.arrivalTime ≤ t)) = true
        · by_cases h2 : decide (x.2.priority ≤ 2) = true
          · have hstep : mlqScan t acc x =
                (acc.1 ++ [x.1], acc.2.1, acc.2.2.set x.1 true) := by
              unfold mlqScan
              rw [if_pos h1, if_pos h2]
            rw [hstep] at h'
            have hxj : x.1 = j := by
              by_contra hne
              rw [show (acc.1 ++ [x.1], acc.2.1, acc.2.2.set x.1 true).2.2 =
                  acc.2.2.set x.1 true from rfl, getD_set_ne _ hne _ _] at h'
              rw [hv] at h'
              exact absurd h' (by decide)
            refine Or.inr (Or.inl ?_)
            obtain ⟨e1, _, he1, _⟩ := mlqScan_suffix t xs (mlqScan t acc x)
            rw [he1, hstep]
            refine List.mem_append.mpr (Or.inl ?_)
            show j ∈ acc.1 ++ [x.1]
            rw [hxj]
            exact List.mem_append.mpr (Or.inr (List.mem_singleton.mpr rfl))
          · have hstep : mlqScan t acc x =
                (acc.1, acc.2.1 ++ [x.1], acc.2.2.set x.1 true) := by
              unfold mlqScan
              rw [if_pos h1, if_neg h2]
            rw [hstep] at h'
            have hxj : x.1 = j := by
              by_contra hne
              rw [show (acc.1, acc.2.1 ++ [x.1], acc.2.2.set x.1 true).2.2 =
                  acc.2.2.set x.1 true from rfl, getD_set_ne _ hne _ _] at h'
              rw [hv] at h'
              exact absurd h' (by decide)
            refine Or.inr (Or.inr ?_)
            obtain ⟨_, e2, _, he2⟩ := mlqScan_suffix t xs (mlqScan t acc x)
            rw [he2, hstep]
            refine List.mem_append.mpr (Or.inl ?_)
            show j ∈ acc.2.1 ++ [x.1]
            rw [hxj]
            exact List.mem_append.mpr (Or.inr (List.mem_singleton.mpr rfl))
        · have hstep : mlqScan t acc x = acc := by
            unfold mlqScan
            rw [if_neg h1]
          rw [hstep] at h'
          rw [hv] at h'
          exact absurd h' (by decide)
    · exact Or.inr (Or.inl h')
    · exact Or.inr (Or.inr h')

theorem mlqScan_nodup (t : ℤ) :
    ∀ (l : List (ℕ × Process)) (acc : List ℕ × List ℕ × List Bool),
      (∀ ip ∈ l, ip.1 < acc.2.2.length) →
      ((acc.1 ++ acc.2.1).Nodup ∧
        ∀ j ∈ acc.1 ++ acc.2.1, acc.2.2.getD j false = true) →
      ((l.foldl (mlqScan t) acc).1 ++ (l.foldl (mlqScan t) acc).2.1).Nodup ∧
        ∀ j ∈ (l.foldl (mlqScan t) acc).1 ++ (l.foldl (mlqScan t) acc).2.1,
          (l.foldl (mlqScan t) acc).2.2.getD j false = true := by
  intro l
  induction l with
  | nil => intro acc _ h; exact h
  | cons x xs ih =>
    intro acc hlen ⟨hnd, hvq⟩
    rw [List.foldl_cons]
    have hxlen : x.1 < acc.2.2.length := hlen x (List.mem_cons_self x xs)
    by_cases h1 : (! acc.2.2.getD x.1 false && decide (x.2.arrivalTime ≤ t)) = true
    · have hxnot : x.1 ∉ acc.1 ++ acc.2.1 := by
        intro hmem
        have := hvq x.1 hmem
        rw [Bool.and_eq_true, Bool.not_eq_true'] at h1
        rw [h1.1] at this
        exact absurd this (by decide)
      by_cases h2 : decide (x.2.priority ≤ 2) = true
      · have hstep : mlqScan t acc x =
            (acc.1 ++ [x.1], acc.2.1, acc.2.2.set x.1 true) := by
          unfold mlqScan
          rw [if_pos h1, if_pos h2]
        rw [hstep]
        refine ih (acc.1 ++ [x.1], acc.2.1, acc.2.2.set x.1 true) ?_ ⟨?_, ?_⟩
        · intro ip hip
          show ip.1 < (acc.2.2.set x.1 true).length
          rw [List.length_set]
          exact hlen ip (List.mem_cons_of_mem x hip)
        · show ((acc.1 ++ [x.1]) ++ acc.2.1).Nodup
          rw [List.append_assoc, List.singleton_append, List.nodup_middle]
          exact List.nodup_cons.mpr ⟨hxnot, hnd⟩
        · intro j hj
          show (acc.2.2.set x.1 true).getD j false = true
          have hj' : j ∈ (acc.1 ++ [x.1]) ++ acc.2.1 := hj
          rw [List.append_assoc, List.singleton_append] at hj'
          rcases (List.mem_append.mp hj') with hja | hjb
          · exact getD_set_true_mono x.1 (hvq j (List.mem_append.mpr (Or.inl hja)))
          · rcases List.mem_cons.mp hjb with rfl | hjc
            · exact getD_set_self hxlen _ _
            · exact getD_set_true_mono x.1 (hvq j (List.mem_append.mpr (Or.inr hjc)))
      · have hstep : mlqScan t acc x =
            (acc.1, acc.2.1 ++ [x.1], acc.2.2.set x.1 true) := by
          unfold mlqScan
          rw [if_pos h1, if_neg h2]
        rw [hstep]
        refine ih (acc.1, acc.2.1 ++ [x.1], acc.2.2.set x.1 true) ?_ ⟨?_, ?_⟩
        · intro ip hip
          show ip.1 < (acc.2.2.set x.1 true).length
          rw [List.length_set]
          exact hlen ip (List.mem_cons_of_mem x hip)
        · show (acc.1 ++ (acc.2.1 ++ [x.1])).Nodup
          rw [← List.append_assoc]
          refine List.Nodup.append ?_ (List.nodup_singleton x.1) ?_
          · exact hnd
          · intro a ha hax
            obtain rfl : a = x.1 := List.mem_singleton.mp hax
            exact hxnot ha
        · intro j hj
          show (acc.2.2.set x.1 true).getD j false = true
          have hj' : j ∈ acc.1 ++ (acc.2.1 ++ [x.1]) := hj
          rw [← List.append_assoc] at hj'
          rcases List.mem_append.mp hj' with hja | hjb
          · exact getD_set_true_mono x.1 (hvq j hja)
          · obtain rfl : j = x.1 := List.mem_singleton.mp hjb
            exact getD_set_self hxlen _ _
    · have hstep : mlqScan t acc x = acc := by
        unfold mlqScan
        rw [if_neg h1]
      rw [hstep]
      exact ih acc (fun ip hip => hlen ip (List.mem_cons_of_mem x hip)) ⟨hnd, hvq⟩

/-- After the classify scan, a process the scan leaves unvisited has not
arrived (contrapositive of `mlqScan_cover` through the enum). -/
theorem mlqClassify_unvis {ps : List Process} {t : ℤ} {q1 q2 : List ℕ}
    {vis : List Bool} (hlen : vis.length = ps.length)
    {j : ℕ} {p : Process} (hp : ps[j]? = some p)
    (h : (mlqClassify ps t q1 q2 vis).2.2.getD j false = false) :
    ¬ (p.arrivalTime ≤ t) := by
  intro harr
  rw [mlqClassify_eq] at h
  have hj : j < vis.length := by
    have : j < ps.length := by
      by_contra hge
      rw [List.getElem?_eq_none (by omega)] at hp
      exact absurd hp (by simp)
    omega
  have := mlqScan_cover t ps.enum (q1, q2, vis) j p
    (List.mem_enum_iff_getElem?.mpr hp) hj harr
  rw [this] at h
  exact absurd h (by decide)

/-- The classification half of `mlqStep` in isolation. -/
def mlqCls (ps : List Process) (s : MLQState) : MLQState :=
  { s with q1 := (mlqClassify ps s.currentTime s.q1 s.q2 s.visited).1,
           q2 := (mlqClassify ps s.currentTime s.q1 s.q2 s.visited).2.1,
           visited := (mlqClassify ps s.currentTime s.q1 s.q2 s.visited).2.2 }

/-- The executed Queue-1 slice length. -/
def mlqExec (timeQuantum : ℤ) (s₁ : MLQState) (idx : ℕ) : ℤ :=
  min timeQuantum (s₁.remainingTime.getD idx 0)

def mlqRem (timeQuantum : ℤ) (s₁ : MLQState) (idx : ℕ) : List ℤ :=
  modIdx s₁.remainingTime idx (fun r => r - mlqExec timeQuantum s₁ idx)

def mlqT (timeQuantum : ℤ) (s₁ : MLQState) (idx : ℕ) : ℤ :=
  s₁.currentTime + mlqExec timeQuantum s₁ idx

/-- The post-slice classification of `mlqStep`'s Queue-1 branch. -/
def mlqC2 (ps : List Process) (timeQuantum : ℤ) (s₁ : MLQState) (idx : ℕ)
    (rest : List ℕ) : List ℕ × List ℕ × List Bool :=
  mlqClassify ps (mlqT timeQuantum s₁ idx) rest s₁.q2 s₁.visited

def mlqRes (s₁ : MLQState) (idx : ℕ) : List ProcessResult :=
  modIdx s₁.results idx
    (fun r => if r.startTime = -1 then { r with startTime := s₁.currentTime } else r)

/-- A Queue-1 (Round-Robin) slice of `mlqStep`. -/
def mlqRun1 (ps : List Process) (timeQuantum : ℤ) (s₁ : MLQState) (idx : ℕ)
    (rest : List ℕ) (p : Process) : MLQState :=
  if 0 < (mlqRem timeQuantum s₁ idx).getD idx 0 then
    { currentTime := mlqT timeQuantum s₁ idx, completed := s₁.completed,
      remainingTime := mlqRem timeQuantum s₁ idx, results := mlqRes s₁ idx,
      ganttRev := { processId := p.id, startTime := s₁.currentTime,
                    endTime := mlqT timeQuantum s₁ idx } :: s₁.ganttRev,
      q1 := (mlqC2 ps timeQuantum s₁ idx rest).1 ++ [idx],
      q2 := (mlqC2 ps timeQuantum s₁ idx rest).2.1,
      visited := (mlqC2 ps timeQuantum s₁ idx rest).2.2 }
  else
    { currentTime := mlqT timeQuantum s₁ idx, completed := s₁.completed + 1,
      remainingTime := mlqRem timeQuantum s₁ idx,
      results := modIdx (mlqRes s₁ idx) idx (fun r =>
        { r with endTime := mlqT timeQuantum s₁ idx,
                 turnaroundTime := mlqT timeQuantum s₁ idx - p.arrivalTime,
                 waitingTime := mlqT timeQuantum s₁ idx - p.arrivalTime - p.burstTime }),
      ganttRev := { processId := p.id, startTime := s₁.currentTime,
                    endTime := mlqT timeQuantum s₁ idx } :: s₁.ganttRev,
      q1 := (mlqC2 ps timeQuantum s₁ idx rest).1,
      q2 := (mlqC2 ps timeQuantum s₁ idx rest).2.1,
      visited := (mlqC2 ps timeQuantum s₁ idx rest).2.2 }

/-- A Queue-2 (FCFS, unit-step) run of `mlqStep`. -/
def mlqRun2 (s₁ : MLQState) (idx : ℕ) (rest : List ℕ) (p : Process) : MLQState :=
  if (modIdx s₁.remainingTime idx (fun r => r - 1)).getD idx 0 = 0 then
    { currentTime := s₁.currentTime + 1, completed := s₁.completed + 1,
      remainingTime := modIdx s₁.remainingTime idx (fun r => r - 1),
      results := modIdx (mlqRes s₁ idx) idx (fun r =>
        { r with endTime := s₁.currentTime + 1,
                 turnaroundTime := s₁.currentTime + 1 - p.arrivalTime,
                 waitingTime := s₁.currentTime + 1 - p.arrivalTime - p.burstTime }),
      ganttRev := { processId := p.id, startTime := s₁.currentTime,
                    endTime := s₁.currentTime + 1 } :: s₁.ganttRev,
      q1 := s₁.q1, q2 := rest, visited := s₁.visited }
  else
    { currentTime := s₁.currentTime + 1, completed := s₁.completed,
      remainingTime := modIdx s₁.remainingTime idx (fun r => r - 1),
      results := mlqRes s₁ idx,
      ganttRev := { processId := p.id, startTime := s₁.currentTime,
                    endTime := s₁.currentTime + 1 } :: s₁.ganttRev,
      q1 := s₁.q1, q2 := idx :: rest, visited := s₁.visited }

/-- The dispatch half of `mlqStep` in isolation. -/
def mlqSlice (ps : List Process) (timeQuantum : ℤ) (s₁ : MLQState) : MLQState :=
  match s₁.q1 with
  | idx :: rest =>
    match ps[idx]? with
    | none => { s₁ with q1 := rest }
    | some p => mlqRun1 ps timeQuantum s₁ idx rest p
  | [] =>
    match s₁.q2 with
    | idx :: rest =>
      match ps[idx]? with
      | none => { s₁ with q2 := rest }
      | some p => mlqRun2 s₁ idx rest p
    | [] => { s₁ with currentTime := s₁.currentTime + 1 }

theorem mlqStep_eq (ps : List Process) (q : ℤ) (s : MLQState) :
    mlqStep ps q s = mlqSlice ps q (mlqCls ps s) := rfl

theorem mlqSlice_eq_run1 {ps : List Process} {q : ℤ} {s₁ : MLQState} {idx : ℕ}
    {rest : List ℕ} {p : Process}
    (hq1 : s₁.q1 = idx :: rest) (hp : ps[idx]? = some p) :
    mlqSlice ps q s₁ = mlqRun1 ps q s₁ idx rest p := by
  unfold mlqSlice
  rw [hq1]
  show (match ps[idx]? with
    | none => { s₁ with q1 := rest }
    | some p' => mlqRun1 ps q s₁ idx rest p') = mlqRun1 ps q s₁ idx rest p
  rw [hp]

theorem mlqSlice_eq_run2 {ps : List Process} {q : ℤ} {s₁ : MLQState} {idx : ℕ}
    {rest : List ℕ} {p : Process}
    (hq1 : s₁.q1 = []) (hq2 : s₁.q2 = idx :: rest) (hp : ps[idx]? = some p) :
    mlqSlice ps q s₁ = mlqRun2 s₁ idx rest p := by
  unfold mlqSlice
  rw [hq1, hq2]
  show (match ps[idx]? with
    | none => { s₁ with q1 := ([] : List ℕ), q2 := rest }
    | some p' => mlqRun2 s₁ idx rest p') = mlqRun2 s₁ idx rest p
  rw [hp]

theorem mlqSlice_eq_idle {ps : List Process} {q : ℤ} {s₁ : MLQState}
    (hq1 : s₁.q1 = []) (hq2 : s₁.q2 = []) :
    mlqSlice ps q s₁ = { s₁ with currentTime := s₁.currentTime + 1 } := by
  unfold mlqSlice
  rw [hq1, hq2]

/-- The queue/visited/remaining invariant of the Multilevel Queue loop. -/
structure MLQInvBase (ps : List Process) (s : MLQState) : Prop where
  hremlen : s.remainingTime.length = ps.length
  hvislen : s.visited.length = ps.length
  hcount : s.completed = s.remainingTime.countP (fun r => decide (r = 0))
  hrem : ∀ (i : ℕ) (p : Process), ps[i]? = some p →
    0 ≤ s.remainingTime.getD i 0 ∧ s.remainingTime.getD i 0 ≤ p.burstTime
  hq : ∀ j ∈ s.q1 ++ s.q2, j < ps.length ∧ 0 < s.remainingTime.getD j 0 ∧
    s.visited.getD j false = true
  hunvis : ∀ (i : ℕ) (p : Process), ps[i]? = some p →
    s.visited.getD i false = false → s.remainingTime.getD i 0 = p.burstTime
  hnodup : (s.q1 ++ s.q2).Nodup
  hcover : ∀ (i : ℕ) (p : Process), ps[i]? = some p →
    s.visited.getD i false = true → 0 < s.remainingTime.getD i 0 →
    i ∈ s.q1 ++ s.q2

theorem mlqInvBase_init {ps : List Process} (hv : ∀ p ∈ ps, 1 ≤ p.burstTime) :
    MLQInvBase ps (mlqInit ps) := by
  constructor
  · simp [mlqInit]
  · simp [mlqInit]
  · show (0 : ℕ) = (ps.map (fun p => p.burstTime)).countP (fun r => decide (r = 0))
    refine (List.countP_eq_zero.mpr ?_).symm
    intro r hr
    obtain ⟨p, hp, rfl⟩ := List.mem_map.mp hr
    have := hv p hp
    simp only [decide_eq_true_eq]
    omega
  · intro i p hp
    have hg : (mlqInit ps).remainingTime.getD i 0 = p.burstTime := getD_map_proc hp _ 0
    rw [hg]
    have := hv p (mem_of_getElem?_proc hp)
    exact ⟨by omega, le_refl _⟩
  · intro j hj
    exact absurd hj (List.not_mem_nil j)
  · intro i p hp _
    exact getD_map_proc hp (fun p => p.burstTime) 0
  · exact List.nodup_nil
  · intro i p hp hvis _
    have hg : (mlqInit ps).visited.getD i false = false := by
      show (List.replicate ps.length false).getD i false = false
      rcases lt_or_ge i ps.length with h | h
      · rw [List.getD_eq_getElem?_getD, List.getElem?_replicate]
        simp [h]
      · rw [List.getD_eq_getElem?_getD, List.getElem?_eq_none (by simpa using h)]
        rfl
    rw [hg] at hvis
    exact absurd hvis (by decide)

theorem mlqCls_base {ps : List Process} (hv : ∀ p ∈ ps, 1 ≤ p.burstTime)
    {s : MLQState} (hinv : MLQInvBase ps s) : MLQInvBase ps (mlqCls ps s) := by
  obtain ⟨hremlen, hvislen, hcount, hrem, hq, hunvis, hnodup, hcover⟩ := hinv
  have hclen : (mlqClassify ps s.currentTime s.q1 s.q2 s.visited).2.2.length =
      s.visited.length := mlqScan_len s.currentTime ps.enum (s.q1, s.q2, s.visited)
  have hcmono : ∀ (j : ℕ), s.visited.getD j false = true →
      (mlqClassify ps s.currentTime s.q1 s.q2 s.visited).2.2.getD j false = true :=
    fun j h => mlqScan_vis_mono s.currentTime ps.enum (s.q1, s.q2, s.visited) j h
  have hcunvis : ∀ (j : ℕ),
      (mlqClassify ps s.currentTime s.q1 s.q2 s.visited).2.2.getD j false = false →
      s.visited.getD j false = false := by
    intro j h
    by_contra hne
    rw [Bool.not_eq_false] at hne
    rw [hcmono j hne] at h
    exact absurd h (by decide)
  obtain ⟨e1, e2, he1, he2⟩ :=
    mlqScan_suffix s.currentTime ps.enum (s.q1, s.q2, s.visited)
  have henumlt : ∀ ip ∈ ps.enum, ip.1 < (s.q1, s.q2, s.visited).2.2.length := by
    intro ip hip
    have := List.mem_enum_iff_getElem?.mp hip
    have h1 : ip.1 < ps.length := by
      by_contra hge
      rw [List.getElem?_eq_none (by omega)] at this
      exact absurd this (by simp)
    show ip.1 < s.visited.length
    omega
  obtain ⟨hcnodup, hcqvis⟩ := mlqScan_nodup s.currentTime ps.enum
    (s.q1, s.q2, s.visited) henumlt ⟨hnodup, fun j hj => (hq j hj).2.2⟩
  refine ⟨hremlen, ?_, hcount, hrem, ?_, ?_, hcnodup, ?_⟩
  · show (mlqClassify ps s.currentTime s.q1 s.q2 s.visited).2.2.length = ps.length
    rw [hclen]
    exact hvislen
  · intro j hj
    have hj' : j ∈ (mlqClassify ps s.currentTime s.q1 s.q2 s.visited).1 ++
        (mlqClassify ps s.currentTime s.q1 s.q2 s.visited).2.1 := hj
    refine ⟨?_, ?_, hcqvis j hj'⟩
    · rcases List.mem_append.mp hj' with h | h
      · rcases mlqScan_mem_q1 s.currentTime ps.enum (s.q1, s.q2, s.visited) j h with
          hold | ⟨p, hmem, _, _, _⟩
        · exact (hq j (List.mem_append.mpr (Or.inl hold))).1
        · have := List.mem_enum_iff_getElem?.mp hmem
          by_contra hge
          rw [List.getElem?_eq_none (by omega)] at this
          exact absurd this (by simp)
      · rcases mlqScan_mem_q2 s.currentTime ps.enum (s.q1, s.q2, s.visited) j h with
          hold | ⟨p, hmem, _, _, _⟩
        · exact (hq j (List.mem_append.mpr (Or.inr hold))).1
        · have := List.mem_enum_iff_getElem?.mp hmem
          by_contra hge
          rw [List.getElem?_eq_none (by omega)] at this
          exact absurd this (by simp)
    · show 0 < s.remainingTime.getD j 0
      rcases List.mem_append.mp hj' with h | h
      · rcases mlqScan_mem_q1 s.currentTime ps.enum (s.q1, s.q2, s.visited) j h with
          hold | ⟨p, hmem, _, _, hvf⟩
        · exact (hq j (List.mem_append.mpr (Or.inl hold))).2.1
        · rw [hunvis j p (List.mem_enum_iff_getElem?.mp hmem) hvf]
          have := hv p (mem_of_getElem?_proc (List.mem_enum_iff_getElem?.mp hmem))
          omega
      · rcases mlqScan_mem_q2 s.currentTime ps.enum (s.q1, s.q2, s.visited) j h with
          hold | ⟨p, hmem, _, _, hvf⟩
        · exact (hq j (List.mem_append.mpr (Or.inr hold))).2.1
        · rw [hunvis j p (List.mem_enum_iff_getElem?.mp hmem) hvf]
          have := hv p (mem_of_getElem?_proc (List.mem_enum_iff_getElem?.mp hmem))
          omega
  · intro i p hp hvf
    exact hunvis i p hp (hcunvis i hvf)
  · intro i p hp hvt hri
    have hvt' : (mlqClassify ps s.currentTime s.q1 s.q2 s.visited).2.2.getD i false =
        true := hvt
    show i ∈ (mlqClassify ps s.currentTime s.q1 s.q2 s.visited).1 ++
      (mlqClassify ps s.currentTime s.q1 s.q2 s.visited).2.1
    rcases mlqScan_vis_src s.currentTime ps.enum (s.q1, s.q2, s.visited) i hvt' with
      hold | hin | hin
    · have := hcover i p hp hold hri
      rcases List.mem_append.mp this with h | h
      · refine List.mem_append.mpr (Or.inl ?_)
        show i ∈ (mlqClassify ps s.currentTime s.q1 s.q2 s.visited).1
        rw [mlqClassify_eq, he1]
        exact List.mem_append.mpr (Or.inl h)
      · refine List.mem_append.mpr (Or.inr ?_)
        show i ∈ (mlqClassify ps s.currentTime s.q1 s.q2 s.visited).2.1
        rw [mlqClassify_eq, he2]
        exact List.mem_append.mpr (Or.inl h)
    · exact List.mem_append.mpr (Or.inl hin)
    · exact List.mem_append.mpr (Or.inr hin)

theorem mlqRun1_base {ps : List Process} {q : ℤ} (hq1 : 1 ≤ q)
    (hv : ∀ p ∈ ps, 1 ≤ p.burstTime) {s₁ : MLQState} {idx : ℕ} {rest : List ℕ}
    {p : Process} (hq1e : s₁.q1 = idx :: rest) (hp : ps[idx]? = some p)
    (hinv : MLQInvBase ps s₁) : MLQInvBase ps (mlqRun1 ps q s₁ idx rest p) := by
  obtain ⟨hremlen, hvislen, hcount, hrem, hq, hunvis, hnodup, hcover⟩ := hinv
  obtain ⟨hilen, hrpos, hvidx⟩ := hq idx (by
    rw [hq1e]
    exact List.mem_append.mpr (Or.inl (List.mem_cons_self idx rest)))
  have hexec1 : 1 ≤ mlqExec q s₁ idx := le_min hq1 (by omega)
  have hexecle : mlqExec q s₁ idx ≤ s₁.remainingTime.getD idx 0 := min_le_right _ _
  have hremi : s₁.remainingTime[idx]? = some (s₁.remainingTime.getD idx 0) := by
    rw [List.getD_eq_getElem?_getD, List.getElem?_eq_getElem (by omega)]
    rfl
  have hremip : (mlqRem q s₁ idx).getD idx 0 =
      s₁.remainingTime.getD idx 0 - mlqExec q s₁ idx := getD_modIdx_self hremi _ 0
  have hremget : ∀ (j : ℕ), j ≠ idx →
      (mlqRem q s₁ idx).getD j 0 = s₁.remainingTime.getD j 0 :=
    fun j hj => getD_modIdx_ne _ _ _ (fun h => hj h.symm) 0
  have hremlen' : (mlqRem q s₁ idx).length = ps.length := by
    show (modIdx s₁.remainingTime idx (fun r => r - mlqExec q s₁ idx)).length = ps.length
    rw [length_modIdx]
    exact hremlen
  have hnodup' : (idx :: (rest ++ s₁.q2)).Nodup := by
    rw [← List.cons_append, ← hq1e]
    exact hnodup
  have hidxnot : idx ∉ rest ++ s₁.q2 := (List.nodup_cons.mp hnodup').1
  have hrqnodup : (rest ++ s₁.q2).Nodup := (List.nodup_cons.mp hnodup').2
  have hqold : ∀ j ∈ rest ++ s₁.q2, j < ps.length ∧
      0 < s₁.remainingTime.getD j 0 ∧ s₁.visited.getD j false = true := by
    intro j hj
    refine hq j ?_
    rw [hq1e]
    rcases List.mem_append.mp hj with h | h
    · exact List.mem_append.mpr (Or.inl (List.mem_cons_of_mem idx h))
    · exact List.mem_append.mpr (Or.inr h)
  have henumlt : ∀ ip ∈ ps.enum, ip.1 < (rest, s₁.q2, s₁.visited).2.2.length := by
    intro ip hip
    have := List.mem_enum_iff_getElem?.mp hip
    have h1 : ip.1 < ps.length := by
      by_contra hge
      rw [List.getElem?_eq_none (by omega)] at this
      exact absurd this (by simp)
    show ip.1 < s₁.visited.length
    omega
  have hc2len : (mlqC2 ps q s₁ idx rest).2.2.length = s₁.visited.length :=
    mlqScan_len (mlqT q s₁ idx) ps.enum (rest, s₁.q2, s₁.visited)
  have hc2mono : ∀ (j : ℕ), s₁.visited.getD j false = true →
      (mlqC2 ps q s₁ idx rest).2.2.getD j false = true :=
    fun j h => mlqScan_vis_mono (mlqT q s₁ idx) ps.enum (rest, s₁.q2, s₁.visited) j h
  have hc2unvis : ∀ (j : ℕ),
      (mlqC2 ps q s₁ idx rest).2.2.getD j false = false →
      s₁.visited.getD j false = false := by
    intro j h
    by_contra hne
    rw [Bool.not_eq_false] at hne
    rw [hc2mono j hne] at h
    exact absurd h (by decide)
  obtain ⟨e1, e2, he1, he2⟩ :=
    mlqScan_suffix (mlqT q s₁ idx) ps.enum (rest, s₁.q2, s₁.visited)
  obtain ⟨hc2nodup, hc2qvis⟩ := mlqScan_nodup (mlqT q s₁ idx) ps.enum
    (rest, s₁.q2, s₁.visited) henumlt
    ⟨hrqnodup, fun j hj => (hqold j hj).2.2⟩
  have hc2memlt : ∀ j ∈ (mlqC2 ps q s₁ idx rest).1 ++ (mlqC2 ps q s₁ idx rest).2.1,
      j < ps.length ∧ 0 < (mlqRem q s₁ idx).getD j 0 := by
    intro j hj
    have hjne : j ≠ idx := by
      intro h
      rcases List.mem_append.mp hj with h2 | h2
      · rcases mlqScan_mem_q1 (mlqT q s₁ idx) ps.enum (rest, s₁.q2, s₁.visited) j h2
          with hold | ⟨p', hmem, _, _, hvf⟩
        · rw [h] at hold
          exact hidxnot (List.mem_append.mpr (Or.inl hold))
        · rw [h, hvidx] at hvf
          exact absurd hvf (by decide)
      · rcases mlqScan_mem_q2 (mlqT q s₁ idx) ps.enum (rest, s₁.q2, s₁.visited) j h2
          with hold | ⟨p', hmem, _, _, hvf⟩
        · rw [h] at hold
          exact hidxnot (List.mem_append.mpr (Or.inr hold))
        · rw [h, hvidx] at hvf
          exact absurd hvf (by decide)
    rw [hremget j hjne]
    rcases List.mem_append.mp hj with h | h
    · rcases mlqScan_mem_q1 (mlqT q s₁ idx) ps.enum (rest, s₁.q2, s₁.visited) j h
        with hold | ⟨p', hmem, _, _, hvf⟩
      · exact ⟨(hqold j (List.mem_append.mpr (Or.inl hold))).1,
          (hqold j (List.mem_append.mpr (Or.inl hold))).2.1⟩
      · have hpj := List.mem_enum_iff_getElem?.mp hmem
        have hjlen : j < ps.length := by
          by_contra hge
          rw [List.getElem?_eq_none (by omega)] at hpj
          exact absurd hpj (by simp)
        refine ⟨hjlen, ?_⟩
        rw [hunvis j p' hpj hvf]
        have := hv p' (mem_of_getElem?_proc hpj)
        omega
    · rcases mlqScan_mem_q2 (mlqT q s₁ idx) ps.enum (rest, s₁.q2, s₁.visited) j h
        with hold | ⟨p', hmem, _, _, hvf⟩
      · exact ⟨(hqold j (List.mem_append.mpr (Or.inr hold))).1,
          (hqold j (List.mem_append.mpr (Or.inr hold))).2.1⟩
      · have hpj := List.mem_enum_iff_getElem?.mp hmem
        have hjlen : j < ps.length := by
          by_contra hge
          rw [List.getElem?_eq_none (by omega)] at hpj
          exact absurd hpj (by simp)
        refine ⟨hjlen, ?_⟩
        rw [hunvis j p' hpj hvf]
        have := hv p' (mem_of_getElem?_proc hpj)
        omega
  have hidxnotc2 : idx ∉ (mlqC2 ps q s₁ idx rest).1 ++ (mlqC2 ps q s₁ idx rest).2.1 := by
    intro hj
    rcases List.mem_append.mp hj with h | h
    · rcases mlqScan_mem_q1 (mlqT q s₁ idx) ps.enum (rest, s₁.q2, s₁.visited) idx h
        with hold | ⟨p', hmem, _, _, hvf⟩
      · exact hidxnot (List.mem_append.mpr (Or.inl hold))
      · rw [hvidx] at hvf
        exact absurd hvf (by decide)
    · rcases mlqScan_mem_q2 (mlqT q s₁ idx) ps.enum (rest, s₁.q2, s₁.visited) idx h
        with hold | ⟨p', hmem, _, _, hvf⟩
      · exact hidxnot (List.mem_append.mpr (Or.inr hold))
      · rw [hvidx] at hvf
        exact absurd hvf (by decide)
  have hvlen' : (mlqC2 ps q s₁ idx rest).2.2.length = ps.length := by
    rw [hc2len]
    exact hvislen
  have hcnt := countP_modIdx (fun r => decide (r = 0)) (fun r => r - mlqExec q s₁ idx)
    s₁.remainingTime idx _ hremi
  simp only [decide_eq_true_eq] at hcnt
  rw [if_neg (by omega : ¬ (s₁.remainingTime.getD idx 0 = 0))] at hcnt
  have hremclause : ∀ (i : ℕ) (p' : Process), ps[i]? = some p' →
      0 ≤ (mlqRem q s₁ idx).getD i 0 ∧ (mlqRem q s₁ idx).getD i 0 ≤ p'.burstTime := by
    intro i p' hp'
    by_cases hii : i = idx
    · subst hii
      obtain rfl : p = p' := by
        rw [hp] at hp'
        injection hp'
      rw [hremip]
      obtain ⟨h1, h2⟩ := hrem i p hp
      exact ⟨by omega, by omega⟩
    · rw [hremget i hii]
      exact hrem i p' hp'
  have hunvisclause : ∀ (i : ℕ) (p' : Process), ps[i]? = some p' →
      (mlqC2 ps q s₁ idx rest).2.2.getD i false = false →
      (mlqRem q s₁ idx).getD i 0 = p'.burstTime := by
    intro i p' hp' hvf
    have hvf' := hc2unvis i hvf
    have hine : i ≠ idx := by
      intro h
      rw [h, hvidx] at hvf'
      exact absurd hvf' (by decide)
    rw [hremget i hine]
    exact hunvis i p' hp' hvf'
  have hcoverclause : ∀ (i : ℕ) (p' : Process), ps[i]? = some p' →
      (mlqC2 ps q s₁ idx rest).2.2.getD i false = true →
      0 < (mlqRem q s₁ idx).getD i 0 → i ≠ idx →
      i ∈ (mlqC2 ps q s₁ idx rest).1 ++ (mlqC2 ps q s₁ idx rest).2.1 := by
    intro i p' hp' hvt hri hine
    rcases mlqScan_vis_src (mlqT q s₁ idx) ps.enum (rest, s₁.q2, s₁.visited) i hvt with
      hold | hin | hin
    · have hri' : 0 < s₁.remainingTime.getD i 0 := by
        rw [← hremget i hine]
        exact hri
      have := hcover i p' hp' hold hri'
      rw [hq1e] at this
      rcases List.mem_append.mp this with h | h
      · rcases List.mem_cons.mp h with h' | h'
        · exact absurd h' hine
        · refine List.mem_append.mpr (Or.inl ?_)
          show i ∈ (mlqC2 ps q s₁ idx rest).1
          show i ∈ (mlqClassify ps (mlqT q s₁ idx) rest s₁.q2 s₁.visited).1
          rw [mlqClassify_eq, he1]
          exact List.mem_append.mpr (Or.inl h')
      · refine List.mem_append.mpr (Or.inr ?_)
        show i ∈ (mlqC2 ps q s₁ idx rest).2.1
        show i ∈ (mlqClassify ps (mlqT q s₁ idx) rest s₁.q2 s₁.visited).2.1
        rw [mlqClassify_eq, he2]
        exact List.mem_append.mpr (Or.inl h)
    · exact List.mem_append.mpr (Or.inl hin)
    · exact List.mem_append.mpr (Or.inr hin)
  unfold mlqRun1
  by_cases hfin : 0 < (mlqRem q s₁ idx).getD idx 0
  · rw [if_pos hfin]
    refine ⟨hremlen', hvlen', ?_, hremclause, ?_, hunvisclause, ?_, ?_⟩
    · show s₁.completed = (modIdx s₁.remainingTime idx
        (fun r => r - mlqExec q s₁ idx)).countP (fun r => decide (r = 0))
      have hz : ¬ (s₁.remainingTime.getD idx 0 - mlqExec q s₁ idx = 0) := by
        rw [← hremip]
        omega
      rw [if_neg hz] at hcnt
      omega
    · intro j hj
      have hj' : j ∈ ((mlqC2 ps q s₁ idx rest).1 ++ [idx]) ++
          (mlqC2 ps q s₁ idx rest).2.1 := hj
      show j < ps.length ∧ 0 < (mlqRem q s₁ idx).getD j 0 ∧
        (mlqC2 ps q s₁ idx rest).2.2.getD j false = true
      rcases List.mem_append.mp hj' with h2 | h3
      · rcases List.mem_append.mp h2 with h | h
        · have hmem : j ∈ (mlqC2 ps q s₁ idx rest).1 ++
              (mlqC2 ps q s₁ idx rest).2.1 := List.mem_append.mpr (Or.inl h)
          exact ⟨(hc2memlt j hmem).1, (hc2memlt j hmem).2, hc2qvis j hmem⟩
        · obtain rfl : j = idx := List.mem_singleton.mp h
          exact ⟨hilen, hfin, hc2mono j hvidx⟩
      · have hmem : j ∈ (mlqC2 ps q s₁ idx rest).1 ++
            (mlqC2 ps q s₁ idx rest).2.1 := List.mem_append.mpr (Or.inr h3)
        exact ⟨(hc2memlt j hmem).1, (hc2memlt j hmem).2, hc2qvis j hmem⟩
    · show (((mlqC2 ps q s₁ idx rest).1 ++ [idx]) ++
        (mlqC2 ps q s₁ idx rest).2.1).Nodup
      rw [List.append_assoc, List.singleton_append, List.nodup_middle]
      exact List.nodup_cons.mpr ⟨hidxnotc2, hc2nodup⟩
    · intro i p' hp' hvt hri
      have hvt' : (mlqC2 ps q s₁ idx rest).2.2.getD i false = true := hvt
      have hri' : 0 < (mlqRem q s₁ idx).getD i 0 := hri
      show i ∈ ((mlqC2 ps q s₁ idx rest).1 ++ [idx]) ++
        (mlqC2 ps q s₁ idx rest).2.1
      by_cases hii : i = idx
      · subst hii
        exact List.mem_append.mpr (Or.inl (List.mem_append.mpr
          (Or.inr (List.mem_singleton.mpr rfl))))
      · rcases List.mem_append.mp (hcoverclause i p' hp' hvt' hri' hii) with h | h
        · exact List.mem_append.mpr (Or.inl (List.mem_append.mpr (Or.inl h)))
        · exact List.mem_append.mpr (Or.inr h)
  · rw [if_neg hfin]
    have hz0 : s₁.remainingTime.getD idx 0 - mlqExec q s₁ idx = 0 := by
      rw [← hremip]
      rw [hremip] at hfin
      omega
    refine ⟨hremlen', hvlen', ?_, hremclause, ?_, hunvisclause, hc2nodup, ?_⟩
    · show s₁.completed + 1 = (modIdx s₁.remainingTime idx
        (fun r => r - mlqExec q s₁ idx)).countP (fun r => decide (r = 0))
      rw [if_pos hz0] at hcnt
      omega
    · intro j hj
      have hj' : j ∈ (mlqC2 ps q s₁ idx rest).1 ++ (mlqC2 ps q s₁ idx rest).2.1 := hj
      exact ⟨(hc2memlt j hj').1, (hc2memlt j hj').2, hc2qvis j hj'⟩
    · intro i p' hp' hvt hri
      have hvt' : (mlqC2 ps q s₁ idx rest).2.2.getD i false = true := hvt
      have hri' : 0 < (mlqRem q s₁ idx).getD i 0 := hri
      show i ∈ (mlqC2 ps q s₁ idx rest).1 ++ (mlqC2 ps q s₁ idx rest).2.1
      by_cases hii : i = idx
      · subst hii
        rw [hremip] at hri'
        omega
      · exact hcoverclause i p' hp' hvt' hri' hii

theorem mlqRun2_base {ps : List Process} {s₁ : MLQState} {idx : ℕ} {rest : List ℕ}
    {p : Process} (hq1e : s₁.q1 = []) (hq2e : s₁.q2 = idx :: rest)
    (hp : ps[idx]? = some p)
    (hinv : MLQInvBase ps s₁) : MLQInvBase ps (mlqRun2 s₁ idx rest p) := by
  obtain ⟨hremlen, hvislen, hcount, hrem, hq, hunvis, hnodup, hcover⟩ := hinv
  obtain ⟨hilen, hrpos, hvidx⟩ := hq idx (by
    rw [hq2e]
    exact List.mem_append.mpr (Or.inr (List.mem_cons_self idx rest)))
  have hremi : s₁.remainingTime[idx]? = some (s₁.remainingTime.getD idx 0) := by
    rw [List.getD_eq_getElem?_getD, List.getElem?_eq_getElem (by omega)]
    rfl
  have hremip : (modIdx s₁.remainingTime idx (fun r => r - 1)).getD idx 0 =
      s₁.remainingTime.getD idx 0 - 1 := getD_modIdx_self hremi _ 0
  have hremget : ∀ (j : ℕ), j ≠ idx →
      (modIdx s₁.remainingTime idx (fun r => r - 1)).getD j 0 =
        s₁.remainingTime.getD j 0 :=
    fun j hj => getD_modIdx_ne _ _ _ (fun h => hj h.symm) 0
  have hremlen' : (modIdx s₁.remainingTime idx (fun r => r - 1)).length = ps.length := by
    rw [length_modIdx]
    exact hremlen
  have hnodup' : (idx :: rest).Nodup := by
    have h1 : (s₁.q1 ++ s₁.q2).Nodup := hnodup
    rw [hq1e, hq2e] at h1
    exact h1
  have hidxnot : idx ∉ rest := (List.nodup_cons.mp hnodup').1
  have hrestnodup : rest.Nodup := (List.nodup_cons.mp hnodup').2
  have hqold : ∀ j ∈ rest, j < ps.length ∧
      0 < s₁.remainingTime.getD j 0 ∧ s₁.visited.getD j false = true := by
    intro j hj
    refine hq j ?_
    rw [hq2e]
    exact List.mem_append.mpr (Or.inr (List.mem_cons_of_mem idx hj))
  have hcnt := countP_modIdx (fun r => decide (r = 0)) (fun r => r - 1)
    s₁.remainingTime idx _ hremi
  simp only [decide_eq_true_eq] at hcnt
  rw [if_neg (by omega : ¬ (s₁.remainingTime.getD idx 0 = 0))] at hcnt
  have hremclause : ∀ (i : ℕ) (p' : Process), ps[i]? = some p' →
      0 ≤ (modIdx s₁.remainingTime idx (fun r => r - 1)).getD i 0 ∧
      (modIdx s₁.remainingTime idx (fun r => r - 1)).getD i 0 ≤ p'.burstTime := by
    intro i p' hp'
    by_cases hii : i = idx
    · subst hii
      obtain rfl : p = p' := by
        rw [hp] at hp'
        injection hp'
      rw [hremip]
      obtain ⟨h1, h2⟩ := hrem i p hp
      exact ⟨by omega, by omega⟩
    · rw [hremget i hii]
      exact hrem i p' hp'
  have hunvisclause : ∀ (i : ℕ) (p' : Process), ps[i]? = some p' →
      s₁.visited.getD i false = false →
      (modIdx s₁.remainingTime idx (fun r => r - 1)).getD i 0 = p'.burstTime := by
    intro i p' hp' hvf
    have hine : i ≠ idx := by
      intro h
      rw [h, hvidx] at hvf
      exact absurd hvf (by decide)
    rw [hremget i hine]
    exact hunvis i p' hp' hvf
  unfold mlqRun2
  by_cases hfin : (modIdx s₁.remainingTime idx (fun r => r - 1)).getD idx 0 = 0
  · rw [if_pos hfin]
    refine ⟨hremlen', hvislen, ?_, hremclause, ?_, hunvisclause, ?_, ?_⟩
    · show s₁.completed + 1 = (modIdx s₁.remainingTime idx
        (fun r => r - 1)).countP (fun r => decide (r = 0))
      have hz : s₁.remainingTime.getD idx 0 - 1 = 0 := by
        rw [← hremip]
        exact hfin
      rw [if_pos hz] at hcnt
      omega
    · intro j hj
      have hj' : j ∈ s₁.q1 ++ rest := hj
      show j < ps.length ∧
        0 < (modIdx s₁.remainingTime idx (fun r => r - 1)).getD j 0 ∧
        s₁.visited.getD j false = true
      rcases List.mem_append.mp hj' with h | h
      · rw [hq1e] at h
        exact absurd h (List.not_mem_nil j)
      · obtain ⟨h1, h2, h3⟩ := hqold j h
        have hjne : j ≠ idx := fun heq => hidxnot (by rw [← heq]; exact h)
        rw [hremget j hjne]
        exact ⟨h1, h2, h3⟩
    · show (s₁.q1 ++ rest).Nodup
      rw [hq1e]
      exact hrestnodup
    · intro i p' hp' hvt hri
      have hri' : 0 < (modIdx s₁.remainingTime idx (fun r => r - 1)).getD i 0 := hri
      show i ∈ s₁.q1 ++ rest
      have hii : i ≠ idx := by
        intro h
        rw [h, hfin] at hri'
        exact absurd hri' (by omega)
      have hri2 : 0 < s₁.remainingTime.getD i 0 := by
        rw [← hremget i hii]
        exact hri'
      have := hcover i p' hp' hvt hri2
      rw [hq1e, hq2e] at this
      rcases List.mem_cons.mp (by simpa using this) with h | h
      · exact absurd h hii
      · rw [hq1e]
        simpa using h
  · rw [if_neg hfin]
    refine ⟨hremlen', hvislen, ?_, hremclause, ?_, hunvisclause, ?_, ?_⟩
    · show s₁.completed = (modIdx s₁.remainingTime idx
        (fun r => r - 1)).countP (fun r => decide (r = 0))
      have hz : ¬ (s₁.remainingTime.getD idx 0 - 1 = 0) := by
        rw [← hremip]
        exact hfin
      rw [if_neg hz] at hcnt
      omega
    · intro j hj
      have hj' : j ∈ s₁.q1 ++ (idx :: rest) := hj
      show j < ps.length ∧
        0 < (modIdx s₁.remainingTime idx (fun r => r - 1)).getD j 0 ∧
        s₁.visited.getD j false = true
      rcases List.mem_append.mp hj' with h | h
      · rw [hq1e] at h
        exact absurd h (List.not_mem_nil j)
      · rcases List.mem_cons.mp h with rfl | h'
        · refine ⟨hilen, ?_, hvidx⟩
          rw [hremip]
          rw [hremip] at hfin
          omega
        · obtain ⟨h1, h2, h3⟩ := hqold j h'
          have hjne : j ≠ idx := fun heq => hidxnot (by rw [← heq]; exact h')
          rw [hremget j hjne]
          exact ⟨h1, h2, h3⟩
    · show (s₁.q1 ++ (idx :: rest)).Nodup
      rw [hq1e]
      exact hnodup'
    · intro i p' hp' hvt hri
      have hri' : 0 < (modIdx s₁.remainingTime idx (fun r => r - 1)).getD i 0 := hri
      show i ∈ s₁.q1 ++ (idx :: rest)
      by_cases hii : i = idx
      · subst hii
        rw [hq1e]
        simpa using List.mem_cons_self i rest
      · have hri2 : 0 < s₁.remainingTime.getD i 0 := by
          rw [← hremget i hii]
          exact hri'
        have := hcover i p' hp' hvt hri2
        rw [hq1e, hq2e] at this
        rw [hq1e]
        simpa using this

theorem mlqInvBase_step {ps : List Process} {q : ℤ} (hq1 : 1 ≤ q)
    (hv : ∀ p ∈ ps, 1 ≤ p.burstTime) {s : MLQState}
    (hinv : MLQInvBase ps s) : MLQInvBase ps (mlqStep ps q s) := by
  rw [mlqStep_eq]
  have hcls := mlqCls_base hv hinv
  cases hq1e : (mlqCls ps s).q1 with
  | cons idx rest =>
    have hilen : idx < ps.length := (hcls.hq idx (by
      rw [hq1e]
      exact List.mem_append.mpr (Or.inl (List.mem_cons_self idx rest)))).1
    obtain ⟨p, hp⟩ : ∃ p, ps[idx]? = some p := ⟨ps[idx], List.getElem?_eq_getElem hilen⟩
    rw [mlqSlice_eq_run1 hq1e hp]
    exact mlqRun1_base hq1 hv hq1e hp hcls
  | nil =>
    cases hq2e : (mlqCls ps s).q2 with
    | cons idx rest =>
      have hilen : idx < ps.length := (hcls.hq idx (by
        rw [hq2e]
        exact List.mem_append.mpr (Or.inr (List.mem_cons_self idx rest)))).1
      obtain ⟨p, hp⟩ : ∃ p, ps[idx]? = some p :=
        ⟨ps[idx], List.getElem?_eq_getElem hilen⟩
      rw [mlqSlice_eq_run2 hq1e hq2e hp]
      exact mlqRun2_base hq1e hq2e hp hcls
    | nil =>
      rw [mlqSlice_eq_idle hq1e hq2e]
      obtain ⟨h1, h2, h3, h4, h5, h6, h7, h8⟩ := hcls
      exact ⟨h1, h2, h3, h4, h5, h6, h7, h8⟩

theorem mlqInvBase_rem_nonneg {ps : List Process} {s : MLQState}
    (hinv : MLQInvBase ps s) : ∀ r ∈ s.remainingTime, 0 ≤ r := by
  intro r hr
  obtain ⟨i, hi⟩ := List.getElem?_of_mem hr
  have hilt : i < ps.length := by
    have h1 : i < s.remainingTime.length := by
      by_contra hge
      rw [List.getElem?_eq_none (by omega)] at hi
      exact absurd hi (by simp)
    have := hinv.hremlen
    omega
  obtain ⟨p, hp⟩ : ∃ p, ps[i]? = some p := ⟨ps[i], List.getElem?_eq_getElem hilt⟩
  have := (hinv.hrem i p hp).1
  rw [List.getD_eq_getElem?_getD, hi] at this
  exact this

/-- Termination of the Multilevel Queue loop. -/
theorem solveMLQ_isSome (ps : List Process) (q : ℤ) (hq1 : 1 ≤ q)
    (hv : ∀ p ∈ ps, 1 ≤ p.burstTime) (fuel : ℕ)
    (hfuel : fuelBound ps ≤ fuel) : (solveMLQ ps q fuel).isSome := by
  apply loopRun_isSome (MLQInvBase ps)
    (fun s => s.remainingTime.sum.toNat + (maxArr ps - s.currentTime).toNat)
  · intro s hs hexit
    rw [decide_eq_false_iff_not, not_le] at hexit
    refine ⟨mlqInvBase_step hq1 hv hs, ?_⟩
    have hcls := mlqCls_base hv hs
    have hnn := mlqInvBase_rem_nonneg hs
    have hclsrem : (mlqCls ps s).remainingTime = s.remainingTime := rfl
    have hclst : (mlqCls ps s).currentTime = s.currentTime := rfl
    rw [mlqStep_eq]
    cases hq1e : (mlqCls ps s).q1 with
    | cons idx rest =>
      obtain ⟨hilen, hrpos, hvidx⟩ := hcls.hq idx (by
        rw [hq1e]
        exact List.mem_append.mpr (Or.inl (List.mem_cons_self idx rest)))
      obtain ⟨p, hp⟩ : ∃ p, ps[idx]? = some p :=
        ⟨ps[idx], List.getElem?_eq_getElem hilen⟩
      rw [mlqSlice_eq_run1 hq1e hp]
      rw [hclsrem] at hrpos
      have hexec1 : 1 ≤ mlqExec q (mlqCls ps s) idx := by
        refine le_min hq1 ?_
        rw [hclsrem]
        omega
      have hremi : s.remainingTime[idx]? = some (s.remainingTime.getD idx 0) := by
        rw [List.getD_eq_getElem?_getD, List.getElem?_eq_getElem (by
          have := hs.hremlen
          omega)]
        rfl
      have hsum := sum_modIdx (fun r => r - mlqExec q (mlqCls ps s) idx)
        s.remainingTime idx _ hremi
      have hbeta : ((fun r => r - mlqExec q (mlqCls ps s) idx)
          (s.remainingTime.getD idx 0) : ℤ) =
          s.remainingTime.getD idx 0 - mlqExec q (mlqCls ps s) idx := rfl
      rw [hbeta] at hsum
      have hle := getD_le_sum hnn (i := idx) (by
        have := hs.hremlen
        omega)
      have hexecle : mlqExec q (mlqCls ps s) idx ≤ s.remainingTime.getD idx 0 := by
        have := min_le_right q ((mlqCls ps s).remainingTime.getD idx 0)
        rw [hclsrem] at this
        exact this
      have hrun : (mlqRun1 ps q (mlqCls ps s) idx rest p).remainingTime =
          mlqRem q (mlqCls ps s) idx := by
        unfold mlqRun1
        by_cases hfin : 0 < (mlqRem q (mlqCls ps s) idx).getD idx 0
        · rw [if_pos hfin]
        · rw [if_neg hfin]
      have hruntime : (mlqRun1 ps q (mlqCls ps s) idx rest p).currentTime =
          mlqT q (mlqCls ps s) idx := by
        unfold mlqRun1
        by_cases hfin : 0 < (mlqRem q (mlqCls ps s) idx).getD idx 0
        · rw [if_pos hfin]
        · rw [if_neg hfin]
      have hT : mlqT q (mlqCls ps s) idx =
          (mlqCls ps s).currentTime + mlqExec q (mlqCls ps s) idx := rfl
      rw [hrun, hruntime, hT]
      show (modIdx (mlqCls ps s).remainingTime idx
          (fun r => r - mlqExec q (mlqCls ps s) idx)).sum.toNat +
        (maxArr ps -
          ((mlqCls ps s).currentTime + mlqExec q (mlqCls ps s) idx)).toNat <
        s.remainingTime.sum.toNat + (maxArr ps - s.currentTime).toNat
      rw [hclsrem, hclst]
      omega
    | nil =>
      cases hq2e : (mlqCls ps s).q2 with
      | cons idx rest =>
        obtain ⟨hilen, hrpos, hvidx⟩ := hcls.hq idx (by
          rw [hq2e]
          exact List.mem_append.mpr (Or.inr (List.mem_cons_self idx rest)))
        obtain ⟨p, hp⟩ : ∃ p, ps[idx]? = some p :=
          ⟨ps[idx], List.getElem?_eq_getElem hilen⟩
        rw [mlqSlice_eq_run2 hq1e hq2e hp]
        rw [hclsrem] at hrpos
        have hremi : s.remainingTime[idx]? = some (s.remainingTime.getD idx 0) := by
          rw [List.getD_eq_getElem?_getD, List.getElem?_eq_getElem (by
            have := hs.hremlen
            omega)]
          rfl
        have hsum := sum_modIdx (fun r => r - 1) s.remainingTime idx _ hremi
        have hbeta : ((fun r => r - 1) (s.remainingTime.getD idx 0) : ℤ) =
            s.remainingTime.getD idx 0 - 1 := rfl
        rw [hbeta] at hsum
        have hle := getD_le_sum hnn (i := idx) (by
          have := hs.hremlen
          omega)
        have hrun : (mlqRun2 (mlqCls ps s) idx rest p).remainingTime =
            modIdx (mlqCls ps s).remainingTime idx (fun r => r - 1) := by
          unfold mlqRun2
          by_cases hfin :
              (modIdx (mlqCls ps s).remainingTime idx (fun r => r - 1)).getD idx 0 = 0
          · rw [if_pos hfin]
          · rw [if_neg hfin]
        have hruntime : (mlqRun2 (mlqCls ps s) idx rest p).currentTime =
            (mlqCls ps s).currentTime + 1 := by
          unfold mlqRun2
          by_cases hfin :
              (modIdx (mlqCls ps s).remainingTime idx (fun r => r - 1)).getD idx 0 = 0
          · rw [if_pos hfin]
          · rw [if_neg hfin]
        rw [hrun, hruntime]
        show (modIdx (mlqCls ps s).remainingTime idx
            (fun r => r - 1)).sum.toNat +
          (maxArr ps - ((mlqCls ps s).currentTime + 1)).toNat <
          s.remainingTime.sum.toNat + (maxArr ps - s.currentTime).toNat
        rw [hclsrem, hclst]
        omega
      | nil =>
        rw [mlqSlice_eq_idle hq1e hq2e]
        show s.remainingTime.sum.toNat +
          (maxArr ps - ((mlqCls ps s).currentTime + 1)).toNat <
          s.remainingTime.sum.toNat + (maxArr ps - s.currentTime).toNat
        rw [hclst]
        obtain ⟨i, hi, hipos⟩ : ∃ (i : ℕ) (r : ℤ),
            s.remainingTime[i]? = some r ∧ 0 < r := by
          by_contra hno
          push_neg at hno
          have hall : ∀ r ∈ s.remainingTime, (fun r => decide (r = 0)) r = true := by
            intro r hr
            obtain ⟨i, hi⟩ := List.getElem?_of_mem hr
            have h1 := hno i r hi
            have h2 := hnn r hr
            simp only [decide_eq_true_eq]
            omega
          have := List.countP_eq_length.mpr hall
          have h1 := hs.hcount
          have h2 := hs.hremlen
          omega
        obtain ⟨hi', hrpos⟩ := hipos
        have hilen : i < ps.length := by
          have h1 : i < s.remainingTime.length := by
            by_contra hge
            rw [List.getElem?_eq_none (by omega)] at hi'
            exact absurd hi' (by simp)
          have := hs.hremlen
          omega
        obtain ⟨p, hp⟩ : ∃ p, ps[i]? = some p := ⟨ps[i], List.getElem?_eq_getElem hilen⟩
        have hvisf : (mlqCls ps s).visited.getD i false = false := by
          by_contra hne
          rw [Bool.not_eq_false] at hne
          have hri : 0 < (mlqCls ps s).remainingTime.getD i 0 := by
            rw [hclsrem, List.getD_eq_getElem?_getD, hi']
            exact hrpos
          have := hcls.hcover i p hp hne hri
          rw [hq1e, hq2e] at this
          exact absurd this (List.not_mem_nil i)
        have hnarr : ¬ (p.arrivalTime ≤ s.currentTime) :=
          mlqClassify_unvis hs.hvislen hp hvisf
        have hA : p.arrivalTime ≤ maxArr ps := arrival_le_maxArr (mem_of_getElem?_proc hp)
        omega
  · exact mlqInvBase_init hv
  · show (ps.map (fun p : Process => p.burstTime)).sum.toNat +
      (maxArr ps - 0).toNat < fuel
    unfold fuelBound at hfuel
    have hsb : (ps.map (fun p : Process => p.burstTime)).sum = sumBursts ps := rfl
    have hA := zero_le_maxArr ps
    omega

/-- The result/clock invariant of the Multilevel Queue loop. -/
structure MLQInvRes (ps : List Process) (s : MLQState) : Prop where
  hreslen : s.results.length = ps.length
  hremarr : ∀ (i : ℕ) (p : Process), ps[i]? = some p →
    s.remainingTime.getD i 0 < p.burstTime →
    p.arrivalTime + (p.burstTime - s.remainingTime.getD i 0) ≤ s.currentTime
  hqarr : ∀ (j : ℕ) (p : Process), ps[j]? = some p → j ∈ s.q1 ++ s.q2 →
    p.arrivalTime ≤ s.currentTime
  hres : ∀ (i : ℕ) (p : Process), ps[i]? = some p → ∃ r, s.results[i]? = some r ∧
    r.arrivalTime = p.arrivalTime ∧ r.burstTime = p.burstTime ∧
    (s.remainingTime.getD i 0 = 0 → ResultOK r)

theorem mlqInvRes_init {ps : List Process} (hv : ∀ p ∈ ps, 1 ≤ p.burstTime) :
    MLQInvRes ps (mlqInit ps) := by
  constructor
  · simp [mlqInit]
  · intro i p hp hlt
    have hg : (mlqInit ps).remainingTime.getD i 0 = p.burstTime := getD_map_proc hp _ 0
    rw [hg] at hlt
    omega
  · intro j p hp hj
    exact absurd hj (List.not_mem_nil j)
  · intro i p hp
    refine ⟨initResult p, getElem?_map_initResult hp, rfl, rfl, ?_⟩
    intro h0
    have hg : (mlqInit ps).remainingTime.getD i 0 = p.burstTime := getD_map_proc hp _ 0
    rw [hg] at h0
    have := hv p (mem_of_getElem?_proc hp)
    omega

theorem mlqCls_res {ps : List Process} {s : MLQState}
    (hres : MLQInvRes ps s) : MLQInvRes ps (mlqCls ps s) := by
  obtain ⟨hreslen, hremarr, hqarr, hresc⟩ := hres
  refine ⟨hreslen, hremarr, ?_, hresc⟩
  intro j p hp hj
  have hj' : j ∈ (mlqClassify ps s.currentTime s.q1 s.q2 s.visited).1 ++
      (mlqClassify ps s.currentTime s.q1 s.q2 s.visited).2.1 := hj
  show p.arrivalTime ≤ s.currentTime
  rcases List.mem_append.mp hj' with h | h
  · rcases mlqScan_mem_q1 s.currentTime ps.enum (s.q1, s.q2, s.visited) j h with
      hold | ⟨p', hmem, harr, _, _⟩
    · exact hqarr j p hp (List.mem_append.mpr (Or.inl hold))
    · obtain rfl : p' = p := by
        have := List.mem_enum_iff_getElem?.mp hmem
        rw [hp] at this
        injection this with h2
        exact h2.symm
      exact harr
  · rcases mlqScan_mem_q2 s.currentTime ps.enum (s.q1, s.q2, s.visited) j h with
      hold | ⟨p', hmem, harr, _, _⟩
    · exact hqarr j p hp (List.mem_append.mpr (Or.inr hold))
    · obtain rfl : p' = p := by
        have := List.mem_enum_iff_getElem?.mp hmem
        rw [hp] at this
        injection this with h2
        exact h2.symm
      exact harr

theorem mlqRun1_res {ps : List Process} {q : ℤ} (hq1 : 1 ≤ q)
    {s₁ : MLQState} {idx : ℕ} {rest : List ℕ} {p : Process}
    (hq1e : s₁.q1 = idx :: rest) (hp : ps[idx]? = some p)
    (hbase : MLQInvBase ps s₁) (hres : MLQInvRes ps s₁) :
    MLQInvRes ps (mlqRun1 ps q s₁ idx rest p) := by
  obtain ⟨hremlen, hvislen, hcount, hrem, hq, hunvis, hnodup, hcover⟩ := hbase
  obtain ⟨hreslen, hremarr, hqarr, hresc⟩ := hres
  obtain ⟨hilen, hrpos, hvidx⟩ := hq idx (by
    rw [hq1e]
    exact List.mem_append.mpr (Or.inl (List.mem_cons_self idx rest)))
  have harridx : p.arrivalTime ≤ s₁.currentTime := hqarr idx p hp (by
    rw [hq1e]
    exact List.mem_append.mpr (Or.inl (List.mem_cons_self idx rest)))
  have hexec1 : 1 ≤ mlqExec q s₁ idx := le_min hq1 (by omega)
  have hexecle : mlqExec q s₁ idx ≤ s₁.remainingTime.getD idx 0 := min_le_right _ _
  have hremi : s₁.remainingTime[idx]? = some (s₁.remainingTime.getD idx 0) := by
    rw [List.getD_eq_getElem?_getD, List.getElem?_eq_getElem (by omega)]
    rfl
  have hremip : (mlqRem q s₁ idx).getD idx 0 =
      s₁.remainingTime.getD idx 0 - mlqExec q s₁ idx := getD_modIdx_self hremi _ 0
  have hremget : ∀ (j : ℕ), j ≠ idx →
      (mlqRem q s₁ idx).getD j 0 = s₁.remainingTime.getD j 0 :=
    fun j hj => getD_modIdx_ne _ _ _ (fun h => hj h.symm) 0
  have hT : mlqT q s₁ idx = s₁.currentTime + mlqExec q s₁ idx := rfl
  have hremarr' : ∀ (i : ℕ) (p' : Process), ps[i]? = some p' →
      (mlqRem q s₁ idx).getD i 0 < p'.burstTime →
      p'.arrivalTime + (p'.burstTime - (mlqRem q s₁ idx).getD i 0) ≤
        mlqT q s₁ idx := by
    intro i p' hp' hlt
    rw [hT]
    by_cases hii : i = idx
    · subst hii
      obtain rfl : p = p' := by
        rw [hp] at hp'
        injection hp'
      rw [hremip]
      by_cases hfull : s₁.remainingTime.getD i 0 = p.burstTime
      · rw [hfull]
        omega
      · obtain ⟨h1, h2⟩ := hrem i p hp
        have := hremarr i p hp (by omega)
        omega
    · rw [hremget i hii] at hlt ⊢
      have := hremarr i p' hp' hlt
      omega
  have hqarr' : ∀ (j : ℕ) (p' : Process), ps[j]? = some p' →
      j ∈ ((mlqC2 ps q s₁ idx rest).1 ++ [idx]) ++ (mlqC2 ps q s₁ idx rest).2.1 →
      p'.arrivalTime ≤ mlqT q s₁ idx := by
    intro j p' hp' hj
    rw [hT]
    rcases List.mem_append.mp hj with h2 | h3
    · rcases List.mem_append.mp h2 with h | h
      · rcases mlqScan_mem_q1 (mlqT q s₁ idx) ps.enum (rest, s₁.q2, s₁.visited) j h
          with hold | ⟨p'', hmem, harr, _, _⟩
        · have := hqarr j p' hp' (by
            rw [hq1e]
            exact List.mem_append.mpr (Or.inl (List.mem_cons_of_mem idx hold)))
          omega
        · obtain rfl : p'' = p' := by
            have := List.mem_enum_iff_getElem?.mp hmem
            rw [hp'] at this
            injection this with h2
            exact h2.symm
          rw [hT] at harr
          exact harr
      · obtain rfl : j = idx := List.mem_singleton.mp h
        obtain rfl : p = p' := by
          rw [hp] at hp'
          injection hp'
        omega
    · rcases mlqScan_mem_q2 (mlqT q s₁ idx) ps.enum (rest, s₁.q2, s₁.visited) j h3
        with hold | ⟨p'', hmem, harr, _, _⟩
      · have := hqarr j p' hp' (by
          rw [hq1e]
          exact List.mem_append.mpr (Or.inr hold))
        omega
      · obtain rfl : p'' = p' := by
          have := List.mem_enum_iff_getElem?.mp hmem
          rw [hp'] at this
          injection this with h2
          exact h2.symm
        rw [hT] at harr
        exact harr
  have hstamp : ∀ (r : ProcessResult),
      ((fun r => if r.startTime = -1 then { r with startTime := s₁.currentTime }
        else r) r).arrivalTime = r.arrivalTime ∧
      ((fun r => if r.startTime = -1 then { r with startTime := s₁.currentTime }
        else r) r).burstTime = r.burstTime := by
    intro r
    by_cases h : r.startTime = -1 <;> simp [h]
  unfold mlqRun1
  by_cases hfin : 0 < (mlqRem q s₁ idx).getD idx 0
  · rw [if_pos hfin]
    refine ⟨?_, hremarr', ?_, ?_⟩
    · show (mlqRes s₁ idx).length = ps.length
      show (modIdx s₁.results idx _).length = ps.length
      rw [length_modIdx]
      exact hreslen
    · intro j p' hp' hj
      exact hqarr' j p' hp' hj
    · intro i p' hp'
      obtain ⟨r, hr, harr2, hburst2, hok⟩ := hresc i p' hp'
      by_cases hii : i = idx
      · subst hii
        refine ⟨if r.startTime = -1 then { r with startTime := s₁.currentTime }
          else r, getElem?_modIdx_self hr _, ?_, ?_, ?_⟩
        · rw [(hstamp r).1]
          exact harr2
        · rw [(hstamp r).2]
          exact hburst2
        · intro h0
          have h0' : (mlqRem q s₁ i).getD i 0 = 0 := h0
          exact absurd h0' (by omega)
      · refine ⟨r, ?_, harr2, hburst2, ?_⟩
        · show (modIdx s₁.results idx _)[i]? = some r
          rw [getElem?_modIdx_ne _ _ _ (fun h => hii h.symm)]
          exact hr
        · rw [hremget i hii]
          exact hok
  · rw [if_neg hfin]
    refine ⟨?_, hremarr', ?_, ?_⟩
    · show (modIdx (mlqRes s₁ idx) idx _).length = ps.length
      rw [length_modIdx]
      show (modIdx s₁.results idx _).length = ps.length
      rw [length_modIdx]
      exact hreslen
    · intro j p' hp' hj
      refine hqarr' j p' hp' ?_
      have hj' : j ∈ (mlqC2 ps q s₁ idx rest).1 ++ (mlqC2 ps q s₁ idx rest).2.1 := hj
      rcases List.mem_append.mp hj' with h | h
      · exact List.mem_append.mpr (Or.inl (List.mem_append.mpr (Or.inl h)))
      · exact List.mem_append.mpr (Or.inr h)
    · intro i p' hp'
      obtain ⟨r, hr, harr2, hburst2, hok⟩ := hresc i p' hp'
      by_cases hii : i = idx
      · subst hii
        obtain rfl : p = p' := by
          rw [hp] at hp'
          injection hp'
        have hstamp1 : (mlqRes s₁ i)[i]? =
            some (if r.startTime = -1 then { r with startTime := s₁.currentTime }
              else r) := getElem?_modIdx_self hr _
        set r₁ := if r.startTime = -1 then { r with startTime := s₁.currentTime }
          else r with hr₁
        have hr₁arr : r₁.arrivalTime = p.arrivalTime := by
          rw [hr₁, ← harr2]
          exact (hstamp r).1
        have hr₁burst : r₁.burstTime = p.burstTime := by
          rw [hr₁, ← hburst2]
          exact (hstamp r).2
        refine ⟨{ r₁ with
            endTime := mlqT q s₁ i,
            turnaroundTime := mlqT q s₁ i - p.arrivalTime,
            waitingTime := mlqT q s₁ i - p.arrivalTime - p.burstTime },
          getElem?_modIdx_self hstamp1 _, by simpa using hr₁arr,
          by simpa using hr₁burst, fun _ => ⟨?_, ?_, ?_⟩⟩
        · show mlqT q s₁ i - p.arrivalTime = mlqT q s₁ i - r₁.arrivalTime
          rw [hr₁arr]
        · show mlqT q s₁ i - p.arrivalTime - p.burstTime =
            mlqT q s₁ i - p.arrivalTime - r₁.burstTime
          rw [hr₁burst]
        · show (0 : ℤ) ≤ mlqT q s₁ i - p.arrivalTime - p.burstTime
          rw [hT]
          have hz : s₁.remainingTime.getD i 0 - mlqExec q s₁ i = 0 := by
            rw [← hremip]
            rw [hremip] at hfin
            omega
          by_cases hfull : s₁.remainingTime.getD i 0 = p.burstTime
          · omega
          · obtain ⟨h1, h2⟩ := hrem i p hp
            have := hremarr i p hp (by omega)
            omega
      · refine ⟨r, ?_, harr2, hburst2, ?_⟩
        · show (modIdx (mlqRes s₁ idx) idx _)[i]? = some r
          rw [getElem?_modIdx_ne _ _ _ (fun h => hii h.symm)]
          show (modIdx s₁.results idx _)[i]? = some r
          rw [getElem?_modIdx_ne _ _ _ (fun h => hii h.symm)]
          exact hr
        · rw [hremget i hii]
          exact hok

theorem mlqRun2_res {ps : List Process} {s₁ : MLQState} {idx : ℕ}
    {rest : List ℕ} {p : Process}
    (hq1e : s₁.q1 = []) (hq2e : s₁.q2 = idx :: rest) (hp : ps[idx]? = some p)
    (hbase : MLQInvBase ps s₁) (hres : MLQInvRes ps s₁) :
    MLQInvRes ps (mlqRun2 s₁ idx rest p) := by
  obtain ⟨hremlen, hvislen, hcount, hrem, hq, hunvis, hnodup, hcover⟩ := hbase
  obtain ⟨hreslen, hremarr, hqarr, hresc⟩ := hres
  obtain ⟨hilen, hrpos, hvidx⟩ := hq idx (by
    rw [hq2e]
    exact List.mem_append.mpr (Or.inr (List.mem_cons_self idx rest)))
  have harridx : p.arrivalTime ≤ s₁.currentTime := hqarr idx p hp (by
    rw [hq2e]
    exact List.mem_append.mpr (Or.inr (List.mem_cons_self idx rest)))
  have hremi : s₁.remainingTime[idx]? = some (s₁.remainingTime.getD idx 0) := by
    rw [List.getD_eq_getElem?_getD, List.getElem?_eq_getElem (by omega)]
    rfl
  have hremip : (modIdx s₁.remainingTime idx (fun r => r - 1)).getD idx 0 =
      s₁.remainingTime.getD idx 0 - 1 := getD_modIdx_self hremi _ 0
  have hremget : ∀ (j : ℕ), j ≠ idx →
      (modIdx s₁.remainingTime idx (fun r => r - 1)).getD j 0 =
        s₁.remainingTime.getD j 0 :=
    fun j hj => getD_modIdx_ne _ _ _ (fun h => hj h.symm) 0
  have hremarr' : ∀ (i : ℕ) (p' : Process), ps[i]? = some p' →
      (modIdx s₁.remainingTime idx (fun r => r - 1)).getD i 0 < p'.burstTime →
      p'.arrivalTime +
        (p'.burstTime - (modIdx s₁.remainingTime idx (fun r => r - 1)).getD i 0) ≤
        s₁.currentTime + 1 := by
    intro i p' hp' hlt
    by_cases hii : i = idx
    · subst hii
      obtain rfl : p = p' := by
        rw [hp] at hp'
        injection hp'
      rw [hremip]
      by_cases hfull : s₁.remainingTime.getD i 0 = p.burstTime
      · rw [hfull]
        omega
      · obtain ⟨h1, h2⟩ := hrem i p hp
        have := hremarr i p hp (by omega)
        omega
    · rw [hremget i hii] at hlt ⊢
      have := hremarr i p' hp' hlt
      omega
  have hqarr' : ∀ (j : ℕ) (p' : Process), ps[j]? = some p' →
      j ∈ s₁.q1 ++ (idx :: rest) → p'.arrivalTime ≤ s₁.currentTime + 1 := by
    intro j p' hp' hj
    rcases List.mem_append.mp hj with h | h
    · rw [hq1e] at h
      exact absurd h (List.not_mem_nil j)
    · have := hqarr j p' hp' (by
        rw [hq2e]
        exact List.mem_append.mpr (Or.inr h))
      omega
  have hstamp : ∀ (r : ProcessResult),
      ((fun r => if r.startTime = -1 then { r with startTime := s₁.currentTime }
        else r) r).arrivalTime = r.arrivalTime ∧
      ((fun r => if r.startTime = -1 then { r with startTime := s₁.currentTime }
        else r) r).burstTime = r.burstTime := by
    intro r
    by_cases h : r.startTime = -1 <;> simp [h]
  unfold mlqRun2
  by_cases hfin : (modIdx s₁.remainingTime idx (fun r => r - 1)).getD idx 0 = 0
  · rw [if_pos hfin]
    refine ⟨?_, hremarr', ?_, ?_⟩
    · show (modIdx (mlqRes s₁ idx) idx _).length = ps.length
      rw [length_modIdx]
      show (modIdx s₁.results idx _).length = ps.length
      rw [length_modIdx]
      exact hreslen
    · intro j p' hp' hj
      refine hqarr' j p' hp' ?_
      have hj' : j ∈ s₁.q1 ++ rest := hj
      rcases List.mem_append.mp hj' with h | h
      · exact List.mem_append.mpr (Or.inl h)
      · exact List.mem_append.mpr (Or.inr (List.mem_cons_of_mem idx h))
    · intro i p' hp'
      obtain ⟨r, hr, harr2, hburst2, hok⟩ := hresc i p' hp'
      by_cases hii : i = idx
      · subst hii
        obtain rfl : p = p' := by
          rw [hp] at hp'
          injection hp'
        have hstamp1 : (mlqRes s₁ i)[i]? =
            some (if r.startTime = -1 then { r with startTime := s₁.currentTime }
              else r) := getElem?_modIdx_self hr _
        set r₁ := if r.startTime = -1 then { r with startTime := s₁.currentTime }
          else r with hr₁
        have hr₁arr : r₁.arrivalTime = p.arrivalTime := by
          rw [hr₁, ← harr2]
          exact (hstamp r).1
        have hr₁burst : r₁.burstTime = p.burstTime := by
          rw [hr₁, ← hburst2]
          exact (hstamp r).2
        refine ⟨{ r₁ with
            endTime := s₁.currentTime + 1,
            turnaroundTime := s₁.currentTime + 1 - p.arrivalTime,
            waitingTime := s₁.currentTime + 1 - p.arrivalTime - p.burstTime },
          getElem?_modIdx_self hstamp1 _, by simpa using hr₁arr,
          by simpa using hr₁burst, fun _ => ⟨?_, ?_, ?_⟩⟩
        · show s₁.currentTime + 1 - p.arrivalTime =
            s₁.currentTime + 1 - r₁.arrivalTime
          rw [hr₁arr]
        · show s₁.currentTime + 1 - p.arrivalTime - p.burstTime =
            s₁.currentTime + 1 - p.arrivalTime - r₁.burstTime
          rw [hr₁burst]
        · show (0 : ℤ) ≤ s₁.currentTime + 1 - p.arrivalTime - p.burstTime
          rw [hremip] at hfin
          by_cases hfull : s₁.remainingTime.getD i 0 = p.burstTime
          · omega
          · obtain ⟨h1, h2⟩ := hrem i p hp
            have := hremarr i p hp (by omega)
            omega
      · refine ⟨r, ?_, harr2, hburst2, ?_⟩
        · show (modIdx (mlqRes s₁ idx) idx _)[i]? = some r
          rw [getElem?_modIdx_ne _ _ _ (fun h => hii h.symm)]
          show (modIdx s₁.results idx _)[i]? = some r
          rw [getElem?_modIdx_ne _ _ _ (fun h => hii h.symm)]
          exact hr
        · rw [hremget i hii]
          exact hok
  · rw [if_neg hfin]
    refine ⟨?_, hremarr', ?_, ?_⟩
    · show (mlqRes s₁ idx).length = ps.length
      show (modIdx s₁.results idx _).length = ps.length
      rw [length_modIdx]
      exact hreslen
    · intro j p' hp' hj
      exact hqarr' j p' hp' hj
    · intro i p' hp'
      obtain ⟨r, hr, harr2, hburst2, hok⟩ := hresc i p' hp'
      by_cases hii : i = idx
      · subst hii
        refine ⟨if r.startTime = -1 then { r with startTime := s₁.currentTime }
          else r, getElem?_modIdx_self hr _, ?_, ?_, ?_⟩
        · rw [(hstamp r).1]
          exact harr2
        · rw [(hstamp r).2]
          exact hburst2
        · intro h0
          have h0' : (modIdx s₁.remainingTime i (fun r => r - 1)).getD i 0 = 0 := h0
          exact absurd h0' hfin
      · refine ⟨r, ?_, harr2, hburst2, ?_⟩
        · show (modIdx s₁.results idx _)[i]? = some r
          rw [getElem?_modIdx_ne _ _ _ (fun h => hii h.symm)]
          exact hr
        · rw [hremget i hii]
          exact hok

/-- The chart invariant of the Multilevel Queue loop. -/
structure MLQInvChart (ps : List Process) (s : MLQState) : Prop where
  hchain : s.ganttRev.Chain' RevAdj
  hpos : ∀ b ∈ s.ganttRev, b.startTime < b.endTime
  hhead : headEndLe s.currentTime s.ganttRev
  hacc : ∀ (i : ℕ) (p : Process), ps[i]? = some p →
    durSum p.id s.ganttRev = p.burstTime - s.remainingTime.getD i 0
  hfrom : ∀ b ∈ s.ganttRev, ∃ (j : ℕ) (pj : Process), ps[j]? = some pj ∧
    b.processId = pj.id

theorem mlqInvChart_init (ps : List Process) : MLQInvChart ps (mlqInit ps) := by
  refine ⟨List.chain'_nil, ?_, trivial, ?_, ?_⟩
  · intro b hb; exact absurd hb (List.not_mem_nil b)
  · intro i p hp
    have h1 : durSum p.id (mlqInit ps).ganttRev = 0 := rfl
    have h2 : (mlqInit ps).remainingTime.getD i 0 = p.burstTime := getD_map_proc hp _ 0
    rw [h1, h2]
    ring
  · intro b hb; exact absurd hb (List.not_mem_nil b)

theorem mlqCls_chart {ps : List Process} {s : MLQState}
    (hch : MLQInvChart ps s) : MLQInvChart ps (mlqCls ps s) := by
  obtain ⟨hchain, hpos, hhead, hacc, hfrom⟩ := hch
  exact ⟨hchain, hpos, hhead, hacc, hfrom⟩

theorem mlqRun1_chart {ps : List Process} {q : ℤ} (hq1 : 1 ≤ q)
    (hids : (ps.map Process.id).Nodup) {s₁ : MLQState} {idx : ℕ} {rest : List ℕ}
    {p : Process} (hq1e : s₁.q1 = idx :: rest) (hp : ps[idx]? = some p)
    (hbase : MLQInvBase ps s₁) (hch : MLQInvChart ps s₁) :
    MLQInvChart ps (mlqRun1 ps q s₁ idx rest p) := by
  obtain ⟨hchain, hpos, hhead, hacc, hfrom⟩ := hch
  obtain ⟨hilen, hrpos, hvidx⟩ := hbase.hq idx (by
    rw [hq1e]
    exact List.mem_append.mpr (Or.inl (List.mem_cons_self idx rest)))
  have hexec1 : 1 ≤ mlqExec q s₁ idx := le_min hq1 (by omega)
  have hremi : s₁.remainingTime[idx]? = some (s₁.remainingTime.getD idx 0) := by
    rw [List.getD_eq_getElem?_getD, List.getElem?_eq_getElem (by
      have := hbase.hremlen
      omega)]
    rfl
  have hremip : (mlqRem q s₁ idx).getD idx 0 =
      s₁.remainingTime.getD idx 0 - mlqExec q s₁ idx := getD_modIdx_self hremi _ 0
  have hremget : ∀ (j : ℕ), j ≠ idx →
      (mlqRem q s₁ idx).getD j 0 = s₁.remainingTime.getD j 0 :=
    fun j hj => getD_modIdx_ne _ _ _ (fun h => hj h.symm) 0
  have hT : mlqT q s₁ idx = s₁.currentTime + mlqExec q s₁ idx := rfl
  set nb : GanttBlock :=
    { processId := p.id, startTime := s₁.currentTime, endTime := mlqT q s₁ idx } with hnb
  have Hchain : List.Chain' RevAdj (nb :: s₁.ganttRev) := by
    rw [List.chain'_cons']
    exact ⟨fun y hy => headEndLe_head? hhead hy, hchain⟩
  have Hpos : ∀ b ∈ (nb :: s₁.ganttRev), b.startTime < b.endTime := by
    intro b hb
    rcases List.mem_cons.mp hb with rfl | hb'
    · show s₁.currentTime < mlqT q s₁ idx
      rw [hT]
      omega
    · exact hpos b hb'
  have Hhead : headEndLe (mlqT q s₁ idx) (nb :: s₁.ganttRev) := le_refl _
  have Hacc : ∀ (i : ℕ) (p' : Process), ps[i]? = some p' →
      durSum p'.id (nb :: s₁.ganttRev) =
        p'.burstTime - (mlqRem q s₁ idx).getD i 0 := by
    intro i p' hp'
    rw [durSum_cons]
    have hold := hacc i p' hp'
    have hnbid : nb.processId = p.id := rfl
    have hdur : nb.endTime - nb.startTime = mlqExec q s₁ idx := by
      show mlqT q s₁ idx - s₁.currentTime = mlqExec q s₁ idx
      rw [hT]
      ring
    by_cases hii : i = idx
    · subst hii
      obtain rfl : p = p' := by
        rw [hp] at hp'
        injection hp'
      rw [hremip, if_pos hnbid, hdur, hold]
      ring
    · have hneq : nb.processId ≠ p'.id := by
        rw [hnbid]
        intro h
        exact hii (idx_eq_of_id_eq hids hp hp' h).symm
      rw [hremget i hii, if_neg hneq, hold]
      ring
  have Hfrom : ∀ b ∈ (nb :: s₁.ganttRev),
      ∃ (j : ℕ) (pj : Process), ps[j]? = some pj ∧ b.processId = pj.id := by
    intro b hb
    rcases List.mem_cons.mp hb with rfl | hb'
    · exact ⟨idx, p, hp, rfl⟩
    · exact hfrom b hb'
  unfold mlqRun1
  by_cases hfin : 0 < (mlqRem q s₁ idx).getD idx 0
  · rw [if_pos hfin]
    exact ⟨Hchain, Hpos, Hhead, Hacc, Hfrom⟩
  · rw [if_neg hfin]
    exact ⟨Hchain, Hpos, Hhead, Hacc, Hfrom⟩

theorem mlqRun2_chart {ps : List Process}
    (hids : (ps.map Process.id).Nodup) {s₁ : MLQState} {idx : ℕ} {rest : List ℕ}
    {p : Process} (hq1e : s₁.q1 = []) (hq2e : s₁.q2 = idx :: rest)
    (hp : ps[idx]? = some p)
    (hbase : MLQInvBase ps s₁) (hch : MLQInvChart ps s₁) :
    MLQInvChart ps (mlqRun2 s₁ idx rest p) := by
  obtain ⟨hchain, hpos, hhead, hacc, hfrom⟩ := hch
  obtain ⟨hilen, hrpos, hvidx⟩ := hbase.hq idx (by
    rw [hq2e]
    exact List.mem_append.mpr (Or.inr (List.mem_cons_self idx rest)))
  have hremi : s₁.remainingTime[idx]? = some (s₁.remainingTime.getD idx 0) := by
    rw [List.getD_eq_getElem?_getD, List.getElem?_eq_getElem (by
      have := hbase.hremlen
      omega)]
    rfl
  have hremip : (modIdx s₁.remainingTime idx (fun r => r - 1)).getD idx 0 =
      s₁.remainingTime.getD idx 0 - 1 := getD_modIdx_self hremi _ 0
  have hremget : ∀ (j : ℕ), j ≠ idx →
      (modIdx s₁.remainingTime idx (fun r => r - 1)).getD j 0 =
        s₁.remainingTime.getD j 0 :=
    fun j hj => getD_modIdx_ne _ _ _ (fun h => hj h.symm) 0
  set nb : GanttBlock :=
    { processId := p.id, startTime := s₁.currentTime, endTime := s₁.currentTime + 1 }
    with hnb
  have Hchain : List.Chain' RevAdj (nb :: s₁.ganttRev) := by
    rw [List.chain'_cons']
    exact ⟨fun y hy => headEndLe_head? hhead hy, hchain⟩
  have Hpos : ∀ b ∈ (nb :: s₁.ganttRev), b.startTime < b.endTime := by
    intro b hb
    rcases List.mem_cons.mp hb with rfl | hb'
    · show s₁.currentTime < s₁.currentTime + 1
      omega
    · exact hpos b hb'
  have Hhead : headEndLe (s₁.currentTime + 1) (nb :: s₁.ganttRev) := le_refl _
  have Hacc : ∀ (i : ℕ) (p' : Process), ps[i]? = some p' →
      durSum p'.id (nb :: s₁.ganttRev) =
        p'.burstTime - (modIdx s₁.remainingTime idx (fun r => r - 1)).getD i 0 := by
    intro i p' hp'
    rw [durSum_cons]
    have hold := hacc i p' hp'
    have hnbid : nb.processId = p.id := rfl
    have hdur : nb.endTime - nb.startTime = 1 := by
      show s₁.currentTime + 1 - s₁.currentTime = 1
      ring
    by_cases hii : i = idx
    · subst hii
      obtain rfl : p = p' := by
        rw [hp] at hp'
        injection hp'
      rw [hremip, if_pos hnbid, hdur, hold]
      ring
    · have hneq : nb.processId ≠ p'.id := by
        rw [hnbid]
        intro h
        exact hii (idx_eq_of_id_eq hids hp hp' h).symm
      rw [hremget i hii, if_neg hneq, hold]
      ring
  have Hfrom : ∀ b ∈ (nb :: s₁.ganttRev),
      ∃ (j : ℕ) (pj : Process), ps[j]? = some pj ∧ b.processId = pj.id := by
    intro b hb
    rcases List.mem_cons.mp hb with rfl | hb'
    · exact ⟨idx, p, hp, rfl⟩
    · exact hfrom b hb'
  unfold mlqRun2
  by_cases hfin : (modIdx s₁.remainingTime idx (fun r => r - 1)).getD idx 0 = 0
  · rw [if_pos hfin]
    exact ⟨Hchain, Hpos, Hhead, Hacc, Hfrom⟩
  · rw [if_neg hfin]
    exact ⟨Hchain, Hpos, Hhead, Hacc, Hfrom⟩

theorem mlqInv_step {ps : List Process} {q : ℤ} (hq1 : 1 ≤ q)
    (hv : ∀ p ∈ ps, 1 ≤ p.burstTime) (hids : (ps.map Process.id).Nodup)
    {s : MLQState}
    (hinv : MLQInvBase ps s ∧ MLQInvRes ps s ∧ MLQInvChart ps s) :
    MLQInvBase ps (mlqStep ps q s) ∧ MLQInvRes ps (mlqStep ps q s) ∧
      MLQInvChart ps (mlqStep ps q s) := by
  obtain ⟨hb, hr, hc⟩ := hinv
  rw [mlqStep_eq]
  have hcb := mlqCls_base hv hb
  have hcr := mlqCls_res hr
  have hcc := mlqCls_chart hc
  cases hq1e : (mlqCls ps s).q1 with
  | cons idx rest =>
    have hilen : idx < ps.length := (hcb.hq idx (by
      rw [hq1e]
      exact List.mem_append.mpr (Or.inl (List.mem_cons_self idx rest)))).1
    obtain ⟨p, hp⟩ : ∃ p, ps[idx]? = some p := ⟨ps[idx], List.getElem?_eq_getElem hilen⟩
    rw [mlqSlice_eq_run1 hq1e hp]
    exact ⟨mlqRun1_base hq1 hv hq1e hp hcb, mlqRun1_res hq1 hq1e hp hcb hcr,
      mlqRun1_chart hq1 hids hq1e hp hcb hcc⟩
  | nil =>
    cases hq2e : (mlqCls ps s).q2 with
    | cons idx rest =>
      have hilen : idx < ps.length := (hcb.hq idx (by
        rw [hq2e]
        exact List.mem_append.mpr (Or.inr (List.mem_cons_self idx rest)))).1
      obtain ⟨p, hp⟩ : ∃ p, ps[idx]? = some p :=
        ⟨ps[idx], List.getElem?_eq_getElem hilen⟩
      rw [mlqSlice_eq_run2 hq1e hq2e hp]
      exact ⟨mlqRun2_base hq1e hq2e hp hcb, mlqRun2_res hq1e hq2e hp hcb hcr,
        mlqRun2_chart hids hq1e hq2e hp hcb hcc⟩
    | nil =>
      rw [mlqSlice_eq_idle hq1e hq2e]
      obtain ⟨h1, h2, h3, h4, h5, h6, h7, h8⟩ := hcb
      obtain ⟨g1, g2, g3, g4⟩ := hcr
      obtain ⟨c1, c2, c3, c4, c5⟩ := hcc
      refine ⟨⟨h1, h2, h3, h4, h5, h6, h7, h8⟩,
        ⟨g1, ?_, ?_, g4⟩, ⟨c1, c2, ?_, c4, c5⟩⟩
      · intro i p hp hlt
        show p.arrivalTime +
          (p.burstTime - (mlqCls ps s).remainingTime.getD i 0) ≤
          (mlqCls ps s).currentTime + 1
        have := g2 i p hp hlt
        omega
      · intro j p hp hj
        show p.arrivalTime ≤ (mlqCls ps s).currentTime + 1
        have := g3 j p hp hj
        omega
      · show headEndLe ((mlqCls ps s).currentTime + 1) (mlqCls ps s).ganttRev
        exact headEndLe_mono (le_of_lt (lt_add_one _)) c3

/-- C1 for the Multilevel Queue. -/
theorem solveMLQ_resultsOK (ps : List Process) (q : ℤ) (hq1 : 1 ≤ q)
    (hv : ∀ p ∈ ps, 1 ≤ p.burstTime) (fuel : ℕ) :
    ResultsOK (solveMLQ ps q fuel) := by
  intro out hout r hr
  obtain ⟨s', hs', hexit, rfl⟩ := loopRun_some_inv
    (fun s => MLQInvBase ps s ∧ MLQInvRes ps s)
    (fun s hs _ => ⟨mlqInvBase_step hq1 hv hs.1, by
      rw [mlqStep_eq]
      have hcb := mlqCls_base hv hs.1
      have hcr := mlqCls_res hs.2
      cases hq1e : (mlqCls ps s).q1 with
      | cons idx rest =>
        have hilen : idx < ps.length := (hcb.hq idx (by
          rw [hq1e]
          exact List.mem_append.mpr (Or.inl (List.mem_cons_self idx rest)))).1
        obtain ⟨p, hp⟩ : ∃ p, ps[idx]? = some p :=
          ⟨ps[idx], List.getElem?_eq_getElem hilen⟩
        rw [mlqSlice_eq_run1 hq1e hp]
        exact mlqRun1_res hq1 hq1e hp hcb hcr
      | nil =>
        cases hq2e : (mlqCls ps s).q2 with
        | cons idx rest =>
          have hilen : idx < ps.length := (hcb.hq idx (by
            rw [hq2e]
            exact List.mem_append.mpr (Or.inr (List.mem_cons_self idx rest)))).1
          obtain ⟨p, hp⟩ : ∃ p, ps[idx]? = some p :=
            ⟨ps[idx], List.getElem?_eq_getElem hilen⟩
          rw [mlqSlice_eq_run2 hq1e hq2e hp]
          exact mlqRun2_res hq1e hq2e hp hcb hcr
        | nil =>
          rw [mlqSlice_eq_idle hq1e hq2e]
          obtain ⟨g1, g2, g3, g4⟩ := hcr
          refine ⟨g1, ?_, ?_, g4⟩
          · intro i p hp hlt
            show p.arrivalTime +
              (p.burstTime - (mlqCls ps s).remainingTime.getD i 0) ≤
              (mlqCls ps s).currentTime + 1
            have := g2 i p hp hlt
            omega
          · intro j p hp hj
            show p.arrivalTime ≤ (mlqCls ps s).currentTime + 1
            have := g3 j p hp hj
            omega⟩)
    fuel (mlqInit ps) out ⟨mlqInvBase_init hv, mlqInvRes_init hv⟩ hout
  rw [decide_eq_true_eq] at hexit
  have hall := all_rem_zero hs'.1.hremlen hs'.1.hcount hexit
  have hperm := calculateAverages_results_perm s'.results s'.ganttRev.reverse
  obtain ⟨i, hi⟩ := List.getElem?_of_mem (hperm.subset hr)
  have hilt : i < ps.length := by
    have h1 : i < s'.results.length := by
      by_contra hge
      rw [List.getElem?_eq_none (by omega)] at hi
      exact absurd hi (by simp)
    have := hs'.2.hreslen
    omega
  obtain ⟨p, hp⟩ : ∃ p, ps[i]? = some p := ⟨ps[i], List.getElem?_eq_getElem hilt⟩
  obtain ⟨r', hr'', _, _, hok⟩ := hs'.2.hres i p hp
  obtain rfl : r' = r := by
    rw [hi] at hr''
    injection hr'' with hinj
    exact hinj.symm
  exact hok (hall i)

/-- C2 and the idle-free part of C6 for the Multilevel Queue. -/
theorem solveMLQ_chart (ps : List Process) (q : ℤ) (hq1 : 1 ≤ q)
    (hv : ∀ p ∈ ps, 1 ≤ p.burstTime) (hids : (ps.map Process.id).Nodup)
    (fuel : ℕ) :
    GanttOK ps (solveMLQ ps q fuel) ∧ ChartIdsOK ps (solveMLQ ps q fuel) := by
  have hkey : ∀ out ∈ solveMLQ ps q fuel,
      (∀ (i : ℕ) (p : Process), ps[i]? = some p →
        durSum p.id out.ganttChart = p.burstTime) ∧
      out.ganttChart.Pairwise
        (fun b₁ b₂ => b₁.endTime ≤ b₂.startTime ∧ b₁.startTime < b₂.startTime) ∧
      (∀ b ∈ out.ganttChart, b.startTime < b.endTime) ∧
      (∀ b ∈ out.ganttChart, b.processId ∈ ps.map Process.id) := by
    intro out hout
    obtain ⟨s', hs', hexit, rfl⟩ := loopRun_some_inv
      (fun s => MLQInvBase ps s ∧ MLQInvRes ps s ∧ MLQInvChart ps s)
      (fun s hs _ => mlqInv_step hq1 hv hids hs)
      fuel (mlqInit ps) out
      ⟨mlqInvBase_init hv, mlqInvRes_init hv, mlqInvChart_init ps⟩ hout
    rw [decide_eq_true_eq] at hexit
    have hall := all_rem_zero hs'.1.hremlen hs'.1.hcount hexit
    have hchart : (calculateAverages s'.results s'.ganttRev.reverse).ganttChart =
        s'.ganttRev.reverse := rfl
    rw [hchart]
    obtain ⟨hpair, hpos⟩ := chart_reverse_ok hs'.2.2.hchain hs'.2.2.hpos
    refine ⟨?_, hpair, hpos, ?_⟩
    · intro i p hp
      rw [durSum_reverse]
      have := hs'.2.2.hacc i p hp
      have h0 := hall i
      omega
    · intro b hb
      obtain ⟨j, pj, hj, hjid⟩ := hs'.2.2.hfrom b (List.mem_reverse.mp hb)
      rw [hjid]
      exact List.mem_map_of_mem Process.id (mem_of_getElem?_proc hj)
  refine ⟨?_, ?_⟩
  · intro out hout
    obtain ⟨hd, hpair, hpos, _⟩ := hkey out hout
    refine ⟨?_, hpair, hpos⟩
    intro p hp
    obtain ⟨i, hi⟩ := List.getElem?_of_mem hp
    exact hd i p hi
  · intro out hout
    exact (hkey out hout).2.2.2

/-! ### Multilevel Feedback Queue verification layer -/

/-- The fold step of the MLFQ arrival scan, named for induction. -/
def mlfqScan (t : ℤ) (acc : List ℕ × List Bool) (ip : ℕ × Process) :
    List ℕ × List Bool :=
  if ! acc.2.getD ip.1 false && decide (ip.2.arrivalTime ≤ t) then
    (acc.1 ++ [ip.1], acc.2.set ip.1 true)
  else acc

theorem mlfqClassify_eq (ps : List Process) (t : ℤ) (q0 : List ℕ)
    (vis : List Bool) :
    mlfqClassify ps t q0 vis = ps.enum.foldl (mlfqScan t) (q0, vis) := rfl

theorem mlfqScan_len (t : ℤ) :
    ∀ (l : List (ℕ × Process)) (acc : List ℕ × List Bool),
      (l.foldl (mlfqScan t) acc).2.length = acc.2.length := by
  intro l
  induction l with
  | nil => intro acc; rfl
  | cons x xs ih =>
    intro acc
    rw [List.foldl_cons, ih]
    unfold mlfqScan
    by_cases h1 : (! acc.2.getD x.1 false && decide (x.2.arrivalTime ≤ t)) = true
    · rw [if_pos h1]
      exact List.length_set _ _ _
    · rw [if_neg h1]

theorem mlfqScan_vis_mono (t : ℤ) :
    ∀ (l : List (ℕ × Process)) (acc : List ℕ × List Bool) (j : ℕ),
      acc.2.getD j false = true →
      (l.foldl (mlfqScan t) acc).2.getD j false = true := by
  intro l
  induction l with
  | nil => intro acc j h; exact h
  | cons x xs ih =>
    intro acc j h
    rw [List.foldl_cons]
    apply ih
    unfold mlfqScan
    by_cases h1 : (! acc.2.getD x.1 false && decide (x.2.arrivalTime ≤ t)) = true
    · rw [if_pos h1]
      exact getD_set_true_mono x.1 h
    · rw [if_neg h1]
      exact h

theorem mlfqScan_suffix (t : ℤ) :
    ∀ (l : List (ℕ × Process)) (acc : List ℕ × List Bool),
      ∃ e, (l.foldl (mlfqScan t) acc).1 = acc.1 ++ e := by
  intro l
  induction l with
  | nil => intro acc; exact ⟨[], (List.append_nil _).symm⟩
  | cons x xs ih =>
    intro acc
    rw [List.foldl_cons]
    by_cases h1 : (! acc.2.getD x.1 false && decide (x.2.arrivalTime ≤ t)) = true
    · have hstep : mlfqScan t acc x = (acc.1 ++ [x.1], acc.2.set x.1 true) := by
        unfold mlfqScan
        rw [if_pos h1]
      rw [hstep]
      obtain ⟨e, he⟩ := ih (acc.1 ++ [x.1], acc.2.set x.1 true)
      refine ⟨[x.1] ++ e, ?_⟩
      rw [he]
      simp
    · have hstep : mlfqScan t acc x = acc := by
        unfold mlfqScan
        rw [if_neg h1]
      rw [hstep]
      exact ih acc

theorem mlfqScan_mem (t : ℤ) :
    ∀ (l : List (ℕ × Process)) (acc : List ℕ × List Bool) (j : ℕ),
      j ∈ (l.foldl (mlfqScan t) acc).1 →
      j ∈ acc.1 ∨ ∃ p, (j, p) ∈ l ∧ p.arrivalTime ≤ t ∧
        acc.2.getD j false = false := by
  intro l
  induction l with
  | nil => intro acc j h; exact Or.inl h
  | cons x xs ih =>
    intro acc j h
    rw [List.foldl_cons] at h
    rcases ih (mlfqScan t acc x) j h with h' | ⟨p, hmem, harr, hvis⟩
    · unfold mlfqScan at h'
      by_cases h1 : (! acc.2.getD x.1 false && decide (x.2.arrivalTime ≤ t)) = true
      · rw [if_pos h1] at h'
        rw [Bool.and_eq_true, Bool.not_eq_true', decide_eq_true_eq] at h1
        rcases List.mem_append.mp h' with hin | hnew
        · exact Or.inl hin
        · obtain rfl : j = x.1 := List.mem_singleton.mp hnew
          exact Or.inr ⟨x.2, List.mem_cons_self x xs, h1.2, h1.1⟩
      · rw [if_neg h1] at h'
        exact Or.inl h'
    · refine Or.inr ⟨p, List.mem_cons_of_mem x hmem, harr, ?_⟩
      unfold mlfqScan at hvis
      by_cases h1 : (! acc.2.getD x.1 false && decide (x.2.arrivalTime ≤ t)) = true
      · rw [if_pos h1] at hvis
        by_contra hacc
        rw [Bool.not_eq_false] at hacc
        rw [getD_set_true_mono x.1 hacc] at hvis
        exact absurd hvis (by decide)
      · rw [if_neg h1] at hvis
        exact hvis

theorem mlfqScan_cover (t : ℤ) :
    ∀ (l : List (ℕ × Process)) (acc : List ℕ × List Bool)
      (j : ℕ) (p : Process), (j, p) ∈ l → j < acc.2.length →
      p.arrivalTime ≤ t → (l.foldl (mlfqScan t) acc).2.getD j false = true := by
  intro l
  induction l with
  | nil => intro acc j p hm _ _; exact absurd hm (List.not_mem_nil _)
  | cons x xs ih =>
    intro acc j p hm hlen harr
    rw [List.foldl_cons]
    rcases List.mem_cons.mp hm with heq | hm'
    · obtain rfl : x = (j, p) := heq.symm
      by_cases hv : acc.2.getD j false = true
      · apply mlfqScan_vis_mono
        unfold mlfqScan
        by_cases h1 : (! acc.2.getD (j, p).1 false &&
            decide ((j, p).2.arrivalTime ≤ t)) = true
        · rw [if_pos h1]
          exact getD_set_true_mono j hv
        · rw [if_neg h1]
          exact hv
      · have h1 : (! acc.2.getD (j, p).1 false &&
            decide ((j, p).2.arrivalTime ≤ t)) = true := by
          rw [Bool.and_eq_true, Bool.not_eq_true', decide_eq_true_eq]
          rw [Bool.not_eq_true] at hv
          exact ⟨hv, harr⟩
        apply mlfqScan_vis_mono
        unfold mlfqScan
        rw [if_pos h1]
        exact getD_set_self hlen _ _
    · refine ih (mlfqScan t acc x) j p hm' ?_ harr
      unfold mlfqScan
      by_cases h1 : (! acc.2.getD x.1 false && decide (x.2.arrivalTime ≤ t)) = true
      · rw [if_pos h1]
        show j < (acc.2.set x.1 true).length
        rw [List.length_set]
        exact hlen
      · rw [if_neg h1]
        exact hlen

theorem mlfqScan_vis_src (t : ℤ) :
    ∀ (l : List (ℕ × Process)) (acc : List ℕ × List Bool) (j : ℕ),
      (l.foldl (mlfqScan t) acc).2.getD j false = true →
      acc.2.getD j false = true ∨ j ∈ (l.foldl (mlfqScan t) acc).1 := by
  intro l
  induction l with
  | nil => intro acc j h; exact Or.inl h
  | cons x xs ih =>
    intro acc j h
    rw [List.foldl_cons] at h ⊢
    rcases ih (mlfqScan t acc x) j h with h' | h'
    · by_cases hv : acc.2.getD j false = true
      · exact Or.inl hv
      · rw [Bool.not_eq_true] at hv
        by_cases h1 : (! acc.2.getD x.1 false && decide (x.2.arrivalTime ≤ t)) = true
        · have hstep : mlfqScan t acc x = (acc.1 ++ [x.1], acc.2.set x.1 true) := by
            unfold mlfqScan
            rw [if_pos h1]
          rw [hstep] at h'
          have hxj : x.1 = j := by
            by_contra hne
            rw [show (acc.1 ++ [x.1], acc.2.set x.1 true).2 =
                acc.2.set x.1 true from rfl, getD_set_ne _ hne _ _] at h'
            rw [hv] at h'
            exact absurd h' (by decide)
          refine Or.inr ?_
          obtain ⟨e, he⟩ := mlfqScan_suffix t xs (mlfqScan t acc x)
          rw [he, hstep]
          refine List.mem_append.mpr (Or.inl ?_)
          show j ∈ acc.1 ++ [x.1]
          rw [hxj]
          exact List.mem_append.mpr (Or.inr (List.mem_singleton.mpr rfl))
        · have hstep : mlfqScan t acc x = acc := by
            unfold mlfqScan
            rw [if_neg h1]
          rw [hstep] at h'
          rw [hv] at h'
          exact absurd h' (by decide)
    · exact Or.inr h'

theorem mlfqScan_nodup (t : ℤ) :
    ∀ (l : List (ℕ × Process)) (acc : List ℕ × List Bool),
      (∀ ip ∈ l, ip.1 < acc.2.length) →
      (acc.1.Nodup ∧ ∀ j ∈ acc.1, acc.2.getD j false = true) →
      (l.foldl (mlfqScan t) acc).1.Nodup ∧
        ∀ j ∈ (l.foldl (mlfqScan t) acc).1,
          (l.foldl (mlfqScan t) acc).2.getD j false = true := by
  intro l
  induction l with
  | nil => intro acc _ h; exact h
  | cons x xs ih =>
    intro acc hlen ⟨hnd, hvq⟩
    rw [List.foldl_cons]
    have hxlen : x.1 < acc.2.length := hlen x (List.mem_cons_self x xs)
    by_cases h1 : (! acc.2.getD x.1 false && decide (x.2.arrivalTime ≤ t)) = true
    · have hxnot : x.1 ∉ acc.1 := by
        intro hmem
        have := hvq x.1 hmem
        rw [Bool.and_eq_true, Bool.not_eq_true'] at h1
        rw [h1.1] at this
        exact absurd this (by decide)
      have hstep : mlfqScan t acc x = (acc.1 ++ [x.1], acc.2.set x.1 true) := by
        unfold mlfqScan
        rw [if_pos h1]
      rw [hstep]
      refine ih (acc.1 ++ [x.1], acc.2.set x.1 true) ?_ ⟨?_, ?_⟩
      · intro ip hip
        show ip.1 < (acc.2.set x.1 true).length
        rw [List.length_set]
        exact hlen ip (List.mem_cons_of_mem x hip)
      · show (acc.1 ++ [x.1]).Nodup
        refine List.Nodup.append hnd (List.nodup_singleton x.1) ?_
        intro a ha hax
        obtain rfl : a = x.1 := List.mem_singleton.mp hax
        exact hxnot ha
      · intro j hj
        show (acc.2.set x.1 true).getD j false = true
        have hj' : j ∈ acc.1 ++ [x.1] := hj
        rcases List.mem_append.mp hj' with hja | hjb
        · exact getD_set_true_mono x.1 (hvq j hja)
        · obtain rfl : j = x.1 := List.mem_singleton.mp hjb
          exact getD_set_self hxlen _ _
    · have hstep : mlfqScan t acc x = acc := by
        unfold mlfqScan
        rw [if_neg h1]
      rw [hstep]
      exact ih acc (fun ip hip => hlen ip (List.mem_cons_of_mem x hip)) ⟨hnd, hvq⟩

/-- After the MLFQ arrival scan, a process left unvisited has not arrived. -/
theorem mlfqClassify_unvis {ps : List Process} {t : ℤ} {q0 : List ℕ}
    {vis : List Bool} (hlen : vis.length = ps.length)
    {j : ℕ} {p : Process} (hp : ps[j]? = some p)
    (h : (mlfqClassify ps t q0 vis).2.getD j false = false) :
    ¬ (p.arrivalTime ≤ t) := by
  intro harr
  rw [mlfqClassify_eq] at h
  have hj : j < vis.length := by
    have : j < ps.length := by
      by_contra hge
      rw [List.getElem?_eq_none (by omega)] at hp
      exact absurd hp (by simp)
    omega
  have := mlfqScan_cover t ps.enum (q0, vis) j p
    (List.mem_enum_iff_getElem?.mpr hp) hj harr
  rw [this] at h
  exact absurd h (by decide)

/-- The arrival-classification half of `mlfqStep` in isolation. -/
def mlfqCls (ps : List Process) (s : MLFQState) : MLFQState :=
  { s with q0 := (mlfqClassify ps s.currentTime s.q0 s.visited).1,
           visited := (mlfqClassify ps s.currentTime s.q0 s.visited).2 }

def mlfqRes (s₁ : MLFQState) (idx : ℕ) : List ProcessResult :=
  modIdx s₁.results idx
    (fun r => if r.startTime = -1 then { r with startTime := s₁.currentTime } else r)

/-- The post-slice arrival classification of a generic MLFQ slice. -/
def mlfqC2 (ps : List Process) (s₁ : MLFQState) (exec : ℤ) (rest : List ℕ) :
    List ℕ × List Bool :=
  mlfqClassify ps (s₁.currentTime + exec) rest s₁.visited

/-- One MLFQ execution slice, generic over the slice length and the
post-slice shapes of Queues 1 and 2 (the three dispatch levels instantiate
these). -/
def mlfqRun (ps : List Process) (s₁ : MLFQState) (idx : ℕ) (p : Process)
    (exec : ℤ) (rest : List ℕ) (q1c q2c q1n q2n : List ℕ) : MLFQState :=
  if (modIdx s₁.remainingTime idx (fun r => r - exec)).getD idx 0 = 0 then
    { currentTime := s₁.currentTime + exec, completed := s₁.completed + 1,
      remainingTime := modIdx s₁.remainingTime idx (fun r => r - exec),
      results := modIdx (mlfqRes s₁ idx) idx (fun r =>
        { r with endTime := s₁.currentTime + exec,
                 turnaroundTime := s₁.currentTime + exec - p.arrivalTime,
                 waitingTime := s₁.currentTime + exec - p.arrivalTime - p.burstTime }),
      ganttRev := { processId := p.id, startTime := s₁.currentTime,
                    endTime := s₁.currentTime + exec } :: s₁.ganttRev,
      q0 := (mlfqC2 ps s₁ exec rest).1,
      q1 := q1c, q2 := q2c,
      visited := (mlfqC2 ps s₁ exec rest).2 }
  else
    { currentTime := s₁.currentTime + exec, completed := s₁.completed,
      remainingTime := modIdx s₁.remainingTime idx (fun r => r - exec),
      results := mlfqRes s₁ idx,
      ganttRev := { processId := p.id, startTime := s₁.currentTime,
                    endTime := s₁.currentTime + exec } :: s₁.ganttRev,
      q0 := (mlfqC2 ps s₁ exec rest).1,
      q1 := q1n, q2 := q2n,
      visited := (mlfqC2 ps s₁ exec rest).2 }

/-- The dispatch half of `mlfqStep` in isolation. -/
def mlfqSlice (ps : List Process) (timeQuantum : ℤ) (s₁ : MLFQState) :
    MLFQState :=
  match s₁.q0 with
  | idx :: rest =>
    match ps[idx]? with
    | none => { s₁ with q0 := rest }
    | some p => mlfqRun ps s₁ idx p
        (min (s₁.remainingTime.getD idx 0) timeQuantum)
        rest s₁.q1 s₁.q2 (s₁.q1 ++ [idx]) (s₁.q2 ++ [])
  | [] =>
    match s₁.q1 with
    | idx :: _ =>
      match ps[idx]? with
      | none => { s₁ with q0 := [] }
      | some p => mlfqRun ps s₁ idx p
          (min (s₁.remainingTime.getD idx 0) (timeQuantum * 2))
          [] s₁.q1.tail s₁.q2 (s₁.q1.tail ++ []) (s₁.q2 ++ [idx])
    | [] =>
      match s₁.q2 with
      | idx :: _ =>
        match ps[idx]? with
        | none => { s₁ with q0 := [] }
        | some p => mlfqRun ps s₁ idx p 1
            [] s₁.q1 s₁.q2.tail (s₁.q1 ++ []) (s₁.q2 ++ [])
      | [] => { s₁ with currentTime := s₁.currentTime + 1 }

theorem mlfqStep_eq (ps : List Process) (q : ℤ) (s : MLFQState) :
    mlfqStep ps q s = mlfqSlice ps q (mlfqCls ps s) := rfl

theorem mlfqSlice_eq_run0 {ps : List Process} {q : ℤ} {s₁ : MLFQState} {idx : ℕ}
    {rest : List ℕ} {p : Process}
    (hq0 : s₁.q0 = idx :: rest) (hp : ps[idx]? = some p) :
    mlfqSlice ps q s₁ = mlfqRun ps s₁ idx p
      (min (s₁.remainingTime.getD idx 0) q)
      rest s₁.q1 s₁.q2 (s₁.q1 ++ [idx]) (s₁.q2 ++ []) := by
  obtain ⟨ct, co, rem, res, g, Q0, Q1, Q2, vis⟩ := s₁
  obtain rfl : Q0 = idx :: rest := hq0
  conv_lhs => whnf
  rw [hp]
  try rfl

theorem mlfqSlice_eq_run1 {ps : List Process} {q : ℤ} {s₁ : MLFQState} {idx : ℕ}
    {tl : List ℕ} {p : Process}
    (hq0 : s₁.q0 = []) (hq1e : s₁.q1 = idx :: tl) (hp : ps[idx]? = some p) :
    mlfqSlice ps q s₁ = mlfqRun ps s₁ idx p
      (min (s₁.remainingTime.getD idx 0) (q * 2))
      [] tl s₁.q2 (tl ++ []) (s₁.q2 ++ [idx]) := by
  obtain ⟨ct, co, rem, res, g, Q0, Q1, Q2, vis⟩ := s₁
  obtain rfl : Q0 = [] := hq0
  obtain rfl : Q1 = idx :: tl := hq1e
  conv_lhs => whnf
  rw [hp]
  try rfl

theorem mlfqSlice_eq_run2 {ps : List Process} {q : ℤ} {s₁ : MLFQState} {idx : ℕ}
    {tl : List ℕ} {p : Process}
    (hq0 : s₁.q0 = []) (hq1e : s₁.q1 = []) (hq2e : s₁.q2 = idx :: tl)
    (hp : ps[idx]? = some p) :
    mlfqSlice ps q s₁ = mlfqRun ps s₁ idx p 1
      [] s₁.q1 tl (s₁.q1 ++ []) (s₁.q2 ++ []) := by
  obtain ⟨ct, co, rem, res, g, Q0, Q1, Q2, vis⟩ := s₁
  obtain rfl : Q0 = [] := hq0
  obtain rfl : Q1 = [] := hq1e
  obtain rfl : Q2 = idx :: tl := hq2e
  conv_lhs => whnf
  rw [hp]
  try rfl

theorem mlfqSlice_eq_idle {ps : List Process} {q : ℤ} {s₁ : MLFQState}
    (hq0 : s₁.q0 = []) (hq1e : s₁.q1 = []) (hq2e : s₁.q2 = []) :
    mlfqSlice ps q s₁ = { s₁ with currentTime := s₁.currentTime + 1 } := by
  obtain ⟨ct, co, rem, res, g, Q0, Q1, Q2, vis⟩ := s₁
  obtain rfl : Q0 = [] := hq0
  obtain rfl : Q1 = [] := hq1e
  obtain rfl : Q2 = [] := hq2e
  conv_lhs => whnf

theorem mlfqRun_rem (ps : List Process) (s₁ : MLFQState) (idx : ℕ) (p : Process)
    (exec : ℤ) (rest q1c q2c q1n q2n : List ℕ) :
    (mlfqRun ps s₁ idx p exec rest q1c q2c q1n q2n).remainingTime =
      modIdx s₁.remainingTime idx (fun r => r - exec) := by
  unfold mlfqRun
  by_cases hfin : (modIdx s₁.remainingTime idx (fun r => r - exec)).getD idx 0 = 0
  · rw [if_pos hfin]
  · rw [if_neg hfin]

theorem mlfqRun_time (ps : List Process) (s₁ : MLFQState) (idx : ℕ) (p : Process)
    (exec : ℤ) (rest q1c q2c q1n q2n : List ℕ) :
    (mlfqRun ps s₁ idx p exec rest q1c q2c q1n q2n).currentTime =
      s₁.currentTime + exec := by
  unfold mlfqRun
  by_cases hfin : (modIdx s₁.remainingTime idx (fun r => r - exec)).getD idx 0 = 0
  · rw [if_pos hfin]
  · rw [if_neg hfin]

/-- The queue/visited/remaining invariant of the MLFQ loop, including the two
queue-discipline facts behind C8: a Queue-0 member has never run (its
remaining time is its full burst), and a Queue-1/2 member needed more than a
full Queue-0 quantum. -/
structure MLFQInvBase (ps : List Process) (timeQuantum : ℤ)
    (s : MLFQState) : Prop where
  hremlen : s.remainingTime.length = ps.length
  hvislen : s.visited.length = ps.length
  hcount : s.completed = s.remainingTime.countP (fun r => decide (r = 0))
  hrem : ∀ (i : ℕ) (p : Process), ps[i]? = some p →
    0 ≤ s.remainingTime.getD i 0 ∧ s.remainingTime.getD i 0 ≤ p.burstTime
  hq : ∀ j ∈ s.q0 ++ (s.q1 ++ s.q2), j < ps.length ∧
    0 < s.remainingTime.getD j 0 ∧ s.visited.getD j false = true
  hunvis : ∀ (i : ℕ) (p : Process), ps[i]? = some p →
    s.visited.getD i false = false → s.remainingTime.getD i 0 = p.burstTime
  hnodup : (s.q0 ++ (s.q1 ++ s.q2)).Nodup
  hcover : ∀ (i : ℕ) (p : Process), ps[i]? = some p →
    s.visited.getD i false = true → 0 < s.remainingTime.getD i 0 →
    i ∈ s.q0 ++ (s.q1 ++ s.q2)
  hq0rem : ∀ (j : ℕ) (p : Process), ps[j]? = some p → j ∈ s.q0 →
    s.remainingTime.getD j 0 = p.burstTime
  hq12 : ∀ (j : ℕ) (p : Process), ps[j]? = some p → j ∈ s.q1 ++ s.q2 →
    timeQuantum < p.burstTime

theorem mlfqInvBase_init {ps : List Process} (timeQuantum : ℤ)
    (hv : ∀ p ∈ ps, 1 ≤ p.burstTime) :
    MLFQInvBase ps timeQuantum (mlfqInit ps) := by
  constructor
  · simp [mlfqInit]
  · simp [mlfqInit]
  · show (0 : ℕ) = (ps.map (fun p => p.burstTime)).countP (fun r => decide (r = 0))
    refine (List.countP_eq_zero.mpr ?_).symm
    intro r hr
    obtain ⟨p, hpm, rfl⟩ := List.mem_map.mp hr
    have := hv p hpm
    simp only [decide_eq_true_eq]
    omega
  · intro i p hp
    have hg : (mlfqInit ps).remainingTime.getD i 0 = p.burstTime := getD_map_proc hp _ 0
    rw [hg]
    have := hv p (mem_of_getElem?_proc hp)
    exact ⟨by omega, le_refl _⟩
  · intro j hj
    exact absurd hj (List.not_mem_nil j)
  · intro i p hp _
    exact getD_map_proc hp (fun p => p.burstTime) 0
  · exact List.nodup_nil
  · intro i p hp hvis _
    have hg : (mlfqInit ps).visited.getD i false = false := by
      show (List.replicate ps.length false).getD i false = false
      rcases lt_or_ge i ps.length with h | h
      · rw [List.getD_eq_getElem?_getD, List.getElem?_replicate]
        simp [h]
      · rw [List.getD_eq_getElem?_getD, List.getElem?_eq_none (by simpa using h)]
        rfl
    rw [hg] at hvis
    exact absurd hvis (by decide)
  · intro j p hp hj
    exact absurd hj (List.not_mem_nil j)
  · intro j p hp hj
    exact absurd hj (List.not_mem_nil j)

theorem mlfqCls_base {ps : List Process} {timeQuantum : ℤ}
    (hv : ∀ p ∈ ps, 1 ≤ p.burstTime)
    {s : MLFQState} (hinv : MLFQInvBase ps timeQuantum s) :
    MLFQInvBase ps timeQuantum (mlfqCls ps s) := by
  obtain ⟨hremlen, hvislen, hcount, hrem, hq, hunvis, hnodup, hcover, hq0r, h12⟩ := hinv
  have hclen : (mlfqClassify ps s.currentTime s.q0 s.visited).2.length =
      s.visited.length := mlfqScan_len s.currentTime ps.enum (s.q0, s.visited)
  have hcmono : ∀ (j : ℕ), s.visited.getD j false = true →
      (mlfqClassify ps s.currentTime s.q0 s.visited).2.getD j false = true :=
    fun j h => mlfqScan_vis_mono s.currentTime ps.enum (s.q0, s.visited) j h
  have hcunvis : ∀ (j : ℕ),
      (mlfqClassify ps s.currentTime s.q0 s.visited).2.getD j false = false →
      s.visited.getD j false = false := by
    intro j h
    by_contra hne
    rw [Bool.not_eq_false] at hne
    rw [hcmono j hne] at h
    exact absurd h (by decide)
  obtain ⟨e, he⟩ := mlfqScan_suffix s.currentTime ps.enum (s.q0, s.visited)
  have henumlt : ∀ ip ∈ ps.enum, ip.1 < (s.q0, s.visited).2.length := by
    intro ip hip
    have := List.mem_enum_iff_getElem?.mp hip
    have h1 : ip.1 < ps.length := by
      by_contra hge
      rw [List.getElem?_eq_none (by omega)] at this
      exact absurd this (by simp)
    show ip.1 < s.visited.length
    omega
  have hq0nd : s.q0.Nodup := (List.nodup_append.mp hnodup).1
  have h12nd : (s.q1 ++ s.q2).Nodup := (List.nodup_append.mp hnodup).2.1
  have hdisj : ∀ j ∈ s.q0, j ∉ s.q1 ++ s.q2 :=
    fun j hj hm => (List.nodup_append.mp hnodup).2.2 hj hm
  obtain ⟨hcnodup, hcqvis⟩ := mlfqScan_nodup s.currentTime ps.enum
    (s.q0, s.visited) henumlt
    ⟨hq0nd, fun j hj => (hq j (List.mem_append.mpr (Or.inl hj))).2.2⟩
  have hcsrc : ∀ j ∈ (mlfqClassify ps s.currentTime s.q0 s.visited).1,
      j ∈ s.q0 ∨ (s.visited.getD j false = false ∧ ∃ p', ps[j]? = some p') := by
    intro j hj
    rcases mlfqScan_mem s.currentTime ps.enum (s.q0, s.visited) j hj with
      h | ⟨p', hmem, _, hvf⟩
    · exact Or.inl h
    · exact Or.inr ⟨hvf, p', List.mem_enum_iff_getElem?.mp hmem⟩
  refine ⟨hremlen, ?_, hcount, hrem, ?_, ?_, ?_, ?_, ?_, ?_⟩
  · show (mlfqClassify ps s.currentTime s.q0 s.visited).2.length = ps.length
    rw [hclen]
    exact hvislen
  · intro j hj
    have hj' : j ∈ (mlfqClassify ps s.currentTime s.q0 s.visited).1 ++
        (s.q1 ++ s.q2) := hj
    show j < ps.length ∧ 0 < s.remainingTime.getD j 0 ∧
      (mlfqClassify ps s.currentTime s.q0 s.visited).2.getD j false = true
    rcases List.mem_append.mp hj' with h | h
    · refine ⟨?_, ?_, hcqvis j h⟩
      · rcases hcsrc j h with hold | ⟨_, p', hpj⟩
        · exact (hq j (List.mem_append.mpr (Or.inl hold))).1
        · by_contra hge
          rw [List.getElem?_eq_none (by omega)] at hpj
          exact absurd hpj (by simp)
      · rcases hcsrc j h with hold | ⟨hvf, p', hpj⟩
        · exact (hq j (List.mem_append.mpr (Or.inl hold))).2.1
        · rw [hunvis j p' hpj hvf]
          have := hv p' (mem_of_getElem?_proc hpj)
          omega
    · obtain ⟨h1, h2, h3⟩ := hq j (List.mem_append.mpr (Or.inr h))
      exact ⟨h1, h2, hcmono j h3⟩
  · intro i p hp hvf
    exact hunvis i p hp (hcunvis i hvf)
  · show ((mlfqClassify ps s.currentTime s.q0 s.visited).1 ++
      (s.q1 ++ s.q2)).Nodup
    refine List.Nodup.append hcnodup h12nd ?_
    intro a ha ham
    rcases hcsrc a ha with hold | ⟨hvf, _, _⟩
    · exact hdisj a hold ham
    · rw [(hq a (List.mem_append.mpr (Or.inr ham))).2.2] at hvf
      exact absurd hvf (by decide)
  · intro i p hp hvt hri
    have hvt' : (mlfqClassify ps s.currentTime s.q0 s.visited).2.getD i false =
        true := hvt
    show i ∈ (mlfqClassify ps s.currentTime s.q0 s.visited).1 ++ (s.q1 ++ s.q2)
    rcases mlfqScan_vis_src s.currentTime ps.enum (s.q0, s.visited) i hvt' with
      hold | hin
    · have := hcover i p hp hold hri
      rcases List.mem_append.mp this with h | h
      · refine List.mem_append.mpr (Or.inl ?_)
        show i ∈ (mlfqClassify ps s.currentTime s.q0 s.visited).1
        rw [mlfqClassify_eq, he]
        exact List.mem_append.mpr (Or.inl h)
      · exact List.mem_append.mpr (Or.inr h)
    · exact List.mem_append.mpr (Or.inl hin)
  · intro j p hp hj
    have hj' : j ∈ (mlfqClassify ps s.currentTime s.q0 s.visited).1 := hj
    show s.remainingTime.getD j 0 = p.burstTime
    rcases hcsrc j hj' with hold | ⟨hvf, p', hpj⟩
    · exact hq0r j p hp hold
    · have h3 := hunvis j p' hpj hvf
      rw [hp] at hpj
      injection hpj with h2
      rw [← h2] at h3
      exact h3
  · intro j p hp hj
    exact h12 j p hp hj

/-- Preservation of the MLFQ base invariant across one generic slice. -/
theorem mlfqRun_base {ps : List Process} {tq : ℤ} {s₁ : MLFQState} {idx : ℕ}
    {p : Process} {exec : ℤ} {rest q1c q2c q1n q2n : List ℕ}
    (hv : ∀ p' ∈ ps, 1 ≤ p'.burstTime)
    (hp : ps[idx]? = some p)
    (hidxq : idx ∈ s₁.q0 ++ (s₁.q1 ++ s₁.q2))
    (hexec1 : 1 ≤ exec)
    (hexecle : exec ≤ s₁.remainingTime.getD idx 0)
    (hrest : ∀ j ∈ rest, j ∈ s₁.q0 ∧ j ≠ idx)
    (hq0cov : ∀ j ∈ s₁.q0, j = idx ∨ j ∈ rest)
    (hrestnd : rest.Nodup)
    (hcmem : ∀ j ∈ q1c ++ q2c, j ∈ s₁.q1 ++ s₁.q2 ∧ j ≠ idx)
    (hccov : ∀ j ∈ s₁.q1 ++ s₁.q2, j ≠ idx → j ∈ q1c ++ q2c)
    (hcnd : (q1c ++ q2c).Nodup)
    (hnmem : ∀ j ∈ q1n ++ q2n, j ∈ s₁.q1 ++ s₁.q2 ∨ j = idx)
    (hncov : ∀ j ∈ s₁.q1 ++ s₁.q2, j ∈ q1n ++ q2n)
    (hnnd : (q1n ++ q2n).Nodup)
    (hnidx : idx ∈ q1n ++ q2n)
    (hq12idx : 0 < s₁.remainingTime.getD idx 0 - exec → tq < p.burstTime)
    (hinv : MLFQInvBase ps tq s₁) :
    MLFQInvBase ps tq (mlfqRun ps s₁ idx p exec rest q1c q2c q1n q2n) := by
  obtain ⟨hremlen, hvislen, hcount, hrem, hq, hunvis, hnodup, hcover, hq0r, h12⟩ := hinv
  obtain ⟨hilen, hrpos, hvidx⟩ := hq idx hidxq
  have hremi : s₁.remainingTime[idx]? = some (s₁.remainingTime.getD idx 0) := by
    rw [List.getD_eq_getElem?_getD, List.getElem?_eq_getElem (by omega)]
    rfl
  have hremip : (modIdx s₁.remainingTime idx (fun r => r - exec)).getD idx 0 =
      s₁.remainingTime.getD idx 0 - exec := getD_modIdx_self hremi _ 0
  have hremget : ∀ (j : ℕ), j ≠ idx →
      (modIdx s₁.remainingTime idx (fun r => r - exec)).getD j 0 =
        s₁.remainingTime.getD j 0 :=
    fun j hj => getD_modIdx_ne _ _ _ (fun h => hj h.symm) 0
  have hremlen' : (modIdx s₁.remainingTime idx (fun r => r - exec)).length =
      ps.length := by
    rw [length_modIdx]
    exact hremlen
  have hdisj : ∀ j ∈ s₁.q0, j ∉ s₁.q1 ++ s₁.q2 :=
    fun j hj hm => (List.nodup_append.mp hnodup).2.2 hj hm
  have hrestq : ∀ j ∈ rest, j < ps.length ∧ 0 < s₁.remainingTime.getD j 0 ∧
      s₁.visited.getD j false = true :=
    fun j hj => hq j (List.mem_append.mpr (Or.inl (hrest j hj).1))
  have hq12old : ∀ j ∈ s₁.q1 ++ s₁.q2, j < ps.length ∧
      0 < s₁.remainingTime.getD j 0 ∧ s₁.visited.getD j false = true :=
    fun j hj => hq j (List.mem_append.mpr (Or.inr hj))
  have henumlt : ∀ ip ∈ ps.enum, ip.1 < (rest, s₁.visited).2.length := by
    intro ip hip
    have := List.mem_enum_iff_getElem?.mp hip
    have h1 : ip.1 < ps.length := by
      by_contra hge
      rw [List.getElem?_eq_none (by omega)] at this
      exact absurd this (by simp)
    show ip.1 < s₁.visited.length
    omega
  have hc2len : (mlfqC2 ps s₁ exec rest).2.length = s₁.visited.length :=
    mlfqScan_len (s₁.currentTime + exec) ps.enum (rest, s₁.visited)
  have hc2mono : ∀ (j : ℕ), s₁.visited.getD j false = true →
      (mlfqC2 ps s₁ exec rest).2.getD j false = true :=
    fun j h => mlfqScan_vis_mono (s₁.currentTime + exec) ps.enum (rest, s₁.visited) j h
  have hc2unvis : ∀ (j : ℕ), (mlfqC2 ps s₁ exec rest).2.getD j false = false →
      s₁.visited.getD j false = false := by
    intro j h
    by_contra hne
    rw [Bool.not_eq_false] at hne
    rw [hc2mono j hne] at h
    exact absurd h (by decide)
  obtain ⟨e, he⟩ := mlfqScan_suffix (s₁.currentTime + exec) ps.enum (rest, s₁.visited)
  obtain ⟨hc2nodup, hc2qvis⟩ := mlfqScan_nodup (s₁.currentTime + exec) ps.enum
    (rest, s₁.visited) henumlt ⟨hrestnd, fun j hj => (hrestq j hj).2.2⟩
  have hc2src : ∀ j ∈ (mlfqC2 ps s₁ exec rest).1,
      j ∈ rest ∨ (s₁.visited.getD j false = false ∧ ∃ p', ps[j]? = some p') := by
    intro j hj
    rcases mlfqScan_mem (s₁.currentTime + exec) ps.enum (rest, s₁.visited) j hj with
      h | ⟨p', hmem, _, hvf⟩
    · exact Or.inl h
    · exact Or.inr ⟨hvf, p', List.mem_enum_iff_getElem?.mp hmem⟩
  have hc2full : ∀ j ∈ (mlfqC2 ps s₁ exec rest).1, j < ps.length ∧
      0 < (modIdx s₁.remainingTime idx (fun r => r - exec)).getD j 0 := by
    intro j hj
    rcases hc2src j hj with h | ⟨hvf, p', hpj⟩
    · obtain ⟨hjq0, hjne⟩ := hrest j h
      obtain ⟨h1, h2, _⟩ := hrestq j h
      rw [hremget j hjne]
      exact ⟨h1, h2⟩
    · have hjlen : j < ps.length := by
        by_contra hge
        rw [List.getElem?_eq_none (by omega)] at hpj
        exact absurd hpj (by simp)
      have hjne : j ≠ idx := by
        intro hh
        rw [hh, hvidx] at hvf
        exact absurd hvf (by decide)
      rw [hremget j hjne, hunvis j p' hpj hvf]
      have := hv p' (mem_of_getElem?_proc hpj)
      exact ⟨hjlen, by omega⟩
  have hidxnotc2 : idx ∉ (mlfqC2 ps s₁ exec rest).1 := by
    intro hj
    rcases hc2src idx hj with h | ⟨hvf, _, _⟩
    · exact (hrest idx h).2 rfl
    · rw [hvidx] at hvf
      exact absurd hvf (by decide)
  have hc2disj12 : ∀ j ∈ (mlfqC2 ps s₁ exec rest).1, j ∉ s₁.q1 ++ s₁.q2 := by
    intro j hj hj12
    rcases hc2src j hj with h | ⟨hvf, _, _⟩
    · exact hdisj j (hrest j h).1 hj12
    · rw [(hq12old j hj12).2.2] at hvf
      exact absurd hvf (by decide)
  have hcnt := countP_modIdx (fun r => decide (r = 0)) (fun r => r - exec)
    s₁.remainingTime idx _ hremi
  simp only [decide_eq_true_eq] at hcnt
  rw [if_neg (by omega : ¬ (s₁.remainingTime.getD idx 0 = 0))] at hcnt
  have hremclause : ∀ (i : ℕ) (p' : Process), ps[i]? = some p' →
      0 ≤ (modIdx s₁.remainingTime idx (fun r => r - exec)).getD i 0 ∧
      (modIdx s₁.remainingTime idx (fun r => r - exec)).getD i 0 ≤ p'.burstTime := by
    intro i p' hp'
    by_cases hii : i = idx
    · rw [hii] at hp' ⊢
      obtain rfl : p = p' := by
        rw [hp] at hp'
        injection hp'
      rw [hremip]
      obtain ⟨h1, h2⟩ := hrem idx p hp
      exact ⟨by omega, by omega⟩
    · rw [hremget i hii]
      exact hrem i p' hp'
  have hunvisclause : ∀ (i : ℕ) (p' : Process), ps[i]? = some p' →
      (mlfqC2 ps s₁ exec rest).2.getD i false = false →
      (modIdx s₁.remainingTime idx (fun r => r - exec)).getD i 0 = p'.burstTime := by
    intro i p' hp' hvf
    have hvf' := hc2unvis i hvf
    have hine : i ≠ idx := by
      intro h
      rw [h, hvidx] at hvf'
      exact absurd hvf' (by decide)
    rw [hremget i hine]
    exact hunvis i p' hp' hvf'
  have hvlen' : (mlfqC2 ps s₁ exec rest).2.length = ps.length := by
    rw [hc2len]
    exact hvislen
  have hq0remclause : ∀ (j : ℕ) (p' : Process), ps[j]? = some p' →
      j ∈ (mlfqC2 ps s₁ exec rest).1 →
      (modIdx s₁.remainingTime idx (fun r => r - exec)).getD j 0 = p'.burstTime := by
    intro j p' hpj hj
    rcases hc2src j hj with h | ⟨hvf, _, _⟩
    · obtain ⟨hjq0, hjne⟩ := hrest j h
      rw [hremget j hjne]
      exact hq0r j p' hpj hjq0
    · have hjne : j ≠ idx := by
        intro hh
        rw [hh, hvidx] at hvf
        exact absurd hvf (by decide)
      rw [hremget j hjne]
      exact hunvis j p' hpj hvf
  have hcoverclause : ∀ (i : ℕ) (p' : Process), ps[i]? = some p' →
      (mlfqC2 ps s₁ exec rest).2.getD i false = true →
      0 < (modIdx s₁.remainingTime idx (fun r => r - exec)).getD i 0 → i ≠ idx →
      i ∈ (mlfqC2 ps s₁ exec rest).1 ∨ i ∈ s₁.q1 ++ s₁.q2 := by
    intro i p' hp' hvt hri hine
    rcases mlfqScan_vis_src (s₁.currentTime + exec) ps.enum (rest, s₁.visited) i hvt
      with hold | hin
    · have hri' : 0 < s₁.remainingTime.getD i 0 := by
        rw [← hremget i hine]
        exact hri
      have := hcover i p' hp' hold hri'
      rcases List.mem_append.mp this with h | h
      · rcases hq0cov i h with h' | h'
        · exact absurd h' hine
        · refine Or.inl ?_
          show i ∈ (mlfqClassify ps (s₁.currentTime + exec) rest s₁.visited).1
          rw [mlfqClassify_eq, he]
          exact List.mem_append.mpr (Or.inl h')
      · exact Or.inr h
    · exact Or.inl hin
  unfold mlfqRun
  by_cases hfin : (modIdx s₁.remainingTime idx (fun r => r - exec)).getD idx 0 = 0
  · rw [if_pos hfin]
    refine ⟨hremlen', hvlen', ?_, hremclause, ?_, hunvisclause, ?_, ?_,
      hq0remclause, ?_⟩
    · show s₁.completed + 1 = (modIdx s₁.remainingTime idx
        (fun r => r - exec)).countP (fun r => decide (r = 0))
      have hz : s₁.remainingTime.getD idx 0 - exec = 0 := by
        rw [← hremip]
        exact hfin
      rw [if_pos hz] at hcnt
      omega
    · intro j hj
      have hj' : j ∈ (mlfqC2 ps s₁ exec rest).1 ++ (q1c ++ q2c) := hj
      show j < ps.length ∧
        0 < (modIdx s₁.remainingTime idx (fun r => r - exec)).getD j 0 ∧
        (mlfqC2 ps s₁ exec rest).2.getD j false = true
      rcases List.mem_append.mp hj' with h | h
      · exact ⟨(hc2full j h).1, (hc2full j h).2, hc2qvis j h⟩
      · obtain ⟨hjold, hjne⟩ := hcmem j h
        obtain ⟨h1, h2, h3⟩ := hq12old j hjold
        rw [hremget j hjne]
        exact ⟨h1, h2, hc2mono j h3⟩
    · show ((mlfqC2 ps s₁ exec rest).1 ++ (q1c ++ q2c)).Nodup
      refine List.Nodup.append hc2nodup hcnd ?_
      intro a ha hb
      exact hc2disj12 a ha (hcmem a hb).1
    · intro i p' hp' hvt hri
      have hvt' : (mlfqC2 ps s₁ exec rest).2.getD i false = true := hvt
      have hri' : 0 < (modIdx s₁.remainingTime idx (fun r => r - exec)).getD i 0 := hri
      show i ∈ (mlfqC2 ps s₁ exec rest).1 ++ (q1c ++ q2c)
      by_cases hii : i = idx
      · have h0 := hri'
        rw [hii] at h0
        rw [hfin] at h0
        exact absurd h0 (by omega)
      · rcases hcoverclause i p' hp' hvt' hri' hii with h | h
        · exact List.mem_append.mpr (Or.inl h)
        · exact List.mem_append.mpr (Or.inr (hccov i h hii))
    · intro j p' hpj hj
      have hj' : j ∈ q1c ++ q2c := hj
      exact h12 j p' hpj (hcmem j hj').1
  · rw [if_neg hfin]
    refine ⟨hremlen', hvlen', ?_, hremclause, ?_, hunvisclause, ?_, ?_,
      hq0remclause, ?_⟩
    · show s₁.completed = (modIdx s₁.remainingTime idx
        (fun r => r - exec)).countP (fun r => decide (r = 0))
      have hz : ¬ (s₁.remainingTime.getD idx 0 - exec = 0) := by
        rw [← hremip]
        exact hfin
      rw [if_neg hz] at hcnt
      omega
    · intro j hj
      have hj' : j ∈ (mlfqC2 ps s₁ exec rest).1 ++ (q1n ++ q2n) := hj
      show j < ps.length ∧
        0 < (modIdx s₁.remainingTime idx (fun r => r - exec)).getD j 0 ∧
        (mlfqC2 ps s₁ exec rest).2.getD j false = true
      rcases List.mem_append.mp hj' with h | h
      · exact ⟨(hc2full j h).1, (hc2full j h).2, hc2qvis j h⟩
      · by_cases hji : j = idx
        · refine ⟨by rw [hji]; exact hilen, ?_, by rw [hji]; exact hc2mono idx hvidx⟩
          rw [hji, hremip]
          rw [hremip] at hfin
          omega
        · rcases hnmem j h with hold | h'
          · obtain ⟨h1, h2, h3⟩ := hq12old j hold
            rw [hremget j hji]
            exact ⟨h1, h2, hc2mono j h3⟩
          · exact absurd h' hji
    · show ((mlfqC2 ps s₁ exec rest).1 ++ (q1n ++ q2n)).Nodup
      refine List.Nodup.append hc2nodup hnnd ?_
      intro a ha hb
      rcases hnmem a hb with hold | rfl
      · exact hc2disj12 a ha hold
      · exact hidxnotc2 ha
    · intro i p' hp' hvt hri
      have hvt' : (mlfqC2 ps s₁ exec rest).2.getD i false = true := hvt
      have hri' : 0 < (modIdx s₁.remainingTime idx (fun r => r - exec)).getD i 0 := hri
      show i ∈ (mlfqC2 ps s₁ exec rest).1 ++ (q1n ++ q2n)
      by_cases hii : i = idx
      · refine List.mem_append.mpr (Or.inr ?_)
        rw [hii]
        exact hnidx
      · rcases hcoverclause i p' hp' hvt' hri' hii with h | h
        · exact List.mem_append.mpr (Or.inl h)
        · exact List.mem_append.mpr (Or.inr (hncov i h))
    · intro j p' hpj hj
      have hj' : j ∈ q1n ++ q2n := hj
      by_cases hji : j = idx
      · obtain rfl : p = p' := by
          rw [hji] at hpj
          rw [hp] at hpj
          injection hpj
        refine hq12idx ?_
        rw [hremip] at hfin
        omega
      · rcases hnmem j hj' with hold | h'
        · exact h12 j p' hpj hold
        · exact absurd h' hji

theorem mlfqInvBase_step {ps : List Process} {q : ℤ} (hq1 : 1 ≤ q)
    (hv : ∀ p ∈ ps, 1 ≤ p.burstTime) {s : MLFQState}
    (hinv : MLFQInvBase ps q s) : MLFQInvBase ps q (mlfqStep ps q s) := by
  rw [mlfqStep_eq]
  have hcls := mlfqCls_base hv hinv
  have h12nd : ((mlfqCls ps s).q1 ++ (mlfqCls ps s).q2).Nodup :=
    (List.nodup_append.mp hcls.hnodup).2.1
  cases hq0e : (mlfqCls ps s).q0 with
  | cons idx rest =>
    have hidxq : idx ∈ (mlfqCls ps s).q0 ++ ((mlfqCls ps s).q1 ++ (mlfqCls ps s).q2) :=
      List.mem_append.mpr (Or.inl (by
        rw [hq0e]
        exact List.mem_cons_self idx rest))
    obtain ⟨hilen, hrpos, hvidx⟩ := hcls.hq idx hidxq
    obtain ⟨p, hp⟩ : ∃ p, ps[idx]? = some p := ⟨ps[idx], List.getElem?_eq_getElem hilen⟩
    rw [mlfqSlice_eq_run0 hq0e hp]
    have hq0nd : (idx :: rest).Nodup := by
      have h1 := (List.nodup_append.mp hcls.hnodup).1
      rw [hq0e] at h1
      exact h1
    have hidxnr : idx ∉ rest := (List.nodup_cons.mp hq0nd).1
    have hidx12 : idx ∉ (mlfqCls ps s).q1 ++ (mlfqCls ps s).q2 :=
      fun h => (List.nodup_append.mp hcls.hnodup).2.2 (by
        rw [hq0e]
        exact List.mem_cons_self idx rest) h
    refine mlfqRun_base hv hp hidxq (le_min (by omega) hq1) (min_le_left _ _)
      ?_ ?_ ((List.nodup_cons.mp hq0nd).2) ?_ (fun j hj _ => hj) h12nd
      ?_ ?_ ?_ ?_ ?_ hcls
    · intro j hj
      refine ⟨by rw [hq0e]; exact List.mem_cons_of_mem idx hj, ?_⟩
      intro h
      rw [h] at hj
      exact hidxnr hj
    · intro j hj
      rw [hq0e] at hj
      exact List.mem_cons.mp hj
    · intro j hj
      refine ⟨hj, ?_⟩
      intro h
      rw [h] at hj
      exact hidx12 hj
    · intro j hj
      rcases List.mem_append.mp hj with h | h
      · rcases List.mem_append.mp h with h' | h'
        · exact Or.inl (List.mem_append.mpr (Or.inl h'))
        · exact Or.inr (List.mem_singleton.mp h')
      · rcases List.mem_append.mp h with h' | h'
        · exact Or.inl (List.mem_append.mpr (Or.inr h'))
        · exact absurd h' (List.not_mem_nil j)
    · intro j hj
      rcases List.mem_append.mp hj with h | h
      · exact List.mem_append.mpr (Or.inl (List.mem_append.mpr (Or.inl h)))
      · exact List.mem_append.mpr (Or.inr (List.mem_append.mpr (Or.inl h)))
    · show (((mlfqCls ps s).q1 ++ [idx]) ++ ((mlfqCls ps s).q2 ++ [])).Nodup
      rw [List.append_nil, List.append_assoc, List.singleton_append,
        List.nodup_middle]
      exact List.nodup_cons.mpr ⟨hidx12, h12nd⟩
    · exact List.mem_append.mpr (Or.inl (List.mem_append.mpr
        (Or.inr (List.mem_singleton.mpr rfl))))
    · intro h0
      by_cases hle : (mlfqCls ps s).remainingTime.getD idx 0 ≤ q
      · rw [min_eq_left hle] at h0
        exact absurd h0 (by omega)
      · have hlt : q < (mlfqCls ps s).remainingTime.getD idx 0 := by omega
        have := (hcls.hrem idx p hp).2
        omega
  | nil =>
    cases hq1e : (mlfqCls ps s).q1 with
    | cons idx tl =>
      have hidxq : idx ∈ (mlfqCls ps s).q0 ++
          ((mlfqCls ps s).q1 ++ (mlfqCls ps s).q2) :=
        List.mem_append.mpr (Or.inr (List.mem_append.mpr (Or.inl (by
          rw [hq1e]
          exact List.mem_cons_self idx tl))))
      obtain ⟨hilen, hrpos, hvidx⟩ := hcls.hq idx hidxq
      obtain ⟨p, hp⟩ : ∃ p, ps[idx]? = some p :=
        ⟨ps[idx], List.getElem?_eq_getElem hilen⟩
      rw [mlfqSlice_eq_run1 hq0e hq1e hp]
      have h12nd' : (idx :: (tl ++ (mlfqCls ps s).q2)).Nodup := by
        have h1 := h12nd
        rw [hq1e, List.cons_append] at h1
        exact h1
      have hidxnot : idx ∉ tl ++ (mlfqCls ps s).q2 := (List.nodup_cons.mp h12nd').1
      refine mlfqRun_base hv hp hidxq (le_min (by omega) (by omega))
        (min_le_left _ _)
        (fun j hj => absurd hj (List.not_mem_nil j))
        (fun j hj => absurd (by rw [hq0e] at hj; exact hj) (List.not_mem_nil j))
        List.nodup_nil ?_ ?_ ((List.nodup_cons.mp h12nd').2) ?_ ?_ ?_ ?_ ?_ hcls
      · intro j hj
        refine ⟨?_, ?_⟩
        · rcases List.mem_append.mp hj with h | h
          · refine List.mem_append.mpr (Or.inl ?_)
            rw [hq1e]
            exact List.mem_cons_of_mem idx h
          · exact List.mem_append.mpr (Or.inr h)
        · intro h
          rw [h] at hj
          exact hidxnot hj
      · intro j hj hjne
        rcases List.mem_append.mp hj with h | h
        · rw [hq1e] at h
          rcases List.mem_cons.mp h with h' | h'
          · exact absurd h' hjne
          · exact List.mem_append.mpr (Or.inl h')
        · exact List.mem_append.mpr (Or.inr h)
      · intro j hj
        rcases List.mem_append.mp hj with h | h
        · rcases List.mem_append.mp h with h' | h'
          · refine Or.inl (List.mem_append.mpr (Or.inl ?_))
            rw [hq1e]
            exact List.mem_cons_of_mem idx h'
          · exact absurd h' (List.not_mem_nil j)
        · rcases List.mem_append.mp h with h' | h'
          · exact Or.inl (List.mem_append.mpr (Or.inr h'))
          · exact Or.inr (List.mem_singleton.mp h')
      · intro j hj
        rcases List.mem_append.mp hj with h | h
        · rw [hq1e] at h
          rcases List.mem_cons.mp h with h' | h'
          · refine List.mem_append.mpr (Or.inr (List.mem_append.mpr (Or.inr ?_)))
            rw [h']
            exact List.mem_singleton.mpr rfl
          · exact List.mem_append.mpr (Or.inl (List.mem_append.mpr (Or.inl h')))
        · exact List.mem_append.mpr (Or.inr (List.mem_append.mpr (Or.inl h)))
      · show ((tl ++ []) ++ ((mlfqCls ps s).q2 ++ [idx])).Nodup
        rw [List.append_nil, ← List.append_assoc]
        refine List.Nodup.append ((List.nodup_cons.mp h12nd').2)
          (List.nodup_singleton idx) ?_
        intro a ha hax
        obtain rfl : a = idx := List.mem_singleton.mp hax
        exact hidxnot ha
      · exact List.mem_append.mpr (Or.inr (List.mem_append.mpr
          (Or.inr (List.mem_singleton.mpr rfl))))
      · intro _
        exact hcls.hq12 idx p hp (by
          rw [hq1e]
          exact List.mem_append.mpr (Or.inl (List.mem_cons_self idx tl)))
    | nil =>
      cases hq2e : (mlfqCls ps s).q2 with
      | cons idx tl =>
        have hidxq : idx ∈ (mlfqCls ps s).q0 ++
            ((mlfqCls ps s).q1 ++ (mlfqCls ps s).q2) :=
          List.mem_append.mpr (Or.inr (List.mem_append.mpr (Or.inr (by
            rw [hq2e]
            exact List.mem_cons_self idx tl))))
        obtain ⟨hilen, hrpos, hvidx⟩ := hcls.hq idx hidxq
        obtain ⟨p, hp⟩ : ∃ p, ps[idx]? = some p :=
          ⟨ps[idx], List.getElem?_eq_getElem hilen⟩
        rw [mlfqSlice_eq_run2 hq0e hq1e hq2e hp]
        have h2nd : (idx :: tl).Nodup := by
          have h1 := h12nd
          rw [hq1e, hq2e, List.nil_append] at h1
          exact h1
        have hidxnot : idx ∉ tl := (List.nodup_cons.mp h2nd).1
        refine mlfqRun_base hv hp hidxq (le_refl 1) (by omega)
          (fun j hj => absurd hj (List.not_mem_nil j))
          (fun j hj => absurd (by rw [hq0e] at hj; exact hj) (List.not_mem_nil j))
          List.nodup_nil ?_ ?_ ?_ ?_ ?_ ?_ ?_ ?_ hcls
        · intro j hj
          rcases List.mem_append.mp hj with h | h
          · rw [hq1e] at h
            exact absurd h (List.not_mem_nil j)
          · refine ⟨List.mem_append.mpr (Or.inr (by
              rw [hq2e]
              exact List.mem_cons_of_mem idx h)), ?_⟩
            intro hh
            rw [hh] at h
            exact hidxnot h
        · intro j hj hjne
          rcases List.mem_append.mp hj with h | h
          · rw [hq1e] at h
            exact absurd h (List.not_mem_nil j)
          · rw [hq2e] at h
            rcases List.mem_cons.mp h with h' | h'
            · exact absurd h' hjne
            · exact List.mem_append.mpr (Or.inr h')
        · show ((mlfqCls ps s).q1 ++ tl).Nodup
          rw [hq1e, List.nil_append]
          exact (List.nodup_cons.mp h2nd).2
        · intro j hj
          rcases List.mem_append.mp hj with h | h
          · rcases List.mem_append.mp h with h' | h'
            · exact Or.inl (List.mem_append.mpr (Or.inl h'))
            · exact absurd h' (List.not_mem_nil j)
          · rcases List.mem_append.mp h with h' | h'
            · exact Or.inl (List.mem_append.mpr (Or.inr h'))
            · exact absurd h' (List.not_mem_nil j)
        · intro j hj
          rcases List.mem_append.mp hj with h | h
          · exact List.mem_append.mpr (Or.inl (List.mem_append.mpr (Or.inl h)))
          · exact List.mem_append.mpr (Or.inr (List.mem_append.mpr (Or.inl h)))
        · show (((mlfqCls ps s).q1 ++ []) ++ ((mlfqCls ps s).q2 ++ [])).Nodup
          rw [List.append_nil, List.append_nil]
          exact h12nd
        · refine List.mem_append.mpr (Or.inr (List.mem_append.mpr (Or.inl ?_)))
          rw [hq2e]
          exact List.mem_cons_self idx tl
        · intro _
          exact hcls.hq12 idx p hp (by
            rw [hq2e]
            exact List.mem_append.mpr (Or.inr (List.mem_cons_self idx tl)))
      | nil =>
        rw [mlfqSlice_eq_idle hq0e hq1e hq2e]
        obtain ⟨h1, h2, h3, h4, h5, h6, h7, h8, h9, h10⟩ := hcls
        exact ⟨h1, h2, h3, h4, h5, h6, h7, h8, h9, h10⟩

theorem mlfqInvBase_rem_nonneg {ps : List Process} {q : ℤ} {s : MLFQState}
    (hinv : MLFQInvBase ps q s) : ∀ r ∈ s.remainingTime, 0 ≤ r := by
  intro r hr
  obtain ⟨i, hi⟩ := List.getElem?_of_mem hr
  have hilt : i < ps.length := by
    have h1 : i < s.remainingTime.length := by
      by_contra hge
      rw [List.getElem?_eq_none (by omega)] at hi
      exact absurd hi (by simp)
    have := hinv.hremlen
    omega
  obtain ⟨p, hp⟩ : ∃ p, ps[i]? = some p := ⟨ps[i], List.getElem?_eq_getElem hilt⟩
  have := (hinv.hrem i p hp).1
  rw [List.getD_eq_getElem?_getD, hi] at this
  exact this

/-- Termination of the Multilevel Feedback Queue loop. -/
theorem solveMLFQ_isSome (ps : List Process) (q : ℤ) (hq1 : 1 ≤ q)
    (hv : ∀ p ∈ ps, 1 ≤ p.burstTime) (fuel : ℕ)
    (hfuel : fuelBound ps ≤ fuel) : (solveMLFQ ps q fuel).isSome := by
  apply loopRun_isSome (MLFQInvBase ps q)
    (fun s => s.remainingTime.sum.toNat + (maxArr ps - s.currentTime).toNat)
  · intro s hs hexit
    rw [decide_eq_false_iff_not, not_le] at hexit
    refine ⟨mlfqInvBase_step hq1 hv hs, ?_⟩
    have hcls := mlfqCls_base hv hs
    have hnn := mlfqInvBase_rem_nonneg hs
    have hclsrem : (mlfqCls ps s).remainingTime = s.remainingTime := rfl
    have hclst : (mlfqCls ps s).currentTime = s.currentTime := rfl
    rw [mlfqStep_eq]
    have hdec : ∀ (idx : ℕ) (p : Process) (exec : ℤ) (rest q1c q2c q1n q2n : List ℕ),
        idx < ps.length → 1 ≤ exec →
        0 < s.remainingTime.getD idx 0 →
        exec ≤ s.remainingTime.getD idx 0 →
        ((mlfqRun ps (mlfqCls ps s) idx p exec rest
            q1c q2c q1n q2n).remainingTime.sum.toNat +
          (maxArr ps -
            (mlfqRun ps (mlfqCls ps s) idx p exec rest
              q1c q2c q1n q2n).currentTime).toNat <
          s.remainingTime.sum.toNat + (maxArr ps - s.currentTime).toNat) := by
      intro idx p exec rest q1c q2c q1n q2n hilen hexec1 hrpos hexecle
      have hremi : s.remainingTime[idx]? = some (s.remainingTime.getD idx 0) := by
        rw [List.getD_eq_getElem?_getD, List.getElem?_eq_getElem (by
          have := hs.hremlen
          omega)]
        rfl
      have hsum : (modIdx s.remainingTime idx (fun r => r - exec)).sum =
          s.remainingTime.sum - s.remainingTime.getD idx 0 +
            (s.remainingTime.getD idx 0 - exec) :=
        sum_modIdx (fun r => r - exec) s.remainingTime idx _ hremi
      have hle := getD_le_sum hnn (i := idx) (by
        have := hs.hremlen
        omega)
      rw [mlfqRun_rem, mlfqRun_time]
      show (modIdx (mlfqCls ps s).remainingTime idx (fun r => r - exec)).sum.toNat +
        (maxArr ps - ((mlfqCls ps s).currentTime + exec)).toNat <
        s.remainingTime.sum.toNat + (maxArr ps - s.currentTime).toNat
      rw [hclsrem, hclst]
      omega
    cases hq0e : (mlfqCls ps s).q0 with
    | cons idx rest =>
      obtain ⟨hilen, hrpos, hvidx⟩ := hcls.hq idx (List.mem_append.mpr (Or.inl (by
        rw [hq0e]
        exact List.mem_cons_self idx rest)))
      obtain ⟨p, hp⟩ : ∃ p, ps[idx]? = some p :=
        ⟨ps[idx], List.getElem?_eq_getElem hilen⟩
      rw [mlfqSlice_eq_run0 hq0e hp]
      have hrpos' : 0 < s.remainingTime.getD idx 0 := hrpos
      exact hdec idx p _ rest _ _ _ _ hilen (le_min (by omega) hq1) hrpos'
        (min_le_left _ _)
    | nil =>
      cases hq1e : (mlfqCls ps s).q1 with
      | cons idx tl =>
        obtain ⟨hilen, hrpos, hvidx⟩ := hcls.hq idx (List.mem_append.mpr
          (Or.inr (List.mem_append.mpr (Or.inl (by
            rw [hq1e]
            exact List.mem_cons_self idx tl)))))
        obtain ⟨p, hp⟩ : ∃ p, ps[idx]? = some p :=
          ⟨ps[idx], List.getElem?_eq_getElem hilen⟩
        rw [mlfqSlice_eq_run1 hq0e hq1e hp]
        have hrpos' : 0 < s.remainingTime.getD idx 0 := hrpos
        exact hdec idx p _ [] _ _ _ _ hilen (le_min (by omega) (by omega)) hrpos'
          (min_le_left _ _)
      | nil =>
        cases hq2e : (mlfqCls ps s).q2 with
        | cons idx tl =>
          obtain ⟨hilen, hrpos, hvidx⟩ := hcls.hq idx (List.mem_append.mpr
            (Or.inr (List.mem_append.mpr (Or.inr (by
              rw [hq2e]
              exact List.mem_cons_self idx tl)))))
          obtain ⟨p, hp⟩ : ∃ p, ps[idx]? = some p :=
            ⟨ps[idx], List.getElem?_eq_getElem hilen⟩
          rw [mlfqSlice_eq_run2 hq0e hq1e hq2e hp]
          have hrpos' : 0 < s.remainingTime.getD idx 0 := hrpos
          exact hdec idx p 1 [] _ _ _ _ hilen (le_refl 1) hrpos' (by omega)
        | nil =>
          rw [mlfqSlice_eq_idle hq0e hq1e hq2e]
          show s.remainingTime.sum.toNat +
            (maxArr ps - ((mlfqCls ps s).currentTime + 1)).toNat <
            s.remainingTime.sum.toNat + (maxArr ps - s.currentTime).toNat
          rw [hclst]
          obtain ⟨i, hi, hipos⟩ : ∃ (i : ℕ) (r : ℤ),
              s.remainingTime[i]? = some r ∧ 0 < r := by
            by_contra hno
            push_neg at hno
            have hall : ∀ r ∈ s.remainingTime,
                (fun r => decide (r = 0)) r = true := by
              intro r hr
              obtain ⟨i, hi⟩ := List.getElem?_of_mem hr
              have h1 := hno i r hi
              have h2 := hnn r hr
              simp only [decide_eq_true_eq]
              omega
            have := List.countP_eq_length.mpr hall
            have h1 := hs.hcount
            have h2 := hs.hremlen
            omega
          obtain ⟨hi', hrpos⟩ := hipos
          have hilen : i < ps.length := by
            have h1 : i < s.remainingTime.length := by
              by_contra hge
              rw [List.getElem?_eq_none (by omega)] at hi'
              exact absurd hi' (by simp)
            have := hs.hremlen
            omega
          obtain ⟨p, hp⟩ : ∃ p, ps[i]? = some p :=
            ⟨ps[i], List.getElem?_eq_getElem hilen⟩
          have hvisf : (mlfqCls ps s).visited.getD i false = false := by
            by_contra hne
            rw [Bool.not_eq_false] at hne
            have hri : 0 < (mlfqCls ps s).remainingTime.getD i 0 := by
              rw [hclsrem, List.getD_eq_getElem?_getD, hi']
              exact hrpos
            have := hcls.hcover i p hp hne hri
            rw [hq0e, hq1e, hq2e] at this
            exact absurd this (List.not_mem_nil i)
          have hnarr : ¬ (p.arrivalTime ≤ s.currentTime) :=
            mlfqClassify_unvis hs.hvislen hp hvisf
          have hA : p.arrivalTime ≤ maxArr ps :=
            arrival_le_maxArr (mem_of_getElem?_proc hp)
          omega
  · exact mlfqInvBase_init q hv
  · show (ps.map (fun p : Process => p.burstTime)).sum.toNat +
      (maxArr ps - 0).toNat < fuel
    unfold fuelBound at hfuel
    have hsb : (ps.map (fun p : Process => p.burstTime)).sum = sumBursts ps := rfl
    have hA := zero_le_maxArr ps
    omega

/-- The result/clock invariant of the MLFQ loop. -/
structure MLFQInvRes (ps : List Process) (s : MLFQState) : Prop where
  hreslen : s.results.length = ps.length
  hremarr : ∀ (i : ℕ) (p : Process), ps[i]? = some p →
    s.remainingTime.getD i 0 < p.burstTime →
    p.arrivalTime + (p.burstTime - s.remainingTime.getD i 0) ≤ s.currentTime
  hqarr : ∀ (j : ℕ) (p : Process), ps[j]? = some p →
    j ∈ s.q0 ++ (s.q1 ++ s.q2) → p.arrivalTime ≤ s.currentTime
  hres : ∀ (i : ℕ) (p : Process), ps[i]? = some p → ∃ r, s.results[i]? = some r ∧
    r.arrivalTime = p.arrivalTime ∧ r.burstTime = p.burstTime ∧
    (s.remainingTime.getD i 0 = 0 → ResultOK r)

theorem mlfqInvRes_init {ps : List Process} (hv : ∀ p ∈ ps, 1 ≤ p.burstTime) :
    MLFQInvRes ps (mlfqInit ps) := by
  constructor
  · simp [mlfqInit]
  · intro i p hp hlt
    have hg : (mlfqInit ps).remainingTime.getD i 0 = p.burstTime := getD_map_proc hp _ 0
    rw [hg] at hlt
    omega
  · intro j p hp hj
    exact absurd hj (List.not_mem_nil j)
  · intro i p hp
    refine ⟨initResult p, getElem?_map_initResult hp, rfl, rfl, ?_⟩
    intro h0
    have hg : (mlfqInit ps).remainingTime.getD i 0 = p.burstTime := getD_map_proc hp _ 0
    rw [hg] at h0
    have := hv p (mem_of_getElem?_proc hp)
    omega

theorem mlfqCls_res {ps : List Process} {s : MLFQState}
    (hres : MLFQInvRes ps s) : MLFQInvRes ps (mlfqCls ps s) := by
  obtain ⟨hreslen, hremarr, hqarr, hresc⟩ := hres
  refine ⟨hreslen, hremarr, ?_, hresc⟩
  intro j p hp hj
  have hj' : j ∈ (mlfqClassify ps s.currentTime s.q0 s.visited).1 ++
      (s.q1 ++ s.q2) := hj
  show p.arrivalTime ≤ s.currentTime
  rcases List.mem_append.mp hj' with h | h
  · rcases mlfqScan_mem s.currentTime ps.enum (s.q0, s.visited) j h with
      hold | ⟨p', hmem, harr, _⟩
    · exact hqarr j p hp (List.mem_append.mpr (Or.inl hold))
    · obtain rfl : p' = p := by
        have := List.mem_enum_iff_getElem?.mp hmem
        rw [hp] at this
        injection this with h2
        exact h2.symm
      exact harr
  · exact hqarr j p hp (List.mem_append.mpr (Or.inr h))

/-- Preservation of the MLFQ result/clock invariant across one generic
slice. -/
theorem mlfqRun_res {ps : List Process} {tq : ℤ} {s₁ : MLFQState} {idx : ℕ}
    {p : Process} {exec : ℤ} {rest q1c q2c q1n q2n : List ℕ}
    (hp : ps[idx]? = some p)
    (hidxq : idx ∈ s₁.q0 ++ (s₁.q1 ++ s₁.q2))
    (hexec1 : 1 ≤ exec)
    (hexecle : exec ≤ s₁.remainingTime.getD idx 0)
    (hrest : ∀ j ∈ rest, j ∈ s₁.q0 ∧ j ≠ idx)
    (hcmem : ∀ j ∈ q1c ++ q2c, j ∈ s₁.q1 ++ s₁.q2 ∧ j ≠ idx)
    (hnmem : ∀ j ∈ q1n ++ q2n, j ∈ s₁.q1 ++ s₁.q2 ∨ j = idx)
    (hbase : MLFQInvBase ps tq s₁) (hres : MLFQInvRes ps s₁) :
    MLFQInvRes ps (mlfqRun ps s₁ idx p exec rest q1c q2c q1n q2n) := by
  obtain ⟨hremlen, hvislen, hcount, hrem, hq, hunvis, hnodup, hcover, hq0r, h12⟩ :=
    hbase
  obtain ⟨hreslen, hremarr, hqarr, hresc⟩ := hres
  obtain ⟨hilen, hrpos, hvidx⟩ := hq idx hidxq
  have harridx : p.arrivalTime ≤ s₁.currentTime := hqarr idx p hp hidxq
  have hremi : s₁.remainingTime[idx]? = some (s₁.remainingTime.getD idx 0) := by
    rw [List.getD_eq_getElem?_getD, List.getElem?_eq_getElem (by omega)]
    rfl
  have hremip : (modIdx s₁.remainingTime idx (fun r => r - exec)).getD idx 0 =
      s₁.remainingTime.getD idx 0 - exec := getD_modIdx_self hremi _ 0
  have hremget : ∀ (j : ℕ), j ≠ idx →
      (modIdx s₁.remainingTime idx (fun r => r - exec)).getD j 0 =
        s₁.remainingTime.getD j 0 :=
    fun j hj => getD_modIdx_ne _ _ _ (fun h => hj h.symm) 0
  have hremarr' : ∀ (i : ℕ) (p' : Process), ps[i]? = some p' →
      (modIdx s₁.remainingTime idx (fun r => r - exec)).getD i 0 < p'.burstTime →
      p'.arrivalTime +
        (p'.burstTime -
          (modIdx s₁.remainingTime idx (fun r => r - exec)).getD i 0) ≤
        s₁.currentTime + exec := by
    intro i p' hp' hlt
    by_cases hii : i = idx
    · subst hii
      obtain rfl : p = p' := by
        rw [hp] at hp'
        injection hp'
      rw [hremip]
      by_cases hfull : s₁.remainingTime.getD i 0 = p.burstTime
      · rw [hfull]
        omega
      · obtain ⟨h1, h2⟩ := hrem i p hp
        have := hremarr i p hp (by omega)
        omega
    · rw [hremget i hii] at hlt ⊢
      have := hremarr i p' hp' hlt
      omega
  have hqarrC2 : ∀ (j : ℕ) (p' : Process), ps[j]? = some p' →
      j ∈ (mlfqC2 ps s₁ exec rest).1 → p'.arrivalTime ≤ s₁.currentTime + exec := by
    intro j p' hp' hj
    rcases mlfqScan_mem (s₁.currentTime + exec) ps.enum (rest, s₁.visited) j hj with
      hold | ⟨p'', hmem, harr, _⟩
    · have := hqarr j p' hp' (List.mem_append.mpr (Or.inl (hrest j hold).1))
      omega
    · obtain rfl : p'' = p' := by
        have := List.mem_enum_iff_getElem?.mp hmem
        rw [hp'] at this
        injection this with h2
        exact h2.symm
      exact harr
  have hqarrOld : ∀ (j : ℕ) (p' : Process), ps[j]? = some p' →
      (j ∈ s₁.q1 ++ s₁.q2 ∨ j = idx) → p'.arrivalTime ≤ s₁.currentTime + exec := by
    intro j p' hp' hj
    rcases hj with h | h
    · have := hqarr j p' hp' (List.mem_append.mpr (Or.inr h))
      omega
    · rw [h] at hp'
      obtain rfl : p = p' := by
        rw [hp] at hp'
        injection hp'
      omega
  have hstamp : ∀ (r : ProcessResult),
      ((fun r => if r.startTime = -1 then { r with startTime := s₁.currentTime }
        else r) r).arrivalTime = r.arrivalTime ∧
      ((fun r => if r.startTime = -1 then { r with startTime := s₁.currentTime }
        else r) r).burstTime = r.burstTime := by
    intro r
    by_cases h : r.startTime = -1 <;> simp [h]
  unfold mlfqRun
  by_cases hfin : (modIdx s₁.remainingTime idx (fun r => r - exec)).getD idx 0 = 0
  · rw [if_pos hfin]
    refine ⟨?_, hremarr', ?_, ?_⟩
    · show (modIdx (mlfqRes s₁ idx) idx _).length = ps.length
      rw [length_modIdx]
      show (modIdx s₁.results idx _).length = ps.length
      rw [length_modIdx]
      exact hreslen
    · intro j p' hp' hj
      have hj' : j ∈ (mlfqC2 ps s₁ exec rest).1 ++ (q1c ++ q2c) := hj
      show p'.arrivalTime ≤ s₁.currentTime + exec
      rcases List.mem_append.mp hj' with h | h
      · exact hqarrC2 j p' hp' h
      · exact hqarrOld j p' hp' (Or.inl (hcmem j h).1)
    · intro i p' hp'
      obtain ⟨r, hr, harr2, hburst2, hok⟩ := hresc i p' hp'
      by_cases hii : i = idx
      · subst hii
        obtain rfl : p = p' := by
          rw [hp] at hp'
          injection hp'
        have hstamp1 : (mlfqRes s₁ i)[i]? =
            some (if r.startTime = -1 then { r with startTime := s₁.currentTime }
              else r) := getElem?_modIdx_self hr _
        set r₁ := if r.startTime = -1 then { r with startTime := s₁.currentTime }
          else r with hr₁
        have hr₁arr : r₁.arrivalTime = p.arrivalTime := by
          rw [hr₁, ← harr2]
          exact (hstamp r).1
        have hr₁burst : r₁.burstTime = p.burstTime := by
          rw [hr₁, ← hburst2]
          exact (hstamp r).2
        refine ⟨{ r₁ with
            endTime := s₁.currentTime + exec,
            turnaroundTime := s₁.currentTime + exec - p.arrivalTime,
            waitingTime := s₁.currentTime + exec - p.arrivalTime - p.burstTime },
          getElem?_modIdx_self hstamp1 _, by simpa using hr₁arr,
          by simpa using hr₁burst, fun _ => ⟨?_, ?_, ?_⟩⟩
        · show s₁.currentTime + exec - p.arrivalTime =
            s₁.currentTime + exec - r₁.arrivalTime
          rw [hr₁arr]
        · show s₁.currentTime + exec - p.arrivalTime - p.burstTime =
            s₁.currentTime + exec - p.arrivalTime - r₁.burstTime
          rw [hr₁burst]
        · show (0 : ℤ) ≤ s₁.currentTime + exec - p.arrivalTime - p.burstTime
          have hz : s₁.remainingTime.getD i 0 - exec = 0 := by
            rw [← hremip]
            exact hfin
          by_cases hfull : s₁.remainingTime.getD i 0 = p.burstTime
          · omega
          · obtain ⟨h1, h2⟩ := hrem i p hp
            have := hremarr i p hp (by omega)
            omega
      · refine ⟨r, ?_, harr2, hburst2, ?_⟩
        · show (modIdx (mlfqRes s₁ idx) idx _)[i]? = some r
          rw [getElem?_modIdx_ne _ _ _ (fun h => hii h.symm)]
          show (modIdx s₁.results idx _)[i]? = some r
          rw [getElem?_modIdx_ne _ _ _ (fun h => hii h.symm)]
          exact hr
        · rw [hremget i hii]
          exact hok
  · rw [if_neg hfin]
    refine ⟨?_, hremarr', ?_, ?_⟩
    · show (mlfqRes s₁ idx).length = ps.length
      show (modIdx s₁.results idx _).length = ps.length
      rw [length_modIdx]
      exact hreslen
    · intro j p' hp' hj
      have hj' : j ∈ (mlfqC2 ps s₁ exec rest).1 ++ (q1n ++ q2n) := hj
      show p'.arrivalTime ≤ s₁.currentTime + exec
      rcases List.mem_append.mp hj' with h | h
      · exact hqarrC2 j p' hp' h
      · exact hqarrOld j p' hp' (hnmem j h)
    · intro i p' hp'
      obtain ⟨r, hr, harr2, hburst2, hok⟩ := hresc i p' hp'
      by_cases hii : i = idx
      · subst hii
        refine ⟨if r.startTime = -1 then { r with startTime := s₁.currentTime }
          else r, getElem?_modIdx_self hr _, ?_, ?_, ?_⟩
        · rw [(hstamp r).1]
          exact harr2
        · rw [(hstamp r).2]
          exact hburst2
        · intro h0
          have h0' : (modIdx s₁.remainingTime i (fun r => r - exec)).getD i 0 = 0 := h0
          exact absurd h0' hfin
      · refine ⟨r, ?_, harr2, hburst2, ?_⟩
        · show (modIdx s₁.results idx _)[i]? = some r
          rw [getElem?_modIdx_ne _ _ _ (fun h => hii h.symm)]
          exact hr
        · rw [hremget i hii]
          exact hok

/-- The chart invariant of the MLFQ loop. -/
structure MLFQInvChart (ps : List Process) (s : MLFQState) : Prop where
  hchain : s.ganttRev.Chain' RevAdj
  hpos : ∀ b ∈ s.ganttRev, b.startTime < b.endTime
  hhead : headEndLe s.currentTime s.ganttRev
  hacc : ∀ (i : ℕ) (p : Process), ps[i]? = some p →
    durSum p.id s.ganttRev = p.burstTime - s.remainingTime.getD i 0
  hfrom : ∀ b ∈ s.ganttRev, ∃ (j : ℕ) (pj : Process), ps[j]? = some pj ∧
    b.processId = pj.id

theorem mlfqInvChart_init (ps : List Process) : MLFQInvChart ps (mlfqInit ps) := by
  refine ⟨List.chain'_nil, ?_, trivial, ?_, ?_⟩
  · intro b hb; exact absurd hb (List.not_mem_nil b)
  · intro i p hp
    have h1 : durSum p.id (mlfqInit ps).ganttRev = 0 := rfl
    have h2 : (mlfqInit ps).remainingTime.getD i 0 = p.burstTime := getD_map_proc hp _ 0
    rw [h1, h2]
    ring
  · intro b hb; exact absurd hb (List.not_mem_nil b)

theorem mlfqCls_chart {ps : List Process} {s : MLFQState}
    (hch : MLFQInvChart ps s) : MLFQInvChart ps (mlfqCls ps s) := by
  obtain ⟨hchain, hpos, hhead, hacc, hfrom⟩ := hch
  exact ⟨hchain, hpos, hhead, hacc, hfrom⟩

/-- Preservation of the MLFQ chart invariant across one generic slice. -/
theorem mlfqRun_chart {ps : List Process} {tq : ℤ} {s₁ : MLFQState} {idx : ℕ}
    {p : Process} {exec : ℤ} {rest q1c q2c q1n q2n : List ℕ}
    (hids : (ps.map Process.id).Nodup)
    (hp : ps[idx]? = some p)
    (hidxq : idx ∈ s₁.q0 ++ (s₁.q1 ++ s₁.q2))
    (hexec1 : 1 ≤ exec)
    (hbase : MLFQInvBase ps tq s₁) (hch : MLFQInvChart ps s₁) :
    MLFQInvChart ps (mlfqRun ps s₁ idx p exec rest q1c q2c q1n q2n) := by
  obtain ⟨hchain, hpos, hhead, hacc, hfrom⟩ := hch
  obtain ⟨hilen, hrpos, hvidx⟩ := hbase.hq idx hidxq
  have hremi : s₁.remainingTime[idx]? = some (s₁.remainingTime.getD idx 0) := by
    rw [List.getD_eq_getElem?_getD, List.getElem?_eq_getElem (by
      have := hbase.hremlen
      omega)]
    rfl
  have hremip : (modIdx s₁.remainingTime idx (fun r => r - exec)).getD idx 0 =
      s₁.remainingTime.getD idx 0 - exec := getD_modIdx_self hremi _ 0
  have hremget : ∀ (j : ℕ), j ≠ idx →
      (modIdx s₁.remainingTime idx (fun r => r - exec)).getD j 0 =
        s₁.remainingTime.getD j 0 :=
    fun j hj => getD_modIdx_ne _ _ _ (fun h => hj h.symm) 0
  set nb : GanttBlock :=
    { processId := p.id, startTime := s₁.currentTime,
      endTime := s₁.currentTime + exec } with hnb
  have Hchain : List.Chain' RevAdj (nb :: s₁.ganttRev) := by
    rw [List.chain'_cons']
    exact ⟨fun y hy => headEndLe_head? hhead hy, hchain⟩
  have Hpos : ∀ b ∈ (nb :: s₁.ganttRev), b.startTime < b.endTime := by
    intro b hb
    rcases List.mem_cons.mp hb with rfl | hb'
    · show s₁.currentTime < s₁.currentTime + exec
      omega
    · exact hpos b hb'
  have Hhead : headEndLe (s₁.currentTime + exec) (nb :: s₁.ganttRev) := le_refl _
  have Hacc : ∀ (i : ℕ) (p' : Process), ps[i]? = some p' →
      durSum p'.id (nb :: s₁.ganttRev) =
        p'.burstTime - (modIdx s₁.remainingTime idx (fun r => r - exec)).getD i 0 := by
    intro i p' hp'
    rw [durSum_cons]
    have hold := hacc i p' hp'
    have hnbid : nb.processId = p.id := rfl
    have hdur : nb.endTime - nb.startTime = exec := by
      show s₁.currentTime + exec - s₁.currentTime = exec
      ring
    by_cases hii : i = idx
    · subst hii
      obtain rfl : p = p' := by
        rw [hp] at hp'
        injection hp'
      rw [hremip, if_pos hnbid, hdur, hold]
      ring
    · have hneq : nb.processId ≠ p'.id := by
        rw [hnbid]
        intro h
        exact hii (idx_eq_of_id_eq hids hp hp' h).symm
      rw [hremget i hii, if_neg hneq, hold]
      ring
  have Hfrom : ∀ b ∈ (nb :: s₁.ganttRev),
      ∃ (j : ℕ) (pj : Process), ps[j]? = some pj ∧ b.processId = pj.id := by
    intro b hb
    rcases List.mem_cons.mp hb with rfl | hb'
    · exact ⟨idx, p, hp, rfl⟩
    · exact hfrom b hb'
  unfold mlfqRun
  by_cases hfin : (modIdx s₁.remainingTime idx (fun r => r - exec)).getD idx 0 = 0
  · rw [if_pos hfin]
    exact ⟨Hchain, Hpos, Hhead, Hacc, Hfrom⟩
  · rw [if_neg hfin]
    exact ⟨Hchain, Hpos, Hhead, Hacc, Hfrom⟩

/-- The C8 invariant of the MLFQ loop: a process whose burst fits in one
Queue-0 quantum either has not run at all (no chart block) or has completed
in a single block of its full burst length. -/
structure MLFQInvSingle (ps : List Process) (timeQuantum : ℤ)
    (s : MLFQState) : Prop where
  hsingle : ∀ (i : ℕ) (pi : Process), ps[i]? = some pi →
    pi.burstTime ≤ timeQuantum →
    (s.remainingTime.getD i 0 = pi.burstTime ∧
      s.ganttRev.filter (fun b => decide (b.processId = pi.id)) = []) ∨
    (s.remainingTime.getD i 0 = 0 ∧
      ∃ b, s.ganttRev.filter (fun b => decide (b.processId = pi.id)) = [b] ∧
        b.endTime - b.startTime = pi.burstTime)

theorem mlfqInvSingle_init (ps : List Process) (timeQuantum : ℤ) :
    MLFQInvSingle ps timeQuantum (mlfqInit ps) := by
  refine ⟨?_⟩
  intro i pi hp hle
  refine Or.inl ⟨getD_map_proc hp _ 0, rfl⟩

theorem mlfqCls_single {ps : List Process} {timeQuantum : ℤ} {s : MLFQState}
    (hs : MLFQInvSingle ps timeQuantum s) :
    MLFQInvSingle ps timeQuantum (mlfqCls ps s) := by
  obtain ⟨h⟩ := hs
  exact ⟨h⟩

/-- Preservation of the C8 invariant across one generic slice. -/
theorem mlfqRun_single {ps : List Process} {tq : ℤ} {s₁ : MLFQState} {idx : ℕ}
    {p : Process} {exec : ℤ} {rest q1c q2c q1n q2n : List ℕ}
    (hv : ∀ p' ∈ ps, 1 ≤ p'.burstTime)
    (hids : (ps.map Process.id).Nodup)
    (hp : ps[idx]? = some p)
    (hidxq : idx ∈ s₁.q0 ++ (s₁.q1 ++ s₁.q2))
    (hexecfull : s₁.remainingTime.getD idx 0 = p.burstTime →
      p.burstTime ≤ tq → exec = p.burstTime)
    (hbase : MLFQInvBase ps tq s₁) (hs : MLFQInvSingle ps tq s₁) :
    MLFQInvSingle ps tq (mlfqRun ps s₁ idx p exec rest q1c q2c q1n q2n) := by
  obtain ⟨hsingle⟩ := hs
  obtain ⟨hilen, hrpos, hvidx⟩ := hbase.hq idx hidxq
  have hremi : s₁.remainingTime[idx]? = some (s₁.remainingTime.getD idx 0) := by
    rw [List.getD_eq_getElem?_getD, List.getElem?_eq_getElem (by
      have := hbase.hremlen
      omega)]
    rfl
  have hremip : (modIdx s₁.remainingTime idx (fun r => r - exec)).getD idx 0 =
      s₁.remainingTime.getD idx 0 - exec := getD_modIdx_self hremi _ 0
  have hremget : ∀ (j : ℕ), j ≠ idx →
      (modIdx s₁.remainingTime idx (fun r => r - exec)).getD j 0 =
        s₁.remainingTime.getD j 0 :=
    fun j hj => getD_modIdx_ne _ _ _ (fun h => hj h.symm) 0
  set nb : GanttBlock :=
    { processId := p.id, startTime := s₁.currentTime,
      endTime := s₁.currentTime + exec } with hnb
  have Hkey : ∀ (i : ℕ) (pi : Process), ps[i]? = some pi →
      pi.burstTime ≤ tq →
      ((modIdx s₁.remainingTime idx (fun r => r - exec)).getD i 0 = pi.burstTime ∧
        (nb :: s₁.ganttRev).filter (fun b => decide (b.processId = pi.id)) = []) ∨
      ((modIdx s₁.remainingTime idx (fun r => r - exec)).getD i 0 = 0 ∧
        ∃ b, (nb :: s₁.ganttRev).filter (fun b => decide (b.processId = pi.id)) =
          [b] ∧ b.endTime - b.startTime = pi.burstTime) := by
    intro i pi hpi hle
    by_cases hii : i = idx
    · have hpieq : pi = p := by
        rw [hii, hp] at hpi
        injection hpi with h2
        exact h2.symm
      have hidxq0 : idx ∈ s₁.q0 := by
        rcases List.mem_append.mp hidxq with h | h
        · exact h
        · have := hbase.hq12 idx p hp h
          rw [hpieq] at hle
          omega
      have hfull : s₁.remainingTime.getD idx 0 = p.burstTime :=
        hbase.hq0rem idx p hp hidxq0
      have hexeq : exec = p.burstTime := hexecfull hfull (by
        rw [hpieq] at hle
        exact hle)
      have hold := hsingle i pi hpi hle
      have hfiltold : s₁.ganttRev.filter (fun b => decide (b.processId = pi.id)) =
          [] := by
        rcases hold with ⟨_, h⟩ | ⟨h0, _⟩
        · exact h
        · rw [hii] at h0
          rw [h0] at hfull
          have := hv p (mem_of_getElem?_proc hp)
          omega
      refine Or.inr ⟨?_, nb, ?_, ?_⟩
      · rw [hii, hremip, hfull, hexeq]
        ring
      · rw [List.filter_cons_of_pos (by
          show decide (nb.processId = pi.id) = true
          rw [decide_eq_true_eq, hpieq]), hfiltold]
      · show s₁.currentTime + exec - s₁.currentTime = pi.burstTime
        rw [hexeq, hpieq]
        ring
    · have hneq : nb.processId ≠ pi.id := by
        show p.id ≠ pi.id
        intro h
        exact hii (idx_eq_of_id_eq hids hp hpi h).symm
      have hfilt : (nb :: s₁.ganttRev).filter
          (fun b => decide (b.processId = pi.id)) =
          s₁.ganttRev.filter (fun b => decide (b.processId = pi.id)) := by
        rw [List.filter_cons_of_neg (by
          show ¬ (decide (nb.processId = pi.id) = true)
          rw [decide_eq_true_eq]
          exact hneq)]
      rw [hfilt, hremget i hii]
      exact hsingle i pi hpi hle
  unfold mlfqRun
  by_cases hfin : (modIdx s₁.remainingTime idx (fun r => r - exec)).getD idx 0 = 0
  · rw [if_pos hfin]
    exact ⟨Hkey⟩
  · rw [if_neg hfin]
    exact ⟨Hkey⟩

/-- One `mlfqStep` preserves all four MLFQ invariants. -/
theorem mlfqInv_step {ps : List Process} {q : ℤ} (hq1 : 1 ≤ q)
    (hv : ∀ p ∈ ps, 1 ≤ p.burstTime) (hids : (ps.map Process.id).Nodup)
    {s : MLFQState}
    (hinv : MLFQInvBase ps q s ∧ MLFQInvRes ps s ∧ MLFQInvChart ps s ∧
      MLFQInvSingle ps q s) :
    MLFQInvBase ps q (mlfqStep ps q s) ∧ MLFQInvRes ps (mlfqStep ps q s) ∧
      MLFQInvChart ps (mlfqStep ps q s) ∧ MLFQInvSingle ps q (mlfqStep ps q s) := by
  obtain ⟨hb, hr, hc, hsg⟩ := hinv
  rw [mlfqStep_eq]
  have hcb := mlfqCls_base hv hb
  have hcr := mlfqCls_res hr
  have hcc := mlfqCls_chart hc
  have hcs := mlfqCls_single hsg
  have h12nd : ((mlfqCls ps s).q1 ++ (mlfqCls ps s).q2).Nodup :=
    (List.nodup_append.mp hcb.hnodup).2.1
  cases hq0e : (mlfqCls ps s).q0 with
  | cons idx rest =>
    have hidxq : idx ∈ (mlfqCls ps s).q0 ++
        ((mlfqCls ps s).q1 ++ (mlfqCls ps s).q2) :=
      List.mem_append.mpr (Or.inl (by
        rw [hq0e]
        exact List.mem_cons_self idx rest))
    obtain ⟨hilen, hrpos, hvidx⟩ := hcb.hq idx hidxq
    obtain ⟨p, hp⟩ : ∃ p, ps[idx]? = some p := ⟨ps[idx], List.getElem?_eq_getElem hilen⟩
    rw [mlfqSlice_eq_run0 hq0e hp]
    have hq0nd : (idx :: rest).Nodup := by
      have h1 := (List.nodup_append.mp hcb.hnodup).1
      rw [hq0e] at h1
      exact h1
    have hidxnr : idx ∉ rest := (List.nodup_cons.mp hq0nd).1
    have hidx12 : idx ∉ (mlfqCls ps s).q1 ++ (mlfqCls ps s).q2 :=
      fun h => (List.nodup_append.mp hcb.hnodup).2.2 (by
        rw [hq0e]
        exact List.mem_cons_self idx rest) h
    have Hexec1 : 1 ≤ min ((mlfqCls ps s).remainingTime.getD idx 0) q :=
      le_min (by omega) hq1
    have Hexecle : min ((mlfqCls ps s).remainingTime.getD idx 0) q ≤
        (mlfqCls ps s).remainingTime.getD idx 0 := min_le_left _ _
    have Hrest : ∀ j ∈ rest, j ∈ (mlfqCls ps s).q0 ∧ j ≠ idx := by
      intro j hj
      refine ⟨by rw [hq0e]; exact List.mem_cons_of_mem idx hj, ?_⟩
      intro h
      rw [h] at hj
      exact hidxnr hj
    have Hq0cov : ∀ j ∈ (mlfqCls ps s).q0, j = idx ∨ j ∈ rest := by
      intro j hj
      rw [hq0e] at hj
      exact List.mem_cons.mp hj
    have Hcmem : ∀ j ∈ (mlfqCls ps s).q1 ++ (mlfqCls ps s).q2,
        j ∈ (mlfqCls ps s).q1 ++ (mlfqCls ps s).q2 ∧ j ≠ idx := by
      intro j hj
      refine ⟨hj, ?_⟩
      intro h
      rw [h] at hj
      exact hidx12 hj
    have Hnmem : ∀ j ∈ ((mlfqCls ps s).q1 ++ [idx]) ++ ((mlfqCls ps s).q2 ++ []),
        j ∈ (mlfqCls ps s).q1 ++ (mlfqCls ps s).q2 ∨ j = idx := by
      intro j hj
      rcases List.mem_append.mp hj with h | h
      · rcases List.mem_append.mp h with h' | h'
        · exact Or.inl (List.mem_append.mpr (Or.inl h'))
        · exact Or.inr (List.mem_singleton.mp h')
      · rcases List.mem_append.mp h with h' | h'
        · exact Or.inl (List.mem_append.mpr (Or.inr h'))
        · exact absurd h' (List.not_mem_nil j)
    have Hncov : ∀ j ∈ (mlfqCls ps s).q1 ++ (mlfqCls ps s).q2,
        j ∈ ((mlfqCls ps s).q1 ++ [idx]) ++ ((mlfqCls ps s).q2 ++ []) := by
      intro j hj
      rcases List.mem_append.mp hj with h | h
      · exact List.mem_append.mpr (Or.inl (List.mem_append.mpr (Or.inl h)))
      · exact List.mem_append.mpr (Or.inr (List.mem_append.mpr (Or.inl h)))
    have Hnnd : (((mlfqCls ps s).q1 ++ [idx]) ++ ((mlfqCls ps s).q2 ++ [])).Nodup := by
      rw [List.append_nil, List.append_assoc, List.singleton_append,
        List.nodup_middle]
      exact List.nodup_cons.mpr ⟨hidx12, h12nd⟩
    have Hnidx : idx ∈ ((mlfqCls ps s).q1 ++ [idx]) ++ ((mlfqCls ps s).q2 ++ []) :=
      List.mem_append.mpr (Or.inl (List.mem_append.mpr
        (Or.inr (List.mem_singleton.mpr rfl))))
    have Hq12idx : 0 < (mlfqCls ps s).remainingTime.getD idx 0 -
        min ((mlfqCls ps s).remainingTime.getD idx 0) q → q < p.burstTime := by
      intro h0
      by_cases hle : (mlfqCls ps s).remainingTime.getD idx 0 ≤ q
      · rw [min_eq_left hle] at h0
        exact absurd h0 (by omega)
      · have hlt : q < (mlfqCls ps s).remainingTime.getD idx 0 := by omega
        have := (hcb.hrem idx p hp).2
        omega
    have Hexecfull : (mlfqCls ps s).remainingTime.getD idx 0 = p.burstTime →
        p.burstTime ≤ q →
        min ((mlfqCls ps s).remainingTime.getD idx 0) q = p.burstTime := by
      intro hfull hle
      rw [hfull]
      exact min_eq_left hle
    exact ⟨mlfqRun_base hv hp hidxq Hexec1 Hexecle Hrest Hq0cov
        ((List.nodup_cons.mp hq0nd).2) Hcmem (fun j hj _ => hj) h12nd
        Hnmem Hncov Hnnd Hnidx Hq12idx hcb,
      mlfqRun_res hp hidxq Hexec1 Hexecle Hrest Hcmem Hnmem hcb hcr,
      mlfqRun_chart hids hp hidxq Hexec1 hcb hcc,
      mlfqRun_single hv hids hp hidxq Hexecfull hcb hcs⟩
  | nil =>
    cases hq1e : (mlfqCls ps s).q1 with
    | cons idx tl =>
      have hidxq : idx ∈ (mlfqCls ps s).q0 ++
          ((mlfqCls ps s).q1 ++ (mlfqCls ps s).q2) :=
        List.mem_append.mpr (Or.inr (List.mem_append.mpr (Or.inl (by
          rw [hq1e]
          exact List.mem_cons_self idx tl))))
      obtain ⟨hilen, hrpos, hvidx⟩ := hcb.hq idx hidxq
      obtain ⟨p, hp⟩ : ∃ p, ps[idx]? = some p :=
        ⟨ps[idx], List.getElem?_eq_getElem hilen⟩
      rw [mlfqSlice_eq_run1 hq0e hq1e hp]
      have h12nd' : (idx :: (tl ++ (mlfqCls ps s).q2)).Nodup := by
        have h1 := h12nd
        rw [hq1e, List.cons_append] at h1
        exact h1
      have hidxnot : idx ∉ tl ++ (mlfqCls ps s).q2 := (List.nodup_cons.mp h12nd').1
      have hidxmem1 : idx ∈ (mlfqCls ps s).q1 ++ (mlfqCls ps s).q2 := by
        rw [hq1e]
        exact List.mem_append.mpr (Or.inl (List.mem_cons_self idx tl))
      have Hexec1 : 1 ≤ min ((mlfqCls ps s).remainingTime.getD idx 0) (q * 2) :=
        le_min (by omega) (by omega)
      have Hexecle : min ((mlfqCls ps s).remainingTime.getD idx 0) (q * 2) ≤
          (mlfqCls ps s).remainingTime.getD idx 0 := min_le_left _ _
      have Hrest : ∀ j ∈ ([] : List ℕ), j ∈ (mlfqCls ps s).q0 ∧ j ≠ idx :=
        fun j hj => absurd hj (List.not_mem_nil j)
      have Hq0cov : ∀ j ∈ (mlfqCls ps s).q0, j = idx ∨ j ∈ ([] : List ℕ) :=
        fun j hj => absurd (by rw [hq0e] at hj; exact hj) (List.not_mem_nil j)
      have Hcmem : ∀ j ∈ tl ++ (mlfqCls ps s).q2,
          j ∈ (mlfqCls ps s).q1 ++ (mlfqCls ps s).q2 ∧ j ≠ idx := by
        intro j hj
        refine ⟨?_, ?_⟩
        · rcases List.mem_append.mp hj with h | h
          · refine List.mem_append.mpr (Or.inl ?_)
            rw [hq1e]
            exact List.mem_cons_of_mem idx h
          · exact List.mem_append.mpr (Or.inr h)
        · intro h
          rw [h] at hj
          exact hidxnot hj
      have Hccov : ∀ j ∈ (mlfqCls ps s).q1 ++ (mlfqCls ps s).q2, j ≠ idx →
          j ∈ tl ++ (mlfqCls ps s).q2 := by
        intro j hj hjne
        rcases List.mem_append.mp hj with h | h
        · rw [hq1e] at h
          rcases List.mem_cons.mp h with h' | h'
          · exact absurd h' hjne
          · exact List.mem_append.mpr (Or.inl h')
        · exact List.mem_append.mpr (Or.inr h)
      have Hnmem : ∀ j ∈ (tl ++ []) ++ ((mlfqCls ps s).q2 ++ [idx]),
          j ∈ (mlfqCls ps s).q1 ++ (mlfqCls ps s).q2 ∨ j = idx := by
        intro j hj
        rcases List.mem_append.mp hj with h | h
        · rcases List.mem_append.mp h with h' | h'
          · refine Or.inl (List.mem_append.mpr (Or.inl ?_))
            rw [hq1e]
            exact List.mem_cons_of_mem idx h'
          · exact absurd h' (List.not_mem_nil j)
        · rcases List.mem_append.mp h with h' | h'
          · exact Or.inl (List.mem_append.mpr (Or.inr h'))
          · exact Or.inr (List.mem_singleton.mp h')
      have Hncov : ∀ j ∈ (mlfqCls ps s).q1 ++ (mlfqCls ps s).q2,
          j ∈ (tl ++ []) ++ ((mlfqCls ps s).q2 ++ [idx]) := by
        intro j hj
        rcases List.mem_append.mp hj with h | h
        · rw [hq1e] at h
          rcases List.mem_cons.mp h with h' | h'
          · refine List.mem_append.mpr (Or.inr (List.mem_append.mpr (Or.inr ?_)))
            rw [h']
            exact List.mem_singleton.mpr rfl
          · exact List.mem_append.mpr (Or.inl (List.mem_append.mpr (Or.inl h')))
        · exact List.mem_append.mpr (Or.inr (List.mem_append.mpr (Or.inl h)))
      have Hnnd : ((tl ++ []) ++ ((mlfqCls ps s).q2 ++ [idx])).Nodup := by
        rw [List.append_nil, ← List.append_assoc]
        refine List.Nodup.append ((List.nodup_cons.mp h12nd').2)
          (List.nodup_singleton idx) ?_
        intro a ha hax
        obtain rfl : a = idx := List.mem_singleton.mp hax
        exact hidxnot ha
      have Hnidx : idx ∈ (tl ++ []) ++ ((mlfqCls ps s).q2 ++ [idx]) :=
        List.mem_append.mpr (Or.inr (List.mem_append.mpr
          (Or.inr (List.mem_singleton.mpr rfl))))
      have Hq12idx : 0 < (mlfqCls ps s).remainingTime.getD idx 0 -
          min ((mlfqCls ps s).remainingTime.getD idx 0) (q * 2) →
          q < p.burstTime := by
        intro _
        exact hcb.hq12 idx p hp hidxmem1
      have Hexecfull : (mlfqCls ps s).remainingTime.getD idx 0 = p.burstTime →
          p.burstTime ≤ q →
          min ((mlfqCls ps s).remainingTime.getD idx 0) (q * 2) = p.burstTime := by
        intro _ hle
        have := hcb.hq12 idx p hp hidxmem1
        omega
      exact ⟨mlfqRun_base hv hp hidxq Hexec1 Hexecle Hrest Hq0cov
          List.nodup_nil Hcmem Hccov ((List.nodup_cons.mp h12nd').2)
          Hnmem Hncov Hnnd Hnidx Hq12idx hcb,
        mlfqRun_res hp hidxq Hexec1 Hexecle Hrest Hcmem Hnmem hcb hcr,
        mlfqRun_chart hids hp hidxq Hexec1 hcb hcc,
        mlfqRun_single hv hids hp hidxq Hexecfull hcb hcs⟩
    | nil =>
      cases hq2e : (mlfqCls ps s).q2 with
      | cons idx tl =>
        have hidxq : idx ∈ (mlfqCls ps s).q0 ++
            ((mlfqCls ps s).q1 ++ (mlfqCls ps s).q2) :=
          List.mem_append.mpr (Or.inr (List.mem_append.mpr (Or.inr (by
            rw [hq2e]
            exact List.mem_cons_self idx tl))))
        obtain ⟨hilen, hrpos, hvidx⟩ := hcb.hq idx hidxq
        obtain ⟨p, hp⟩ : ∃ p, ps[idx]? = some p :=
          ⟨ps[idx], List.getElem?_eq_getElem hilen⟩
        rw [mlfqSlice_eq_run2 hq0e hq1e hq2e hp]
        have h2nd : (idx :: tl).Nodup := by
          have h1 := h12nd
          rw [hq1e, hq2e, List.nil_append] at h1
          exact h1
        have hidxnot : idx ∉ tl := (List.nodup_cons.mp h2nd).1
        have hidxmem1 : idx ∈ (mlfqCls ps s).q1 ++ (mlfqCls ps s).q2 := by
          rw [hq2e]
          exact List.mem_append.mpr (Or.inr (List.mem_cons_self idx tl))
        have Hexec1 : (1 : ℤ) ≤ 1 := le_refl 1
        have Hexecle : (1 : ℤ) ≤ (mlfqCls ps s).remainingTime.getD idx 0 := by
          omega
        have Hrest : ∀ j ∈ ([] : List ℕ), j ∈ (mlfqCls ps s).q0 ∧ j ≠ idx :=
          fun j hj => absurd hj (List.not_mem_nil j)
        have Hq0cov : ∀ j ∈ (mlfqCls ps s).q0, j = idx ∨ j ∈ ([] : List ℕ) :=
          fun j hj => absurd (by rw [hq0e] at hj; exact hj) (List.not_mem_nil j)
        have Hcmem : ∀ j ∈ (mlfqCls ps s).q1 ++ tl,
            j ∈ (mlfqCls ps s).q1 ++ (mlfqCls ps s).q2 ∧ j ≠ idx := by
          intro j hj
          rcases List.mem_append.mp hj with h | h
          · rw [hq1e] at h
            exact absurd h (List.not_mem_nil j)
          · refine ⟨List.mem_append.mpr (Or.inr (by
              rw [hq2e]
              exact List.mem_cons_of_mem idx h)), ?_⟩
            intro hh
            rw [hh] at h
            exact hidxnot h
        have Hccov : ∀ j ∈ (mlfqCls ps s).q1 ++ (mlfqCls ps s).q2, j ≠ idx →
            j ∈ (mlfqCls ps s).q1 ++ tl := by
          intro j hj hjne
          rcases List.mem_append.mp hj with h | h
          · rw [hq1e] at h
            exact absurd h (List.not_mem_nil j)
          · rw [hq2e] at h
            rcases List.mem_cons.mp h with h' | h'
            · exact absurd h' hjne
            · exact List.mem_append.mpr (Or.inr h')
        have Hcnd : ((mlfqCls ps s).q1 ++ tl).Nodup := by
          rw [hq1e, List.nil_append]
          exact (List.nodup_cons.mp h2nd).2
        have Hnmem : ∀ j ∈ ((mlfqCls ps s).q1 ++ []) ++ ((mlfqCls ps s).q2 ++ []),
            j ∈ (mlfqCls ps s).q1 ++ (mlfqCls ps s).q2 ∨ j = idx := by
          intro j hj
          rcases List.mem_append.mp hj with h | h
          · rcases List.mem_append.mp h with h' | h'
            · exact Or.inl (List.mem_append.mpr (Or.inl h'))
            · exact absurd h' (List.not_mem_nil j)
          · rcases List.mem_append.mp h with h' | h'
            · exact Or.inl (List.mem_append.mpr (Or.inr h'))
            · exact absurd h' (List.not_mem_nil j)
        have Hncov : ∀ j ∈ (mlfqCls ps s).q1 ++ (mlfqCls ps s).q2,
            j ∈ ((mlfqCls ps s).q1 ++ []) ++ ((mlfqCls ps s).q2 ++ []) := by
          intro j hj
          rcases List.mem_append.mp hj with h | h
          · exact List.mem_append.mpr (Or.inl (List.mem_append.mpr (Or.inl h)))
          · exact List.mem_append.mpr (Or.inr (List.mem_append.mpr (Or.inl h)))
        have Hnnd : (((mlfqCls ps s).q1 ++ []) ++ ((mlfqCls ps s).q2 ++ [])).Nodup := by
          rw [List.append_nil, List.append_nil]
          exact h12nd
        have Hnidx : idx ∈ ((mlfqCls ps s).q1 ++ []) ++ ((mlfqCls ps s).q2 ++ []) := by
          refine List.mem_append.mpr (Or.inr (List.mem_append.mpr (Or.inl ?_)))
          rw [hq2e]
          exact List.mem_cons_self idx tl
        have Hq12idx : 0 < (mlfqCls ps s).remainingTime.getD idx 0 - 1 →
            q < p.burstTime := by
          intro _
          exact hcb.hq12 idx p hp hidxmem1
        have Hexecfull : (mlfqCls ps s).remainingTime.getD idx 0 = p.burstTime →
            p.burstTime ≤ q → (1 : ℤ) = p.burstTime := by
          intro _ hle
          have := hcb.hq12 idx p hp hidxmem1
          omega
        exact ⟨mlfqRun_base hv hp hidxq Hexec1 Hexecle Hrest Hq0cov
            List.nodup_nil Hcmem Hccov Hcnd Hnmem Hncov Hnnd Hnidx Hq12idx hcb,
          mlfqRun_res hp hidxq Hexec1 Hexecle Hrest Hcmem Hnmem hcb hcr,
          mlfqRun_chart hids hp hidxq Hexec1 hcb hcc,
          mlfqRun_single hv hids hp hidxq Hexecfull hcb hcs⟩
      | nil =>
        rw [mlfqSlice_eq_idle hq0e hq1e hq2e]
        obtain ⟨h1, h2, h3, h4, h5, h6, h7, h8, h9, h10⟩ := hcb
        obtain ⟨g1, g2, g3, g4⟩ := hcr
        obtain ⟨c1, c2, c3, c4, c5⟩ := hcc
        obtain ⟨s1⟩ := hcs
        refine ⟨⟨h1, h2, h3, h4, h5, h6, h7, h8, h9, h10⟩,
          ⟨g1, ?_, ?_, g4⟩, ⟨c1, c2, ?_, c4, c5⟩, ⟨s1⟩⟩
        · intro i p hp hlt
          show p.arrivalTime +
            (p.burstTime - (mlfqCls ps s).remainingTime.getD i 0) ≤
            (mlfqCls ps s).currentTime + 1
          have := g2 i p hp hlt
          omega
        · intro j p hp hj
          show p.arrivalTime ≤ (mlfqCls ps s).currentTime + 1
          have := g3 j p hp hj
          omega
        · show headEndLe ((mlfqCls ps s).currentTime + 1) (mlfqCls ps s).ganttRev
          exact headEndLe_mono (le_of_lt (lt_add_one _)) c3

/-- C1 for the Multilevel Feedback Queue. -/
theorem solveMLFQ_resultsOK (ps : List Process) (q : ℤ) (hq1 : 1 ≤ q)
    (hv : ∀ p ∈ ps, 1 ≤ p.burstTime)
    (fuel : ℕ) : ResultsOK (solveMLFQ ps q fuel) := by
  intro out hout r hr
  obtain ⟨s', hs', hexit, rfl⟩ := loopRun_some_inv
    (fun s => MLFQInvBase ps q s ∧ MLFQInvRes ps s)
    (fun s hs _ => ⟨mlfqInvBase_step hq1 hv hs.1, by
      rw [mlfqStep_eq]
      have hcb := mlfqCls_base hv hs.1
      have hcr := mlfqCls_res hs.2
      have h12nd : ((mlfqCls ps s).q1 ++ (mlfqCls ps s).q2).Nodup :=
        (List.nodup_append.mp hcb.hnodup).2.1
      cases hq0e : (mlfqCls ps s).q0 with
      | cons idx rest =>
        have hidxq : idx ∈ (mlfqCls ps s).q0 ++
            ((mlfqCls ps s).q1 ++ (mlfqCls ps s).q2) :=
          List.mem_append.mpr (Or.inl (by
            rw [hq0e]
            exact List.mem_cons_self idx rest))
        obtain ⟨hilen, hrpos, hvidx⟩ := hcb.hq idx hidxq
        obtain ⟨p, hp⟩ : ∃ p, ps[idx]? = some p :=
          ⟨ps[idx], List.getElem?_eq_getElem hilen⟩
        rw [mlfqSlice_eq_run0 hq0e hp]
        have hq0nd : (idx :: rest).Nodup := by
          have h1 := (List.nodup_append.mp hcb.hnodup).1
          rw [hq0e] at h1
          exact h1
        have hidxnr : idx ∉ rest := (List.nodup_cons.mp hq0nd).1
        have hidx12 : idx ∉ (mlfqCls ps s).q1 ++ (mlfqCls ps s).q2 :=
          fun h => (List.nodup_append.mp hcb.hnodup).2.2 (by
            rw [hq0e]
            exact List.mem_cons_self idx rest) h
        refine mlfqRun_res hp hidxq (le_min (by omega) hq1) (min_le_left _ _)
          ?_ ?_ ?_ hcb hcr
        · intro j hj
          refine ⟨by rw [hq0e]; exact List.mem_cons_of_mem idx hj, ?_⟩
          intro h
          rw [h] at hj
          exact hidxnr hj
        · intro j hj
          refine ⟨hj, ?_⟩
          intro h
          rw [h] at hj
          exact hidx12 hj
        · intro j hj
          rcases List.mem_append.mp hj with h | h
          · rcases List.mem_append.mp h with h' | h'
            · exact Or.inl (List.mem_append.mpr (Or.inl h'))
            · exact Or.inr (List.mem_singleton.mp h')
          · rcases List.mem_append.mp h with h' | h'
            · exact Or.inl (List.mem_append.mpr (Or.inr h'))
            · exact absurd h' (List.not_mem_nil j)
      | nil =>
        cases hq1e : (mlfqCls ps s).q1 with
        | cons idx tl =>
          have hidxq : idx ∈ (mlfqCls ps s).q0 ++
              ((mlfqCls ps s).q1 ++ (mlfqCls ps s).q2) :=
            List.mem_append.mpr (Or.inr (List.mem_append.mpr (Or.inl (by
              rw [hq1e]
              exact List.mem_cons_self idx tl))))
          obtain ⟨hilen, hrpos, hvidx⟩ := hcb.hq idx hidxq
          obtain ⟨p, hp⟩ : ∃ p, ps[idx]? = some p :=
            ⟨ps[idx], List.getElem?_eq_getElem hilen⟩
          rw [mlfqSlice_eq_run1 hq0e hq1e hp]
          have h12nd' : (idx :: (tl ++ (mlfqCls ps s).q2)).Nodup := by
            have h1 := h12nd
            rw [hq1e, List.cons_append] at h1
            exact h1
          have hidxnot : idx ∉ tl ++ (mlfqCls ps s).q2 :=
            (List.nodup_cons.mp h12nd').1
          refine mlfqRun_res hp hidxq (le_min (by omega) (by omega))
            (min_le_left _ _) (fun j hj => absurd hj (List.not_mem_nil j))
            ?_ ?_ hcb hcr
          · intro j hj
            refine ⟨?_, ?_⟩
            · rcases List.mem_append.mp hj with h | h
              · refine List.mem_append.mpr (Or.inl ?_)
                rw [hq1e]
                exact List.mem_cons_of_mem idx h
              · exact List.mem_append.mpr (Or.inr h)
            · intro h
              rw [h] at hj
              exact hidxnot hj
          · intro j hj
            rcases List.mem_append.mp hj with h | h
            · rcases List.mem_append.mp h with h' | h'
              · refine Or.inl (List.mem_append.mpr (Or.inl ?_))
                rw [hq1e]
                exact List.mem_cons_of_mem idx h'
              · exact absurd h' (List.not_mem_nil j)
            · rcases List.mem_append.mp h with h' | h'
              · exact Or.inl (List.mem_append.mpr (Or.inr h'))
              · exact Or.inr (List.mem_singleton.mp h')
        | nil =>
          cases hq2e : (mlfqCls ps s).q2 with
          | cons idx tl =>
            have hidxq : idx ∈ (mlfqCls ps s).q0 ++
                ((mlfqCls ps s).q1 ++ (mlfqCls ps s).q2) :=
              List.mem_append.mpr (Or.inr (List.mem_append.mpr (Or.inr (by
                rw [hq2e]
                exact List.mem_cons_self idx tl))))
            obtain ⟨hilen, hrpos, hvidx⟩ := hcb.hq idx hidxq
            obtain ⟨p, hp⟩ : ∃ p, ps[idx]? = some p :=
              ⟨ps[idx], List.getElem?_eq_getElem hilen⟩
            rw [mlfqSlice_eq_run2 hq0e hq1e hq2e hp]
            have h2nd : (idx :: tl).Nodup := by
              have h1 := h12nd
              rw [hq1e, hq2e, List.nil_append] at h1
              exact h1
            have hidxnot : idx ∉ tl := (List.nodup_cons.mp h2nd).1
            refine mlfqRun_res hp hidxq (le_refl 1) (by omega)
              (fun j hj => absurd hj (List.not_mem_nil j)) ?_ ?_ hcb hcr
            · intro j hj
              rcases List.mem_append.mp hj with h | h
              · rw [hq1e] at h
                exact absurd h (List.not_mem_nil j)
              · refine ⟨List.mem_append.mpr (Or.inr (by
                  rw [hq2e]
                  exact List.mem_cons_of_mem idx h)), ?_⟩
                intro hh
                rw [hh] at h
                exact hidxnot h
            · intro j hj
              rcases List.mem_append.mp hj with h | h
              · rcases List.mem_append.mp h with h' | h'
                · exact Or.inl (List.mem_append.mpr (Or.inl h'))
                · exact absurd h' (List.not_mem_nil j)
              · rcases List.mem_append.mp h with h' | h'
                · exact Or.inl (List.mem_append.mpr (Or.inr h'))
                · exact absurd h' (List.not_mem_nil j)
          | nil =>
            rw [mlfqSlice_eq_idle hq0e hq1e hq2e]
            obtain ⟨g1, g2, g3, g4⟩ := hcr
            refine ⟨g1, ?_, ?_, g4⟩
            · intro i p hp hlt
              show p.arrivalTime +
                (p.burstTime - (mlfqCls ps s).remainingTime.getD i 0) ≤
                (mlfqCls ps s).currentTime + 1
              have := g2 i p hp hlt
              omega
            · intro j p hp hj
              show p.arrivalTime ≤ (mlfqCls ps s).currentTime + 1
              have := g3 j p hp hj
              omega⟩)
    fuel (mlfqInit ps) out
    ⟨mlfqInvBase_init q hv, mlfqInvRes_init hv⟩ hout
  rw [decide_eq_true_eq] at hexit
  have hall := all_rem_zero hs'.1.hremlen hs'.1.hcount hexit
  have hperm := calculateAverages_results_perm s'.results s'.ganttRev.reverse
  obtain ⟨i, hi⟩ := List.getElem?_of_mem (hperm.subset hr)
  have hilt : i < ps.length := by
    have h1 : i < s'.results.length := by
      by_contra hge
      rw [List.getElem?_eq_none (by omega)] at hi
      exact absurd hi (by simp)
    have := hs'.2.hreslen
    omega
  obtain ⟨p, hp⟩ : ∃ p, ps[i]? = some p := ⟨ps[i], List.getElem?_eq_getElem hilt⟩
  obtain ⟨r', hr'', _, _, hok⟩ := hs'.2.hres i p hp
  obtain rfl : r' = r := by
    rw [hi] at hr''
    injection hr'' with hinj
    exact hinj.symm
  exact hok (hall i)

/-- C2 and the idle-free part of C6 for the Multilevel Feedback Queue. -/
theorem solveMLFQ_chart (ps : List Process) (q : ℤ) (hq1 : 1 ≤ q)
    (hv : ∀ p ∈ ps, 1 ≤ p.burstTime) (hids : (ps.map Process.id).Nodup)
    (fuel : ℕ) :
    GanttOK ps (solveMLFQ ps q fuel) ∧ ChartIdsOK ps (solveMLFQ ps q fuel) := by
  have hkey : ∀ out ∈ solveMLFQ ps q fuel,
      (∀ (i : ℕ) (p : Process), ps[i]? = some p →
        durSum p.id out.ganttChart = p.burstTime) ∧
      out.ganttChart.Pairwise
        (fun b₁ b₂ => b₁.endTime ≤ b₂.startTime ∧ b₁.startTime < b₂.startTime) ∧
      (∀ b ∈ out.ganttChart, b.startTime < b.endTime) ∧
      (∀ b ∈ out.ganttChart, b.processId ∈ ps.map Process.id) := by
    intro out hout
    obtain ⟨s', hs', hexit, rfl⟩ := loopRun_some_inv
      (fun s => MLFQInvBase ps q s ∧ MLFQInvRes ps s ∧ MLFQInvChart ps s ∧
        MLFQInvSingle ps q s)
      (fun s hs _ => mlfqInv_step hq1 hv hids hs)
      fuel (mlfqInit ps) out
      ⟨mlfqInvBase_init q hv, mlfqInvRes_init hv, mlfqInvChart_init ps,
        mlfqInvSingle_init ps q⟩ hout
    rw [decide_eq_true_eq] at hexit
    have hall := all_rem_zero hs'.1.hremlen hs'.1.hcount hexit
    have hchart : (calculateAverages s'.results s'.ganttRev.reverse).ganttChart =
        s'.ganttRev.reverse := rfl
    rw [hchart]
    obtain ⟨hpair, hpos⟩ := chart_reverse_ok hs'.2.2.1.hchain hs'.2.2.1.hpos
    refine ⟨?_, hpair, hpos, ?_⟩
    · intro i p hp
      rw [durSum_reverse]
      have := hs'.2.2.1.hacc i p hp
      have h0 := hall i
      omega
    · intro b hb
      obtain ⟨j, pj, hj, hjid⟩ := hs'.2.2.1.hfrom b (List.mem_reverse.mp hb)
      rw [hjid]
      exact List.mem_map_of_mem Process.id (mem_of_getElem?_proc hj)
  refine ⟨?_, ?_⟩
  · intro out hout
    obtain ⟨hd, hpair, hpos, _⟩ := hkey out hout
    refine ⟨?_, hpair, hpos⟩
    intro p hp
    obtain ⟨i, hi⟩ := List.getElem?_of_mem hp
    exact hd i p hi
  · intro out hout
    exact (hkey out hout).2.2.2

/-- The single-slice half of C8: in every MLFQ output, a process whose burst
fits in one Queue-0 quantum owns exactly one chart block, of its full burst
length. -/
theorem solveMLFQ_single (ps : List Process) (q : ℤ) (hq1 : 1 ≤ q)
    (hv : ∀ p ∈ ps, 1 ≤ p.burstTime) (hids : (ps.map Process.id).Nodup)
    (fuel : ℕ) :
    ∀ out ∈ solveMLFQ ps q fuel, ∀ (i : ℕ) (p : Process), ps[i]? = some p →
      p.burstTime ≤ q →
      ∃ b, out.ganttChart.filter (fun b => decide (b.processId = p.id)) = [b] ∧
        b.endTime - b.startTime = p.burstTime := by
  intro out hout i p hp hle
  obtain ⟨s', hs', hexit, rfl⟩ := loopRun_some_inv
    (fun s => MLFQInvBase ps q s ∧ MLFQInvRes ps s ∧ MLFQInvChart ps s ∧
      MLFQInvSingle ps q s)
    (fun s hs _ => mlfqInv_step hq1 hv hids hs)
    fuel (mlfqInit ps) out
    ⟨mlfqInvBase_init q hv, mlfqInvRes_init hv, mlfqInvChart_init ps,
      mlfqInvSingle_init ps q⟩ hout
  rw [decide_eq_true_eq] at hexit
  have hall := all_rem_zero hs'.1.hremlen hs'.1.hcount hexit
  have hchart : (calculateAverages s'.results s'.ganttRev.reverse).ganttChart =
      s'.ganttRev.reverse := rfl
  rw [hchart]
  rcases hs'.2.2.2.hsingle i p hp hle with ⟨hfull, _⟩ | ⟨_, b, hfilt, hdur⟩
  · have h0 := hall i
    rw [h0] at hfull
    have := hv p (mem_of_getElem?_proc hp)
    omega
  · refine ⟨b, ?_, hdur⟩
    rw [List.filter_reverse, hfilt]
    rfl

/-- The no-demotion half of C8: along the whole iterated MLFQ execution, a
process whose burst fits in one Queue-0 quantum never appears in Queue 1 or
Queue 2. -/
theorem mlfq_no_demote (ps : List Process) (q : ℤ) (hq1 : 1 ≤ q)
    (hv : ∀ p ∈ ps, 1 ≤ p.burstTime) (k : ℕ)
    (i : ℕ) (p : Process) (hp : ps[i]? = some p) (hle : p.burstTime ≤ q) :
    i ∉ ((mlfqStep ps q)^[k] (mlfqInit ps)).q1 ∧
    i ∉ ((mlfqStep ps q)^[k] (mlfqInit ps)).q2 := by
  have hinv : MLFQInvBase ps q ((mlfqStep ps q)^[k] (mlfqInit ps)) := by
    induction k with
    | zero => exact mlfqInvBase_init q hv
    | succ n ih =>
      rw [Function.iterate_succ_apply']
      exact mlfqInvBase_step hq1 hv ih
  constructor
  · intro hmem
    have := hinv.hq12 i p hp (List.mem_append.mpr (Or.inl hmem))
    omega
  · intro hmem
    have := hinv.hq12 i p hp (List.mem_append.mpr (Or.inr hmem))
    omega

/-! ## C1: result arithmetic for all 11 policies -/

/-- C1: for every algorithm among the 11 policies and every valid input
(non-empty process list, each `burstTime ≥ 1`, `arrivalTime ≥ 0`; quantum at
least 1 per the spec's input contract), every `ProcessResult` in the output
of `solve` satisfies `turnaroundTime = endTime − arrivalTime`,
`waitingTime = turnaroundTime − burstTime` and `waitingTime ≥ 0`. -/
theorem c1_results_correct (name : String) (hname : name ∈ ALGORITHMS)
    (ps : List Process) (timeQuantum : ℤ) (fuel : ℕ)
    (hne : ps ≠ []) (hv : ∀ p ∈ ps, 1 ≤ p.burstTime)
    (harr : ∀ p ∈ ps, 0 ≤ p.arrivalTime) (hq : 1 ≤ timeQuantum) :
    ResultsOK (solve name ps timeQuantum fuel) := by
  fin_cases hname
  · show ResultsOK (some (solveFCFS ps))
    intro out hout r hr
    rw [Option.mem_def] at hout
    injection hout with h
    rw [← h] at hr
    exact solveFCFS_resultsOK ps r hr
  · show ResultsOK (solveSJF ps fuel)
    exact solveSJF_resultsOK ps fuel
  · show ResultsOK (solveSRTF ps fuel)
    exact solveSRTF_resultsOK ps hv fuel
  · show ResultsOK (solvePriorityNP ps fuel)
    exact solvePriorityNP_resultsOK ps fuel
  · show ResultsOK (solvePriorityP ps fuel)
    exact solvePriorityP_resultsOK ps hv fuel
  · show ResultsOK (solveRR ps timeQuantum fuel)
    exact solveRR_resultsOK ps timeQuantum hq hv harr fuel
  · show ResultsOK (solveLJF ps fuel)
    exact solveLJF_resultsOK ps fuel
  · show ResultsOK (solveLRTF ps fuel)
    exact solveLRTF_resultsOK ps hv fuel
  · show ResultsOK (solveHRRN ps fuel)
    exact solveHRRN_resultsOK ps fuel
  · show ResultsOK (solveMLQ ps timeQuantum fuel)
    exact solveMLQ_resultsOK ps timeQuantum hq hv fuel
  · show ResultsOK (solveMLFQ ps timeQuantum fuel)
    exact solveMLFQ_resultsOK ps timeQuantum hq hv fuel

/-- C1 witness: the hypotheses hold and the conclusion follows at a concrete
algorithm, input, quantum and fuel. -/
theorem c1_results_correct_witness :
    "Round Robin" ∈ ALGORITHMS ∧ fcfsExampleInput ≠ [] ∧
    (∀ p ∈ fcfsExampleInput, 1 ≤ p.burstTime) ∧
    (∀ p ∈ fcfsExampleInput, 0 ≤ p.arrivalTime) ∧ (1 : ℤ) ≤ 2 ∧
    ResultsOK (solve "Round Robin" fcfsExampleInput 2 100) :=
  ⟨by decide, by decide, by decide, by decide, by decide,
    c1_results_correct "Round Robin" (by decide) fcfsExampleInput 2 100
      (by decide) (by decide) (by decide) (by decide)⟩

/-! ## C2: Gantt chart accounting for all 11 policies -/

/-- C2: for every algorithm and every valid input (with quantum ≥ 1 per the
spec's input contract), each process's Gantt blocks sum to its burst time and
the chart's blocks are pairwise non-overlapping, sorted strictly ascending by
start time, and non-degenerate. -/
theorem c2_gantt_ok (name : String) (hname : name ∈ ALGORITHMS)
    (ps : List Process) (timeQuantum : ℤ) (fuel : ℕ)
    (hvalid : ValidInput ps) (hq : 1 ≤ timeQuantum) :
    GanttOK ps (solve name ps timeQuantum fuel) := by
  obtain ⟨hne, hall, hids⟩ := hvalid
  have hv : ∀ p ∈ ps, 1 ≤ p.burstTime := fun p hp => (hall p hp).1
  have harr : ∀ p ∈ ps, 0 ≤ p.arrivalTime := fun p hp => (hall p hp).2.1
  have hidne : ∀ p ∈ ps, p.id ≠ "" := fun p hp => (hall p hp).2.2
  fin_cases hname
  · show GanttOK ps (some (solveFCFS ps))
    intro out hout
    rw [Option.mem_def] at hout
    injection hout with h
    rw [← h]
    exact solveFCFS_ganttOK ps hv hids
  · show GanttOK ps (solveSJF ps fuel)
    exact (solveSJF_chartFacts ps hv hids fuel).1
  · show GanttOK ps (solveSRTF ps fuel)
    exact (solveSRTF_chartFacts ps hv hids hidne fuel).1
  · show GanttOK ps (solvePriorityNP ps fuel)
    exact (solvePriorityNP_chartFacts ps hv hids fuel).1
  · show GanttOK ps (solvePriorityP ps fuel)
    exact (solvePriorityP_chartFacts ps hv hids hidne fuel).1
  · show GanttOK ps (solveRR ps timeQuantum fuel)
    exact (solveRR_chart ps timeQuantum hq hv harr hids fuel).1
  · show GanttOK ps (solveLJF ps fuel)
    exact (solveLJF_chartFacts ps hv hids fuel).1
  · show GanttOK ps (solveLRTF ps fuel)
    exact (solveLRTF_chartFacts ps hv hids hidne fuel).1
  · show GanttOK ps (solveHRRN ps fuel)
    exact (solveHRRN_chartFacts ps hv hids fuel).1
  · show GanttOK ps (solveMLQ ps timeQuantum fuel)
    exact (solveMLQ_chart ps timeQuantum hq hv hids fuel).1
  · show GanttOK ps (solveMLFQ ps timeQuantum fuel)
    exact (solveMLFQ_chart ps timeQuantum hq hv hids fuel).1

/-- C2 witness at a concrete algorithm, input, quantum and fuel. -/
theorem c2_gantt_ok_witness :
    "Multilevel Queue" ∈ ALGORITHMS ∧ ValidInput fcfsExampleInput ∧
    (1 : ℤ) ≤ 2 ∧
    GanttOK fcfsExampleInput (solve "Multilevel Queue" fcfsExampleInput 2 100) :=
  ⟨by decide,
    ⟨by decide, by intro p hp; fin_cases hp <;> exact ⟨by decide, by decide, by decide⟩,
      by decide⟩,
    by decide,
    c2_gantt_ok "Multilevel Queue" (by decide) fcfsExampleInput 2 100
      ⟨by decide, by intro p hp; fin_cases hp <;> exact ⟨by decide, by decide, by decide⟩,
        by decide⟩
      (by decide)⟩

/-! ## C3: termination -/

/-- C3 (amended with the quantum precondition): for every algorithm, every
process list with all bursts ≥ 1 and every quantum ≥ 1, `solve` returns an
output whenever the fuel covers the uniform bound
`fuelBound ps = |ps| + Σ burst + maxArrival + 1` — the simulation is bounded
by the sum of burst times together with the idle-time advance to arrivals. -/
theorem c3_termination (name : String) (hname : name ∈ ALGORITHMS)
    (ps : List Process) (timeQuantum : ℤ) (fuel : ℕ)
    (hv : ∀ p ∈ ps, 1 ≤ p.burstTime) (hq : 1 ≤ timeQuantum)
    (hfuel : fuelBound ps ≤ fuel) :
    (solve name ps timeQuantum fuel).isSome := by
  fin_cases hname
  · show (some (solveFCFS ps)).isSome
    rfl
  · show (solveSJF ps fuel).isSome
    exact solveSJF_isSome ps hv fuel hfuel
  · show (solveSRTF ps fuel).isSome
    exact solveSRTF_isSome ps hv fuel hfuel
  · show (solvePriorityNP ps fuel).isSome
    exact solvePriorityNP_isSome ps hv fuel hfuel
  · show (solvePriorityP ps fuel).isSome
    exact solvePriorityP_isSome ps hv fuel hfuel
  · show (solveRR ps timeQuantum fuel).isSome
    exact solveRR_isSome ps timeQuantum hq hv fuel hfuel
  · show (solveLJF ps fuel).isSome
    exact solveLJF_isSome ps hv fuel hfuel
  · show (solveLRTF ps fuel).isSome
    exact solveLRTF_isSome ps hv fuel hfuel
  · show (solveHRRN ps fuel).isSome
    exact solveHRRN_isSome ps hv fuel hfuel
  · show (solveMLQ ps timeQuantum fuel).isSome
    exact solveMLQ_isSome ps timeQuantum hq hv fuel hfuel
  · show (solveMLFQ ps timeQuantum fuel).isSome
    exact solveMLFQ_isSome ps timeQuantum hq hv fuel hfuel

/-- C3 witness at a concrete algorithm, input, quantum and fuel. -/
theorem c3_termination_witness :
    "Multilevel Feedback Queue (MLFQ)" ∈ ALGORITHMS ∧
    (∀ p ∈ fcfsExampleInput, 1 ≤ p.burstTime) ∧ (1 : ℤ) ≤ 2 ∧
    fuelBound fcfsExampleInput ≤ 100 ∧
    (solve "Multilevel Feedback Queue (MLFQ)" fcfsExampleInput 2 100).isSome :=
  ⟨by decide, by decide, by decide, by decide,
    c3_termination "Multilevel Feedback Queue (MLFQ)" (by decide)
      fcfsExampleInput 2 100 (by decide) (by decide) (by decide)⟩

def c3CexInput : List Process :=
  [{ id := "P1", arrivalTime := 0, burstTime := 1, priority := 0 }]

/-- C3 counterexample: with quantum 0 — which the claim does not exclude —
Round Robin executes zero-length slices forever on a one-process list with
burst 1, so `solve` exhausts every amount of fuel: the simulation is not
bounded by the sum of burst times. -/
theorem c3_nontermination_cex :
    (∀ p ∈ c3CexInput, 1 ≤ p.burstTime) ∧
    ∀ fuel : ℕ, solve "Round Robin" c3CexInput 0 fuel = none := by
  refine ⟨by decide, ?_⟩
  intro fuel
  show solveRR c3CexInput 0 fuel = none
  refine loopRun_none
    (fun s => s.queue = [0] ∧ s.remainingTime = [1] ∧ s.visited = [true] ∧
      s.completed = 0) ?_ fuel (rrInit c3CexInput) ⟨rfl, rfl, rfl, rfl⟩
  intro s hs
  obtain ⟨ct, co, rem, res, g, qq, vis⟩ := s
  obtain rfl : qq = [0] := hs.1
  obtain rfl : rem = [1] := hs.2.1
  obtain rfl : vis = [true] := hs.2.2.1
  obtain rfl : co = 0 := hs.2.2.2
  exact ⟨rfl, rfl, rfl, rfl, rfl⟩

/-! ## C6: chart block structure -/

def c6CexInput : List Process :=
  [{ id := "P1", arrivalTime := 0, burstTime := 4, priority := 0 }]

/-- C6 counterexample: Round Robin on a single process `P1(arrival 0,
burst 4)` with quantum 2 emits the chart `[[P1,0,2],[P1,2,4]]` — two
consecutive blocks that name the same process and touch at their boundary are
not merged into one. -/
theorem c6_no_merge_cex :
    ValidInput c6CexInput ∧
    (solve "Round Robin" c6CexInput 2 9).map SchedulerOutput.ganttChart =
      some [{ processId := "P1", startTime := 0, endTime := 2 },
            { processId := "P1", startTime := 2, endTime := 4 }] ∧
    ¬ NoConsecDup (solve "Round Robin" c6CexInput 2 9) := by
  refine ⟨⟨by decide, ?_, by decide⟩, by decide, ?_⟩
  · intro p hp
    fin_cases hp
    exact ⟨by decide, by decide, by decide⟩
  · intro hno
    obtain ⟨out, hout⟩ : ∃ out, solve "Round Robin" c6CexInput 2 9 = some out :=
      ⟨_, rfl⟩
    have h2 : (solve "Round Robin" c6CexInput 2 9).map SchedulerOutput.ganttChart =
        some out.ganttChart := by
      rw [hout]
      rfl
    have h3 : (solve "Round Robin" c6CexInput 2 9).map SchedulerOutput.ganttChart =
        some [{ processId := "P1", startTime := 0, endTime := 2 },
              { processId := "P1", startTime := 2, endTime := 4 }] := by decide
    rw [h3] at h2
    injection h2 with h4
    have hc := hno out (by rw [hout]; rfl)
    rw [← h4] at hc
    rw [List.chain'_cons] at hc
    exact hc.1 rfl

/-- C6 (amended): for every algorithm and every valid input (quantum ≥ 1),
idle periods are never materialized — every chart block names an input
process — and for the eight policies outside the three queue-based ones
(Round Robin, Multilevel Queue, MLFQ) no two consecutive blocks name the same
process; the queue-based policies do emit consecutive touching blocks for the
same process without merging them. -/
theorem c6_chart_blocks (name : String) (hname : name ∈ ALGORITHMS)
    (ps : List Process) (timeQuantum : ℤ) (fuel : ℕ)
    (hvalid : ValidInput ps) (hq : 1 ≤ timeQuantum) :
    ChartIdsOK ps (solve name ps timeQuantum fuel) ∧
      (name ∉ (["Round Robin", "Multilevel Queue",
          "Multilevel Feedback Queue (MLFQ)"] : List String) →
        NoConsecDup (solve name ps timeQuantum fuel)) := by
  obtain ⟨hne, hall, hids⟩ := hvalid
  have hv : ∀ p ∈ ps, 1 ≤ p.burstTime := fun p hp => (hall p hp).1
  have harr : ∀ p ∈ ps, 0 ≤ p.arrivalTime := fun p hp => (hall p hp).2.1
  have hidne : ∀ p ∈ ps, p.id ≠ "" := fun p hp => (hall p hp).2.2
  fin_cases hname
  · refine ⟨?_, fun _ => ?_⟩
    · show ChartIdsOK ps (some (solveFCFS ps))
      intro out hout
      rw [Option.mem_def] at hout
      injection hout with h
      rw [← h]
      exact solveFCFS_idsOK ps
    · show NoConsecDup (some (solveFCFS ps))
      intro out hout
      rw [Option.mem_def] at hout
      injection hout with h
      rw [← h]
      exact solveFCFS_noConsecDup ps hids
  · exact ⟨(solveSJF_chartFacts ps hv hids fuel).2.1,
      fun _ => (solveSJF_chartFacts ps hv hids fuel).2.2⟩
  · exact ⟨(solveSRTF_chartFacts ps hv hids hidne fuel).2.1,
      fun _ => (solveSRTF_chartFacts ps hv hids hidne fuel).2.2⟩
  · exact ⟨(solvePriorityNP_chartFacts ps hv hids fuel).2.1,
      fun _ => (solvePriorityNP_chartFacts ps hv hids fuel).2.2⟩
  · exact ⟨(solvePriorityP_chartFacts ps hv hids hidne fuel).2.1,
      fun _ => (solvePriorityP_chartFacts ps hv hids hidne fuel).2.2⟩
  · exact ⟨(solveRR_chart ps timeQuantum hq hv harr hids fuel).2,
      fun hmem => absurd (by decide) hmem⟩
  · exact ⟨(solveLJF_chartFacts ps hv hids fuel).2.1,
      fun _ => (solveLJF_chartFacts ps hv hids fuel).2.2⟩
  · exact ⟨(solveLRTF_chartFacts ps hv hids hidne fuel).2.1,
      fun _ => (solveLRTF_chartFacts ps hv hids hidne fuel).2.2⟩
  · exact ⟨(solveHRRN_chartFacts ps hv hids fuel).2.1,
      fun _ => (solveHRRN_chartFacts ps hv hids fuel).2.2⟩
  · exact ⟨(solveMLQ_chart ps timeQuantum hq hv hids fuel).2,
      fun hmem => absurd (by decide) hmem⟩
  · exact ⟨(solveMLFQ_chart ps timeQuantum hq hv hids fuel).2,
      fun hmem => absurd (by decide) hmem⟩

/-- C6 witness at a concrete algorithm, input, quantum and fuel. -/
theorem c6_chart_blocks_witness :
    "SRTF (Preemptive)" ∈ ALGORITHMS ∧ ValidInput fcfsExampleInput ∧
    (1 : ℤ) ≤ 2 ∧
    (ChartIdsOK fcfsExampleInput
        (solve "SRTF (Preemptive)" fcfsExampleInput 2 100) ∧
      ("SRTF (Preemptive)" ∉ (["Round Robin", "Multilevel Queue",
          "Multilevel Feedback Queue (MLFQ)"] : List String) →
        NoConsecDup (solve "SRTF (Preemptive)" fcfsExampleInput 2 100))) :=
  ⟨by decide,
    ⟨by decide, by intro p hp; fin_cases hp <;> exact ⟨by decide, by decide, by decide⟩,
      by decide⟩,
    by decide,
    c6_chart_blocks "SRTF (Preemptive)" (by decide) fcfsExampleInput 2 100
      ⟨by decide, by intro p hp; fin_cases hp <;> exact ⟨by decide, by decide, by decide⟩,
        by decide⟩
      (by decide)⟩

/-! ## C8: short processes complete in their first Queue-0 slice -/

/-- C8: in MLFQ, for every input with bursts ≥ 1 and pairwise-distinct ids
(the spec's input contract) and quantum ≥ 1, a process with
`burstTime ≤ quantum` is never demoted — its index never appears in Queue 1
or Queue 2 along the whole iterated execution — and every MLFQ output charts
it as exactly one block whose length is its full burst: it finishes in the
single Queue-0 slice in which it is first dispatched. -/
theorem c8_mlfq_q0_completion (ps : List Process) (q : ℤ) (hq1 : 1 ≤ q)
    (hv : ∀ p ∈ ps, 1 ≤ p.burstTime) (hids : (ps.map Process.id).Nodup)
    (i : ℕ) (p : Process) (hp : ps[i]? = some p) (hle : p.burstTime ≤ q) :
    (∀ k : ℕ, i ∉ ((mlfqStep ps q)^[k] (mlfqInit ps)).q1 ∧
      i ∉ ((mlfqStep ps q)^[k] (mlfqInit ps)).q2) ∧
    ∀ fuel : ℕ,
      ∀ out ∈ solve "Multilevel Feedback Queue (MLFQ)" ps q fuel,
        ∃ b, out.ganttChart.filter (fun b => decide (b.processId = p.id)) = [b] ∧
          b.endTime - b.startTime = p.burstTime :=
  ⟨fun k => mlfq_no_demote ps q hq1 hv k i p hp hle,
    fun fuel out hout =>
      solveMLFQ_single ps q hq1 hv hids fuel out hout i p hp hle⟩

def c8Proc : Process :=
  { id := "P1", arrivalTime := 0, burstTime := 2, priority := 0 }

def c8Input : List Process :=
  [c8Proc, { id := "P2", arrivalTime := 1, burstTime := 5, priority := 0 }]

/-- C8 witness at a concrete input and quantum. -/
theorem c8_mlfq_q0_completion_witness :
    (∀ k : ℕ, 0 ∉ ((mlfqStep c8Input 3)^[k] (mlfqInit c8Input)).q1 ∧
      0 ∉ ((mlfqStep c8Input 3)^[k] (mlfqInit c8Input)).q2) ∧
    ∀ fuel : ℕ,
      ∀ out ∈ solve "Multilevel Feedback Queue (MLFQ)" c8Input 3 fuel,
        ∃ b, out.ganttChart.filter
            (fun b => decide (b.processId = c8Proc.id)) = [b] ∧
          b.endTime - b.startTime = c8Proc.burstTime :=
  c8_mlfq_q0_completion c8Input 3 (by decide) (by decide) (by decide) 0 c8Proc
    (by decide) (by decide)

end Scheduler
